import Mathlib

/-!
# Skyline k-core communities: a shallow embedding

Lean model of the C++ sources under `application/` (graph preprocessing,
k-core maintenance, the cousins-first enumerator, dominance tests and the
sequential and parallel skyline drivers), followed by theorems about it.

Conventions of the embedding
* `std::vector<int>` of vertex ids, positions and flags is `List Nat`;
  coordinates (`coordinate_t`) are `Int`; counters the source keeps in a
  signed `int` and subtracts from are `Int`.
* `v[i]` is `List.getD` with the value-initialised default (`0`, `[]`);
  the source never reads out of bounds on well-formed graphs (every
  neighbour id is smaller than the number of vertices).
* `while` loops over queues take a fuel argument; the callers pass a fuel
  that bounds the number of iterations.
* `std::sort` is modelled by insertion sort with the source comparator.
* The sort key `sum` of `GetIndicesSortedByPartition` is a 32-bit `int`: the
  additions of `std::accumulate` are reduced by `wrapInt32`. Statements that need
  the exact coordinate sum assume `NoSumOverflow`.
-/

set_option autoImplicit false

/-! ## graph.hpp / graph-structural-operations.hpp -/

abbrev vertex_list_t := List Nat
abbrev adjacency_list_t := List (List Nat)
abbrev group_t := List Nat
abbrev group_list_t := List (List Nat)
abbrev vertex_label_t := List Int
abbrev label_list_t := List (List Int)

/-- The neighbour list `edges[v]`. -/
def adj (edges : adjacency_list_t) (v : Nat) : List Nat := edges.getD v []

/-- The loop of `std::set_intersection` over two ranges: advance the side
with the smaller head, emit and advance both on equal heads. The fuel is
the number of loop iterations still allowed. -/
def set_intersection : Nat → List Nat → List Nat → List Nat
  | 0, _, _ => []
  | _ + 1, [], _ => []
  | _ + 1, _ :: _, [] => []
  | fuel + 1, a :: as, b :: bs =>
    if a < b then set_intersection fuel as (b :: bs)
    else if b < a then set_intersection fuel (a :: as) bs
    else a :: set_intersection fuel as bs

/-- The function `GetIntersection( first1, last1, first2, last2 )`. -/
def GetIntersection (group1 group2 : List Nat) : List Nat :=
  set_intersection (group1.length + group2.length) group1 group2

/-- The function `GetDegree`. -/
def GetDegree (edges : adjacency_list_t) (vertex : Nat) : Nat := (adj edges vertex).length

/-- The function `RemoveVertex`: pop the last entry of every neighbour's list,
then clear the list of the removed vertex. -/
def RemoveVertex (edges : adjacency_list_t) (vertex_to_remove : Nat) : adjacency_list_t :=
  ((adj edges vertex_to_remove).foldl
      (fun es neighbour => es.set neighbour (adj es neighbour).dropLast) edges).set
    vertex_to_remove []

/-- The function `IsKCore`: every member has at least `k` neighbours in the subset. -/
def IsKCore (vertex_subset : List Nat) (edges : adjacency_list_t) (k : Nat) : Bool :=
  vertex_subset.all fun nodeID =>
    !decide ((GetIntersection (adj edges nodeID).reverse vertex_subset).length < k)

/-! ### Bin sort and maximum k-core maintenance -/

/-- The three arrays of the bin sort and the active flags, which
`ShrinkToMaxKCoreVertices` and `RemoveNode` update in place. -/
structure BinSort where
  sortedIndices : List Nat
  nodePosition : List Nat
  binBoundaries : List Nat
  active_vertices : List Nat
deriving DecidableEq, Repr

/-- The function `BinSortByDegree` (without the active flags: the callers create
them), for a graph with at least one vertex. -/
def BinSortByDegree (edges : adjacency_list_t) : List Nat × List Nat × List Nat :=
  let n := edges.length
  let degrees := edges.map List.length
  let maxDegree := degrees.foldl max 0
  let bins : List (List Nat) :=
    (List.range n).foldl (fun bins i => bins.set (degrees.getD i 0) (bins.getD (degrees.getD i 0) [] ++ [i]))
      (List.replicate n [])
  let fill := (List.range (maxDegree + 1)).foldl
    (fun (acc : List Nat × List Nat × List Nat × Nat) i =>
      let (sortedIndices, nodePosition, binBoundaries, index) := acc
      let binBoundaries := binBoundaries.set i index
      (bins.getD i []).foldl
        (fun (acc : List Nat × List Nat × List Nat × Nat) node =>
          let (sortedIndices, nodePosition, binBoundaries, index) := acc
          (sortedIndices.set index node, nodePosition.set node index, binBoundaries, index + 1))
        (sortedIndices, nodePosition, binBoundaries, index))
    (List.replicate n 0, List.replicate n 0, List.replicate (maxDegree + 1) 0, 0)
  (fill.1, fill.2.1, fill.2.2.1)

/-- The index `std::upper_bound( first, last, value ) - first` on a
non-decreasing list: the position of the first element greater than `value`. -/
def upper_bound : List Nat → Nat → Nat
  | [], _ => 0
  | b :: bs, value => if value < b then 0 else upper_bound bs value + 1

/-- One iteration of the loop of `RemoveNode` for neighbour `e`; returns the
updated arrays, the removal queue and the incremented counter. -/
def RemoveNodeStep (k : Nat) (st : BinSort) (remove : List Nat) (count : Nat) (e : Nat) :
    BinSort × List Nat × Nat :=
  if st.active_vertices.getD e 0 ≠ 0 then
    let ePos := st.nodePosition.getD e 0
    let binNumber := upper_bound st.binBoundaries ePos - 1
    let binFirstIndex := st.binBoundaries.getD binNumber 0
    let binFirstNode := st.sortedIndices.getD binFirstIndex 0
    let st1 : BinSort :=
      if e ≠ binFirstNode then
        let nodePosition := (st.nodePosition.set e binFirstIndex).set binFirstNode ePos
        let sortedIndices := (st.sortedIndices.set ePos binFirstNode).set binFirstIndex e
        { st with nodePosition := nodePosition, sortedIndices := sortedIndices }
      else st
    let st2 := { st1 with binBoundaries := st1.binBoundaries.set binNumber (binFirstIndex + 1) }
    let remove := if (binNumber : Int) - 1 < (k : Int) then remove ++ [e] else remove
    (st2, remove, count + 1)
  else (st, remove, count)

/-- The function `RemoveNode`: returns the updated arrays, the removal queue and
the number of active neighbours whose degree was decremented. -/
def RemoveNode (k u : Nat) (edges : adjacency_list_t) (st : BinSort) (remove : List Nat) :
    BinSort × List Nat × Nat :=
  (adj edges u).reverse.foldl
    (fun (acc : BinSort × List Nat × Nat) e => RemoveNodeStep k acc.1 acc.2.1 acc.2.2 e)
    (st, remove, 0)

/-- The draining loop of `ShrinkToMaxKCoreVertices`. -/
def ShrinkLoop (k : Nat) (edges : adjacency_list_t) :
    Nat → BinSort → List Nat → Nat → Nat → BinSort × Nat × Nat
  | 0, st, _, removedNodesCount, removedEdgesCount => (st, removedNodesCount, removedEdgesCount)
  | _ + 1, st, [], removedNodesCount, removedEdgesCount => (st, removedNodesCount, removedEdgesCount)
  | fuel + 1, st, v :: vertices_to_remove, removedNodesCount, removedEdgesCount =>
    if st.active_vertices.getD v 0 ≠ 0 then
      let st1 := { st with active_vertices := st.active_vertices.set v 0 }
      let r := RemoveNode k v edges st1 vertices_to_remove
      ShrinkLoop k edges fuel r.1 r.2.1 (removedNodesCount + 1) (removedEdgesCount + r.2.2)
    else ShrinkLoop k edges fuel st vertices_to_remove removedNodesCount removedEdgesCount

/-- Number of adjacency entries of the graph; every queue loop over the graph
pushes at most this many elements. -/
def totalDegree (edges : adjacency_list_t) : Nat := (edges.map List.length).sum

/-- The function `ShrinkToMaxKCoreVertices`: returns the updated arrays and the
pair (removed vertices, removed edges). -/
def ShrinkToMaxKCoreVertices (k : Nat) (initial_vertex_to_remove : Option Nat)
    (edges : adjacency_list_t) (st : BinSort) : BinSort × Nat × Nat :=
  match initial_vertex_to_remove with
  | some v => ShrinkLoop k edges (totalDegree edges + 2) st [v] 0 0
  | none =>
    if k + 1 ≤ st.binBoundaries.length then
      let vertices_to_remove := (List.range (st.binBoundaries.getD k 0)).map
        fun i => st.sortedIndices.getD i 0
      ShrinkLoop k edges (vertices_to_remove.length + totalDegree edges + 1) st vertices_to_remove 0 0
    else
      ({ st with active_vertices := st.active_vertices.map fun _ => 0 }, edges.length, 0)

/-- The traversal loop of `GetKHopNeighbourhood`; `visited` is indexed by
`v - u`, the queue holds (vertex, hops) pairs. -/
def KHopLoop (u : Nat) (edges : adjacency_list_t) (active_vertices : List Nat) (k remaining : Nat) :
    Nat → List (Nat × Nat) → List Bool → Nat → List Bool
  | 0, _, visited, _ => visited
  | _ + 1, [], visited, _ => visited
  | fuel + 1, (v, hops) :: q, visited, num_visited =>
    if num_visited < remaining then
      if !visited.getD (v - u) false then
        let visited := visited.set (v - u) true
        let q :=
          if hops < k then
            (adj edges v).foldl
              (fun q neighbour =>
                if active_vertices.getD neighbour 0 ≠ 0 then
                  if u < neighbour ∧ !visited.getD (neighbour - u) false then
                    q ++ [(neighbour, hops + 1)]
                  else q
                else q) q
          else q
        KHopLoop u edges active_vertices k remaining fuel q visited (num_visited + 1)
      else KHopLoop u edges active_vertices k remaining fuel q visited num_visited
    else visited

/-- The function `GetKHopNeighbourhood`; `num_hops = none` means no bound on the hops. -/
def GetKHopNeighbourhood (u : Nat) (edges : adjacency_list_t) (active_vertices : List Nat)
    (num_hops : Option Nat) : List Nat :=
  let remaining := edges.length - u
  let k := num_hops.getD remaining
  let visited := KHopLoop u edges active_vertices k remaining (totalDegree edges + 1)
    [(u, 0)] (List.replicate remaining false) 0
  ((List.range remaining).map (u + ·)).filter fun i => visited.getD (i - u) false

/-! ## listing-cousins-first.cpp -/

/-- The struct `GroupInfo` passed between the recursive calls of the enumerator. -/
structure GroupInfo where
  group : List Nat
  missedConnectionsCount : List Int
  tailset : List Nat
deriving DecidableEq, Repr

/-- The `for` loop of `GetNewGroupInfo` over the original group. The arguments
are the members `original_group[groupIndex ..]`, their counters
`missedConnectionsCount[groupIndex ..]`, the neighbours `neighbors[neighborsIndex ..]`
and the tailset. Returns the updated counters and tailset, and `true` when the
loop left the function through the early `return` (the tailset is then cleared). -/
def GetNewGroupInfoLoop (edges : adjacency_list_t) (maxMissedConnections : Int)
    (groupSize original_group_size : Nat) :
    List Nat → List Int → List Nat → List Nat → List Int × List Nat × Bool
  | [], missed, _, tailset => (missed, tailset, false)
  | member :: group, missed, neighbors, tailset =>
    if neighbors.head? = some member then
      let r := GetNewGroupInfoLoop edges maxMissedConnections groupSize original_group_size
        group missed.tail neighbors.tail tailset
      (missed.headD 0 :: r.1, r.2.1, r.2.2)
    else
      let count := missed.headD 0 + 1
      if count = maxMissedConnections then
        let tailset := GetIntersection (adj edges member).reverse tailset
        if tailset.length + original_group_size + 1 < groupSize then
          (count :: missed.tail, [], true)
        else
          let r := GetNewGroupInfoLoop edges maxMissedConnections groupSize original_group_size
            group missed.tail neighbors tailset
          (count :: r.1, r.2.1, r.2.2)
      else
        let r := GetNewGroupInfoLoop edges maxMissedConnections groupSize original_group_size
          group missed.tail neighbors tailset
        (count :: r.1, r.2.1, r.2.2)

/-- The factory function `GetNewGroupInfo`; `tail` is the range `[start, end)`. -/
def GetNewGroupInfo (original_group : List Nat) (missedConnectionsCount : List Int)
    (tail : List Nat) (neighbors : List Nat) (edges : adjacency_list_t) (newNode : Nat)
    (maxMissedConnections : Int) (groupSize : Nat) : GroupInfo :=
  let r := GetNewGroupInfoLoop edges maxMissedConnections groupSize original_group.length
    original_group missedConnectionsCount neighbors tail
  if r.2.2 then
    { group := original_group, missedConnectionsCount := r.1, tailset := [] }
  else
    let notConnected : Int := (original_group.length : Int) - (neighbors.length : Int)
    { group := original_group ++ [newNode]
      missedConnectionsCount := r.1 ++ [notConnected]
      tailset :=
        if notConnected = maxMissedConnections then
          GetIntersection (adj edges newNode).reverse r.2.1
        else r.2.1 }

/-- A loop over the positions of a list that hands the body the element at the
position and the range after it (`it + 1 .. end`), concatenating what the
body appends to the output. -/
def forEachWithRest {β : Type} (body : Nat → List Nat → List β) : List Nat → List β
  | [] => []
  | x :: rest => body x rest ++ forEachWithRest body rest

/-- The function `ListKCoresRecursive`; the result is what the call appends to
`candidates`. The fuel bounds the recursion depth. -/
def ListKCoresRecursive (edges : adjacency_list_t) (groupSize coreSize : Nat) :
    Nat → GroupInfo → group_list_t
  | 0, _ => []
  | fuel + 1, gInfo =>
    let maxMissedConnections : Int := (groupSize : Int) - (coreSize : Int) - 1
    forEachWithRest
      (fun newNode rest =>
        let neighbours := GetIntersection (adj edges newNode).reverse gInfo.group
        let num_nodes_not_in_intersection : Int :=
          (gInfo.group.length : Int) - (neighbours.length : Int)
        if num_nodes_not_in_intersection ≤ maxMissedConnections then
          if gInfo.group.length + 1 = groupSize then
            [gInfo.group ++ [newNode]]
          else
            ListKCoresRecursive edges groupSize coreSize fuel
              (GetNewGroupInfo gInfo.group gInfo.missedConnectionsCount rest neighbours edges
                newNode maxMissedConnections groupSize)
        else [])
      gInfo.tailset

/-- The function `ListKCoresWithPrefix`. Every recursive call receives a
tailset shorter than its caller's, so the depth is at most the length of the
initial tailset. -/
def ListKCoresWithPrefix (nodes : List Nat) (edges : adjacency_list_t) (groupSize coreSize : Nat) :
    group_list_t :=
  if groupSize ≤ nodes.length then
    let prefix_node := nodes.getD 0 0
    let tailset := if groupSize = coreSize + 1 then (adj edges prefix_node).reverse else nodes.drop 1
    ListKCoresRecursive edges groupSize coreSize (tailset.length + 1)
      { group := [prefix_node], missedConnectionsCount := [0], tailset := tailset }
  else []

/-- The local state of the loop of `ListAllKCores`. -/
structure ListAllState where
  edges : adjacency_list_t
  st : BinSort
  kcores : group_list_t
deriving DecidableEq, Repr

/-- The groups that the iteration of `ListAllKCores` for `vertex` appends to `kcores`. -/
def ListAllKCoresEmit (groupSize coreSize : Nat) (s : ListAllState) (vertex : Nat) : group_list_t :=
  if s.st.active_vertices.getD vertex 0 = 1 then
    let nodes := GetKHopNeighbourhood vertex s.edges s.st.active_vertices (some 2)
    if groupSize ≤ nodes.length then ListKCoresWithPrefix nodes s.edges groupSize coreSize else []
  else []

/-- The body of the loop of `ListAllKCores`. -/
def ListAllKCoresBody (groupSize coreSize : Nat) (s : ListAllState) (vertex : Nat) : ListAllState :=
  let kcores := s.kcores ++ ListAllKCoresEmit groupSize coreSize s vertex
  let st :=
    if s.st.active_vertices.getD vertex 0 = 1 then
      (ShrinkToMaxKCoreVertices coreSize (some vertex) s.edges s.st).1
    else s.st
  { edges := RemoveVertex s.edges vertex, st := st, kcores := kcores }

/-- The state of `ListAllKCores` when its loop starts. -/
def ListAllKCoresInit (edges : adjacency_list_t) (coreSize : Nat) : ListAllState :=
  let b := BinSortByDegree edges
  let st : BinSort :=
    { sortedIndices := b.1, nodePosition := b.2.1, binBoundaries := b.2.2
      active_vertices := List.replicate edges.length 1 }
  { edges := edges, st := (ShrinkToMaxKCoreVertices coreSize none edges st).1, kcores := [] }

/-- The function `ListAllKCores`. The loop bound `num_vertices - groupSize` is
computed in `size_t`; with fewer vertices than `groupSize` it wraps around and
the loop reads `in_max_kcore` out of bounds, which is the result `none`. -/
def ListAllKCores (edges : adjacency_list_t) (groupSize coreSize : Nat) : Option group_list_t :=
  if edges.length < groupSize then none
  else
    some ((List.range (edges.length - groupSize)).foldl (ListAllKCoresBody groupSize coreSize)
      (ListAllKCoresInit edges coreSize)).kcores

/-! ## dominance-tests.hpp -/

/-- The enum `DominanceTestResult`. -/
inductive DominanceTestResult where
  | dominates
  | incomparable
  | equal
deriving DecidableEq, Repr

/-- The `for` loop of `PointDominanceTest` with its two counters; `none` is the
early `return DominanceTestResult::incomparable`. -/
def PointDominanceLoop : List Int → List Int → Nat → Nat → Option (Nat × Nat)
  | [], _, num_dimensions_equal, num_dimensions_better_or_equal =>
    some (num_dimensions_equal, num_dimensions_better_or_equal)
  | a :: first1, second, num_dimensions_equal, num_dimensions_better_or_equal =>
    let b := second.headD 0
    let num_dimensions_equal := if a = b then num_dimensions_equal + 1 else num_dimensions_equal
    if a ≤ b then
      PointDominanceLoop first1 second.tail num_dimensions_equal (num_dimensions_better_or_equal + 1)
    else none

/-- The function `PointDominanceTest( first1, last1, first2 )` on the two
coordinate ranges; the number of dimensions is that of the first point. -/
def PointDominanceTest (point1 point2 : List Int) : DominanceTestResult :=
  match PointDominanceLoop point1 point2 0 0 with
  | none => DominanceTestResult.incomparable
  | some (num_dimensions_equal, num_dimensions_better_or_equal) =>
    if num_dimensions_equal = point1.length then DominanceTestResult.equal
    else if num_dimensions_better_or_equal = point1.length then DominanceTestResult.dominates
    else DominanceTestResult.incomparable

/-- The label `labels[v]`. -/
def labelOf (labels : label_list_t) (v : Nat) : List Int := labels.getD v []

/-- The inner loop of `GroupDominanceTest` over the members of group 1, for one
member of group 2 with label `label2`: `none` when the loop ends with
`isDominatedOrEqual = false`, else the updated marks and whether the match
was a domination. -/
def GroupDominanceInner (labels : label_list_t) (label2 : List Int) :
    List Nat → Nat → List Bool → Option (List Bool × Bool)
  | [], _, _ => none
  | curr1 :: rest, index, equal_to_point_in_group2 =>
    if !equal_to_point_in_group2.getD index false then
      match PointDominanceTest (labelOf labels curr1) label2 with
      | DominanceTestResult.equal => some (equal_to_point_in_group2.set index true, false)
      | DominanceTestResult.dominates => some (equal_to_point_in_group2, true)
      | DominanceTestResult.incomparable =>
        GroupDominanceInner labels label2 rest (index + 1) equal_to_point_in_group2
    else GroupDominanceInner labels label2 rest (index + 1) equal_to_point_in_group2

/-- The outer loop of `GroupDominanceTest` over the members of group 2. -/
def GroupDominanceLoop (labels : label_list_t) (group1 : List Nat) :
    List Nat → List Bool → Bool → Bool
  | [], _, groups_not_equal => groups_not_equal
  | first2 :: rest, equal_to_point_in_group2, groups_not_equal =>
    match GroupDominanceInner labels (labelOf labels first2) group1 0 equal_to_point_in_group2 with
    | none => false
    | some (marks, dominated) =>
      GroupDominanceLoop labels group1 rest marks (groups_not_equal || dominated)

/-- The function `GroupDominanceTest( first1, last1, first2, last2, labels )`. -/
def GroupDominanceTest (group1 group2 : List Nat) (labels : label_list_t) : Bool :=
  GroupDominanceLoop labels group1 group2 (List.replicate group1.length false) false

/-- The function `IsDominatedBySkyline`. -/
def IsDominatedBySkyline (group_to_test : List Nat) (skyline : group_list_t)
    (coordinates : label_list_t) : Bool :=
  skyline.any fun skylineGroup => GroupDominanceTest skylineGroup group_to_test coordinates

/-- The function `IsDominatedByCandidates`. -/
def IsDominatedByCandidates (index : Nat) (candidates : group_list_t) (bIsSkyline : List Bool)
    (coordinates : label_list_t) : Bool :=
  (List.range index).any fun i =>
    bIsSkyline.getD i false &&
      GroupDominanceTest (candidates.getD i []) (candidates.getD index []) coordinates

/-- The function `CanTerminate`. -/
def CanTerminate (skylineRepresentatives : label_list_t) (layerRepresentative : List Int) : Bool :=
  skylineRepresentatives.any fun skyRep =>
    decide (PointDominanceTest skyRep layerRepresentative = DominanceTestResult.dominates)

/-! ## postprocessing.hpp -/

/-- The `while` loop of `postprocess` for the group `curr` over the groups after
it: the final value of `isSkyline`. -/
def postprocessIsSkyline (labels : label_list_t) (curr : List Nat) : group_list_t → Bool
  | [] => true
  | next :: rest =>
    if PointDominanceTest (labelOf labels (next.getD 0 0)) (labelOf labels (curr.getD 0 0))
        ≠ DominanceTestResult.equal then true
    else if GroupDominanceTest next curr labels then false
    else postprocessIsSkyline labels curr rest

/-- The function `postprocess` followed by the `erase` of its callers: the
groups that are copied to the front of the range. -/
def postprocess (labels : label_list_t) : group_list_t → group_list_t
  | [] => []
  | curr :: rest =>
    if postprocessIsSkyline labels curr rest then curr :: postprocess labels rest
    else postprocess labels rest

/-! ## group-skyline-concepts.cpp -/

/-- The function `calculateRepresentative`. -/
def calculateRepresentative (group : List Nat) (labels : label_list_t) (init : Int)
    (f : Int → Int → Int) : List Int :=
  group.foldl (fun representative vertex => List.zipWith f representative (labelOf labels vertex))
    (List.replicate (labelOf labels 0).length init)

/-- The function `GetBestVirtualPoint`; the initial value is `INT_MAX`. -/
def GetBestVirtualPoint (group : List Nat) (labels : label_list_t) : List Int :=
  calculateRepresentative group labels 2147483647 min

/-- The function `GetWorstVirtualPoint`; the initial value is `INT_MIN`. -/
def GetWorstVirtualPoint (group : List Nat) (labels : label_list_t) : List Int :=
  calculateRepresentative group labels (-2147483648) max

/-! ## spatial.hpp / spatial.cpp -/

/-- The struct `Point`. -/
structure Point where
  id : Nat
  mask : Nat
  label : List Int
deriving DecidableEq, Repr

/-- The comparison `operator <` of `spatial.hpp` on vertex labels. On labels
of equal dimension it is the lexicographic comparison, which is also what
`std::vector` defines (`labelLt_iff_lex`). -/
def labelLt : List Int → List Int → Bool
  | [], _ => false
  | l :: left, right =>
    let r := right.headD 0
    if r < l then false else if l < r then true else labelLt left right.tail

/-- The function `DeterminePartition`: bit `d` is set iff `point[d] > pivot[d]`;
the mask is a 32-bit unsigned integer. -/
def DeterminePartition (point pivot : List Int) : Nat :=
  (List.range point.length).foldl
    (fun partition d =>
      if pivot.getD d 0 < point.getD d 0 then (partition ||| (1 <<< d)) % 2 ^ 32 else partition)
    0

/-- The function `GetPivot`: the coordinate at sorted position `n / 2` in every dimension. -/
def GetPivot (labels : label_list_t) : List Int :=
  let n := labels.length
  (List.range (labelOf labels 0).length).map fun d =>
    ((labels.map fun point => point.getD d 0).insertionSort (· ≤ ·)).getD (n / 2) 0

/-- The function `PartitionData`. -/
def PartitionData (points : label_list_t) : List Nat :=
  let pivot := GetPivot points
  points.map fun point => DeterminePartition point pivot

/-- The value of a 32-bit `int` holding `x`: the representative of `x` modulo
`2 ^ 32` in the range `-2 ^ 31 .. 2 ^ 31 - 1`. -/
def wrapInt32 (x : Int) : Int := (x + 2147483648) % 4294967296 - 2147483648

/-- The function `std::accumulate` over `coordinate_t = int` values with an `int`
start value: every addition is carried out in a 32-bit `int` and wraps around. -/
def accumulate (values : List Int) (init : Int) : Int :=
  values.foldl (fun acc x => wrapInt32 (acc + x)) init

/-- The struct `ExtendedPoint` holding the sort keys. -/
structure ExtendedPoint where
  id : Nat
  sum : Int
  mask : Nat
  setBitsCount : Nat
  label : List Int
deriving DecidableEq, Repr

/-- The function `std::popcount` on a 32-bit mask. -/
def popcount (mask : Nat) : Nat := (List.range 32).countP fun d => mask.testBit d

/-- The comparison `operator <` on `ExtendedPoint`. -/
def ExtendedPoint.lt (a b : ExtendedPoint) : Bool :=
  if a.setBitsCount < b.setBitsCount then true
  else if b.setBitsCount < a.setBitsCount then false
  else if a.mask < b.mask then true
  else if b.mask < a.mask then false
  else if a.sum < b.sum then true
  else if b.sum < a.sum then false
  else labelLt a.label b.label

/-- The function `GetIndicesSortedByPartition`. The field `sum` is a 32-bit `int`
filled by `std::accumulate( ..., 0 )`. The sort keeps points with equal keys
(equal labels) in input order; `std::sort` leaves their order open. -/
def GetIndicesSortedByPartition (points : label_list_t) (point_partitions : List Nat) : List Nat :=
  let sort_keys : List ExtendedPoint := (List.range points.length).map fun index =>
    { id := index
      sum := accumulate (labelOf points index) 0
      mask := point_partitions.getD index 0
      setBitsCount := popcount (point_partitions.getD index 0)
      label := labelOf points index }
  (sort_keys.insertionSort fun a b => ExtendedPoint.lt b a = false).map fun point => point.id

/-- The function `ReorderPointsByIndex`. -/
def ReorderPointsByIndex (points : label_list_t) (point_partitions : List Nat)
    (sorted_indexes : List Nat) : List Point :=
  (List.range points.length).map fun index =>
    { id := index
      mask := point_partitions.getD (sorted_indexes.getD index 0) 0
      label := labelOf points (sorted_indexes.getD index 0) }

/-- The function `OrderByPartition`. -/
def OrderByPartition (points : label_list_t) : List Nat × List Point :=
  let point_partitions := PartitionData points
  let sorted_indices := GetIndicesSortedByPartition points point_partitions
  (sorted_indices, ReorderPointsByIndex points point_partitions sorted_indices)

/-! ## sky-layers.cpp -/

/-- The struct `LMInfo`: first and last position and number of the points of
one mask in one layer. -/
structure LMInfo where
  firstPos : Nat
  lastPos : Nat
  size : Nat
deriving DecidableEq, Repr

/-- The function `AreIncomparable` on two masks. -/
def AreIncomparable (mask1 mask2 : Nat) : Bool :=
  (decide (popcount mask2 ≤ popcount mask1) && decide (mask1 ≠ mask2)) ||
    decide ((mask1 &&& mask2) < mask1)

/-- The function `UpdateSkyLayers` on the no-duplicate layers and their mask table. -/
def UpdateSkyLayers (skyLayers : List (List Point)) (lmInfo : List (List LMInfo))
    (newPoint : Point) (maxMask : Nat) (layerNumber : Nat) :
    List (List Point) × List (List LMInfo) :=
  if layerNumber = skyLayers.length then
    let table := (List.replicate (maxMask + 1) (LMInfo.mk 0 0 0)).set newPoint.mask
      (LMInfo.mk 0 0 1)
    (skyLayers ++ [[{ newPoint with mask := 0 }]], lmInfo ++ [table])
  else
    let info := (lmInfo.getD layerNumber []).getD newPoint.mask (LMInfo.mk 0 0 0)
    let layer := skyLayers.getD layerNumber []
    let position := layer.length
    let newInfo : LMInfo :=
      { firstPos := if info.size = 0 then position else info.firstPos
        lastPos := position
        size := info.size + 1 }
    let stored : Point :=
      if info.size = 0 then { newPoint with mask := 0 }
      else
        { newPoint with
          mask := DeterminePartition newPoint.label
            (layer.getD info.firstPos (Point.mk 0 0 [])).label }
    (skyLayers.set layerNumber (layer ++ [stored]),
      lmInfo.set layerNumber ((lmInfo.getD layerNumber []).set newPoint.mask newInfo))

/-- The innermost loop of `GenerateSkyLayers` over the positions `p` of one
mask block; returns (`bIsDominated`, `bIsEqual`). -/
def skyBlockLoop (layer : List Point) (currentPoint : Point) (tmpMask : Nat) :
    List Nat → Bool → Bool → Bool × Bool
  | [], bIsDominated, bIsEqual => (bIsDominated, bIsEqual)
  | p :: rest, bIsDominated, bIsEqual =>
    let comparePoint := layer.getD p (Point.mk 0 0 [])
    if !AreIncomparable comparePoint.mask tmpMask then
      let dt_result := PointDominanceTest comparePoint.label currentPoint.label
      let bIsDominated := decide (dt_result = DominanceTestResult.dominates)
      let bIsEqual := decide (dt_result = DominanceTestResult.equal)
      if bIsDominated || bIsEqual then (bIsDominated, bIsEqual)
      else skyBlockLoop layer currentPoint tmpMask rest bIsDominated bIsEqual
    else skyBlockLoop layer currentPoint tmpMask rest bIsDominated bIsEqual

/-- The loop of `GenerateSkyLayers` over the masks `m` of layer `j`. -/
def skyMaskLoop (layer : List Point) (table : List LMInfo) (currentPoint : Point) (maxMask : Nat) :
    List Nat → Bool → Bool → Bool × Bool
  | [], bIsDominated, bIsEqual => (bIsDominated, bIsEqual)
  | m :: rest, bIsDominated, bIsEqual =>
    let info := table.getD m (LMInfo.mk 0 0 0)
    if info.size = 0 then skyMaskLoop layer table currentPoint maxMask rest bIsDominated bIsEqual
    else if !AreIncomparable m currentPoint.mask then
      let tmpMask := DeterminePartition currentPoint.label
        (layer.getD info.firstPos (Point.mk 0 0 [])).label
      if tmpMask = maxMask then (true, bIsEqual)
      else
        let r := skyBlockLoop layer currentPoint tmpMask
          (List.range' info.firstPos (info.lastPos + 1 - info.firstPos)) false bIsEqual
        if r.1 || r.2 then r
        else skyMaskLoop layer table currentPoint maxMask rest r.1 r.2
    else skyMaskLoop layer table currentPoint maxMask rest bIsDominated bIsEqual

/-- The loop of `GenerateSkyLayers` over the layers `j`; returns the layers,
`layerNumber`, `bIsDominated` and `bIsEqual`. -/
def skyLayerLoop (skyLayers_no_duplicates : List (List Point)) (lmInfo : List (List LMInfo))
    (currentPoint : Point) (maxMask : Nat) :
    List Nat → List (List Point) → Nat → Bool → Bool → List (List Point) × Nat × Bool × Bool
  | [], skyLayers, layerNumber, bIsDominated, bIsEqual =>
    (skyLayers, layerNumber, bIsDominated, bIsEqual)
  | j :: rest, skyLayers, layerNumber, _, bIsEqual =>
    let r := skyMaskLoop (skyLayers_no_duplicates.getD j []) (lmInfo.getD j []) currentPoint maxMask
      (List.range (currentPoint.mask + 1)) false bIsEqual
    if !r.1 || r.2 then
      (skyLayers.set j (skyLayers.getD j [] ++ [currentPoint]), j, r.1, r.2)
    else skyLayerLoop skyLayers_no_duplicates lmInfo currentPoint maxMask rest skyLayers layerNumber
      r.1 r.2

/-- The body of the loop of `GenerateSkyLayers` for one point; the state is
(`skyLayers`, `skyLayers_no_duplicates`, `lmInfo_no_duplicates`). -/
def GenerateSkyLayersStep (maxMask : Nat)
    (s : List (List Point) × List (List Point) × List (List LMInfo)) (currentPoint : Point) :
    List (List Point) × List (List Point) × List (List LMInfo) :=
  let r := skyLayerLoop s.2.1 s.2.2 currentPoint maxMask (List.range s.2.1.length) s.1 0 true false
  let skyLayers := if r.2.2.1 then r.1 ++ [[currentPoint]] else r.1
  let layerNumber := if r.2.2.1 then s.2.1.length else r.2.1
  if !r.2.2.2 then
    let u := UpdateSkyLayers s.2.1 s.2.2 currentPoint maxMask layerNumber
    (skyLayers, u.1, u.2)
  else (skyLayers, s.2.1, s.2.2)

/-- The function `GenerateSkyLayers`; `maxMask = (2 << (D - 1)) - 1` as a
32-bit unsigned integer. -/
def GenerateSkyLayers (points : List Point) : List (List Point) :=
  let dimension := (points.getD 0 (Point.mk 0 0 [])).label.length
  let maxMask := ((2 <<< (dimension - 1)) + 2 ^ 32 - 1) % 2 ^ 32
  (points.foldl (GenerateSkyLayersStep maxMask) ([], [], [])).1

/-! ## graph.cpp -/

/-- The struct `Graph`. -/
structure Graph where
  size : Nat
  labels : label_list_t
  edges : adjacency_list_t
  toOriginal : List Nat
  toRelabelled : List Nat
  skyLayersBoundaries : List Nat
  layerRepresentatives : label_list_t
deriving DecidableEq, Repr

/-- The function `TransformEdgeLists` with `sortInReverse = true`. -/
def TransformEdgeLists (edges : adjacency_list_t) (sortedIndices newIndices : List Nat) :
    adjacency_list_t :=
  (sortedIndices.map fun v => adj edges v).map fun neighbour_list =>
    (neighbour_list.map fun neighbour => newIndices.getD neighbour 0).insertionSort (· ≥ ·)

/-- The function `InvertMapping`. -/
def InvertMapping (mapping : List Nat) : List Nat :=
  (List.range mapping.length).foldl
    (fun reverse_mapping newIndex => reverse_mapping.set (mapping.getD newIndex 0) newIndex)
    (List.replicate mapping.length 0)

/-- The function `ReorderLabels`. -/
def ReorderLabels (labels : label_list_t) (sortedIndices : List Nat) : label_list_t :=
  sortedIndices.map fun index => labelOf labels index

/-- The loop of `UpdateGraph` that fills `skyLayersBoundaries` and
`layerRepresentatives`, given the layer sizes; returns both lists. -/
def layerBoundaries (labels : label_list_t) (layerSizes : List Nat) :
    List Nat × label_list_t :=
  layerSizes.foldl
    (fun (acc : List Nat × label_list_t) size =>
      let start := acc.1.getLastD 0
      let layerNodes := (List.range size).map (start + ·)
      (acc.1 ++ [start + size], acc.2 ++ [GetBestVirtualPoint layerNodes labels]))
    ([0], [])

/-- The function `UpdateGraph` on a graph holding the loaded labels and edges. -/
def UpdateGraph (labels : label_list_t) (edges : adjacency_list_t) : Graph :=
  let ordered := OrderByPartition labels
  let toOriginal := ordered.1
  let newLabels := ReorderLabels labels toOriginal
  let toRelabelled := InvertMapping toOriginal
  let newEdges := TransformEdgeLists edges toOriginal toRelabelled
  let skyLayers := GenerateSkyLayers ordered.2
  let b := layerBoundaries newLabels (skyLayers.map List.length)
  { size := labels.length
    labels := newLabels
    edges := newEdges
    toOriginal := toOriginal
    toRelabelled := toRelabelled
    skyLayersBoundaries := b.1
    layerRepresentatives := b.2 }

/-! ## ns-functions.cpp -/

/-- The function `GetLastGroup` over the range `[next_vertex, size)`. -/
def GetLastGroup (next_vertex size : Nat) (is_active_vertex : List Nat) : List Nat :=
  ((List.range (size - next_vertex)).map (next_vertex + ·)).filter fun i =>
    is_active_vertex.getD i 0 ≠ 0

/-- The function `UpdateSkyline`; returns `skylineCommunities` and `skylineRepresentatives`. -/
def UpdateSkyline (candidate_group : List Nat) (labels : label_list_t)
    (skylineCommunities : group_list_t) (skylineRepresentatives : label_list_t) :
    group_list_t × label_list_t :=
  if !IsDominatedBySkyline candidate_group skylineCommunities labels then
    (skylineCommunities ++ [candidate_group],
      skylineRepresentatives ++ [GetWorstVirtualPoint candidate_group labels])
  else (skylineCommunities, skylineRepresentatives)

/-- The variables of the skyline drivers that change during the main loop. -/
structure SkylineState where
  edges : adjacency_list_t
  st : BinSort
  num_remaining_vertices : Int
  skylineCommunities : group_list_t
  skylineRepresentatives : label_list_t
  layerNumber : Nat
deriving DecidableEq, Repr

/-- The function `InitialiseToMaxKCore`, as the state at the start of the main loop. -/
def InitialiseToMaxKCore (myGraph : Graph) (coreSize : Nat) : SkylineState :=
  let b := BinSortByDegree myGraph.edges
  let st : BinSort :=
    { sortedIndices := b.1, nodePosition := b.2.1, binBoundaries := b.2.2
      active_vertices := List.replicate myGraph.size 1 }
  let r := ShrinkToMaxKCoreVertices coreSize none myGraph.edges st
  { edges := myGraph.edges
    st := r.1
    num_remaining_vertices := (myGraph.size : Int) - (r.2.1 : Int)
    skylineCommunities := []
    skylineRepresentatives := []
    layerNumber := 0 }

/-- The function `CheckBoundaryCases`; returns its result and the updated state. -/
def CheckBoundaryCases (myGraph : Graph) (s : SkylineState) (next_vertex groupSize : Nat) :
    Bool × SkylineState :=
  if s.num_remaining_vertices < (groupSize : Int) then (true, s)
  else if s.num_remaining_vertices = (groupSize : Int) then
    let r := UpdateSkyline (GetLastGroup next_vertex myGraph.size s.st.active_vertices)
      myGraph.labels s.skylineCommunities s.skylineRepresentatives
    (true, { s with skylineCommunities := r.1, skylineRepresentatives := r.2 })
  else if next_vertex = myGraph.skyLayersBoundaries.getD s.layerNumber 0 then
    if CanTerminate s.skylineRepresentatives (myGraph.layerRepresentatives.getD s.layerNumber [])
    then (true, s)
    else (false, { s with layerNumber := s.layerNumber + 1 })
  else (false, s)

/-- The function `FilterVertices`; returns the filtered vertices and the updated state. -/
def FilterVertices (myGraph : Graph) (s : SkylineState) (next_vertex groupSize minCoreness : Nat) :
    List Nat × SkylineState :=
  let nodes := GetKHopNeighbourhood next_vertex s.edges s.st.active_vertices
    (some (if groupSize = minCoreness + 1 then 1 else 2))
  if nodes.length = groupSize ∧ IsKCore nodes s.edges minCoreness = true then
    let r := UpdateSkyline nodes myGraph.labels s.skylineCommunities s.skylineRepresentatives
    (nodes, { s with skylineCommunities := r.1, skylineRepresentatives := r.2 })
  else (nodes, s)

/-- The loop of `ListAndCheckGroups` over the candidate indices; the state is
(`bIsSkyline`, `skylineCommunities`, `skylineRepresentatives`). -/
def checkCandidates (candidates : group_list_t) (labels : label_list_t) :
    List Nat → List Bool × group_list_t × label_list_t → List Bool × group_list_t × label_list_t
  | [], acc => acc
  | i :: rest, (bIsSkyline, skylineCommunities, skylineRepresentatives) =>
    let candidate := candidates.getD i []
    let isSkyline := !IsDominatedBySkyline candidate skylineCommunities labels &&
      !IsDominatedByCandidates i candidates bIsSkyline labels
    let bIsSkyline := bIsSkyline.set i isSkyline
    if isSkyline then
      checkCandidates candidates labels rest
        (bIsSkyline, skylineCommunities ++ [candidate],
          skylineRepresentatives ++ [GetWorstVirtualPoint candidate labels])
    else checkCandidates candidates labels rest (bIsSkyline, skylineCommunities, skylineRepresentatives)

/-- The function `ListAndCheckGroups`; returns `skylineCommunities` and
`skylineRepresentatives`. -/
def ListAndCheckGroups (vertices : List Nat) (edges : adjacency_list_t) (labels : label_list_t)
    (groupSize coreSize : Nat) (skylineCommunities : group_list_t)
    (skylineRepresentatives : label_list_t) : group_list_t × label_list_t :=
  let candidates := ListKCoresWithPrefix vertices edges groupSize coreSize
  (checkCandidates candidates labels (List.range candidates.length)
    (List.replicate candidates.length true, skylineCommunities, skylineRepresentatives)).2

namespace sequential

/-- The body of the main loop of `sequential::GetSkylineCommunities` for
`next_vertex`; the first component is `true` when the loop is left by `break`. -/
def loopBody (myGraph : Graph) (coreSize groupSize : Nat) (s : SkylineState) (next_vertex : Nat) :
    Bool × SkylineState :=
  if s.st.active_vertices.getD next_vertex 0 ≠ 0 then
    let c := CheckBoundaryCases myGraph s next_vertex groupSize
    if c.1 then (true, c.2)
    else
      let f := FilterVertices myGraph c.2 next_vertex groupSize coreSize
      let s1 := f.2
      let s2 :=
        if groupSize < f.1.length then
          let l := ListAndCheckGroups f.1 s1.edges myGraph.labels groupSize coreSize
            s1.skylineCommunities s1.skylineRepresentatives
          let r := ShrinkToMaxKCoreVertices coreSize (some next_vertex) s1.edges s1.st
          { s1 with
            skylineCommunities := l.1
            skylineRepresentatives := l.2
            st := r.1
            num_remaining_vertices := s1.num_remaining_vertices - (r.2.1 : Int) }
        else s1
      (false, { s2 with edges := RemoveVertex s2.edges next_vertex })
  else (false, { s with edges := RemoveVertex s.edges next_vertex })

/-- The main loop of `sequential::GetSkylineCommunities` over the vertices. -/
def mainLoop (myGraph : Graph) (coreSize groupSize : Nat) : List Nat → SkylineState → SkylineState
  | [], s => s
  | next_vertex :: rest, s =>
    let r := loopBody myGraph coreSize groupSize s next_vertex
    if r.1 then r.2 else mainLoop myGraph coreSize groupSize rest r.2

/-- The skyline before the final `postprocess`. -/
def skylineBeforePostprocess (myGraph : Graph) (coreSize groupSize : Nat) : group_list_t :=
  (mainLoop myGraph coreSize groupSize (List.range myGraph.size)
    (InitialiseToMaxKCore myGraph coreSize)).skylineCommunities

/-- The function `base::sequential::GetSkylineCommunities`. -/
def GetSkylineCommunities (myGraph : Graph) (coreSize groupSize : Nat) : group_list_t :=
  postprocess myGraph.labels (skylineBeforePostprocess myGraph coreSize groupSize)

end sequential

namespace parallel

/-- The shared variables of `parallel::GetSkylineCommunities`. -/
structure ParState where
  s : SkylineState
  indexToProcess : Nat
  indexToRemove : Nat
  bTerminate : Bool
  threadWorkingIndex : List Nat
deriving DecidableEq, Repr

/-- The loop `while (indexToRemove < indexToProcess)` of the first single
section, which peels the vertices of the previous round. -/
def removeLoop (coreSize groupSize : Nat) : Nat → ParState → ParState
  | 0, p => p
  | fuel + 1, p =>
    if p.indexToRemove < p.indexToProcess then
      let r := ShrinkToMaxKCoreVertices coreSize (some p.indexToRemove) p.s.edges p.s.st
      let s1 := { p.s with st := r.1
                           num_remaining_vertices := p.s.num_remaining_vertices - (r.2.1 : Int) }
      if s1.num_remaining_vertices < (groupSize : Int) then
        { p with s := s1, bTerminate := true }
      else removeLoop coreSize groupSize fuel { p with s := s1, indexToRemove := p.indexToRemove + 1 }
    else p

/-- The loop that hands the next active vertices to the threads `tID, tID + 1, ..`. -/
def assignLoop (size nThreads : Nat) (active : List Nat) :
    Nat → Nat → Nat → List Nat → Nat × List Nat
  | 0, _, indexToProcess, threadWorkingIndex => (indexToProcess, threadWorkingIndex)
  | fuel + 1, tID, indexToProcess, threadWorkingIndex =>
    if tID < nThreads ∧ indexToProcess < size then
      if active.getD indexToProcess 0 ≠ 0 then
        assignLoop size nThreads active fuel (tID + 1) (indexToProcess + 1)
          (threadWorkingIndex.set tID indexToProcess)
      else assignLoop size nThreads active fuel tID (indexToProcess + 1) threadWorkingIndex
    else (indexToProcess, threadWorkingIndex)

/-- The loop that advances `layerNumber` over the crossed layer boundaries and
tests the termination condition; returns `layerNumber`, `bTerminate` and
`threadWorkingIndex`. -/
def layerLoop (myGraph : Graph) (skylineRepresentatives : label_list_t) (indexToProcess : Nat) :
    Nat → Nat → List Nat → Nat × Bool × List Nat
  | 0, layerNumber, threadWorkingIndex => (layerNumber, false, threadWorkingIndex)
  | fuel + 1, layerNumber, threadWorkingIndex =>
    if myGraph.skyLayersBoundaries.getD layerNumber 0 < indexToProcess ∧
        indexToProcess < myGraph.size then
      if CanTerminate skylineRepresentatives (myGraph.layerRepresentatives.getD layerNumber []) then
        (layerNumber, true, threadWorkingIndex.map fun index =>
          if myGraph.skyLayersBoundaries.getD layerNumber 0 ≤ index then index + myGraph.size
          else index)
      else layerLoop myGraph skylineRepresentatives indexToProcess fuel (layerNumber + 1)
        threadWorkingIndex
    else (layerNumber, false, threadWorkingIndex)

/-- The first single section of a round. -/
def singleSection (myGraph : Graph) (coreSize groupSize nThreads : Nat) (p : ParState) : ParState :=
  let p1 := removeLoop coreSize groupSize (p.indexToProcess - p.indexToRemove + 1)
    { p with threadWorkingIndex := List.replicate nThreads myGraph.size }
  if p1.bTerminate then p1
  else if p1.s.num_remaining_vertices = (groupSize : Int) then
    let r := UpdateSkyline (GetLastGroup p1.indexToProcess myGraph.size p1.s.st.active_vertices)
      myGraph.labels p1.s.skylineCommunities p1.s.skylineRepresentatives
    { p1 with s := { p1.s with skylineCommunities := r.1, skylineRepresentatives := r.2 }
              bTerminate := true }
  else
    let a := assignLoop myGraph.size nThreads p1.s.st.active_vertices
      (myGraph.size - p1.indexToProcess + 1) 0 p1.indexToProcess
      (List.replicate nThreads myGraph.size)
    let l := layerLoop myGraph p1.s.skylineRepresentatives a.1
      (myGraph.skyLayersBoundaries.length + 1) p1.s.layerNumber a.2
    { p1 with s := { p1.s with layerNumber := l.1 }
              indexToProcess := a.1
              bTerminate := l.2.1
              threadWorkingIndex := l.2.2 }

/-- The loop of a thread that marks its candidates against the skyline and its
own earlier candidates; returns `bIsSkyline`. -/
def markCandidates (candidates skylineCommunities : group_list_t) (labels : label_list_t) :
    List Nat → List Bool → List Bool
  | [], bIsSkyline => bIsSkyline
  | i :: rest, bIsSkyline =>
    markCandidates candidates skylineCommunities labels rest
      (bIsSkyline.set i
        (!IsDominatedBySkyline (candidates.getD i []) skylineCommunities labels &&
          !IsDominatedByCandidates i candidates bIsSkyline labels))

/-- The elements of `candidates` whose flag in `bIsSkyline` is set (the erase loops). -/
def keepMarked (candidates : group_list_t) (bIsSkyline : List Bool) : group_list_t :=
  ((List.range candidates.length).filter fun i => bIsSkyline.getD i false).map fun i =>
    candidates.getD i []

/-- The work of one thread between the first single section and the first
barrier: its `threadLocalCandidates` for the working index `index`. -/
def threadCandidates (myGraph : Graph) (coreSize groupSize : Nat) (s : SkylineState) (index : Nat) :
    group_list_t :=
  if index < myGraph.size ∧ coreSize ≤ GetDegree s.edges index then
    let nodes := GetKHopNeighbourhood index s.edges s.st.active_vertices
      (some (if groupSize = coreSize + 1 then 1 else 2))
    let candidates :=
      if nodes.length = groupSize ∧ IsKCore nodes s.edges coreSize = true ∧
          IsDominatedBySkyline nodes s.skylineCommunities myGraph.labels = false then [nodes]
      else if groupSize < nodes.length then ListKCoresWithPrefix nodes s.edges groupSize coreSize
      else []
    keepMarked candidates
      (markCandidates candidates s.skylineCommunities myGraph.labels
        (List.range candidates.length) (List.replicate candidates.length true))
  else []

/-- The filter of the candidates of thread `threadID` against the candidates of
the threads with a lower id, as they stand at the first barrier. -/
def crossFilter (labels : label_list_t) (threadLocalCandidates : List group_list_t)
    (threadID : Nat) : group_list_t :=
  (threadLocalCandidates.getD threadID []).filter fun candidate =>
    (List.range threadID).all fun j =>
      !IsDominatedBySkyline candidate (threadLocalCandidates.getD j []) labels

/-- One round of the `while` loop: the single section, the work of every
thread, the cross-thread filter, the second single section (with the physical
removal of the vertices of the round) and the copy into the skyline slices in
ascending thread id. -/
def round (myGraph : Graph) (coreSize groupSize nThreads : Nat) (p : ParState) : ParState :=
  let first_vertex_in_iteration := p.indexToProcess
  let p1 := singleSection myGraph coreSize groupSize nThreads p
  let threadLocalCandidates := (List.range nThreads).map fun threadID =>
    threadCandidates myGraph coreSize groupSize p1.s (p1.threadWorkingIndex.getD threadID 0)
  let survivors := (List.range nThreads).map fun threadID =>
    crossFilter myGraph.labels threadLocalCandidates threadID
  let edges := (List.range' first_vertex_in_iteration
      (min p1.indexToProcess myGraph.size - first_vertex_in_iteration)).foldl RemoveVertex p1.s.edges
  { p1 with
    s := { p1.s with
      edges := edges
      skylineCommunities := p1.s.skylineCommunities ++ survivors.flatten
      skylineRepresentatives := p1.s.skylineRepresentatives ++
        survivors.flatten.map fun newSkyline => GetWorstVirtualPoint newSkyline myGraph.labels } }

/-- The `while` loop of `parallel::GetSkylineCommunities`. -/
def mainLoop (myGraph : Graph) (coreSize groupSize nThreads : Nat) : Nat → ParState → ParState
  | 0, p => p
  | fuel + 1, p =>
    if !p.bTerminate ∧ p.indexToProcess < myGraph.size then
      mainLoop myGraph coreSize groupSize nThreads fuel (round myGraph coreSize groupSize nThreads p)
    else p

/-- The function `base::parallel::GetSkylineCommunities`. Every round that does
not terminate advances `indexToProcess`, so `size + 1` rounds are enough. -/
def GetSkylineCommunities (myGraph : Graph) (coreSize groupSize nThreads : Nat) : group_list_t :=
  let p0 : ParState :=
    { s := InitialiseToMaxKCore myGraph coreSize
      indexToProcess := 0, indexToRemove := 0, bTerminate := false
      threadWorkingIndex := List.replicate nThreads 0 }
  postprocess myGraph.labels
    (mainLoop myGraph coreSize groupSize nThreads (myGraph.size + 1) p0).s.skylineCommunities

end parallel

/-! ## Specification-level predicates -/

/-- The adjacency is symmetric: `v ∈ edges[u]` implies `u ∈ edges[v]`. -/
def SymmetricAdj (edges : adjacency_list_t) : Prop :=
  ∀ u, u < edges.length → ∀ v ∈ adj edges u, u ∈ adj edges v

instance (edges : adjacency_list_t) : Decidable (SymmetricAdj edges) := by
  unfold SymmetricAdj; infer_instance

/-- Every neighbour list is strictly decreasing. -/
def DescendingAdj (edges : adjacency_list_t) : Prop :=
  ∀ l ∈ edges, l.Pairwise (· > ·)

instance (edges : adjacency_list_t) : Decidable (DescendingAdj edges) := by
  unfold DescendingAdj; infer_instance

/-- No vertex is its own neighbour. -/
def LoopFree (edges : adjacency_list_t) : Prop :=
  ∀ u, u < edges.length → u ∉ adj edges u

instance (edges : adjacency_list_t) : Decidable (LoopFree edges) := by
  unfold LoopFree; infer_instance

/-- Every neighbour id is a vertex of the graph. -/
def BoundedAdj (edges : adjacency_list_t) : Prop :=
  ∀ l ∈ edges, ∀ v ∈ l, v < edges.length

instance (edges : adjacency_list_t) : Decidable (BoundedAdj edges) := by
  unfold BoundedAdj; infer_instance

/-- No neighbour list mentions a vertex smaller than `p`. -/
def NoVertexBelow (edges : adjacency_list_t) (p : Nat) : Prop :=
  ∀ l ∈ edges, ∀ v ∈ l, p ≤ v

instance (edges : adjacency_list_t) (p : Nat) : Decidable (NoVertexBelow edges p) := by
  unfold NoVertexBelow; infer_instance

/-- The members of `S` other than `v` that are neighbours of `v`. -/
def neighboursInside (edges : adjacency_list_t) (S : List Nat) (v : Nat) : List Nat :=
  S.filter fun w => decide (w ≠ v) && decide (w ∈ adj edges v)

/-- Every member of `S` has at least `k` neighbours inside `S`. -/
def MinDegreeInside (edges : adjacency_list_t) (S : List Nat) (k : Nat) : Prop :=
  ∀ v ∈ S, k ≤ (neighboursInside edges S v).length

instance (edges : adjacency_list_t) (S : List Nat) (k : Nat) :
    Decidable (MinDegreeInside edges S k) := by
  unfold MinDegreeInside; infer_instance

/-- The members of `S` other than `v` that are not neighbours of `v`. -/
def nonAdjacentInside (edges : adjacency_list_t) (S : List Nat) (v : Nat) : List Nat :=
  S.filter fun w => decide (w ≠ v) && !decide (w ∈ adj edges v)

/-- The number of members of `S` other than `v` that are not neighbours of `v`,
as the signed counter the enumerator keeps. -/
def missedCount (edges : adjacency_list_t) (S : List Nat) (v : Nat) : Int :=
  ((nonAdjacentInside edges S v).length : Int)

/-- The invariant of the state of the enumerator: group and tailset are
strictly ascending, the tailset lies after the group, the counters are the
numbers of missed connections inside the group and stay below the bound, and
a member that has reached the bound is adjacent to the whole tailset. -/
structure GroupInfoInv (edges : adjacency_list_t) (maxMissed : Int) (gi : GroupInfo) : Prop where
  group_sorted : gi.group.Pairwise (· < ·)
  tail_sorted : gi.tailset.Pairwise (· < ·)
  group_lt_tail : ∀ x ∈ gi.group, ∀ t ∈ gi.tailset, x < t
  missed_eq : gi.missedConnectionsCount = gi.group.map (missedCount edges gi.group)
  missed_le : ∀ v ∈ gi.group, missedCount edges gi.group v ≤ maxMissed
  saturated : ∀ v ∈ gi.group, missedCount edges gi.group v = maxMissed →
    ∀ t ∈ gi.tailset, t ∈ adj edges v

/-- The graph that is left when the vertices below `v` have been removed:
their lists are empty and the other lists keep the neighbours from `v` on. -/
def edgesFrom (edges : adjacency_list_t) (v : Nat) : adjacency_list_t :=
  (List.range edges.length).map fun u =>
    if u < v then [] else (adj edges u).filter fun w => decide (v ≤ w)

/-- In the vertex order no later vertex strictly dominates an earlier one
(the one-sidedness that the layered sort provides). -/
def NoLaterDominates (labels : label_list_t) (size : Nat) : Prop :=
  ∀ j, j < size → ∀ i, i < j + 1 →
    PointDominanceTest (labelOf labels j) (labelOf labels i) ≠ DominanceTestResult.dominates

instance (labels : label_list_t) (size : Nat) : Decidable (NoLaterDominates labels size) := by
  unfold NoLaterDominates; infer_instance

/-- Vertices with equal labels are contiguous in the vertex order. -/
def EqualLabelsContiguous (labels : label_list_t) (size : Nat) : Prop :=
  ∀ j, j < size → ∀ m, m < j + 1 → ∀ i, i < m + 1 →
    PointDominanceTest (labelOf labels j) (labelOf labels i) = DominanceTestResult.equal →
    PointDominanceTest (labelOf labels m) (labelOf labels i) = DominanceTestResult.equal

instance (labels : label_list_t) (size : Nat) : Decidable (EqualLabelsContiguous labels size) := by
  unfold EqualLabelsContiguous; infer_instance

/-- A preprocessed graph: the adjacency covers the `size` vertices and is
symmetric, loop-free and strictly descending, and the vertices are numbered
in the layered sort order of their labels. -/
def Preprocessed (myGraph : Graph) : Prop :=
  myGraph.size = myGraph.edges.length ∧ SymmetricAdj myGraph.edges ∧ LoopFree myGraph.edges ∧
    DescendingAdj myGraph.edges ∧ NoLaterDominates myGraph.labels myGraph.size ∧
    EqualLabelsContiguous myGraph.labels myGraph.size

instance (myGraph : Graph) : Decidable (Preprocessed myGraph) := by
  unfold Preprocessed; infer_instance

/-- The first member of the first group is not larger than that of the second. -/
def headLE (A B : List Nat) : Prop := A.getD 0 0 ≤ B.getD 0 0

/-- A non-empty group of vertices below `size` whose first member is its
smallest and at most `v`. -/
def GoodGroup (size v : Nat) (A : List Nat) : Prop :=
  A ≠ [] ∧ A.getD 0 0 ≤ v ∧ ∀ a ∈ A, A.getD 0 0 ≤ a ∧ a < size

/-- The invariant of the skyline list of the drivers up to vertex `v`: no
group is dominated by an earlier one, the groups are ordered by their first
member, and every group is good. -/
structure SkyInv (labels : label_list_t) (size v : Nat) (sky : group_list_t) : Prop where
  notDominated : sky.Pairwise fun A B => GroupDominanceTest A B labels = false
  heads : sky.Pairwise headLE
  good : ∀ A ∈ sky, GoodGroup size v A

/-- The number of adjacency entries of the vertices that are still flagged
active: a bound on what the draining loop of `ShrinkToMaxKCoreVertices` can
still push on its queue. -/
def activeDegree (edges : adjacency_list_t) (active : List Nat) : Nat :=
  ∑ w in Finset.range active.length, if active.getD w 0 ≠ 0 then (adj edges w).length else 0

/-- The number of adjacency entries of the vertices `u + i` that the traversal
of `GetKHopNeighbourhood` has not visited yet. -/
def unvisitedDegree (edges : adjacency_list_t) (u : Nat) (visited : List Bool) : Nat :=
  ∑ i in Finset.range visited.length,
    if visited.getD i false = false then (adj edges (u + i)).length else 0

/-- Two group lists hold the same groups, each compared as a sorted tuple and
ignoring the order and multiplicity in the lists. -/
def SameGroupSet (a b : group_list_t) : Prop :=
  (∀ A ∈ a, A.insertionSort (· ≤ ·) ∈ b.map fun B => B.insertionSort (· ≤ ·)) ∧
    ∀ B ∈ b, B.insertionSort (· ≤ ·) ∈ a.map fun A => A.insertionSort (· ≤ ·)

instance (a b : group_list_t) : Decidable (SameGroupSet a b) := by
  unfold SameGroupSet; infer_instance

/-- The sort keys of an `ExtendedPoint` are those that
`GetIndicesSortedByPartition` computes from its label, for a label of
dimension `dim`. -/
def Keyed (pivot : List Int) (dim : Nat) (e : ExtendedPoint) : Prop :=
  e.label.length = dim ∧ e.mask = DeterminePartition e.label pivot ∧
    e.setBitsCount = popcount e.mask ∧ e.sum = e.label.sum

/-- A loaded input graph: one label of the same dimension per vertex, and a
symmetric, loop-free adjacency without repeated neighbours. -/
def WellFormedInput (labels : label_list_t) (edges : adjacency_list_t) : Prop :=
  labels.length = edges.length ∧ (∀ l ∈ labels, l.length = (labelOf labels 0).length) ∧
    SymmetricAdj edges ∧ LoopFree edges ∧ ∀ l ∈ edges, l.Nodup

instance (labels : label_list_t) (edges : adjacency_list_t) :
    Decidable (WellFormedInput labels edges) := by
  unfold WellFormedInput; infer_instance

/-- The scan of group 1 by `GroupDominanceTest` for one label of group 2,
written over the labels of the members of group 1 that are not marked:
`none` if no label is equal to or dominates `label2`; on the first such
label, the list without it and `false` if it is equal, the unchanged list and
`true` if it dominates. -/
def scanBag (label2 : List Int) : List (List Int) → Option (List (List Int) × Bool)
  | [] => none
  | a :: rest =>
    match PointDominanceTest a label2 with
    | DominanceTestResult.equal => some (rest, false)
    | DominanceTestResult.dominates => some (a :: rest, true)
    | DominanceTestResult.incomparable =>
      match scanBag label2 rest with
      | none => none
      | some (remaining, dominated) => some (a :: remaining, dominated)

/-- The loop of `GroupDominanceTest` over the labels of group 2, written over
the labels of the unmarked members of group 1. -/
def loopBag : List (List Int) → List (List Int) → Bool → Bool
  | [], _, groups_not_equal => groups_not_equal
  | label2 :: rest, unmarked, groups_not_equal =>
    match scanBag label2 unmarked with
    | none => false
    | some (remaining, dominated) => loopBag rest remaining (groups_not_equal || dominated)

/-- The labels of the members of group 1 from position `index` on that are not
marked in `equal_to_point_in_group2`. -/
def unmarkedLabels (labels : label_list_t) : List Nat → Nat → List Bool → List (List Int)
  | [], _, _ => []
  | curr1 :: rest, index, marks =>
    if marks.getD index false then unmarkedLabels labels rest (index + 1) marks
    else labelOf labels curr1 :: unmarkedLabels labels rest (index + 1) marks

/-- Group dominance in the words of the specification: with `A'` and `B'` the
label bags of the two groups after removing their bag intersection, `B'` is
not empty and every label of `B'` is strictly dominated by a label of `A'`. -/
def GroupDominatesSpec (A B : List Nat) (labels : label_list_t) : Prop :=
  (B.map (labelOf labels)).diff (A.map (labelOf labels)) ≠ [] ∧
    ∀ b ∈ (B.map (labelOf labels)).diff (A.map (labelOf labels)),
      ∃ a ∈ (A.map (labelOf labels)).diff (B.map (labelOf labels)),
        PointDominanceTest a b = DominanceTestResult.dominates

instance (A B : List Nat) (labels : label_list_t) : Decidable (GroupDominatesSpec A B labels) := by
  unfold GroupDominatesSpec; infer_instance

/-- The documented precondition of `GroupDominanceTest` on a group: no member
is strictly dominated by a later member. -/
def SortedForDominance (labels : label_list_t) (B : List Nat) : Prop :=
  (B.map (labelOf labels)).Pairwise fun x y =>
    PointDominanceTest y x ≠ DominanceTestResult.dominates

instance (labels : label_list_t) (B : List Nat) : Decidable (SortedForDominance labels B) := by
  unfold SortedForDominance; infer_instance

/-- The sort key of input point `i` in the words of the specification:
(popcount of the mask, mask, coordinate sum, label), with the mask taken
against the pivot of the point list. -/
def specKey (points : label_list_t) (i : Nat) : Nat × Nat × Int × List Int :=
  (popcount (DeterminePartition (labelOf points i) (GetPivot points)),
    DeterminePartition (labelOf points i) (GetPivot points),
    (labelOf points i).sum, labelOf points i)

/-- The lexicographic order "not after" on sort keys; the labels are compared
lexicographically. -/
def specKeyLE (a b : Nat × Nat × Int × List Int) : Prop :=
  a.1 < b.1 ∨ (a.1 = b.1 ∧ (a.2.1 < b.2.1 ∨ (a.2.1 = b.2.1 ∧
    (a.2.2.1 < b.2.2.1 ∨ (a.2.2.1 = b.2.2.1 ∧ ¬ List.Lex (· < ·) b.2.2.2 a.2.2.2)))))

instance (a b : Nat × Nat × Int × List Int) : Decidable (specKeyLE a b) := by
  unfold specKeyLE; infer_instance

/-- The invariant of one layer in `GenerateSkyLayers`: `skyL` is the layer,
`ndL` the same layer without duplicate labels and `tbl` its mask table, after
the points `P` are processed. The two layers carry the same labels, no point
of the layer dominates another one, and the table records for every mask a
block of positions that holds all points of that mask, each with a stored
mask that is 0 or its mask against the first point of the block. -/
structure LayerInv (pivot : List Int) (maxMask : Nat) (P skyL ndL : List Point)
    (tbl : List LMInfo) : Prop where
  sub : ∀ p ∈ skyL, p ∈ P
  nd_sky : ∀ e ∈ ndL, ∃ p ∈ skyL, p.label = e.label
  sky_nd : ∀ p ∈ skyL, ∃ e ∈ ndL, e.label = p.label
  noDom : ∀ p ∈ skyL, ∀ q ∈ skyL,
    PointDominanceTest p.label q.label ≠ DominanceTestResult.dominates
  tableLen : tbl.length = maxMask + 1
  tableFirst : ∀ m, (tbl.getD m (LMInfo.mk 0 0 0)).size ≠ 0 →
    (tbl.getD m (LMInfo.mk 0 0 0)).firstPos ≤ (tbl.getD m (LMInfo.mk 0 0 0)).lastPos ∧
      (tbl.getD m (LMInfo.mk 0 0 0)).lastPos < ndL.length
  tablePoint : ∀ pos, pos < ndL.length →
    (tbl.getD (DeterminePartition (ndL.getD pos (Point.mk 0 0 [])).label pivot)
        (LMInfo.mk 0 0 0)).size ≠ 0 ∧
      (tbl.getD (DeterminePartition (ndL.getD pos (Point.mk 0 0 [])).label pivot)
        (LMInfo.mk 0 0 0)).firstPos ≤ pos ∧
      pos ≤ (tbl.getD (DeterminePartition (ndL.getD pos (Point.mk 0 0 [])).label pivot)
        (LMInfo.mk 0 0 0)).lastPos ∧
      ((ndL.getD pos (Point.mk 0 0 [])).mask = 0 ∨
        (ndL.getD pos (Point.mk 0 0 [])).mask =
          DeterminePartition (ndL.getD pos (Point.mk 0 0 [])).label
            (ndL.getD (tbl.getD (DeterminePartition (ndL.getD pos (Point.mk 0 0 [])).label pivot)
              (LMInfo.mk 0 0 0)).firstPos (Point.mk 0 0 [])).label)

/-- The invariant of `GenerateSkyLayers` after the points `P`: the three
lists have one entry per layer, every layer satisfies `LayerInv`, and every
point of a layer after the first is strictly dominated by a point of the
layer before. -/
structure LayersInv (pivot : List Int) (maxMask : Nat) (P : List Point)
    (s : List (List Point) × List (List Point) × List (List LMInfo)) : Prop where
  len_nd : s.2.1.length = s.1.length
  len_lm : s.2.2.length = s.1.length
  layer : ∀ j, j < s.1.length →
    LayerInv pivot maxMask P (s.1.getD j []) (s.2.1.getD j []) (s.2.2.getD j [])
  prev : ∀ j, j + 1 < s.1.length → ∀ q ∈ s.1.getD (j + 1) [],
    ∃ p ∈ s.1.getD j [], PointDominanceTest p.label q.label = DominanceTestResult.dominates

/-- The dimension-wise minimum of the labels of the points of a layer, in the
words of the specification (the "best virtual point" of a non-empty layer). -/
def layerMinimum : List Point → List Int
  | [] => []
  | p :: rest => rest.foldl (fun acc q => List.zipWith min acc q.label) p.label

/-- The assertions of `RemoveVertex`: whether at every `pop_back` the last
entry of the neighbour's list is `vertex_to_remove`. -/
def RemoveVertexAsserts (edges : adjacency_list_t) (vertex_to_remove : Nat) : Bool :=
  ((adj edges vertex_to_remove).foldl
    (fun (acc : adjacency_list_t × Bool) neighbour =>
      (acc.1.set neighbour (adj acc.1 neighbour).dropLast,
        acc.2 && decide ((adj acc.1 neighbour).getLast? = some vertex_to_remove)))
    (edges, true)).2

/-- The bins that `BinSortByDegree` fills in its first loop. -/
def binsOf (edges : adjacency_list_t) : List (List Nat) :=
  (List.range edges.length).foldl
    (fun bins i =>
      bins.set ((edges.map List.length).getD i 0)
        (bins.getD ((edges.map List.length).getD i 0) [] ++ [i]))
    (List.replicate edges.length [])

/-- The body of the inner loop of the second loop of `BinSortByDegree`. -/
def fillNode (acc : List Nat × List Nat × List Nat × Nat) (node : Nat) :
    List Nat × List Nat × List Nat × Nat :=
  (acc.1.set acc.2.2.2 node, acc.2.1.set node acc.2.2.2, acc.2.2.1, acc.2.2.2 + 1)

/-- The body of the second loop of `BinSortByDegree` for bin `i`. -/
def fillBin (bins : List (List Nat)) (acc : List Nat × List Nat × List Nat × Nat) (i : Nat) :
    List Nat × List Nat × List Nat × Nat :=
  (bins.getD i []).foldl fillNode (acc.1, acc.2.1, acc.2.2.1.set i acc.2.2.2, acc.2.2.2)

/-- The number of vertices of degree below `d`. -/
def countBelow (edges : adjacency_list_t) (d : Nat) : Nat :=
  (List.range edges.length).countP fun v => decide (GetDegree edges v < d)

/-- The largest degree of the graph (0 for the empty graph). -/
def maxDegreeOf (edges : adjacency_list_t) : Nat := (edges.map List.length).foldl max 0

/-- The invariant of the second loop of `BinSortByDegree`: the first `idx`
positions hold exactly the vertices that satisfy `Q`, each inside the block of
its degree, and `NP` inverts `S` on them. -/
structure FillInv (edges : adjacency_list_t) (Q : Nat → Prop) (S NP : List Nat) (idx : Nat) :
    Prop where
  lenS : S.length = edges.length
  lenNP : NP.length = edges.length
  idx_le : idx ≤ edges.length
  pos : ∀ p, p < idx → S.getD p 0 < edges.length ∧ Q (S.getD p 0) ∧
    NP.getD (S.getD p 0) 0 = p ∧ countBelow edges (GetDegree edges (S.getD p 0)) ≤ p ∧
    p < countBelow edges (GetDegree edges (S.getD p 0) + 1)
  vtx : ∀ v, v < edges.length → Q v → NP.getD v 0 < idx ∧ S.getD (NP.getD v 0) 0 = v

/-- The state in which the drivers first call `ShrinkToMaxKCoreVertices`: the
arrays of `BinSortByDegree` and every vertex flagged active. -/
def sortedState (edges : adjacency_list_t) : BinSort :=
  { sortedIndices := (BinSortByDegree edges).1
    nodePosition := (BinSortByDegree edges).2.1
    binBoundaries := (BinSortByDegree edges).2.2
    active_vertices := List.replicate edges.length 1 }

/-- The number of vertices whose flag is set in `before` and cleared in `after`. -/
def flagsCleared (before after : List Nat) : Nat :=
  (List.range before.length).countP fun v =>
    decide (before.getD v 0 ≠ 0) && decide (after.getD v 0 = 0)

/-- The number of edges between two vertices flagged in `before` of which at
least one is cleared in `after`; every edge is counted at its larger endpoint. -/
def edgesCleared (edges : adjacency_list_t) (before after : List Nat) : Nat :=
  ((List.range edges.length).map fun v =>
    (adj edges v).countP fun w =>
      decide (w < v) && decide (before.getD v 0 ≠ 0) && decide (before.getD w 0 ≠ 0) &&
        (decide (after.getD v 0 = 0) || decide (after.getD w 0 = 0))).sum

/-- The degree that the bin sort records for `v`: the number of the bin that
holds the position of `v`, as `RemoveNode` computes it. -/
def trackedDegree (st : BinSort) (v : Nat) : Nat :=
  upper_bound st.binBoundaries (st.nodePosition.getD v 0) - 1

/-- The number of entries of the neighbour list of `v` that are flagged active. -/
def activeNeighbours (edges : adjacency_list_t) (active : List Nat) (v : Nat) : Nat :=
  (adj edges v).countP fun w => decide (active.getD w 0 ≠ 0)

/-- The vertices that are flagged active, in ascending order. -/
def activeList (active : List Nat) : List Nat :=
  (List.range active.length).filter fun v => decide (active.getD v 0 ≠ 0)

/-- A single edge that both neighbour lists record twice, and an isolated vertex. -/
def exampleDoubleEdge : adjacency_list_t := [[1, 1], [0, 0], []]

/-- The graph with two vertices and a single edge. -/
def exampleEdge : adjacency_list_t := [[1], [0]]

/-- The structural invariant of the bin-sort arrays on `n` vertices:
`sortedIndices` and `nodePosition` are inverse to each other and the bin
boundaries start at 0 and never decrease. -/
structure BinInv (n : Nat) (st : BinSort) : Prop where
  lenS : st.sortedIndices.length = n
  lenNP : st.nodePosition.length = n
  lenA : st.active_vertices.length = n
  vtx : ∀ v, v < n → st.nodePosition.getD v 0 < n ∧
    st.sortedIndices.getD (st.nodePosition.getD v 0) 0 = v
  pos : ∀ p, p < n → st.sortedIndices.getD p 0 < n ∧
    st.nodePosition.getD (st.sortedIndices.getD p 0) 0 = p
  bbPos : 0 < st.binBoundaries.length
  bbZero : st.binBoundaries.getD 0 0 = 0
  bbSorted : ∀ i j, i ≤ j → j < st.binBoundaries.length →
    st.binBoundaries.getD i 0 ≤ st.binBoundaries.getD j 0
  bbLe : ∀ i, i < st.binBoundaries.length → st.binBoundaries.getD i 0 ≤ n

/-- The invariant of the draining loop of `ShrinkToMaxKCoreVertices` with queue
`q`, while `RemoveNode` still has the neighbours `L` to process: the recorded
degree of an active vertex is its number of active neighbour entries plus its
entries in `L`, every active vertex of recorded degree below `k` is queued, and
no vertex of a set of minimum induced degree `k` has been deactivated. -/
structure PeelInv (edges : adjacency_list_t) (k : Nat) (st : BinSort) (q L : List Nat) :
    Prop where
  bin : BinInv edges.length st
  deg : ∀ v, v < edges.length → st.active_vertices.getD v 0 ≠ 0 →
    trackedDegree st v = activeNeighbours edges st.active_vertices v + L.count v
  queued : ∀ v, v < edges.length → st.active_vertices.getD v 0 ≠ 0 →
    trackedDegree st v < k → v ∈ q
  low : ∀ v ∈ q, v < edges.length ∧
    (st.active_vertices.getD v 0 ≠ 0 → trackedDegree st v < k)
  core : ∀ T : List Nat, T.Nodup → (∀ v ∈ T, v < edges.length) → MinDegreeInside edges T k →
    ∀ v ∈ T, st.active_vertices.getD v 0 ≠ 0

/-- A path `u = x0, x1, ..., xm` of the graph in which every vertex after the
first is active and has an id above `u`. -/
def KHopPath (u : Nat) (edges : adjacency_list_t) (active : List Nat) (p : List Nat) : Prop :=
  p.head? = some u ∧ List.Chain' (fun x y => y ∈ adj edges x) p ∧
    ∀ y ∈ p.tail, active.getD y 0 ≠ 0 ∧ u < y

/-- The vertices that such a path of at most `m` edges reaches from `u`. -/
def reachWithin (u : Nat) (edges : adjacency_list_t) (active : List Nat) : Nat → Nat → Prop
  | 0, v => v = u
  | m + 1, v => reachWithin u edges active m v ∨
      ∃ x, reachWithin u edges active m x ∧ v ∈ adj edges x ∧ active.getD v 0 ≠ 0 ∧ u < v

/-- The invariant of the traversal of `GetKHopNeighbourhood` at level `c`: the
queue holds vertices reached in `c` or `c + 1` hops in this order, every vertex
reachable in fewer than `c` hops is visited, every vertex reachable in `c` hops
is visited or queued at level `c`, and the valid neighbours of a visited vertex
that may still be expanded are visited or queued. -/
structure KHopInv (u : Nat) (edges : adjacency_list_t) (active : List Nat) (k c : Nat)
    (q : List (Nat × Nat)) (visited : List Bool) (nv : Nat) : Prop where
  len : visited.length = edges.length - u
  cnt : nv = visited.count true
  sound_q : ∀ e ∈ q, reachWithin u edges active e.2 e.1 ∧ e.2 ≤ k
  sound_v : ∀ x, u ≤ x → visited.getD (x - u) false = true → reachWithin u edges active k x
  start : visited.getD 0 false = true ∨ ∃ j, (u, j) ∈ q
  sorted : q.Pairwise fun a b => a.2 ≤ b.2
  range : ∀ e ∈ q, c ≤ e.2 ∧ e.2 ≤ c + 1
  below : ∀ j x, j < c → reachWithin u edges active j x → visited.getD (x - u) false = true
  level : ∀ x, reachWithin u edges active c x → visited.getD (x - u) false = true ∨ (x, c) ∈ q
  closed : ∀ x y, u ≤ x → visited.getD (x - u) false = true → 1 ≤ k →
    reachWithin u edges active (k - 1) x → y ∈ adj edges x → active.getD y 0 ≠ 0 → u < y →
    visited.getD (y - u) false = true ∨ ∃ j, (y, j) ∈ q

namespace structural

/-- The map `hashMap` of `IsConnected` after its first loop, as the lookup
`hashMap[e]`: the last position of `e` in the subset, and 0 for an id that is
not in the subset (`operator[]` inserts the default value). -/
def IsConnectedHash (vertex_subset : List Nat) (e : Nat) : Nat :=
  (List.range vertex_subset.length).foldl
    (fun ID i => if vertex_subset.getD i 0 = e then i else ID) 0

/-- The traversal loop of `IsConnected`: `node` is a position of the subset,
the neighbours are read from `edges[node]`; `none` when the fuel runs out. -/
def IsConnectedLoop (vertex_subset : List Nat) (edges : adjacency_list_t) :
    Nat → List Nat → List Nat → Nat → Option Nat
  | _, [], _, count => some count
  | 0, _ :: _, _, _ => none
  | fuel + 1, node :: queue, visited, count =>
    if visited.getD node 0 = 0 then
      IsConnectedLoop vertex_subset edges fuel
        (queue ++ (adj edges node).reverse.map (IsConnectedHash vertex_subset))
        (visited.set node 1) (count + 1)
    else IsConnectedLoop vertex_subset edges fuel queue visited count

/-- The function `IsConnected` for a non-empty subset. Every position is
expanded at most once, so the queue sees at most one entry per adjacency entry
besides the initial one. -/
def IsConnected (vertex_subset : List Nat) (edges : adjacency_list_t) : Option Bool :=
  (IsConnectedLoop vertex_subset edges (totalDegree edges + 2) [0]
    (List.replicate vertex_subset.length 0) 0).map fun count =>
      decide (count = vertex_subset.length)

end structural

/-- Two vertices 2 and 3 joined by an edge, after two isolated vertices. -/
def exampleLateEdge : adjacency_list_t := [[], [], [3], [2]]

/-- The edge 0 - 3 and two isolated vertices 1 and 2. -/
def exampleOuterEdge : adjacency_list_t := [[3], [], [], [0]]

/-- Two coincident points followed by two points that they dominate. -/
def exampleCoincidentLabels : label_list_t := [[0, 0], [0, 0], [1, 1], [2, 2]]

/-- Three points on a line. -/
def exampleLineLabels : label_list_t := [[0], [1], [2]]

/-- One iteration of the outer loop of `postprocess` on the container itself:
`s.1` is the container in its current state, `s.2` the write position `first`
and `curr` the position of the group that is examined; the inner loop reads
the groups after `curr` from the container. -/
def postprocessStep (labels : label_list_t) (s : group_list_t × Nat) (curr : Nat) :
    group_list_t × Nat :=
  if postprocessIsSkyline labels (s.1.getD curr []) (s.1.drop (curr + 1)) then
    (if s.2 ≠ curr then s.1.set s.2 (s.1.getD curr []) else s.1, s.2 + 1)
  else s

/-- The function `postprocess` on the container itself: the container after
the loop and the returned position `first`. -/
def postprocessInPlace (labels : label_list_t) (groups : group_list_t) : group_list_t × Nat :=
  (List.range groups.length).foldl (postprocessStep labels) (groups, 0)

/-- The groups that may be compared with `curr`: the maximal run of groups
right after `curr` whose first member carries the label of the first member
of `curr`. -/
def sameLabelRun (labels : label_list_t) (curr : List Nat) (rest : group_list_t) : group_list_t :=
  rest.takeWhile fun next =>
    decide (labelOf labels (next.getD 0 0) = labelOf labels (curr.getD 0 0))

/-- The result of `postprocess` in the words of the specification: a group is
kept unless a group of its run dominates it. -/
def postprocessSpec (labels : label_list_t) : group_list_t → group_list_t
  | [] => []
  | curr :: rest =>
    if (sameLabelRun labels curr rest).any fun next => GroupDominanceTest next curr labels then
      postprocessSpec labels rest
    else curr :: postprocessSpec labels rest

/-- The part of the invariant of the bin sort that holds between any two
calls of `ShrinkToMaxKCoreVertices` and inside `RemoveNode`, while the
neighbours `L` are still to be processed: the arrays are consistent and the
recorded degree of an active vertex is its number of active neighbour entries
plus its entries in `L`. -/
structure DegInv (edges : adjacency_list_t) (st : BinSort) (L : List Nat) : Prop where
  bin : BinInv edges.length st
  deg : ∀ v, v < edges.length → st.active_vertices.getD v 0 ≠ 0 →
    trackedDegree st v = activeNeighbours edges st.active_vertices v + L.count v

/-- The state after a sequence of calls of `ShrinkToMaxKCoreVertices`, each
given by its `k` and its optional initial vertex, on the state of
`BinSortByDegree` with all vertices active. -/
def shrinkCalls (edges : adjacency_list_t) (calls : List (Nat × Option Nat)) : BinSort :=
  calls.foldl (fun st c => (ShrinkToMaxKCoreVertices c.1 c.2 edges st).1) (sortedState edges)

/-- The coordinate sums do not overflow: while the coordinates of a point are
added up from the left, every intermediate sum and the final sum is the value of
a 32-bit `int`. -/
def NoSumOverflow (points : label_list_t) : Prop :=
  ∀ p ∈ points, ∀ i < p.length + 1,
    -2147483648 ≤ (p.take i).sum ∧ (p.take i).sum < 2147483648

instance (points : label_list_t) : Decidable (NoSumOverflow points) := by
  unfold NoSumOverflow; infer_instance

/-- Three points of which two have a coordinate sum above the largest 32-bit `int`. -/
def exampleWideLabels : label_list_t :=
  [[2147483647, 2147483647], [2147483647, 5], [0, 0]]

/-- The path `1 - 0 - 2` as loaded. -/
def exampleFork : adjacency_list_t := [[1, 2], [0], [0]]

/-! ## Example inputs -/

/-- The complete graph on four vertices as loaded (ascending neighbour lists). -/
def exampleK4 : adjacency_list_t := [[1, 2, 3], [0, 2, 3], [0, 1, 3], [0, 1, 2]]

/-- The labels of scenario S2. -/
def exampleS2Labels : label_list_t := [[1, 1], [2, 2], [3, 3], [4, 4]]

/-- The path `1 - 0 - 2 - 3` as loaded. -/
def examplePath : adjacency_list_t := [[1, 2], [0], [0, 3], [2]]

/-- Four pairwise incomparable labels. -/
def exampleAntichainLabels : label_list_t := [[0, 4], [1, 3], [2, 2], [3, 1]]

/-- A triangle `0, 1, 2` with a pendant vertex `3` attached to `2`, as loaded. -/
def examplePendant : adjacency_list_t := [[1, 2], [0, 2], [0, 1, 3], [2]]

/-- Labels whose layered sort order is the input order, with vertex `3` in the
first sky-layer although it is sorted last. -/
def examplePendantLabels : label_list_t := [[0, 1], [0, 2], [1, 2], [2, 0]]

/-- The cycle `0 - 2 - 1 - 3 - 0` as loaded. -/
def exampleCycle : adjacency_list_t := [[2, 3], [2, 3], [0, 1], [0, 1]]

/-- A triangle with descending neighbour lists. -/
def exampleTriangle : adjacency_list_t := [[2, 1], [2, 0], [1, 0]]

/-- The labels of scenario S1. -/
def exampleS1Labels : label_list_t := [[1, 5], [2, 4], [3, 3], [5, 1]]

/-- The edges of scenario S1 as loaded: the 4-cycle `0 - 1 - 2 - 3` with the chord `0 - 2`. -/
def exampleS1Edges : adjacency_list_t := [[1, 2, 3], [0, 2], [0, 1, 3], [0, 2]]

/-- The complete graph on four vertices with descending neighbour lists. -/
def exampleK4desc : adjacency_list_t := [[3, 2, 1], [3, 2, 0], [3, 1, 0], [2, 1, 0]]

/-- The path `0 - 1 - 2` with descending neighbour lists. -/
def examplePath3 : adjacency_list_t := [[1], [2, 0], [1]]

/-! ## Theorems -/

set_option maxRecDepth 100000

/-- C4: on the complete graph K4 with the labels of scenario S2, `k = 2` and
`g = 3`, `UpdateGraph` followed by the sequential driver returns exactly the
one group `[0, 1, 2]`. -/
theorem C4_scenario_S2 :
    sequential.GetSkylineCommunities (UpdateGraph exampleS2Labels exampleK4) 2 3 = [[0, 1, 2]] := by
  decide

/-- C1 (failing input): on the path `1 - 0 - 2 - 3` with pairwise incomparable
labels, `k = 1`, `g = 2`, the sequential driver returns the group `[3]`, which
has one member instead of two. -/
theorem C1_short_group_returned :
    SymmetricAdj examplePath ∧ LoopFree examplePath ∧
    sequential.GetSkylineCommunities (UpdateGraph exampleAntichainLabels examplePath) 1 2
      = [[0, 3], [1, 2], [1, 3], [3]] := by
  decide

/-- C3 (failing input): on the triangle with a pendant vertex, `k = 1`, `g = 2`,
the sequential driver returns only `[0, 1]`; the group `[2, 3]` is an edge of
the relabelled graph, is not returned and is not dominated by `[0, 1]`. -/
theorem C3_valid_group_lost :
    sequential.GetSkylineCommunities (UpdateGraph examplePendantLabels examplePendant) 1 2
      = [[0, 1]] ∧
    IsKCore [2, 3] (UpdateGraph examplePendantLabels examplePendant).edges 1 = true ∧
    GroupDominanceTest [0, 1] [2, 3] (UpdateGraph examplePendantLabels examplePendant).labels
      = false := by
  decide

/-- C5 (failing input): on the 4-cycle with pairwise incomparable labels,
`k = 2`, `g = 3`, the sequential driver returns no group and the parallel
driver with one thread returns `[1, 2, 3]`. -/
theorem C5_parallel_differs :
    sequential.GetSkylineCommunities (UpdateGraph exampleAntichainLabels exampleCycle) 2 3 = [] ∧
    parallel.GetSkylineCommunities (UpdateGraph exampleAntichainLabels exampleCycle) 2 3 1
      = [[1, 2, 3]] ∧
    ¬ SameGroupSet
      (parallel.GetSkylineCommunities (UpdateGraph exampleAntichainLabels exampleCycle) 2 3 1)
      (sequential.GetSkylineCommunities (UpdateGraph exampleAntichainLabels exampleCycle) 2 3) := by
  decide

/-- C9 (failing input): on the triangle with `g = 3`, `k = 2`, the loop of
`ListAllKCores` runs over no vertex and returns the empty list, although
the three vertices form a 2-core of size 3. -/
theorem C9_last_group_missing :
    SymmetricAdj exampleTriangle ∧ LoopFree exampleTriangle ∧ DescendingAdj exampleTriangle ∧
    ListAllKCores exampleTriangle 3 2 = some [] ∧
    MinDegreeInside exampleTriangle [0, 1, 2] 2 ∧ IsKCore [0, 1, 2] exampleTriangle 2 = true := by
  decide


theorem set_intersection_sublist_left (fuel : Nat) (a b : List Nat) :
    (set_intersection fuel a b).Sublist a := by
  induction fuel generalizing a b with
  | zero => simp [set_intersection]
  | succ n ih =>
    cases a with
    | nil => simp [set_intersection]
    | cons x as =>
      cases b with
      | nil => simp [set_intersection]
      | cons y bs =>
        simp only [set_intersection]
        split
        · exact (ih as (y :: bs)).trans (List.sublist_cons_self x as)
        · split
          · exact ih (x :: as) bs
          · exact (ih as bs).cons₂ x

theorem set_intersection_mem_right (fuel : Nat) (a b : List Nat) (z : Nat)
    (h : z ∈ set_intersection fuel a b) : z ∈ b := by
  induction fuel generalizing a b with
  | zero => simp [set_intersection] at h
  | succ n ih =>
    cases a with
    | nil => simp [set_intersection] at h
    | cons x as =>
      cases b with
      | nil => simp [set_intersection] at h
      | cons y bs =>
        simp only [set_intersection] at h
        split at h
        · exact ih as (y :: bs) h
        · split at h
          · exact List.mem_cons_of_mem y (ih (x :: as) bs h)
          · have hxy : x = y := by omega
            rcases List.mem_cons.mp h with h1 | h1
            · subst h1; simp [hxy]
            · exact List.mem_cons_of_mem y (ih as bs h1)

theorem set_intersection_length_le (fuel : Nat) (a b : List Nat) :
    (set_intersection fuel a b).length ≤ b.length := by
  induction fuel generalizing a b with
  | zero => simp [set_intersection]
  | succ n ih =>
    cases a with
    | nil => simp [set_intersection]
    | cons x as =>
      cases b with
      | nil => simp [set_intersection]
      | cons y bs =>
        simp only [set_intersection]
        split
        · exact ih as (y :: bs)
        · split
          · exact (ih (x :: as) bs).trans (by simp)
          · simpa using ih as bs

theorem set_intersection_eq_filter (fuel : Nat) (a b : List Nat)
    (ha : a.Pairwise (· < ·)) (hb : b.Pairwise (· < ·)) (hf : a.length + b.length ≤ fuel) :
    set_intersection fuel a b = b.filter (fun z => decide (z ∈ a)) := by
  induction fuel generalizing a b with
  | zero =>
    have h1 : a = [] := List.length_eq_zero.mp (by omega)
    have h2 : b = [] := List.length_eq_zero.mp (by omega)
    subst h1; subst h2; simp [set_intersection]
  | succ n ih =>
    cases a with
    | nil => simp [set_intersection]
    | cons x as =>
      cases b with
      | nil => simp [set_intersection]
      | cons y bs =>
        have hx := List.pairwise_cons.mp ha
        have hy := List.pairwise_cons.mp hb
        simp only [List.length_cons] at hf
        simp only [set_intersection]
        split
        · next hlt =>
          rw [ih as (y :: bs) hx.2 hb (by simp only [List.length_cons]; omega)]
          apply List.filter_congr
          intro z hz
          have hyz : y ≤ z := by
            rcases List.mem_cons.mp hz with h | h
            · omega
            · exact Nat.le_of_lt (hy.1 z h)
          have : z ≠ x := by omega
          simp [this]
        · split
          · next hnlt hlt =>
            rw [ih (x :: as) bs ha hy.2 (by simp only [List.length_cons]; omega)]
            have hyn : y ∉ x :: as := by
              intro hmem
              rcases List.mem_cons.mp hmem with h | h
              · omega
              · have := hx.1 y h; omega
            rw [List.filter_cons_of_neg (by simpa using hyn)]
          · next hnlt hnlt2 =>
            have hxy : x = y := by omega
            subst hxy
            rw [ih as bs hx.2 hy.2 (by omega)]
            have : bs.filter (fun z => decide (z ∈ x :: as)) = bs.filter (fun z => decide (z ∈ as)) := by
              apply List.filter_congr
              intro z hz
              have := hy.1 z hz
              have : z ≠ x := by omega
              simp [this]
            rw [List.filter_cons_of_pos (by simp), this]


theorem adj_of_length_le (edges : adjacency_list_t) (u : Nat) (h : edges.length ≤ u) :
    adj edges u = [] := by
  unfold adj
  rw [List.getD_eq_default _ _ h]

theorem adj_mem_edges (edges : adjacency_list_t) (u : Nat) (h : u < edges.length) :
    adj edges u ∈ edges := by
  unfold adj
  rw [List.getD_eq_getElem _ _ h]
  exact List.getElem_mem h

theorem SymmetricAdj.symm {edges : adjacency_list_t} (h : SymmetricAdj edges) (u v : Nat)
    (huv : v ∈ adj edges u) : u ∈ adj edges v := by
  by_cases hu : u < edges.length
  · exact h u hu v huv
  · rw [adj_of_length_le edges u (by omega)] at huv
    simp at huv

theorem SymmetricAdj.mem_iff {edges : adjacency_list_t} (h : SymmetricAdj edges) (u v : Nat) :
    v ∈ adj edges u ↔ u ∈ adj edges v :=
  ⟨h.symm u v, h.symm v u⟩

theorem DescendingAdj.adj_pairwise {edges : adjacency_list_t} (h : DescendingAdj edges) (u : Nat) :
    (adj edges u).Pairwise (· > ·) := by
  by_cases hu : u < edges.length
  · exact h _ (adj_mem_edges edges u hu)
  · rw [adj_of_length_le edges u (by omega)]
    exact List.Pairwise.nil

theorem DescendingAdj.reverse_sorted {edges : adjacency_list_t} (h : DescendingAdj edges) (u : Nat) :
    (adj edges u).reverse.Pairwise (· < ·) := by
  rw [List.pairwise_reverse]
  exact h.adj_pairwise u

theorem GetIntersection_sublist_left (a b : List Nat) : (GetIntersection a b).Sublist a :=
  set_intersection_sublist_left _ a b

theorem GetIntersection_mem_right (a b : List Nat) (z : Nat) (h : z ∈ GetIntersection a b) :
    z ∈ b :=
  set_intersection_mem_right _ a b z h

theorem GetIntersection_length_le (a b : List Nat) : (GetIntersection a b).length ≤ b.length :=
  set_intersection_length_le _ a b

theorem GetIntersection_eq_filter (a b : List Nat) (ha : a.Pairwise (· < ·))
    (hb : b.Pairwise (· < ·)) : GetIntersection a b = b.filter (fun z => decide (z ∈ a)) :=
  set_intersection_eq_filter _ a b ha hb (Nat.le_refl _)

theorem mem_GetIntersection (a b : List Nat) (ha : a.Pairwise (· < ·))
    (hb : b.Pairwise (· < ·)) (z : Nat) : z ∈ GetIntersection a b ↔ z ∈ a ∧ z ∈ b := by
  rw [GetIntersection_eq_filter a b ha hb, List.mem_filter]
  simp [and_comm]

/-- The intersection of a neighbour list with an ascending list keeps the
members of the list that are neighbours. -/
theorem GetIntersection_adj (edges : adjacency_list_t) (hd : DescendingAdj edges) (v : Nat)
    (b : List Nat) (hb : b.Pairwise (· < ·)) :
    GetIntersection (adj edges v).reverse b = b.filter (fun z => decide (z ∈ adj edges v)) := by
  rw [GetIntersection_eq_filter _ b (hd.reverse_sorted v) hb]
  apply List.filter_congr
  intro z _
  simp

theorem missedCount_nonneg (edges : adjacency_list_t) (S : List Nat) (v : Nat) :
    0 ≤ missedCount edges S v := by
  unfold missedCount; omega

theorem missedCount_append_singleton (edges : adjacency_list_t) (S : List Nat) (v t : Nat)
    (hvt : v ≠ t) :
    missedCount edges (S ++ [t]) v
      = missedCount edges S v + (if t ∈ adj edges v then 0 else 1) := by
  unfold missedCount nonAdjacentInside
  rw [List.filter_append, List.length_append]
  by_cases h : t ∈ adj edges v
  · simp [h]
  · have : t ≠ v := fun e => hvt e.symm
    simp [h, this]

theorem missedCount_new (edges : adjacency_list_t) (S : List Nat) (t : Nat) (ht : t ∉ S) :
    missedCount edges (S ++ [t]) t
      = (S.length : Int) - ((S.filter (fun z => decide (z ∈ adj edges t))).length : Int) := by
  unfold missedCount nonAdjacentInside
  rw [List.filter_append, List.length_append]
  have h1 : ([t].filter fun w => decide (w ≠ t) && !decide (w ∈ adj edges t)) = [] := by simp
  rw [h1]
  have h2 : (S.filter fun w => decide (w ≠ t) && !decide (w ∈ adj edges t))
      = S.filter fun w => !decide (w ∈ adj edges t) := by
    apply List.filter_congr
    intro z hz
    have : z ≠ t := fun e => ht (e ▸ hz)
    simp [this]
  rw [h2]
  have h3 := List.length_eq_length_filter_add (l := S) (fun z => decide (z ∈ adj edges t))
  simp only [List.length_nil, Nat.add_zero]
  omega


/-- What the loop of `GetNewGroupInfo` computes on the members `gs` with
counters `gs.map c`, when `nb` holds the members adjacent to the new node `t`. -/
theorem GetNewGroupInfoLoop_spec (edges : adjacency_list_t) (hd : DescendingAdj edges)
    (M : Int) (g n t : Nat) (c : Nat → Int) (gs : List Nat) (tail : List Nat)
    (hgs : gs.Pairwise (· < ·)) (htail : tail.Pairwise (· < ·)) :
    let r := GetNewGroupInfoLoop edges M g n gs (gs.map c)
      (gs.filter fun z => decide (z ∈ adj edges t)) tail
    r.2.1.Sublist tail ∧
    (r.2.2 = false →
      r.1 = gs.map (fun v => c v + (if v ∈ adj edges t then 0 else 1)) ∧
      ∀ v ∈ gs, v ∉ adj edges t → c v + 1 = M → ∀ z ∈ r.2.1, z ∈ adj edges v) := by
  induction gs generalizing tail with
  | nil =>
    simp [GetNewGroupInfoLoop]
  | cons v gs ih =>
    have hp := List.pairwise_cons.mp hgs
    by_cases hv : v ∈ adj edges t
    · -- the member is a neighbour of the new node: the pointer into `neighbors` advances
      have hf : ((v :: gs).filter fun z => decide (z ∈ adj edges t))
          = v :: gs.filter fun z => decide (z ∈ adj edges t) := by
        rw [List.filter_cons_of_pos (by simpa using hv)]
      simp only [hf, List.map_cons, GetNewGroupInfoLoop, List.head?_cons, if_true,
        List.tail_cons, List.headD_cons]
      have ih' := ih tail hp.2 htail
      simp only at ih'
      refine ⟨ih'.1, fun hr => ?_⟩
      obtain ⟨h1, h2⟩ := ih'.2 hr
      refine ⟨by simp [h1, hv], ?_⟩
      intro w hw hwt hcw z hz
      rcases List.mem_cons.mp hw with e | hw'
      · subst e; exact absurd hv hwt
      · exact h2 w hw' hwt hcw z hz
    · -- the member is not a neighbour: its counter is incremented
      have hf : ((v :: gs).filter fun z => decide (z ∈ adj edges t))
          = gs.filter fun z => decide (z ∈ adj edges t) := by
        rw [List.filter_cons_of_neg (by simpa using hv)]
      have hhead : (gs.filter fun z => decide (z ∈ adj edges t)).head? ≠ some v := by
        intro hh
        have hm : v ∈ gs.filter fun z => decide (z ∈ adj edges t) := List.mem_of_mem_head? hh
        have := hp.1 v (List.mem_filter.mp hm).1
        omega
      simp only [hf, List.map_cons, GetNewGroupInfoLoop, hhead, if_false,
        List.tail_cons, List.headD_cons]
      by_cases hc : c v + 1 = M
      · simp only [hc, if_true]
        have hsub : (GetIntersection (adj edges v).reverse tail).Sublist tail := by
          rw [GetIntersection_adj edges hd v tail htail]
          exact List.filter_sublist _
        split
        · simp
        · have ih' := ih (GetIntersection (adj edges v).reverse tail) hp.2 (htail.sublist hsub)
          simp only at ih'
          refine ⟨ih'.1.trans hsub, fun hr => ?_⟩
          obtain ⟨h1, h2⟩ := ih'.2 hr
          refine ⟨by simp [h1, hv, hc], ?_⟩
          intro w hw hwt hcw z hz
          rcases List.mem_cons.mp hw with e | hw'
          · subst e
            have hz' := ih'.1.subset hz
            have := (GetIntersection_sublist_left (adj edges w).reverse tail).subset hz'
            simpa using this
          · exact h2 w hw' hwt hcw z hz
      · simp only [hc, if_false]
        have ih' := ih tail hp.2 htail
        simp only at ih'
        refine ⟨ih'.1, fun hr => ?_⟩
        obtain ⟨h1, h2⟩ := ih'.2 hr
        refine ⟨by simp [h1, hv], ?_⟩
        intro w hw hwt hcw z hz
        rcases List.mem_cons.mp hw with e | hw'
        · subst e; exact absurd hcw hc
        · exact h2 w hw' hwt hcw z hz


theorem length_le_of_nodup_subset (R l : List Nat) (hRn : R.Nodup) (hR : ∀ s ∈ R, s ∈ l) :
    R.length ≤ l.length :=
  (List.subperm_of_subset hRn (fun s hs => hR s hs)).length_le

/-- The loop of `GetNewGroupInfo` does not take the early return and keeps in
the tailset every vertex of `R`, when `R` lies in the tailset, is large enough
and is adjacent to every member whose counter reaches the bound. -/
theorem GetNewGroupInfoLoop_keeps (edges : adjacency_list_t) (hd : DescendingAdj edges)
    (M : Int) (g n t : Nat) (c : Nat → Int) (gs : List Nat) (tail : List Nat)
    (hgs : gs.Pairwise (· < ·)) (htail : tail.Pairwise (· < ·))
    (R : List Nat) (hRn : R.Nodup) (hR : ∀ s ∈ R, s ∈ tail) (hlen : g ≤ R.length + n + 1)
    (hadj : ∀ v ∈ gs, v ∉ adj edges t → c v + 1 = M → ∀ s ∈ R, s ∈ adj edges v) :
    let r := GetNewGroupInfoLoop edges M g n gs (gs.map c)
      (gs.filter fun z => decide (z ∈ adj edges t)) tail
    r.2.2 = false ∧ ∀ s ∈ R, s ∈ r.2.1 := by
  induction gs generalizing tail with
  | nil =>
    simpa [GetNewGroupInfoLoop] using hR
  | cons v gs ih =>
    have hp := List.pairwise_cons.mp hgs
    have hadj' : ∀ w ∈ gs, w ∉ adj edges t → c w + 1 = M → ∀ s ∈ R, s ∈ adj edges w :=
      fun w hw => hadj w (List.mem_cons_of_mem v hw)
    by_cases hv : v ∈ adj edges t
    · have hf : ((v :: gs).filter fun z => decide (z ∈ adj edges t))
          = v :: gs.filter fun z => decide (z ∈ adj edges t) := by
        rw [List.filter_cons_of_pos (by simpa using hv)]
      simp only [hf, List.map_cons, GetNewGroupInfoLoop, List.head?_cons, if_true,
        List.tail_cons, List.headD_cons]
      exact ih tail hp.2 htail hR hadj'
    · have hf : ((v :: gs).filter fun z => decide (z ∈ adj edges t))
          = gs.filter fun z => decide (z ∈ adj edges t) := by
        rw [List.filter_cons_of_neg (by simpa using hv)]
      have hhead : (gs.filter fun z => decide (z ∈ adj edges t)).head? ≠ some v := by
        intro hh
        have hm : v ∈ gs.filter fun z => decide (z ∈ adj edges t) := List.mem_of_mem_head? hh
        have := hp.1 v (List.mem_filter.mp hm).1
        omega
      simp only [hf, List.map_cons, GetNewGroupInfoLoop, hhead, if_false,
        List.tail_cons, List.headD_cons]
      by_cases hc : c v + 1 = M
      · simp only [hc, if_true]
        have heq := GetIntersection_adj edges hd v tail htail
        have hsub : (GetIntersection (adj edges v).reverse tail).Sublist tail := by
          rw [heq]; exact List.filter_sublist _
        have hR' : ∀ s ∈ R, s ∈ GetIntersection (adj edges v).reverse tail := by
          intro s hs
          rw [heq, List.mem_filter]
          exact ⟨hR s hs, by simpa using hadj v (List.mem_cons_self v gs) hv hc s hs⟩
        have hlen' := length_le_of_nodup_subset R _ hRn hR'
        rw [if_neg (by omega)]
        exact ih _ hp.2 (htail.sublist hsub) hR' hadj'
      · simp only [hc, if_false]
        exact ih tail hp.2 htail hR hadj'


theorem forEachWithRest_mem {β : Type} (body : Nat → List Nat → List β) (l : List Nat) (G : β) :
    G ∈ forEachWithRest body l ↔ ∃ pre x rest, l = pre ++ x :: rest ∧ G ∈ body x rest := by
  induction l with
  | nil => simp [forEachWithRest]
  | cons y ys ih =>
    simp only [forEachWithRest, List.mem_append, ih]
    constructor
    · rintro (h | ⟨pre, x, rest, hl, hG⟩)
      · exact ⟨[], y, ys, rfl, h⟩
      · exact ⟨y :: pre, x, rest, by simp [hl], hG⟩
    · rintro ⟨pre, x, rest, hl, hG⟩
      cases pre with
      | nil =>
        simp only [List.nil_append, List.cons.injEq] at hl
        obtain ⟨rfl, rfl⟩ := hl
        exact Or.inl hG
      | cons p pre' =>
        simp only [List.cons_append, List.cons.injEq] at hl
        obtain ⟨rfl, rfl⟩ := hl
        exact Or.inr ⟨pre', x, rest, rfl, hG⟩

/-- The state that `GetNewGroupInfo` builds for an admitted vertex `t` of the
tailset either has an empty tailset or is the group extended by `t`, and
then satisfies the invariant again. -/
theorem GetNewGroupInfo_inv (edges : adjacency_list_t) (hs : SymmetricAdj edges)
    (hd : DescendingAdj edges) (M : Int) (g : Nat) (gi : GroupInfo)
    (hinv : GroupInfoInv edges M gi) (pre rest : List Nat) (t : Nat)
    (htail : gi.tailset = pre ++ t :: rest)
    (hadm : (gi.group.length : Int)
      - ((GetIntersection (adj edges t).reverse gi.group).length : Int) ≤ M) :
    (GetNewGroupInfo gi.group gi.missedConnectionsCount rest
        (GetIntersection (adj edges t).reverse gi.group) edges t M g).tailset = [] ∨
    ((GetNewGroupInfo gi.group gi.missedConnectionsCount rest
        (GetIntersection (adj edges t).reverse gi.group) edges t M g).group = gi.group ++ [t] ∧
      GroupInfoInv edges M (GetNewGroupInfo gi.group gi.missedConnectionsCount rest
        (GetIntersection (adj edges t).reverse gi.group) edges t M g)) := by
  have htmem : t ∈ gi.tailset := by rw [htail]; simp
  have hgt : ∀ x ∈ gi.group, x < t := fun x hx => hinv.group_lt_tail x hx t htmem
  have htnot : t ∉ gi.group := fun h => Nat.lt_irrefl t (hgt t h)
  have hsorted := hinv.tail_sorted
  rw [htail] at hsorted
  have hrest_sorted : rest.Pairwise (· < ·) :=
    (List.pairwise_cons.mp (List.pairwise_append.mp hsorted).2.1).2
  have ht_lt_rest : ∀ z ∈ rest, t < z :=
    (List.pairwise_cons.mp (List.pairwise_append.mp hsorted).2.1).1
  have hrest_sub : ∀ z ∈ rest, z ∈ gi.tailset := by
    intro z hz; rw [htail]; simp [hz]
  have hnb := GetIntersection_adj edges hd t gi.group hinv.group_sorted
  have hspec := GetNewGroupInfoLoop_spec edges hd M g gi.group.length t
    (missedCount edges gi.group) gi.group rest hinv.group_sorted hrest_sorted
  simp only at hspec
  rw [← hinv.missed_eq, ← hnb] at hspec
  unfold GetNewGroupInfo
  simp only
  cases hearly : (GetNewGroupInfoLoop edges M g gi.group.length gi.group
      gi.missedConnectionsCount (GetIntersection (adj edges t).reverse gi.group) rest).2.2 with
  | true => left; simp
  | false =>
    right
    obtain ⟨hsub, hrest⟩ := hspec
    obtain ⟨h1, h2⟩ := hrest hearly
    simp only [Bool.false_eq_true, if_false]
    refine ⟨trivial, ?_⟩
    have hcount : ∀ v ∈ gi.group, missedCount edges (gi.group ++ [t]) v
        = missedCount edges gi.group v + (if v ∈ adj edges t then 0 else 1) := by
      intro v hv
      rw [missedCount_append_singleton edges gi.group v t (Nat.ne_of_lt (hgt v hv))]
      by_cases hvt : v ∈ adj edges t
      · simp [hvt, hs.symm t v hvt]
      · have : t ∉ adj edges v := fun h => hvt (hs.symm v t h)
        simp [hvt, this]
    have hnew : missedCount edges (gi.group ++ [t]) t
        = (gi.group.length : Int)
          - ((GetIntersection (adj edges t).reverse gi.group).length : Int) := by
      rw [missedCount_new edges gi.group t htnot, hnb]
    have htail'_sub : ∀ z ∈ (if (gi.group.length : Int)
          - ((GetIntersection (adj edges t).reverse gi.group).length : Int) = M then
          GetIntersection (adj edges t).reverse
            (GetNewGroupInfoLoop edges M g gi.group.length gi.group gi.missedConnectionsCount
              (GetIntersection (adj edges t).reverse gi.group) rest).2.1
        else (GetNewGroupInfoLoop edges M g gi.group.length gi.group gi.missedConnectionsCount
              (GetIntersection (adj edges t).reverse gi.group) rest).2.1),
        z ∈ (GetNewGroupInfoLoop edges M g gi.group.length gi.group gi.missedConnectionsCount
              (GetIntersection (adj edges t).reverse gi.group) rest).2.1 := by
      intro z hz
      split at hz
      · exact GetIntersection_mem_right _ _ z hz
      · exact hz
    constructor
    · -- group sorted
      simp only
      rw [List.pairwise_append]
      exact ⟨hinv.group_sorted, List.pairwise_singleton _ _, fun x hx y hy => by
        rw [List.mem_singleton] at hy; subst hy; exact hgt x hx⟩
    · -- tailset sorted
      simp only
      split
      · exact (hd.reverse_sorted t).sublist (GetIntersection_sublist_left _ _)
      · exact hrest_sorted.sublist hsub
    · -- group before tailset
      intro x hx z hz
      have hz' := hsub.subset (htail'_sub z hz)
      rcases List.mem_append.mp hx with hx | hx
      · exact hinv.group_lt_tail x hx z (hrest_sub z hz')
      · rw [List.mem_singleton] at hx; subst hx; exact ht_lt_rest z hz'
    · -- counters
      simp only
      rw [List.map_append, List.map_singleton, hnew, h1]
      congr 1
      apply List.map_congr_left
      intro v hv
      exact (hcount v hv).symm
    · -- counters below the bound
      intro v hv
      simp only at hv ⊢
      rcases List.mem_append.mp hv with hv | hv
      · rw [hcount v hv]
        by_cases hvt : v ∈ adj edges t
        · simpa [hvt] using hinv.missed_le v hv
        · have hle := hinv.missed_le v hv
          have hne : missedCount edges gi.group v ≠ M := by
            intro he
            exact hvt (hs.symm v t (hinv.saturated v hv he t htmem))
          simp only [hvt, if_false]
          omega
      · rw [List.mem_singleton] at hv; subst hv
        rw [hnew]; exact hadm
    · -- saturated members are adjacent to the tailset
      intro v hv hsat z hz
      simp only at hv hsat hz
      rcases List.mem_append.mp hv with hv | hv
      · rw [hcount v hv] at hsat
        have hz1 := htail'_sub z hz
        by_cases hvt : v ∈ adj edges t
        · simp only [hvt, if_true, add_zero] at hsat
          exact hinv.saturated v hv hsat z (hrest_sub z (hsub.subset hz1))
        · simp only [hvt, if_false] at hsat
          exact h2 v hv hvt hsat z hz1
      · rw [List.mem_singleton] at hv; subst hv
        rw [hnew] at hsat
        rw [if_pos hsat] at hz
        have := (GetIntersection_sublist_left _ _).subset hz
        simpa using this


/-- In a duplicate-free set every member splits the other members into its
neighbours and its non-neighbours. -/
theorem neighbours_add_nonAdjacent (edges : adjacency_list_t) (S : List Nat) (v : Nat)
    (hS : S.Nodup) (hv : v ∈ S) :
    (neighboursInside edges S v).length + (nonAdjacentInside edges S v).length + 1 = S.length := by
  unfold neighboursInside nonAdjacentInside
  have h1 := List.length_eq_length_filter_add (l := S) (fun w => decide (w ≠ v))
  have h2 : (S.filter fun w => !decide (w ≠ v)).length = 1 := by
    have hc := List.count_eq_one_of_mem hS hv
    rw [List.count, List.countP_eq_length_filter] at hc
    rw [← hc]
    congr 1
    apply List.filter_congr
    intro w _
    by_cases hwv : w = v <;> simp [hwv]
  have h3 := List.length_eq_length_filter_add (l := S.filter fun w => decide (w ≠ v))
    (fun w => decide (w ∈ adj edges v))
  rw [List.filter_filter, List.filter_filter] at h3
  have e1 : (S.filter fun w => decide (w ≠ v) && decide (w ∈ adj edges v))
      = S.filter fun w => decide (w ∈ adj edges v) && decide (w ≠ v) := by
    apply List.filter_congr; intro w _; exact Bool.and_comm _ _
  have e2 : (S.filter fun w => decide (w ≠ v) && !decide (w ∈ adj edges v))
      = S.filter fun w => (!decide (w ∈ adj edges v)) && decide (w ≠ v) := by
    apply List.filter_congr; intro w _; exact Bool.and_comm _ _
  rw [e1, e2]
  omega

theorem ListKCoresRecursive_nil_tail (edges : adjacency_list_t) (g k fuel : Nat) (gi : GroupInfo)
    (h : gi.tailset = []) : ListKCoresRecursive edges g k fuel gi = [] := by
  cases fuel with
  | zero => rfl
  | succ n => simp [ListKCoresRecursive, h, forEachWithRest]

/-- Extending the group by an admitted vertex of the tailset keeps every
counter of missed connections below the bound. -/
theorem missedCount_extend_le (edges : adjacency_list_t)
    (hd : DescendingAdj edges) (M : Int) (gi : GroupInfo) (hinv : GroupInfoInv edges M gi)
    (t : Nat) (htmem : t ∈ gi.tailset)
    (hadm : (gi.group.length : Int)
      - ((GetIntersection (adj edges t).reverse gi.group).length : Int) ≤ M) :
    ∀ v ∈ gi.group ++ [t], missedCount edges (gi.group ++ [t]) v ≤ M := by
  have hgt : ∀ x ∈ gi.group, x < t := fun x hx => hinv.group_lt_tail x hx t htmem
  have htnot : t ∉ gi.group := fun h => Nat.lt_irrefl t (hgt t h)
  have hnb := GetIntersection_adj edges hd t gi.group hinv.group_sorted
  intro v hv
  rcases List.mem_append.mp hv with hv | hv
  · rw [missedCount_append_singleton edges gi.group v t (Nat.ne_of_lt (hgt v hv))]
    by_cases hvt : t ∈ adj edges v
    · simpa [hvt] using hinv.missed_le v hv
    · have hle := hinv.missed_le v hv
      have hne : missedCount edges gi.group v ≠ M := fun he =>
        hvt (hinv.saturated v hv he t htmem)
      simp only [hvt, if_false]
      omega
  · rw [List.mem_singleton] at hv; subst hv
    rw [missedCount_new edges gi.group v htnot, ← hnb]; exact hadm

/-- Soundness of the recursion: from a state that satisfies the invariant,
every emitted group extends the current group, has `g` members, is strictly
ascending and gives every member at least `k` neighbours inside. -/
theorem ListKCoresRecursive_sound (edges : adjacency_list_t) (hs : SymmetricAdj edges)
    (hd : DescendingAdj edges) (g k : Nat) (fuel : Nat) (gi : GroupInfo)
    (hinv : GroupInfoInv edges ((g : Int) - (k : Int) - 1) gi) :
    ∀ G ∈ ListKCoresRecursive edges g k fuel gi,
      (∃ ext, G = gi.group ++ ext) ∧ G.length = g ∧ G.Pairwise (· < ·) ∧
        MinDegreeInside edges G k := by
  induction fuel generalizing gi with
  | zero => intro G hG; simp [ListKCoresRecursive] at hG
  | succ n ih =>
    intro G hG
    simp only [ListKCoresRecursive] at hG
    rw [forEachWithRest_mem] at hG
    obtain ⟨pre, t, rest, htail, hG⟩ := hG
    have htmem : t ∈ gi.tailset := by rw [htail]; simp
    split at hG
    · next hadm =>
      split at hG
      · next hlen =>
        rw [List.mem_singleton] at hG
        subst hG
        have hgt : ∀ x ∈ gi.group, x < t := fun x hx => hinv.group_lt_tail x hx t htmem
        have hsorted : (gi.group ++ [t]).Pairwise (· < ·) := by
          rw [List.pairwise_append]
          exact ⟨hinv.group_sorted, List.pairwise_singleton _ _, fun x hx y hy => by
            rw [List.mem_singleton] at hy; subst hy; exact hgt x hx⟩
        have hnodup : (gi.group ++ [t]).Nodup := hsorted.imp (fun h => Nat.ne_of_lt h)
        have hlen' : (gi.group ++ [t]).length = g := by simp [hlen]
        refine ⟨⟨[t], rfl⟩, hlen', hsorted, ?_⟩
        intro v hv
        have hle := missedCount_extend_le edges hd _ gi hinv t htmem hadm v hv
        have hsum := neighbours_add_nonAdjacent edges (gi.group ++ [t]) v hnodup hv
        unfold missedCount at hle
        omega
      · have hcase := GetNewGroupInfo_inv edges hs hd _ g gi hinv pre rest t htail hadm
        rcases hcase with hnil | ⟨hgrp, hinv'⟩
        · rw [ListKCoresRecursive_nil_tail edges g k n _ hnil] at hG
          simp at hG
        · obtain ⟨⟨ext, hext⟩, h2⟩ := ih _ hinv' G hG
          rw [hgrp] at hext
          exact ⟨⟨t :: ext, by simp [hext]⟩, h2⟩
    · simp at hG


theorem missedCount_append_le (edges : adjacency_list_t) (A B : List Nat) (v : Nat) :
    missedCount edges A v ≤ missedCount edges (A ++ B) v := by
  unfold missedCount nonAdjacentInside
  rw [List.filter_append, List.length_append]
  omega

theorem missedCount_append_lt (edges : adjacency_list_t) (A B : List Nat) (v s : Nat)
    (hs : s ∈ B) (hsv : s ≠ v) (hadj : s ∉ adj edges v) :
    missedCount edges A v + 1 ≤ missedCount edges (A ++ B) v := by
  unfold missedCount nonAdjacentInside
  rw [List.filter_append, List.length_append]
  have : s ∈ B.filter fun w => decide (w ≠ v) && !decide (w ∈ adj edges v) := by
    rw [List.mem_filter]; exact ⟨hs, by simp [hsv, hadj]⟩
  have := List.length_pos_of_mem this
  omega

theorem missedCount_le_of_minDegree (edges : adjacency_list_t) (S : List Nat) (k : Nat)
    (hS : S.Nodup) (hk : MinDegreeInside edges S k) (v : Nat) (hv : v ∈ S) :
    missedCount edges S v ≤ (S.length : Int) - (k : Int) - 1 := by
  have h1 := neighbours_add_nonAdjacent edges S v hS hv
  have h2 := hk v hv
  unfold missedCount
  omega

/-- Completeness of the recursion: from a state that satisfies the invariant,
a strictly ascending set of `g` vertices with minimum degree `k` that extends
the current group inside the tailset is emitted, given fuel for its length. -/
theorem ListKCoresRecursive_complete (edges : adjacency_list_t) (hs : SymmetricAdj edges)
    (hd : DescendingAdj edges) (g k : Nat) (S : List Nat) (hSs : S.Pairwise (· < ·))
    (hSlen : S.length = g) (hSk : MinDegreeInside edges S k) (fuel : Nat) (gi : GroupInfo)
    (hinv : GroupInfoInv edges ((g : Int) - (k : Int) - 1) gi) (rest : List Nat)
    (hS : S = gi.group ++ rest) (hne : rest ≠ []) (hrest : ∀ s ∈ rest, s ∈ gi.tailset)
    (hfuel : rest.length ≤ fuel) :
    S ∈ ListKCoresRecursive edges g k fuel gi := by
  have hSn : S.Nodup := hSs.imp (fun h => Nat.ne_of_lt h)
  induction fuel generalizing gi rest with
  | zero =>
    have : rest = [] := List.length_eq_zero.mp (by omega)
    exact absurd this hne
  | succ n ih =>
    cases rest with
    | nil => exact absurd rfl hne
    | cons t rest' =>
      have htmem : t ∈ gi.tailset := hrest t (List.mem_cons_self t rest')
      obtain ⟨pre, tl, htail⟩ := List.append_of_mem htmem
      have hsorted := hinv.tail_sorted
      rw [htail] at hsorted
      have hpre_lt : ∀ z ∈ pre, z < t := fun z hz =>
        (List.pairwise_append.mp hsorted).2.2 z hz t (List.mem_cons_self t tl)
      have htl_sorted : tl.Pairwise (· < ·) :=
        (List.pairwise_cons.mp (List.pairwise_append.mp hsorted).2.1).2
      have hS' : S = (gi.group ++ [t]) ++ rest' := by simp [hS]
      have hSs' := hSs
      rw [hS'] at hSs'
      have ht_lt : ∀ s ∈ rest', t < s := fun s hs' =>
        (List.pairwise_append.mp hSs').2.2 t (by simp) s hs'
      have hgrp_lt : ∀ v ∈ gi.group, ∀ s ∈ rest', v < s := fun v hv s hs' =>
        (List.pairwise_append.mp hSs').2.2 v (by simp [hv]) s hs'
      have hrest'_nodup : rest'.Nodup :=
        ((List.pairwise_append.mp hSs').2.1).imp (fun h => Nat.ne_of_lt h)
      have hrest'_tl : ∀ s ∈ rest', s ∈ tl := by
        intro s hs'
        have h1 := hrest s (List.mem_cons_of_mem t hs')
        rw [htail] at h1
        rcases List.mem_append.mp h1 with h | h
        · have := hpre_lt s h; have := ht_lt s hs'; omega
        · rcases List.mem_cons.mp h with h | h
          · have := ht_lt s hs'; omega
          · exact h
      have hgt : ∀ x ∈ gi.group, x < t := fun x hx => hinv.group_lt_tail x hx t htmem
      have htnot : t ∉ gi.group := fun h => Nat.lt_irrefl t (hgt t h)
      have hnb := GetIntersection_adj edges hd t gi.group hinv.group_sorted
      have hbound : ∀ v ∈ S, missedCount edges S v ≤ (g : Int) - (k : Int) - 1 := by
        intro v hv
        have := missedCount_le_of_minDegree edges S k hSn hSk v hv
        rw [hSlen] at this; exact this
      have hnew : missedCount edges (gi.group ++ [t]) t
          = (gi.group.length : Int)
            - ((GetIntersection (adj edges t).reverse gi.group).length : Int) := by
        rw [missedCount_new edges gi.group t htnot, hnb]
      have hadm : (gi.group.length : Int)
          - ((GetIntersection (adj edges t).reverse gi.group).length : Int)
            ≤ (g : Int) - (k : Int) - 1 := by
        rw [← hnew]
        have h1 := missedCount_append_le edges (gi.group ++ [t]) rest' t
        rw [← hS'] at h1
        have h2 := hbound t (by rw [hS']; simp)
        omega
      simp only [ListKCoresRecursive]
      rw [forEachWithRest_mem]
      refine ⟨pre, t, tl, htail, ?_⟩
      rw [if_pos hadm]
      have hlenS : gi.group.length + 1 + rest'.length = g := by
        rw [← hSlen, hS']; simp only [List.length_append, List.length_singleton]
      by_cases hlen : gi.group.length + 1 = g
      · rw [if_pos hlen]
        have : rest' = [] := List.length_eq_zero.mp (by omega)
        subst this
        simp [hS]
      · rw [if_neg hlen]
        have hne' : rest' ≠ [] := by
          intro h; subst h; simp at hlenS; exact hlen hlenS
        -- every remaining vertex is adjacent to the members that reach the bound
        have hsat : ∀ v ∈ gi.group ++ [t],
            missedCount edges (gi.group ++ [t]) v = (g : Int) - (k : Int) - 1 →
            ∀ s ∈ rest', s ∈ adj edges v := by
          intro v hv hc s hs'
          by_contra hadj
          have hsv : s ≠ v := by
            rcases List.mem_append.mp hv with h | h
            · have := hgrp_lt v h s hs'; omega
            · rw [List.mem_singleton] at h; subst h; have := ht_lt s hs'; omega
          have h1 := missedCount_append_lt edges (gi.group ++ [t]) rest' v s hs' hsv hadj
          rw [← hS'] at h1
          have h2 := hbound v (by rw [hS']; exact List.mem_append_left _ hv)
          omega
        have hkeep := GetNewGroupInfoLoop_keeps edges hd ((g : Int) - (k : Int) - 1) g
          gi.group.length t (missedCount edges gi.group) gi.group tl hinv.group_sorted
          htl_sorted rest' hrest'_nodup hrest'_tl (by omega)
          (by
            intro v hv hvt hc s hs'
            apply hsat v (by simp [hv]) _ s hs'
            rw [missedCount_append_singleton edges gi.group v t (Nat.ne_of_lt (hgt v hv))]
            have : t ∉ adj edges v := fun h => hvt (hs.symm v t h)
            simp only [this, if_false]
            exact hc)
        simp only at hkeep
        rw [← hinv.missed_eq, ← hnb] at hkeep
        obtain ⟨hearly, hkept⟩ := hkeep
        have hspec := GetNewGroupInfoLoop_spec edges hd ((g : Int) - (k : Int) - 1) g
          gi.group.length t (missedCount edges gi.group) gi.group tl hinv.group_sorted htl_sorted
        simp only at hspec
        rw [← hinv.missed_eq, ← hnb] at hspec
        have hcase := GetNewGroupInfo_inv edges hs hd _ g gi hinv pre tl t htail hadm
        have htail' : ∀ s ∈ rest', s ∈ (GetNewGroupInfo gi.group gi.missedConnectionsCount tl
            (GetIntersection (adj edges t).reverse gi.group) edges t
            ((g : Int) - (k : Int) - 1) g).tailset := by
          intro s hs'
          unfold GetNewGroupInfo
          simp only [hearly, Bool.false_eq_true, if_false]
          split
          · next hM =>
            rw [mem_GetIntersection _ _ (hd.reverse_sorted t) (htl_sorted.sublist hspec.1)]
            refine ⟨?_, hkept s hs'⟩
            have := hsat t (by simp) (by rw [hnew]; exact hM) s hs'
            simpa using this
          · exact hkept s hs'
        rcases hcase with hnil | ⟨hgrp, hinv'⟩
        · obtain ⟨s, hs'⟩ := List.exists_mem_of_ne_nil rest' hne'
          have := htail' s hs'
          rw [hnil] at this
          simp at this
        · exact ih _ hinv' rest' (by rw [hgrp]; exact hS') hne' htail'
            (by simp only [List.length_cons] at hfuel; omega)


theorem GetNewGroupInfoLoop_tail (edges : adjacency_list_t) (M : Int) (g n : Nat)
    (gs : List Nat) (ms : List Int) (nb tail : List Nat) :
    (∀ z ∈ (GetNewGroupInfoLoop edges M g n gs ms nb tail).2.1, z ∈ tail) ∧
    (GetNewGroupInfoLoop edges M g n gs ms nb tail).2.1.length ≤ tail.length := by
  induction gs generalizing ms nb tail with
  | nil => simp [GetNewGroupInfoLoop]
  | cons v gs ih =>
    simp only [GetNewGroupInfoLoop]
    split
    · exact ih _ _ _
    · split
      · split
        · simp
        · have h := ih ms.tail nb (GetIntersection (adj edges v).reverse tail)
          exact ⟨fun z hz => GetIntersection_mem_right _ _ z (h.1 z hz),
            h.2.trans (GetIntersection_length_le _ _)⟩
      · exact ih _ _ _

theorem GetNewGroupInfo_members (group : List Nat) (missed : List Int) (rest nb : List Nat)
    (edges : adjacency_list_t) (t : Nat) (M : Int) (g : Nat) :
    (∀ x ∈ (GetNewGroupInfo group missed rest nb edges t M g).group, x ∈ group ∨ x = t) ∧
    (∀ z ∈ (GetNewGroupInfo group missed rest nb edges t M g).tailset, z ∈ rest) ∧
    (GetNewGroupInfo group missed rest nb edges t M g).tailset.length ≤ rest.length := by
  have h := GetNewGroupInfoLoop_tail edges M g group.length group missed nb rest
  unfold GetNewGroupInfo
  simp only
  split
  · exact ⟨fun x hx => Or.inl hx, by simp, by simp⟩
  · refine ⟨fun x hx => by simpa using hx, ?_, ?_⟩
    · intro z hz
      simp only at hz
      split at hz
      · exact h.1 z (GetIntersection_mem_right _ _ z hz)
      · exact h.1 z hz
    · simp only
      split
      · exact (GetIntersection_length_le _ _).trans h.2
      · exact h.2

/-- Every member of an emitted group comes from the current group or from the tailset. -/
theorem ListKCoresRecursive_members (edges : adjacency_list_t) (g k fuel : Nat) (gi : GroupInfo) :
    ∀ G ∈ ListKCoresRecursive edges g k fuel gi, ∀ x ∈ G, x ∈ gi.group ∨ x ∈ gi.tailset := by
  induction fuel generalizing gi with
  | zero => intro G hG; simp [ListKCoresRecursive] at hG
  | succ n ih =>
    intro G hG x hx
    simp only [ListKCoresRecursive] at hG
    rw [forEachWithRest_mem] at hG
    obtain ⟨pre, t, rest, htail, hG⟩ := hG
    have hrest : ∀ z, z = t ∨ z ∈ rest → z ∈ gi.tailset := by
      intro z hz; rw [htail]
      rcases hz with h | h
      · simp [h]
      · simp [h]
    split at hG
    · split at hG
      · rw [List.mem_singleton] at hG
        subst hG
        rcases List.mem_append.mp hx with h | h
        · exact Or.inl h
        · exact Or.inr (hrest x (Or.inl (List.mem_singleton.mp h)))
      · have hm := GetNewGroupInfo_members gi.group gi.missedConnectionsCount rest
          (GetIntersection (adj edges t).reverse gi.group) edges t
          ((g : Int) - (k : Int) - 1) g
        rcases ih _ G hG x hx with h | h
        · rcases hm.1 x h with h' | h'
          · exact Or.inl h'
          · exact Or.inr (hrest x (Or.inl h'))
        · exact Or.inr (hrest x (Or.inr (hm.2.1 x h)))
    · simp at hG

theorem forEachWithRest_congr {β : Type} (body body' : Nat → List Nat → List β) (l : List Nat)
    (h : ∀ pre x rest, l = pre ++ x :: rest → body x rest = body' x rest) :
    forEachWithRest body l = forEachWithRest body' l := by
  induction l with
  | nil => rfl
  | cons y ys ih =>
    simp only [forEachWithRest]
    rw [h [] y ys rfl, ih (fun pre x rest hl => h (y :: pre) x rest (by simp [hl]))]

/-- The recursion never runs out of fuel: with more fuel than the length of
the tailset the result does not depend on the fuel. -/
theorem ListKCoresRecursive_fuel (edges : adjacency_list_t) (g k : Nat) (fuel fuel' : Nat)
    (gi : GroupInfo) (h : gi.tailset.length < fuel) (h' : gi.tailset.length < fuel') :
    ListKCoresRecursive edges g k fuel gi = ListKCoresRecursive edges g k fuel' gi := by
  induction fuel generalizing fuel' gi with
  | zero => omega
  | succ n ih =>
    cases fuel' with
    | zero => omega
    | succ m =>
      simp only [ListKCoresRecursive]
      apply forEachWithRest_congr
      intro pre t rest htail
      have hlen : rest.length < gi.tailset.length := by
        rw [htail]; simp only [List.length_append, List.length_cons]; omega
      split
      · split
        · rfl
        · have hm := (GetNewGroupInfo_members gi.group gi.missedConnectionsCount rest
            (GetIntersection (adj edges t).reverse gi.group) edges t
            ((g : Int) - (k : Int) - 1) g).2.2
          exact ih m _ (by omega) (by omega)
      · rfl


theorem neighboursInside_length_le (edges : adjacency_list_t) (S : List Nat) (v : Nat) :
    (neighboursInside edges S v).length
      ≤ (S.filter fun z => decide (z ∈ adj edges v)).length := by
  unfold neighboursInside
  have : (S.filter fun w => decide (w ≠ v) && decide (w ∈ adj edges v))
      = (S.filter fun z => decide (z ∈ adj edges v)).filter fun w => decide (w ≠ v) := by
    rw [List.filter_filter]
  rw [this]
  exact List.length_filter_le _ _

/-- On a strictly ascending set and strictly descending neighbour lists,
`IsKCore` holds when every member has `k` neighbours inside the set. -/
theorem IsKCore_of_MinDegreeInside (edges : adjacency_list_t) (hd : DescendingAdj edges)
    (S : List Nat) (hS : S.Pairwise (· < ·)) (k : Nat) (h : MinDegreeInside edges S k) :
    IsKCore S edges k = true := by
  unfold IsKCore
  rw [List.all_eq_true]
  intro v hv
  rw [GetIntersection_adj edges hd v S hS]
  have h1 := h v hv
  have h2 := neighboursInside_length_le edges S v
  simp only [Bool.not_eq_true', decide_eq_false_iff_not, Nat.not_lt]
  omega

/-- The state in which `ListKCoresWithPrefix` starts the recursion satisfies
the invariant when the tailset is strictly ascending, lies after the first
vertex and, in the clique case, consists of neighbours of the first vertex. -/
theorem initial_GroupInfoInv (edges : adjacency_list_t) (g k p : Nat) (hkg : k < g)
    (tailset : List Nat) (hsorted : tailset.Pairwise (· < ·)) (hlt : ∀ t ∈ tailset, p < t)
    (hclique : g = k + 1 → ∀ t ∈ tailset, t ∈ adj edges p) :
    GroupInfoInv edges ((g : Int) - (k : Int) - 1)
      { group := [p], missedConnectionsCount := [0], tailset := tailset } := by
  have h0 : missedCount edges [p] p = 0 := by
    unfold missedCount nonAdjacentInside; simp
  refine ⟨List.pairwise_singleton _ _, hsorted, ?_, ?_, ?_, ?_⟩
  · intro x hx t ht
    simp only [List.mem_singleton] at hx; subst hx; exact hlt t ht
  · simp [h0]
  · intro v hv
    simp only [List.mem_singleton] at hv; subst hv; rw [h0]; omega
  · intro v hv hsat t ht
    simp only [List.mem_singleton] at hv; subst hv
    rw [h0] at hsat
    exact hclique (by omega) t ht

theorem head_of_sorted_cons (nodes : List Nat) (hn : nodes ≠ []) :
    nodes = nodes.getD 0 0 :: nodes.drop 1 := by
  cases nodes with
  | nil => exact absurd rfl hn
  | cons a as => simp

/-- Soundness of `ListKCoresWithPrefix`: for strictly ascending `nodes`, symmetric strictly descending
adjacency and `k < g ≤ 2k+1`, provided that in the clique case `g = k+1` every
neighbour of `nodes[0]` is larger than `nodes[0]`, every group returned by
`ListKCoresWithPrefix` has `g` members, is strictly ascending, starts with
`nodes[0]`, and every member has at least `k` neighbours inside the group. -/
theorem ListKCoresWithPrefix_sound (nodes : List Nat) (edges : adjacency_list_t) (g k : Nat)
    (hnodes : nodes.Pairwise (· < ·)) (hs : SymmetricAdj edges) (hd : DescendingAdj edges)
    (hkg : k < g)
    (hp : g = k + 1 → ∀ v ∈ adj edges (nodes.getD 0 0), nodes.getD 0 0 < v) :
    ∀ G ∈ ListKCoresWithPrefix nodes edges g k,
      G.length = g ∧ G.Pairwise (· < ·) ∧ G.head? = nodes.head? ∧
        MinDegreeInside edges G k ∧ IsKCore G edges k = true := by
  intro G hG
  unfold ListKCoresWithPrefix at hG
  split at hG
  · next hlen =>
    have hne : nodes ≠ [] := by
      intro h; subst h; simp at hlen; omega
    have hnodes' := hnodes
    rw [head_of_sorted_cons nodes hne] at hnodes'
    have hinv : GroupInfoInv edges ((g : Int) - (k : Int) - 1)
        { group := [nodes.getD 0 0], missedConnectionsCount := [0],
          tailset := if g = k + 1 then (adj edges (nodes.getD 0 0)).reverse
            else nodes.drop 1 } := by
      apply initial_GroupInfoInv edges g k _ hkg
      · split
        · exact hd.reverse_sorted _
        · exact (List.pairwise_cons.mp hnodes').2
      · intro t ht
        split at ht
        · next hc => exact hp hc t (by simpa using ht)
        · exact (List.pairwise_cons.mp hnodes').1 t ht
      · intro hc t ht
        rw [if_pos hc] at ht
        simpa using ht
    obtain ⟨⟨ext, hext⟩, h1, h2, h3⟩ :=
      ListKCoresRecursive_sound edges hs hd g k _ _ hinv G hG
    refine ⟨h1, h2, ?_, h3, IsKCore_of_MinDegreeInside edges hd G h2 k h3⟩
    rw [hext]
    conv_rhs => rw [head_of_sorted_cons nodes hne]
    simp
  · simp at hG

/-- C6 (failing input): on the path `0 - 1 - 2` with `nodes = [1, 2]`, `g = 2`,
`k = 1`, the list `nodes` is ascending and the adjacency is symmetric and
strictly descending. This is the clique case `g = k + 1`, where the tailset is
`edges[nodes[0]] = {0, 2}` instead of `nodes[1..] = {2}`: the enumerator
returns `[[1, 0], [1, 2]]`, and the group `[1, 0]` is not ascending and has the
member `0` outside `nodes`. -/
theorem C6_clique_branch_not_ascending :
    ([1, 2] : List Nat).Pairwise (· < ·) ∧ SymmetricAdj examplePath3 ∧
    DescendingAdj examplePath3 ∧ 1 < 2 ∧ 2 ≤ 2 * 1 + 1 ∧
    ListKCoresWithPrefix [1, 2] examplePath3 2 1 = [[1, 0], [1, 2]] ∧
    ¬ ([1, 0] : List Nat).Pairwise (· < ·) ∧ 0 ∉ ([1, 2] : List Nat) := by
  decide


theorem sorted_ge_cases (p : Nat) (T : List Nat) (hT : T.Pairwise (· < ·))
    (hge : ∀ t ∈ T, p ≤ t) :
    (∀ t ∈ T, p < t) ∨ ∃ T', T = p :: T' ∧ ∀ t ∈ T', p < t := by
  cases T with
  | nil => left; simp
  | cons a T' =>
    have hp := List.pairwise_cons.mp hT
    by_cases ha : a = p
    · right; subst ha; exact ⟨T', rfl, hp.1⟩
    · left
      intro t ht
      have hpa := hge a (List.mem_cons_self a T')
      rcases List.mem_cons.mp ht with h | h
      · subst h; omega
      · have := hp.1 t h; omega

theorem NoVertexBelow.adj_ge {edges : adjacency_list_t} {p : Nat} (h : NoVertexBelow edges p)
    (u v : Nat) (hv : v ∈ adj edges u) : p ≤ v := by
  by_cases hu : u < edges.length
  · exact h _ (adj_mem_edges edges u hu) v hv
  · rw [adj_of_length_le edges u (by omega)] at hv
    simp at hv

/-- C7 (amended): for strictly ascending `nodes`, symmetric strictly descending
adjacency that mentions no vertex smaller than `nodes[0]`, `k < g ≤ 2k+1` and
`g ≥ 2`, every size-`g` subset of `nodes` that contains `nodes[0]` and in which
every vertex has at least `k` neighbours inside the subset is returned by
`ListKCoresWithPrefix`. -/
theorem C7_ListKCoresWithPrefix_complete (nodes : List Nat) (edges : adjacency_list_t)
    (g k : Nat) (hnodes : nodes.Pairwise (· < ·)) (hs : SymmetricAdj edges)
    (hd : DescendingAdj edges) (hnb : NoVertexBelow edges (nodes.getD 0 0))
    (hkg : k < g) (_hg : g ≤ 2 * k + 1) (h2 : 2 ≤ g)
    (S : List Nat) (hSsub : S.Sublist nodes) (hSlen : S.length = g)
    (hScont : nodes.getD 0 0 ∈ S) (hSk : MinDegreeInside edges S k) :
    S ∈ ListKCoresWithPrefix nodes edges g k := by
  have hSs : S.Pairwise (· < ·) := hnodes.sublist hSsub
  have hSn : S.Nodup := hSs.imp (fun h => Nat.ne_of_lt h)
  have hlen : g ≤ nodes.length := hSlen ▸ hSsub.length_le
  unfold ListKCoresWithPrefix
  rw [if_pos hlen]
  cases nodes with
  | nil => simp at hlen; omega
  | cons p tl =>
    simp only [List.getD_cons_zero, List.drop_succ_cons, List.drop_zero] at hScont hnb ⊢
    have hp := List.pairwise_cons.mp hnodes
    -- the subset is `p` followed by a subset of the other nodes
    obtain ⟨S', hS', hS'sub⟩ : ∃ S', S = p :: S' ∧ S'.Sublist tl := by
      cases hSsub with
      | cons _ h =>
        have := hp.1 p (h.subset hScont)
        omega
      | cons₂ _ h => exact ⟨_, rfl, h⟩
    have hS'ne : S' ≠ [] := by
      intro h; subst h; subst hS'; simp at hSlen; omega
    have hS'len : S'.length ≤ tl.length := hS'sub.length_le
    by_cases hc : g = k + 1
    · -- clique case: the tailset is the neighbour list of `p`
      rw [if_pos hc]
      have hT := hd.reverse_sorted p
      have hadj : ∀ s ∈ S', s ∈ (adj edges p).reverse := by
        intro s hs'
        rw [List.mem_reverse]
        by_contra hna
        have hsp : s ≠ p := by
          have := hp.1 s (hS'sub.subset hs'); omega
        have h1 := missedCount_append_lt edges [] S p s (by rw [hS']; simp [hs']) hsp hna
        have h3 := missedCount_le_of_minDegree edges S k hSn hSk p (by rw [hS']; simp)
        have h4 := missedCount_nonneg edges [] p
        simp only [List.nil_append] at h1
        rw [hSlen] at h3
        omega
      have hS'T : S'.length ≤ (adj edges p).reverse.length :=
        length_le_of_nodup_subset S' _
          ((List.pairwise_cons.mp (hS' ▸ hSs)).2.imp (fun h => Nat.ne_of_lt h)) hadj
      rcases sorted_ge_cases p _ hT (fun t ht => hnb.adj_ge p t (by simpa using ht)) with
        hgt | ⟨T', hTeq, hgt⟩
      · have hinv := initial_GroupInfoInv edges g k p hkg _ hT hgt
          (fun _ t ht => by simpa using ht)
        exact ListKCoresRecursive_complete edges hs hd g k S hSs hSlen hSk _ _ hinv S' hS'
          hS'ne hadj (by omega)
      · have hT' : T'.Pairwise (· < ·) := by
          rw [hTeq] at hT; exact (List.pairwise_cons.mp hT).2
        have hadj' : ∀ s ∈ S', s ∈ T' := by
          intro s hs'
          have h1 := hadj s hs'
          rw [hTeq] at h1
          rcases List.mem_cons.mp h1 with h | h
          · have := hp.1 s (hS'sub.subset hs'); omega
          · exact h
        have hinv := initial_GroupInfoInv edges g k p hkg T' hT' hgt
          (fun _ t ht => by
            have : t ∈ (adj edges p).reverse := by rw [hTeq]; exact List.mem_cons_of_mem p ht
            simpa using this)
        have hmem := ListKCoresRecursive_complete edges hs hd g k S hSs hSlen hSk
          ((adj edges p).reverse.length + 1) _ hinv S' hS' hS'ne hadj' (by omega)
        rw [hTeq] at hmem ⊢
        simp only [ListKCoresRecursive, forEachWithRest, List.mem_append] at hmem ⊢
        exact Or.inr hmem
    · rw [if_neg hc]
      have hinv := initial_GroupInfoInv edges g k p hkg tl hp.2 hp.1
        (fun h => absurd h hc)
      exact ListKCoresRecursive_complete edges hs hd g k S hSs hSlen hSk _ _ hinv S' hS' hS'ne
        (fun s hs' => hS'sub.subset hs') (by omega)

/-- C7 (witness): the hypotheses hold and the theorem applies to the triangle
`[0, 1, 2]` inside the complete graph on four vertices, `g = 3`, `k = 2`. -/
theorem C7_witness :
    ([0, 1, 2, 3] : List Nat).Pairwise (· < ·) ∧ SymmetricAdj exampleK4desc ∧
    DescendingAdj exampleK4desc ∧ NoVertexBelow exampleK4desc 0 ∧
    MinDegreeInside exampleK4desc [0, 1, 2] 2 ∧
    [0, 1, 2] ∈ ListKCoresWithPrefix [0, 1, 2, 3] exampleK4desc 3 2 :=
  ⟨by decide, by decide, by decide, by decide, by decide,
    C7_ListKCoresWithPrefix_complete [0, 1, 2, 3] exampleK4desc 3 2 (by decide) (by decide)
      (by decide) (by decide) (by decide) (by decide) (by decide) [0, 1, 2] (by decide)
      (by decide) (by decide) (by decide)⟩

/-- C7 (counterexample): with `k = 0`, `g = 1`, `nodes = [0]` and one isolated
vertex, the set `[0]` has size `g`, contains `nodes[0]` and every member has
at least `0` neighbours inside it, and nothing is returned. -/
theorem C7_counterexample :
    ([0] : List Nat).Pairwise (· < ·) ∧ SymmetricAdj [[]] ∧ DescendingAdj [[]] ∧
    NoVertexBelow [[]] 0 ∧ 0 < 1 ∧ 1 ≤ 2 * 0 + 1 ∧
    ([0] : List Nat).Sublist [0] ∧ ([0] : List Nat).length = 1 ∧ 0 ∈ ([0] : List Nat) ∧
    MinDegreeInside [[]] [0] 0 ∧
    [0] ∉ ListKCoresWithPrefix [0] [[]] 1 0 := by
  decide


/-- Where the members come from: every member of every group returned by
`ListKCoresWithPrefix` is an element of `nodes` when `g ≠ k+1`; in the clique
case `g = k+1` it is `nodes[0]` or a neighbour of `nodes[0]` in `edges`. -/
theorem ListKCoresWithPrefix_members (nodes : List Nat) (edges : adjacency_list_t)
    (g k : Nat) (G : List Nat) (hG : G ∈ ListKCoresWithPrefix nodes edges g k)
    (x : Nat) (hx : x ∈ G) :
    (g ≠ k + 1 → x ∈ nodes) ∧
    (g = k + 1 → x = nodes.getD 0 0 ∨ x ∈ adj edges (nodes.getD 0 0)) := by
  unfold ListKCoresWithPrefix at hG
  split at hG
  · have hm := ListKCoresRecursive_members edges g k _ _ G hG x hx
    simp only [List.mem_singleton] at hm
    constructor
    · intro hc
      rw [if_neg hc] at hm
      cases nodes with
      | nil =>
        simp [ListKCoresRecursive, forEachWithRest, hc] at hG
      | cons p tl =>
        simp only [List.getD_cons_zero, List.drop_succ_cons, List.drop_zero] at hm
        rcases hm with h | h
        · simp [h]
        · exact List.mem_cons_of_mem p h
    · intro hc
      rw [if_pos hc] at hm
      simpa using hm
  · simp at hG

/-- C8 (failing input): for the ascending list `nodes = [0, 1, 2]` on the
complete graph on four vertices with `g = 3`, `k = 2` (the clique case
`g = k + 1`) the enumerator returns `[[0, 1, 2], [0, 1, 3], [0, 2, 3]]`: two
groups have the member `3`, which is not an element of `nodes`. With `k = 1` on
the same input the branch that takes `nodes[1..]` as tailset returns
`[[0, 1, 2]]` only. -/
theorem C8_clique_branch_outside_nodes :
    ([0, 1, 2] : List Nat).Pairwise (· < ·) ∧ 2 < 3 ∧ 3 ≤ 2 * 2 + 1 ∧
    ListKCoresWithPrefix [0, 1, 2] exampleK4desc 3 2 = [[0, 1, 2], [0, 1, 3], [0, 2, 3]] ∧
    3 ∈ ([0, 1, 3] : List Nat) ∧ 3 ∉ ([0, 1, 2] : List Nat) ∧
    ListKCoresWithPrefix [0, 1, 2] exampleK4desc 3 1 = [[0, 1, 2]] := by
  decide


theorem adj_set (es : adjacency_list_t) (w u : Nat) (l : List Nat) (hw : w < es.length) :
    adj (es.set w l) u = if u = w then l else adj es u := by
  unfold adj
  by_cases h : u = w
  · subst h
    rw [if_pos rfl, List.getD_eq_getElem _ _ (by simpa using hw)]
    simp
  · rw [if_neg h]
    by_cases hu : u < es.length
    · rw [List.getD_eq_getElem _ _ (by simpa using hu), List.getD_eq_getElem _ _ hu]
      rw [List.getElem_set_ne (fun e => h e.symm)]
    · rw [List.getD_eq_default _ _ (by simp; omega), List.getD_eq_default _ _ (by omega)]

theorem adj_ext (a b : adjacency_list_t) (hlen : a.length = b.length)
    (h : ∀ u, u < a.length → adj a u = adj b u) : a = b := by
  apply List.ext_getElem hlen
  intro i h1 h2
  have := h i h1
  unfold adj at this
  rwa [List.getD_eq_getElem _ _ h1, List.getD_eq_getElem _ _ h2] at this

/-- The loop of `RemoveVertex` over distinct neighbours applies `dropLast` to
the list of each of them and leaves the other lists as they are. -/
theorem removeLoop_adj (L : List Nat) (E : adjacency_list_t) (hL : L.Nodup)
    (hb : ∀ w ∈ L, w < E.length) :
    (L.foldl (fun es neighbour => es.set neighbour (adj es neighbour).dropLast) E).length
      = E.length ∧
    ∀ u, adj (L.foldl (fun es neighbour => es.set neighbour (adj es neighbour).dropLast) E) u
      = if u ∈ L then (adj E u).dropLast else adj E u := by
  induction L generalizing E with
  | nil => simp
  | cons w L ih =>
    have hn := List.nodup_cons.mp hL
    have hw : w < E.length := hb w (List.mem_cons_self w L)
    simp only [List.foldl_cons]
    have ih' := ih (E.set w (adj E w).dropLast) hn.2
      (fun x hx => by simpa using hb x (List.mem_cons_of_mem w hx))
    refine ⟨by simpa using ih'.1, fun u => ?_⟩
    rw [ih'.2 u, adj_set E w u _ hw]
    by_cases huw : u = w
    · subst huw
      simp [hn.1]
    · simp [huw]

theorem edgesFrom_length (edges : adjacency_list_t) (v : Nat) :
    (edgesFrom edges v).length = edges.length := by
  simp [edgesFrom]

theorem adj_edgesFrom (edges : adjacency_list_t) (v u : Nat) :
    adj (edgesFrom edges v) u
      = if u < v then [] else (adj edges u).filter fun w => decide (v ≤ w) := by
  by_cases hu : u < edges.length
  · unfold edgesFrom
    conv_lhs => unfold adj
    rw [List.getD_eq_getElem _ _ (by simpa using hu)]
    simp [adj]
  · rw [adj_of_length_le _ u (by rw [edgesFrom_length]; omega),
      adj_of_length_le edges u (by omega)]
    simp

theorem edgesFrom_zero (edges : adjacency_list_t) : edgesFrom edges 0 = edges := by
  apply adj_ext _ _ (edgesFrom_length edges 0)
  intro u _
  rw [adj_edgesFrom]
  simp

/-- A strictly descending list whose smallest element is `v` is its elements
above `v` followed by `v`. -/
theorem descending_min_last (l : List Nat) (v : Nat) (hl : l.Pairwise (· > ·)) (hv : v ∈ l)
    (hge : ∀ x ∈ l, v ≤ x) : l.dropLast = l.filter fun w => decide (v + 1 ≤ w) := by
  induction l with
  | nil => simp at hv
  | cons a l ih =>
    have hp := List.pairwise_cons.mp hl
    by_cases hav : a = v
    · subst hav
      have : l = [] := by
        cases l with
        | nil => rfl
        | cons b l' =>
          have h1 := hp.1 b (List.mem_cons_self b l')
          have h2 := hge b (List.mem_cons_of_mem a (List.mem_cons_self b l'))
          omega
      subst this
      simp
    · have hvl : v ∈ l := by
        rcases List.mem_cons.mp hv with h | h
        · exact absurd h.symm hav
        · exact h
      have hne : l ≠ [] := List.ne_nil_of_mem hvl
      have ha := hge a (List.mem_cons_self a l)
      rw [List.dropLast_cons_of_ne_nil hne, ih hp.2 hvl (fun x hx => hge x (List.mem_cons_of_mem a hx))]
      rw [List.filter_cons_of_pos (by simp; omega)]

theorem SymmetricAdj.bounded {edges : adjacency_list_t} (hs : SymmetricAdj edges) (u v : Nat)
    (hv : v ∈ adj edges u) : v < edges.length := by
  have h := hs.symm u v hv
  by_contra hlt
  rw [adj_of_length_le edges v (by omega)] at h
  simp at h

theorem LoopFree.not_mem {edges : adjacency_list_t} (hl : LoopFree edges) (u : Nat) :
    u ∉ adj edges u := by
  by_cases hu : u < edges.length
  · exact hl u hu
  · rw [adj_of_length_le edges u (by omega)]; simp

/-- Removing vertex `v` from the graph without the vertices below `v` gives the
graph without the vertices below `v + 1`. -/
theorem RemoveVertex_edgesFrom (edges : adjacency_list_t) (hs : SymmetricAdj edges)
    (hd : DescendingAdj edges) (v : Nat) (hv : v < edges.length) :
    RemoveVertex (edgesFrom edges v) v = edgesFrom edges (v + 1) := by
  unfold RemoveVertex
  have hNv : adj (edgesFrom edges v) v = (adj edges v).filter fun w => decide (v ≤ w) := by
    rw [adj_edgesFrom]; simp
  have hnodup : (adj (edgesFrom edges v) v).Nodup := by
    rw [hNv]
    exact ((hd.adj_pairwise v).imp (fun h => Nat.ne_of_gt h)).sublist (List.filter_sublist _)
  have hbound : ∀ w ∈ adj (edgesFrom edges v) v, w < (edgesFrom edges v).length := by
    intro w hw
    rw [hNv] at hw
    rw [edgesFrom_length]
    exact hs.bounded v w (List.mem_filter.mp hw).1
  obtain ⟨hlen, hadj⟩ := removeLoop_adj _ (edgesFrom edges v) hnodup hbound
  apply adj_ext
  · rw [List.length_set, hlen, edgesFrom_length, edgesFrom_length]
  · intro u _
    rw [adj_set _ v u [] (by rw [hlen, edgesFrom_length]; exact hv), hadj u, adj_edgesFrom edges (v + 1) u]
    by_cases huv : u = v
    · subst huv; simp
    · rw [if_neg huv]
      by_cases hlt : u < v
      · have h1 : u ∉ adj (edgesFrom edges v) v := by
          rw [hNv]; intro h
          have := (List.mem_filter.mp h).2
          simp at this; omega
        rw [if_neg h1, adj_edgesFrom, if_pos hlt, if_pos (by omega)]
      · have hgt : v < u := by omega
        have hR : (if u < v + 1 then ([] : List Nat)
            else (adj edges u).filter fun w => decide (v + 1 ≤ w))
            = (adj edges u).filter fun w => decide (v + 1 ≤ w) := if_neg (by omega)
        have hE : adj (edgesFrom edges v) u = (adj edges u).filter fun w => decide (v ≤ w) := by
          rw [adj_edgesFrom, if_neg hlt]
        rw [hR, hE]
        by_cases hmem : u ∈ adj (edgesFrom edges v) v
        · rw [if_pos hmem]
          rw [hNv] at hmem
          have hvu : v ∈ adj edges u := hs.symm v u (List.mem_filter.mp hmem).1
          rw [descending_min_last _ v
            ((hd.adj_pairwise u).sublist (List.filter_sublist _))
            (List.mem_filter.mpr ⟨hvu, by simp⟩)
            (fun x hx => by simpa using (List.mem_filter.mp hx).2)]
          rw [List.filter_filter]
          apply List.filter_congr
          intro x _
          by_cases hx : v + 1 ≤ x
          · have : v ≤ x := by omega
            simp [hx, this]
          · simp [hx]
        · rw [if_neg hmem]
          have hvu : v ∉ adj edges u := by
            intro h
            apply hmem
            rw [hNv]
            exact List.mem_filter.mpr ⟨hs.symm u v h, by simp; omega⟩
          apply List.filter_congr
          intro x hx
          have : x ≠ v := fun e => hvu (e ▸ hx)
          by_cases hx' : v ≤ x
          · have : v + 1 ≤ x := by omega
            simp [hx', this]
          · have : ¬ v + 1 ≤ x := by omega
            simp [hx', this]


theorem getD_set_true (l : List Bool) (i j : Nat) (h : l.getD i false = true) :
    (l.set j true).getD i false = true := by
  by_cases hij : i = j
  · subst hij
    have hlt : i < l.length := by
      by_contra hge
      rw [List.getD_eq_default _ _ (by omega)] at h
      simp at h
    rw [List.getD_eq_getElem _ _ (by simpa using hlt)]
    simp
  · by_cases hlt : i < l.length
    · rw [List.getD_eq_getElem _ _ (by simpa using hlt), List.getElem_set_ne (fun e => hij e.symm)]
      rw [List.getD_eq_getElem _ _ hlt] at h
      exact h
    · rw [List.getD_eq_default _ _ (by omega)] at h
      simp at h

/-- The traversal never clears a visited mark. -/
theorem KHopLoop_mono (u : Nat) (edges : adjacency_list_t) (active : List Nat) (k remaining : Nat)
    (fuel : Nat) (q : List (Nat × Nat)) (visited : List Bool) (nv i : Nat)
    (h : visited.getD i false = true) :
    (KHopLoop u edges active k remaining fuel q visited nv).getD i false = true := by
  induction fuel generalizing q visited nv with
  | zero => simpa [KHopLoop] using h
  | succ n ih =>
    cases q with
    | nil => simpa [KHopLoop] using h
    | cons e q =>
      obtain ⟨v, hops⟩ := e
      simp only [KHopLoop]
      split
      · split
        · exact ih _ _ _ (getD_set_true visited i (v - u) h)
        · exact ih _ _ _ h
      · exact h

theorem GetKHopNeighbourhood_sorted (u : Nat) (edges : adjacency_list_t) (active : List Nat)
    (num_hops : Option Nat) :
    (GetKHopNeighbourhood u edges active num_hops).Pairwise (· < ·) := by
  unfold GetKHopNeighbourhood
  simp only
  apply List.Pairwise.sublist (List.filter_sublist _)
  rw [List.pairwise_map]
  exact (List.pairwise_lt_range _).imp (fun h => by omega)

theorem GetKHopNeighbourhood_ge (u : Nat) (edges : adjacency_list_t) (active : List Nat)
    (num_hops : Option Nat) :
    ∀ x ∈ GetKHopNeighbourhood u edges active num_hops, u ≤ x ∧ x < edges.length := by
  intro x hx
  unfold GetKHopNeighbourhood at hx
  simp only at hx
  have h1 := (List.mem_filter.mp hx).1
  rw [List.mem_map] at h1
  obtain ⟨i, hi, rfl⟩ := h1
  rw [List.mem_range] at hi
  omega

/-- The start vertex is the first element of its neighbourhood. -/
theorem GetKHopNeighbourhood_head (u : Nat) (edges : adjacency_list_t) (active : List Nat)
    (num_hops : Option Nat) (hu : u < edges.length) :
    (GetKHopNeighbourhood u edges active num_hops).head? = some u := by
  unfold GetKHopNeighbourhood
  simp only
  obtain ⟨r, hr⟩ : ∃ r, edges.length - u = r + 1 := ⟨edges.length - u - 1, by omega⟩
  rw [hr]
  have hvis : (KHopLoop u edges active (num_hops.getD (r + 1)) (r + 1) (totalDegree edges + 1)
      [(u, 0)] (List.replicate (r + 1) false) 0).getD 0 false = true := by
    simp only [KHopLoop]
    rw [if_pos (by omega)]
    rw [if_pos (by simp)]
    apply KHopLoop_mono
    simp [List.replicate_succ]
  rw [List.range_succ_eq_map, List.map_cons, List.filter_cons_of_pos (by simpa using hvis)]
  simp

theorem GetKHopNeighbourhood_getD (u : Nat) (edges : adjacency_list_t) (active : List Nat)
    (num_hops : Option Nat) (hu : u < edges.length) :
    (GetKHopNeighbourhood u edges active num_hops).getD 0 0 = u := by
  have h := GetKHopNeighbourhood_head u edges active num_hops hu
  cases hn : GetKHopNeighbourhood u edges active num_hops with
  | nil => rw [hn] at h; simp at h
  | cons a l => rw [hn] at h; simpa using h


theorem forEachWithRest_nodup {β : Type} (body : Nat → List Nat → List β) (key : β → Nat)
    (l : List Nat) (hl : l.Nodup)
    (h1 : ∀ pre x rest, l = pre ++ x :: rest → (body x rest).Nodup)
    (h2 : ∀ pre x rest, l = pre ++ x :: rest → ∀ G ∈ body x rest, key G = x) :
    (forEachWithRest body l).Nodup := by
  induction l with
  | nil => simp [forEachWithRest]
  | cons y ys ih =>
    have hn := List.nodup_cons.mp hl
    simp only [forEachWithRest]
    rw [List.nodup_append]
    refine ⟨h1 [] y ys rfl, ?_, ?_⟩
    · exact ih hn.2 (fun pre x rest hs => h1 (y :: pre) x rest (by simp [hs]))
        (fun pre x rest hs => h2 (y :: pre) x rest (by simp [hs]))
    · intro G hG hG'
      rw [forEachWithRest_mem] at hG'
      obtain ⟨pre, x, rest, hs, hGx⟩ := hG'
      have e1 := h2 [] y ys rfl G hG
      have e2 := h2 (y :: pre) x rest (by simp [hs]) G hGx
      have : x ∈ ys := by rw [hs]; simp
      rw [← e2, e1] at this
      exact hn.1 this

theorem getD_append_cons (a : List Nat) (t : Nat) (ext : List Nat) :
    (a ++ t :: ext).getD a.length 0 = t := by
  induction a with
  | nil => simp
  | cons x a ih => simpa using ih

/-- From a state that satisfies the invariant no group is emitted twice. -/
theorem ListKCoresRecursive_nodup (edges : adjacency_list_t) (hs : SymmetricAdj edges)
    (hd : DescendingAdj edges) (g k : Nat) (fuel : Nat) (gi : GroupInfo)
    (hinv : GroupInfoInv edges ((g : Int) - (k : Int) - 1) gi) :
    (ListKCoresRecursive edges g k fuel gi).Nodup := by
  induction fuel generalizing gi with
  | zero => simp [ListKCoresRecursive]
  | succ n ih =>
    simp only [ListKCoresRecursive]
    apply forEachWithRest_nodup _ (fun G => G.getD gi.group.length 0) _
      (hinv.tail_sorted.imp (fun h => Nat.ne_of_lt h))
    · intro pre t rest htail
      split
      · next hadm =>
        split
        · simp
        · rcases GetNewGroupInfo_inv edges hs hd _ g gi hinv pre rest t htail hadm with
            hnil | ⟨_, hinv'⟩
          · rw [ListKCoresRecursive_nil_tail edges g k n _ hnil]; simp
          · exact ih _ hinv'
      · simp
    · intro pre t rest htail G hG
      split at hG
      · next hadm =>
        split at hG
        · rw [List.mem_singleton] at hG
          subst hG
          exact getD_append_cons _ _ _
        · rcases GetNewGroupInfo_inv edges hs hd _ g gi hinv pre rest t htail hadm with
            hnil | ⟨hgrp, hinv'⟩
          · rw [ListKCoresRecursive_nil_tail edges g k n _ hnil] at hG; simp at hG
          · obtain ⟨⟨ext, hext⟩, _⟩ := ListKCoresRecursive_sound edges hs hd g k n _ hinv' G hG
            rw [hgrp] at hext
            subst hext
            simp only [List.append_assoc, List.singleton_append]
            exact getD_append_cons _ _ _
      · simp at hG

/-- The list returned by `ListKCoresWithPrefix` has no duplicates. -/
theorem ListKCoresWithPrefix_nodup (nodes : List Nat) (edges : adjacency_list_t) (g k : Nat)
    (hnodes : nodes.Pairwise (· < ·)) (hs : SymmetricAdj edges) (hd : DescendingAdj edges)
    (hkg : k < g)
    (hp : g = k + 1 → ∀ v ∈ adj edges (nodes.getD 0 0), nodes.getD 0 0 < v) :
    (ListKCoresWithPrefix nodes edges g k).Nodup := by
  unfold ListKCoresWithPrefix
  split
  · next hlen =>
    have hne : nodes ≠ [] := by
      intro h; subst h; simp at hlen; omega
    have hnodes' := hnodes
    rw [head_of_sorted_cons nodes hne] at hnodes'
    apply ListKCoresRecursive_nodup edges hs hd
    apply initial_GroupInfoInv edges g k _ hkg
    · split
      · exact hd.reverse_sorted _
      · exact (List.pairwise_cons.mp hnodes').2
    · intro t ht
      split at ht
      · next hc => exact hp hc t (by simpa using ht)
      · exact (List.pairwise_cons.mp hnodes').1 t ht
    · intro hc t ht
      rw [if_pos hc] at ht
      simpa using ht
  · simp

theorem edgesFrom_symmetric (edges : adjacency_list_t) (hs : SymmetricAdj edges) (v : Nat) :
    SymmetricAdj (edgesFrom edges v) := by
  intro u _ w hw
  rw [adj_edgesFrom] at hw ⊢
  by_cases huv : u < v
  · simp [huv] at hw
  · rw [if_neg huv] at hw
    have hw' := List.mem_filter.mp hw
    have hvw : v ≤ w := by simpa using hw'.2
    rw [if_neg (by omega)]
    exact List.mem_filter.mpr ⟨hs.symm u w hw'.1, by simp; omega⟩

theorem edgesFrom_descending (edges : adjacency_list_t) (hd : DescendingAdj edges) (v : Nat) :
    DescendingAdj (edgesFrom edges v) := by
  intro l hl
  unfold edgesFrom at hl
  rw [List.mem_map] at hl
  obtain ⟨u, _, rfl⟩ := hl
  split
  · exact List.Pairwise.nil
  · exact (hd.adj_pairwise u).sublist (List.filter_sublist _)

theorem edgesFrom_adj_subset (edges : adjacency_list_t) (v u w : Nat)
    (h : w ∈ adj (edgesFrom edges v) u) : w ∈ adj edges u ∧ v ≤ w := by
  rw [adj_edgesFrom] at h
  split at h
  · simp at h
  · have := List.mem_filter.mp h
    exact ⟨this.1, by simpa using this.2⟩

theorem neighboursInside_mono (E E' : adjacency_list_t) (S : List Nat) (v : Nat)
    (h : ∀ w, w ∈ adj E v → w ∈ adj E' v) :
    (neighboursInside E S v).length ≤ (neighboursInside E' S v).length := by
  unfold neighboursInside
  have : (S.filter fun w => decide (w ≠ v) && decide (w ∈ adj E v))
      = (S.filter fun w => decide (w ≠ v) && decide (w ∈ adj E' v)).filter
          fun w => decide (w ∈ adj E v) := by
    rw [List.filter_filter]
    apply List.filter_congr
    intro w _
    by_cases h1 : w ∈ adj E v
    · simp [h1, h w h1]
    · simp [h1]
  rw [this]
  exact List.length_filter_le _ _

theorem MinDegreeInside_edgesFrom (edges : adjacency_list_t) (v : Nat) (S : List Nat) (k : Nat)
    (h : MinDegreeInside (edgesFrom edges v) S k) : MinDegreeInside edges S k := by
  intro x hx
  exact (h x hx).trans
    (neighboursInside_mono _ _ S x (fun w hw => (edgesFrom_adj_subset edges v x w hw).1))


/-- The adjacency of `ListAllKCores` at the start of iteration `v` is the
graph without the vertices below `v`. -/
theorem ListAllKCores_edges (edges : adjacency_list_t) (hs : SymmetricAdj edges)
    (hd : DescendingAdj edges) (g k v : Nat) (hv : v ≤ edges.length) :
    ((List.range v).foldl (ListAllKCoresBody g k) (ListAllKCoresInit edges k)).edges
      = edgesFrom edges v := by
  induction v with
  | zero => simp [ListAllKCoresInit, edgesFrom_zero]
  | succ m ih =>
    rw [List.range_succ, List.foldl_append]
    simp only [List.foldl_cons, List.foldl_nil, ListAllKCoresBody]
    rw [ih (by omega)]
    exact RemoveVertex_edgesFrom edges hs hd m (by omega)

/-- What one iteration of `ListAllKCores` emits, when the adjacency is the
graph without the vertices below `v`. -/
theorem ListAllKCoresEmit_sound (edges : adjacency_list_t) (hs : SymmetricAdj edges)
    (hl : LoopFree edges) (hd : DescendingAdj edges) (g k : Nat) (hkg : k < g)
    (s : ListAllState) (v : Nat) (hv : v < edges.length) (hE : s.edges = edgesFrom edges v) :
    (ListAllKCoresEmit g k s v).Nodup ∧
    ∀ G ∈ ListAllKCoresEmit g k s v,
      G.length = g ∧ G.Pairwise (· < ·) ∧ G.head? = some v ∧ MinDegreeInside edges G k := by
  unfold ListAllKCoresEmit
  split
  · simp only
    split
    · rw [hE]
      have hvE : v < (edgesFrom edges v).length := by rw [edgesFrom_length]; exact hv
      have hsorted := GetKHopNeighbourhood_sorted v (edgesFrom edges v) s.st.active_vertices (some 2)
      have hhead := GetKHopNeighbourhood_head v (edgesFrom edges v) s.st.active_vertices (some 2) hvE
      have hget := GetKHopNeighbourhood_getD v (edgesFrom edges v) s.st.active_vertices (some 2) hvE
      have hp : g = k + 1 → ∀ w ∈ adj (edgesFrom edges v)
          ((GetKHopNeighbourhood v (edgesFrom edges v) s.st.active_vertices (some 2)).getD 0 0),
          (GetKHopNeighbourhood v (edgesFrom edges v) s.st.active_vertices (some 2)).getD 0 0 < w := by
        intro _ w hw
        rw [hget] at hw ⊢
        have h1 := edgesFrom_adj_subset edges v v w hw
        have h2 : w ≠ v := fun e => hl.not_mem v (e ▸ h1.1)
        omega
      refine ⟨ListKCoresWithPrefix_nodup _ _ g k hsorted (edgesFrom_symmetric edges hs v)
        (edgesFrom_descending edges hd v) hkg hp, ?_⟩
      intro G hG
      obtain ⟨h1, h2, h3, h4, _⟩ := ListKCoresWithPrefix_sound _ _ g k hsorted
        (edgesFrom_symmetric edges hs v) (edgesFrom_descending edges hd v) hkg hp G hG
      exact ⟨h1, h2, h3.trans hhead, MinDegreeInside_edgesFrom edges v G k h4⟩
    · simp
  · simp

/-- The groups collected by the first `m` iterations of `ListAllKCores`. -/
theorem ListAllKCores_loop (edges : adjacency_list_t) (hs : SymmetricAdj edges)
    (hl : LoopFree edges) (hd : DescendingAdj edges) (g k : Nat) (hkg : k < g)
    (m : Nat) (hm : m ≤ edges.length) :
    ((List.range m).foldl (ListAllKCoresBody g k) (ListAllKCoresInit edges k)).kcores.Nodup ∧
    ∀ G ∈ ((List.range m).foldl (ListAllKCoresBody g k) (ListAllKCoresInit edges k)).kcores,
      G.length = g ∧ G.Pairwise (· < ·) ∧ MinDegreeInside edges G k ∧
      ∃ v, v < m ∧ G.head? = some v ∧
        G ∈ ListAllKCoresEmit g k
          ((List.range v).foldl (ListAllKCoresBody g k) (ListAllKCoresInit edges k)) v := by
  induction m with
  | zero => simp [ListAllKCoresInit]
  | succ m ih =>
    obtain ⟨ih1, ih2⟩ := ih (by omega)
    rw [List.range_succ, List.foldl_append]
    simp only [List.foldl_cons, List.foldl_nil]
    have hE := ListAllKCores_edges edges hs hd g k m (by omega)
    obtain ⟨e1, e2⟩ := ListAllKCoresEmit_sound edges hs hl hd g k hkg _ m (by omega) hE
    have hk : (ListAllKCoresBody g k
        ((List.range m).foldl (ListAllKCoresBody g k) (ListAllKCoresInit edges k)) m).kcores
        = ((List.range m).foldl (ListAllKCoresBody g k) (ListAllKCoresInit edges k)).kcores
          ++ ListAllKCoresEmit g k
            ((List.range m).foldl (ListAllKCoresBody g k) (ListAllKCoresInit edges k)) m := by
      simp [ListAllKCoresBody]
    rw [hk]
    constructor
    · rw [List.nodup_append]
      refine ⟨ih1, e1, ?_⟩
      intro G hG hG'
      obtain ⟨_, _, _, v, hv, hh, _⟩ := ih2 G hG
      have := (e2 G hG').2.2.1
      rw [hh] at this
      simp only [Option.some.injEq] at this
      omega
    · intro G hG
      rcases List.mem_append.mp hG with h | h
      · obtain ⟨a, b, c, v, hv, hh, hmem⟩ := ih2 G h
        exact ⟨a, b, c, v, by omega, hh, hmem⟩
      · obtain ⟨a, b, c, d⟩ := e2 G h
        exact ⟨a, b, d, m, by omega, c, h⟩

/-- C10: for symmetric, loop-free, strictly descending adjacency and
`k < g ≤ 2k+1`, `ListAllKCores` returns a list whenever the graph has at least
`g` vertices; the list contains no group twice, and every group in it is a
strictly ascending set of `g` vertices in which every vertex has at least `k`
neighbours, emitted in the iteration of its first (smallest) member. -/
theorem C10_ListAllKCores_unique_sound (edges : adjacency_list_t) (g k : Nat)
    (hs : SymmetricAdj edges) (hl : LoopFree edges) (hd : DescendingAdj edges)
    (hkg : k < g) (_hg : g ≤ 2 * k + 1) :
    (g ≤ edges.length → (ListAllKCores edges g k).isSome = true) ∧
    ∀ out, ListAllKCores edges g k = some out →
      out.Nodup ∧
      ∀ G ∈ out, G.length = g ∧ G.Pairwise (· < ·) ∧ MinDegreeInside edges G k ∧
        ∃ v, v < edges.length - g ∧ G.head? = some v ∧ (∀ x ∈ G, v ≤ x) ∧
          G ∈ ListAllKCoresEmit g k
            ((List.range v).foldl (ListAllKCoresBody g k) (ListAllKCoresInit edges k)) v := by
  constructor
  · intro h
    unfold ListAllKCores
    rw [if_neg (by omega)]
    rfl
  · intro out hout
    unfold ListAllKCores at hout
    split at hout
    · simp at hout
    · simp only [Option.some.injEq] at hout
      subst hout
      obtain ⟨h1, h2⟩ := ListAllKCores_loop edges hs hl hd g k hkg (edges.length - g) (by omega)
      refine ⟨h1, fun G hG => ?_⟩
      obtain ⟨a, b, c, v, hv, hh, hmem⟩ := h2 G hG
      refine ⟨a, b, c, v, hv, hh, ?_, hmem⟩
      intro x hx
      cases G with
      | nil => simp at hx
      | cons y ys =>
        simp only [List.head?_cons, Option.some.injEq] at hh
        subst hh
        rcases List.mem_cons.mp hx with e | e
        · omega
        · exact Nat.le_of_lt ((List.pairwise_cons.mp b).1 x e)

/-- C10 (witness): the hypotheses hold on the complete graph on four vertices
with `g = 3`, `k = 2`, where `ListAllKCores` returns the three triangles that
contain vertex `0`. -/
theorem C10_witness :
    SymmetricAdj exampleK4desc ∧ LoopFree exampleK4desc ∧ DescendingAdj exampleK4desc ∧
    ListAllKCores exampleK4desc 3 2 = some [[0, 1, 2], [0, 1, 3], [0, 2, 3]] ∧
    ((3 ≤ exampleK4desc.length → (ListAllKCores exampleK4desc 3 2).isSome = true) ∧
    ∀ out, ListAllKCores exampleK4desc 3 2 = some out →
      out.Nodup ∧
      ∀ G ∈ out, G.length = 3 ∧ G.Pairwise (· < ·) ∧ MinDegreeInside exampleK4desc G 2 ∧
        ∃ v, v < exampleK4desc.length - 3 ∧ G.head? = some v ∧ (∀ x ∈ G, v ≤ x) ∧
          G ∈ ListAllKCoresEmit 3 2
            ((List.range v).foldl (ListAllKCoresBody 3 2) (ListAllKCoresInit exampleK4desc 2)) v) :=
  ⟨by decide, by decide, by decide, by decide,
    C10_ListAllKCores_unique_sound exampleK4desc 3 2 (by decide) (by decide) (by decide)
      (by decide) (by decide)⟩


theorem GroupDominanceInner_some (labels : label_list_t) (label2 : List Int) (rest : List Nat)
    (index : Nat) (marks : List Bool) (r : List Bool × Bool)
    (h : GroupDominanceInner labels label2 rest index marks = some r) :
    ∃ a ∈ rest, PointDominanceTest (labelOf labels a) label2 ≠ DominanceTestResult.incomparable := by
  induction rest generalizing index marks with
  | nil => simp [GroupDominanceInner] at h
  | cons c rest ih =>
    simp only [GroupDominanceInner] at h
    split at h
    · split at h
      · next he => exact ⟨c, List.mem_cons_self c rest, by rw [he]; simp⟩
      · next he => exact ⟨c, List.mem_cons_self c rest, by rw [he]; simp⟩
      · obtain ⟨a, ha, hne⟩ := ih _ _ h
        exact ⟨a, List.mem_cons_of_mem c ha, hne⟩
    · obtain ⟨a, ha, hne⟩ := ih _ _ h
      exact ⟨a, List.mem_cons_of_mem c ha, hne⟩

/-- When a group dominates another one, the first member of the dominated
group is matched: some member of the dominating group has a label that is
equal to its label or dominates it. -/
theorem GroupDominanceTest_first (labels : label_list_t) (A B : List Nat) (b : Nat)
    (h : GroupDominanceTest A (b :: B) labels = true) :
    ∃ a ∈ A, PointDominanceTest (labelOf labels a) (labelOf labels b)
      ≠ DominanceTestResult.incomparable := by
  unfold GroupDominanceTest at h
  simp only [GroupDominanceLoop] at h
  split at h
  · simp at h
  · next marks dominated he => exact GroupDominanceInner_some labels _ A 0 _ _ he

theorem postprocess_sublist (labels : label_list_t) (L : group_list_t) :
    (postprocess labels L).Sublist L := by
  induction L with
  | nil => simp [postprocess]
  | cons c rest ih =>
    simp only [postprocess]
    split
    · exact ih.cons₂ c
    · exact ih.cons c

/-- The scan of `postprocess` rejects `curr` when a later group dominates it
and all groups up to that one start with a vertex labelled like the first
vertex of `curr`. -/
theorem postprocessIsSkyline_false (labels : label_list_t) (curr B : List Nat)
    (pre post : group_list_t)
    (hrun : ∀ X ∈ pre ++ [B],
      PointDominanceTest (labelOf labels (X.getD 0 0)) (labelOf labels (curr.getD 0 0))
        = DominanceTestResult.equal)
    (hdom : GroupDominanceTest B curr labels = true) :
    postprocessIsSkyline labels curr (pre ++ B :: post) = false := by
  induction pre with
  | nil =>
    simp only [List.nil_append, postprocessIsSkyline]
    rw [if_neg (by simpa using hrun B (by simp)), if_pos hdom]
  | cons X pre ih =>
    simp only [List.cons_append, postprocessIsSkyline]
    rw [if_neg (by simpa using hrun X (by simp))]
    split
    · rfl
    · exact ih (fun Y hY => hrun Y (by simp at hY ⊢; tauto))


theorem SkyInv.tail {labels : label_list_t} {size v : Nat} {c : List Nat} {rest : group_list_t}
    (h : SkyInv labels size v (c :: rest)) : SkyInv labels size v rest :=
  ⟨(List.pairwise_cons.mp h.notDominated).2, (List.pairwise_cons.mp h.heads).2,
    fun A hA => h.good A (List.mem_cons_of_mem c hA)⟩

theorem DominanceTestResult.eq_equal_of_ne (r : DominanceTestResult)
    (h1 : r ≠ DominanceTestResult.incomparable) (h2 : r ≠ DominanceTestResult.dominates) :
    r = DominanceTestResult.equal := by
  cases r <;> simp_all

/-- After `postprocess` no group of the list dominates another one, when the
list satisfies the skyline invariant and the vertices are in layered order. -/
theorem postprocess_pairwise (labels : label_list_t) (size : Nat)
    (hH1 : NoLaterDominates labels size) (hH2 : EqualLabelsContiguous labels size)
    (L : group_list_t) (v : Nat) (hinv : SkyInv labels size v L) :
    (postprocess labels L).Pairwise fun A B =>
      GroupDominanceTest A B labels = false ∧ GroupDominanceTest B A labels = false := by
  induction L with
  | nil => simp [postprocess]
  | cons curr rest ih =>
    simp only [postprocess]
    split
    · next hkeep =>
      rw [List.pairwise_cons]
      refine ⟨?_, ih hinv.tail⟩
      intro B hB
      have hBrest : B ∈ rest := (postprocess_sublist labels rest).subset hB
      refine ⟨(List.pairwise_cons.mp hinv.notDominated).1 B hBrest, ?_⟩
      by_contra hdom
      rw [Bool.not_eq_false] at hdom
      obtain ⟨pre, post, hsplit⟩ := List.append_of_mem hBrest
      obtain ⟨hcne, _, _⟩ := hinv.good curr (List.mem_cons_self curr rest)
      obtain ⟨b0, ctl, hc⟩ := List.exists_cons_of_ne_nil hcne
      have hb0 : curr.getD 0 0 = b0 := by rw [hc]; simp
      rw [hc] at hdom
      obtain ⟨a, ha, hne⟩ := GroupDominanceTest_first labels B ctl b0 hdom
      rw [← hc] at hdom
      obtain ⟨_, _, hBmem⟩ := hinv.good B (List.mem_cons_of_mem curr hBrest)
      have hcB : curr.getD 0 0 ≤ B.getD 0 0 := (List.pairwise_cons.mp hinv.heads).1 B hBrest
      have haB := hBmem a ha
      have heq : PointDominanceTest (labelOf labels a) (labelOf labels b0)
          = DominanceTestResult.equal :=
        DominanceTestResult.eq_equal_of_ne _ hne (hH1 a haB.2 b0 (by omega))
      have hrun : ∀ X ∈ pre ++ [B],
          PointDominanceTest (labelOf labels (X.getD 0 0)) (labelOf labels (curr.getD 0 0))
            = DominanceTestResult.equal := by
        intro X hX
        have hXrest : X ∈ rest := by
          rw [hsplit]
          rcases List.mem_append.mp hX with h | h
          · exact List.mem_append_left _ h
          · rw [List.mem_singleton] at h; subst h; simp
        have h1 : curr.getD 0 0 ≤ X.getD 0 0 := (List.pairwise_cons.mp hinv.heads).1 X hXrest
        have h2 : X.getD 0 0 ≤ B.getD 0 0 := by
          rcases List.mem_append.mp hX with h | h
          · have hp := (List.pairwise_cons.mp hinv.heads).2
            rw [hsplit] at hp
            exact (List.pairwise_append.mp hp).2.2 X h B (List.mem_cons_self B post)
          · rw [List.mem_singleton] at h; subst h; exact Nat.le_refl _
        rw [hb0]
        exact hH2 a haB.2 (X.getD 0 0) (by omega) b0 (by omega) heq
      have := postprocessIsSkyline_false labels curr B pre post hrun hdom
      rw [← hsplit] at this
      rw [this] at hkeep
      simp at hkeep
    · exact ih hinv.tail


theorem SkyInv.mono {labels : label_list_t} {size v v' : Nat} {sky : group_list_t}
    (h : SkyInv labels size v sky) (hv : v ≤ v') : SkyInv labels size v' sky :=
  ⟨h.notDominated, h.heads, fun A hA =>
    ⟨(h.good A hA).1, Nat.le_trans (h.good A hA).2.1 hv, (h.good A hA).2.2⟩⟩

theorem SkyInv.nil (labels : label_list_t) (size v : Nat) : SkyInv labels size v [] :=
  ⟨List.Pairwise.nil, List.Pairwise.nil, fun A hA => by simp at hA⟩

/-- Appending a good group that starts with `v` and is not dominated by the
skyline keeps the invariant. -/
theorem SkyInv.append {labels : label_list_t} {size v : Nat} {sky : group_list_t}
    (h : SkyInv labels size v sky) (A : List Nat) (hA : GoodGroup size v A)
    (hhead : A.getD 0 0 = v) (hdom : IsDominatedBySkyline A sky labels = false) :
    SkyInv labels size v (sky ++ [A]) := by
  unfold IsDominatedBySkyline at hdom
  rw [List.any_eq_false] at hdom
  refine ⟨?_, ?_, ?_⟩
  · rw [List.pairwise_append]
    refine ⟨h.notDominated, List.pairwise_singleton _ _, ?_⟩
    intro B hB C hC
    rw [List.mem_singleton] at hC; subst hC
    simpa using hdom B hB
  · rw [List.pairwise_append]
    refine ⟨h.heads, List.pairwise_singleton _ _, ?_⟩
    intro B hB C hC
    rw [List.mem_singleton] at hC; subst hC
    unfold headLE
    rw [hhead]
    exact (h.good B hB).2.1
  · intro B hB
    rcases List.mem_append.mp hB with hB | hB
    · exact h.good B hB
    · rw [List.mem_singleton] at hB; subst hB; exact hA

theorem UpdateSkyline_inv (labels : label_list_t) (size v : Nat) (sky : group_list_t)
    (reps : label_list_t) (h : SkyInv labels size v sky) (A : List Nat)
    (hA : GoodGroup size v A) (hhead : A.getD 0 0 = v) :
    SkyInv labels size v (UpdateSkyline A labels sky reps).1 := by
  unfold UpdateSkyline
  split
  · next hd => exact h.append A hA hhead (by simpa using hd)
  · exact h

theorem checkCandidates_inv (labels : label_list_t) (size v : Nat) (candidates : group_list_t)
    (idxs : List Nat)
    (hc : ∀ i ∈ idxs, GoodGroup size v (candidates.getD i []) ∧ (candidates.getD i []).getD 0 0 = v)
    (marks : List Bool) (sky : group_list_t) (reps : label_list_t)
    (h : SkyInv labels size v sky) :
    SkyInv labels size v (checkCandidates candidates labels idxs (marks, sky, reps)).2.1 := by
  induction idxs generalizing marks sky reps with
  | nil => simpa [checkCandidates] using h
  | cons i rest ih =>
    have hi := hc i (List.mem_cons_self i rest)
    have hrest : ∀ j ∈ rest, GoodGroup size v (candidates.getD j []) ∧
        (candidates.getD j []).getD 0 0 = v := fun j hj => hc j (List.mem_cons_of_mem i hj)
    simp only [checkCandidates]
    split
    · next hsk =>
      apply ih hrest
      apply h.append _ hi.1 hi.2
      simp only [Bool.and_eq_true, Bool.not_eq_true'] at hsk
      exact hsk.1
    · exact ih hrest _ _ _ h

/-- A list that starts with `v`, is strictly ascending and stays below `size` is a good group. -/
theorem GoodGroup_of_sorted (size v : Nat) (A : List Nat) (hhead : A.head? = some v)
    (hs : A.Pairwise (· < ·)) (hlt : ∀ a ∈ A, a < size) :
    GoodGroup size v A ∧ A.getD 0 0 = v := by
  cases A with
  | nil => simp at hhead
  | cons y ys =>
    simp only [List.head?_cons, Option.some.injEq] at hhead
    subst hhead
    refine ⟨⟨by simp, by simp, ?_⟩, by simp⟩
    intro a ha
    refine ⟨?_, hlt a ha⟩
    simp only [List.getD_cons_zero]
    rcases List.mem_cons.mp ha with e | e
    · omega
    · exact Nat.le_of_lt ((List.pairwise_cons.mp hs).1 a e)

theorem GetLastGroup_good (v size : Nat) (active : List Nat) (hv : v < size)
    (hact : active.getD v 0 ≠ 0) :
    GoodGroup size v (GetLastGroup v size active) ∧ (GetLastGroup v size active).getD 0 0 = v := by
  apply GoodGroup_of_sorted
  · unfold GetLastGroup
    obtain ⟨r, hr⟩ : ∃ r, size - v = r + 1 := ⟨size - v - 1, by omega⟩
    rw [hr, List.range_succ_eq_map, List.map_cons, List.filter_cons_of_pos (by simpa using hact)]
    simp
  · unfold GetLastGroup
    apply List.Pairwise.sublist (List.filter_sublist _)
    rw [List.pairwise_map]
    exact (List.pairwise_lt_range _).imp (fun h => by omega)
  · intro a ha
    unfold GetLastGroup at ha
    have h1 := (List.mem_filter.mp ha).1
    rw [List.mem_map] at h1
    obtain ⟨i, hi, rfl⟩ := h1
    rw [List.mem_range] at hi
    omega


/-- The groups listed for the neighbourhood of `v` in the graph without the
vertices below `v` are good groups that start with `v`. -/
theorem ListKCoresWithPrefix_good (edges : adjacency_list_t) (hs : SymmetricAdj edges)
    (hl : LoopFree edges) (hd : DescendingAdj edges) (g k : Nat) (hkg : k < g)
    (v : Nat) (hv : v < edges.length) (active : List Nat) (hops : Option Nat) :
    ∀ G ∈ ListKCoresWithPrefix (GetKHopNeighbourhood v (edgesFrom edges v) active hops)
        (edgesFrom edges v) g k,
      GoodGroup edges.length v G ∧ G.getD 0 0 = v := by
  intro G hG
  have hvE : v < (edgesFrom edges v).length := by rw [edgesFrom_length]; exact hv
  have hsorted := GetKHopNeighbourhood_sorted v (edgesFrom edges v) active hops
  have hhead := GetKHopNeighbourhood_head v (edgesFrom edges v) active hops hvE
  have hget := GetKHopNeighbourhood_getD v (edgesFrom edges v) active hops hvE
  have hp : g = k + 1 → ∀ w ∈ adj (edgesFrom edges v)
      ((GetKHopNeighbourhood v (edgesFrom edges v) active hops).getD 0 0),
      (GetKHopNeighbourhood v (edgesFrom edges v) active hops).getD 0 0 < w := by
    intro _ w hw
    rw [hget] at hw ⊢
    have h1 := edgesFrom_adj_subset edges v v w hw
    have h2 : w ≠ v := fun e => hl.not_mem v (e ▸ h1.1)
    omega
  obtain ⟨_, h2, h3, _, _⟩ := ListKCoresWithPrefix_sound _ _ g k hsorted
    (edgesFrom_symmetric edges hs v) (edgesFrom_descending edges hd v) hkg hp G hG
  apply GoodGroup_of_sorted _ _ _ (h3.trans hhead) h2
  intro x hx
  have hm := ListKCoresWithPrefix_members _ _ g k G hG x hx
  by_cases hc : g = k + 1
  · rcases hm.2 hc with e | e
    · rw [hget] at e; omega
    · rw [hget] at e
      exact hs.bounded v x (edgesFrom_adj_subset edges v v x e).1
  · have := (GetKHopNeighbourhood_ge v (edgesFrom edges v) active hops x (hm.1 hc)).2
    rwa [edgesFrom_length] at this

theorem GetKHopNeighbourhood_good (edges : adjacency_list_t) (v : Nat) (hv : v < edges.length)
    (E : adjacency_list_t) (hE : E.length = edges.length) (active : List Nat) (hops : Option Nat) :
    GoodGroup edges.length v (GetKHopNeighbourhood v E active hops) ∧
      (GetKHopNeighbourhood v E active hops).getD 0 0 = v := by
  apply GoodGroup_of_sorted _ _ _
    (GetKHopNeighbourhood_head v E active hops (by omega))
    (GetKHopNeighbourhood_sorted v E active hops)
  intro x hx
  have := (GetKHopNeighbourhood_ge v E active hops x hx).2
  omega

theorem CheckBoundaryCases_inv (myGraph : Graph) (s : SkylineState) (v g : Nat)
    (hv : v < myGraph.size) (hact : s.st.active_vertices.getD v 0 ≠ 0)
    (h : SkyInv myGraph.labels myGraph.size v s.skylineCommunities) :
    SkyInv myGraph.labels myGraph.size v (CheckBoundaryCases myGraph s v g).2.skylineCommunities ∧
    (CheckBoundaryCases myGraph s v g).2.edges = s.edges ∧
    (CheckBoundaryCases myGraph s v g).2.st = s.st := by
  unfold CheckBoundaryCases
  split
  · exact ⟨h, rfl, rfl⟩
  · split
    · obtain ⟨h1, h2⟩ := GetLastGroup_good v myGraph.size s.st.active_vertices hv hact
      exact ⟨UpdateSkyline_inv _ _ _ _ _ h _ h1 h2, rfl, rfl⟩
    · split
      · split
        · exact ⟨h, rfl, rfl⟩
        · exact ⟨h, rfl, rfl⟩
      · exact ⟨h, rfl, rfl⟩

theorem FilterVertices_inv (myGraph : Graph) (s : SkylineState) (v g k : Nat)
    (hsize : myGraph.size = myGraph.edges.length) (hlen : s.edges.length = myGraph.edges.length)
    (hv : v < myGraph.size)
    (h : SkyInv myGraph.labels myGraph.size v s.skylineCommunities) :
    SkyInv myGraph.labels myGraph.size v (FilterVertices myGraph s v g k).2.skylineCommunities ∧
    (FilterVertices myGraph s v g k).2.edges = s.edges ∧
    (FilterVertices myGraph s v g k).2.st = s.st ∧
    (FilterVertices myGraph s v g k).1 = GetKHopNeighbourhood v s.edges s.st.active_vertices
      (some (if g = k + 1 then 1 else 2)) := by
  unfold FilterVertices
  simp only
  generalize (if g = k + 1 then 1 else 2) = hops
  split
  · obtain ⟨h1, h2⟩ := GetKHopNeighbourhood_good myGraph.edges v (by omega) s.edges hlen
      s.st.active_vertices (some hops)
    rw [← hsize] at h1
    exact ⟨UpdateSkyline_inv _ _ _ _ _ h _ h1 h2, rfl, rfl, rfl⟩
  · exact ⟨h, rfl, rfl, rfl⟩

theorem ListAndCheckGroups_inv (myGraph : Graph) (hsize : myGraph.size = myGraph.edges.length)
    (hs : SymmetricAdj myGraph.edges) (hl : LoopFree myGraph.edges)
    (hd : DescendingAdj myGraph.edges) (g k : Nat) (hkg : k < g) (v : Nat)
    (hv : v < myGraph.size) (active : List Nat) (hops : Option Nat)
    (sky : group_list_t) (reps : label_list_t)
    (h : SkyInv myGraph.labels myGraph.size v sky) :
    SkyInv myGraph.labels myGraph.size v
      (ListAndCheckGroups (GetKHopNeighbourhood v (edgesFrom myGraph.edges v) active hops)
        (edgesFrom myGraph.edges v) myGraph.labels g k sky reps).1 := by
  unfold ListAndCheckGroups
  simp only
  apply checkCandidates_inv _ _ _ _ _ _ _ _ _ h
  intro i hi
  rw [List.mem_range] at hi
  have hmem : (ListKCoresWithPrefix (GetKHopNeighbourhood v (edgesFrom myGraph.edges v) active hops)
      (edgesFrom myGraph.edges v) g k).getD i [] ∈ ListKCoresWithPrefix
        (GetKHopNeighbourhood v (edgesFrom myGraph.edges v) active hops)
        (edgesFrom myGraph.edges v) g k := by
    rw [List.getD_eq_getElem _ _ hi]
    exact List.getElem_mem hi
  have := ListKCoresWithPrefix_good myGraph.edges hs hl hd g k hkg v (by omega) active hops _ hmem
  rw [hsize]
  exact this


/-- One iteration of the sequential main loop keeps the skyline invariant
and, unless the loop is left, moves the adjacency to the graph without the
vertices up to `v`. -/
theorem sequential.loopBody_inv (myGraph : Graph) (hsize : myGraph.size = myGraph.edges.length)
    (hs : SymmetricAdj myGraph.edges) (hl : LoopFree myGraph.edges)
    (hd : DescendingAdj myGraph.edges) (g k : Nat) (hkg : k < g)
    (s : SkylineState) (v : Nat) (hv : v < myGraph.size)
    (hE : s.edges = edgesFrom myGraph.edges v)
    (h : SkyInv myGraph.labels myGraph.size v s.skylineCommunities) :
    SkyInv myGraph.labels myGraph.size v
      (sequential.loopBody myGraph k g s v).2.skylineCommunities ∧
    ((sequential.loopBody myGraph k g s v).1 = false →
      (sequential.loopBody myGraph k g s v).2.edges = edgesFrom myGraph.edges (v + 1)) := by
  have hrem : RemoveVertex (edgesFrom myGraph.edges v) v = edgesFrom myGraph.edges (v + 1) :=
    RemoveVertex_edgesFrom myGraph.edges hs hd v (by omega)
  unfold sequential.loopBody
  by_cases hact : s.st.active_vertices.getD v 0 ≠ 0
  · rw [if_pos hact]
    obtain ⟨hc1, hc2, hc3⟩ := CheckBoundaryCases_inv myGraph s v g hv hact h
    simp only
    by_cases hbrk : (CheckBoundaryCases myGraph s v g).1 = true
    · rw [if_pos hbrk]
      exact ⟨hc1, fun hf => by simp at hf⟩
    · rw [if_neg hbrk]
      have hlen : (CheckBoundaryCases myGraph s v g).2.edges.length = myGraph.edges.length := by
        rw [hc2, hE, edgesFrom_length]
      obtain ⟨hF1, hF2, hF3, hF4⟩ := FilterVertices_inv myGraph
        (CheckBoundaryCases myGraph s v g).2 v g k hsize hlen hv hc1
      by_cases hlt : g < (FilterVertices myGraph (CheckBoundaryCases myGraph s v g).2 v g k).1.length
      · simp only [hlt, if_true]
        refine ⟨?_, fun _ => ?_⟩
        · rw [hF4, hF2, hc2, hE]
          rw [hF2, hc2, hE] at *
          exact ListAndCheckGroups_inv myGraph hsize hs hl hd g k hkg v hv _ _ _ _ hF1
        · rw [hF2, hc2, hE, hrem]
      · simp only [hlt, if_false]
        exact ⟨hF1, fun _ => by rw [hF2, hc2, hE, hrem]⟩
  · rw [if_neg hact]
    exact ⟨h, fun _ => by simp only; rw [hE, hrem]⟩

/-- The sequential main loop from vertex `v` on keeps the skyline invariant. -/
theorem sequential.mainLoop_inv (myGraph : Graph) (hsize : myGraph.size = myGraph.edges.length)
    (hs : SymmetricAdj myGraph.edges) (hl : LoopFree myGraph.edges)
    (hd : DescendingAdj myGraph.edges) (g k : Nat) (hkg : k < g)
    (cnt v : Nat) (hv : v + cnt ≤ myGraph.size) (s : SkylineState)
    (hE : s.edges = edgesFrom myGraph.edges v)
    (h : SkyInv myGraph.labels myGraph.size v s.skylineCommunities) :
    SkyInv myGraph.labels myGraph.size myGraph.size
      (sequential.mainLoop myGraph k g (List.range' v cnt) s).skylineCommunities := by
  induction cnt generalizing v s with
  | zero =>
    simp only [List.range'_zero, sequential.mainLoop]
    exact h.mono (by omega)
  | succ n ih =>
    simp only [List.range'_succ, sequential.mainLoop]
    obtain ⟨h1, h2⟩ := sequential.loopBody_inv myGraph hsize hs hl hd g k hkg s v (by omega) hE h
    by_cases hbrk : (sequential.loopBody myGraph k g s v).1 = true
    · rw [if_pos hbrk]
      exact h1.mono (by omega)
    · rw [if_neg hbrk]
      exact ih (v + 1) (by omega) _ (h2 (by simpa using hbrk)) (h1.mono (by omega))

/-- The skyline of the sequential driver before `postprocess` satisfies the invariant. -/
theorem sequential.skylineBeforePostprocess_inv (myGraph : Graph) (hpre : Preprocessed myGraph)
    (g k : Nat) (hkg : k < g) :
    SkyInv myGraph.labels myGraph.size myGraph.size
      (sequential.skylineBeforePostprocess myGraph k g) := by
  obtain ⟨hsize, hs, hl, hd, _, _⟩ := hpre
  unfold sequential.skylineBeforePostprocess
  rw [List.range_eq_range']
  apply sequential.mainLoop_inv myGraph hsize hs hl hd g k hkg myGraph.size 0 (by omega)
  · simp [InitialiseToMaxKCore, edgesFrom_zero]
  · simp only [InitialiseToMaxKCore]
    exact SkyInv.nil _ _ _

/-- Skyline minimality of the sequential driver on a preprocessed graph. -/
theorem sequential.GetSkylineCommunities_pairwise (myGraph : Graph) (hpre : Preprocessed myGraph)
    (g k : Nat) (hkg : k < g) :
    (sequential.GetSkylineCommunities myGraph k g).Pairwise fun A B =>
      GroupDominanceTest A B myGraph.labels = false ∧
        GroupDominanceTest B A myGraph.labels = false := by
  unfold sequential.GetSkylineCommunities
  exact postprocess_pairwise myGraph.labels myGraph.size hpre.2.2.2.2.1 hpre.2.2.2.2.2 _ _
    (sequential.skylineBeforePostprocess_inv myGraph hpre g k hkg)


theorem RemoveNodeStep_active (k : Nat) (st : BinSort) (remove : List Nat) (count e : Nat) :
    (RemoveNodeStep k st remove count e).1.active_vertices = st.active_vertices ∧
    (RemoveNodeStep k st remove count e).2.1.length ≤ remove.length + 1 := by
  unfold RemoveNodeStep
  split
  · simp only
    constructor
    · split <;> rfl
    · split <;> simp
  · simp

theorem RemoveNode_active (k u : Nat) (edges : adjacency_list_t) (st : BinSort)
    (remove : List Nat) :
    (RemoveNode k u edges st remove).1.active_vertices = st.active_vertices ∧
    (RemoveNode k u edges st remove).2.1.length ≤ remove.length + (adj edges u).length := by
  unfold RemoveNode
  have key : ∀ (l : List Nat) (acc : BinSort × List Nat × Nat),
      (l.foldl (fun (acc : BinSort × List Nat × Nat) e =>
          RemoveNodeStep k acc.1 acc.2.1 acc.2.2 e) acc).1.active_vertices
        = acc.1.active_vertices ∧
      (l.foldl (fun (acc : BinSort × List Nat × Nat) e =>
          RemoveNodeStep k acc.1 acc.2.1 acc.2.2 e) acc).2.1.length
        ≤ acc.2.1.length + l.length := by
    intro l
    induction l with
    | nil => intro acc; simp
    | cons e l ih =>
      intro acc
      simp only [List.foldl_cons, List.length_cons]
      have h1 := RemoveNodeStep_active k acc.1 acc.2.1 acc.2.2 e
      have h2 := ih (RemoveNodeStep k acc.1 acc.2.1 acc.2.2 e)
      exact ⟨h2.1.trans h1.1, by omega⟩
  have := key (adj edges u).reverse (st, remove, 0)
  simpa using this

theorem activeDegree_set_zero (edges : adjacency_list_t) (active : List Nat) (v : Nat)
    (hv : active.getD v 0 ≠ 0) :
    activeDegree edges (active.set v 0) + (adj edges v).length = activeDegree edges active := by
  have hlt : v < active.length := by
    by_contra h
    rw [List.getD_eq_default _ _ (by omega)] at hv
    exact hv rfl
  unfold activeDegree
  rw [List.length_set]
  rw [← Finset.add_sum_erase (Finset.range active.length) _ (Finset.mem_range.mpr hlt),
    ← Finset.add_sum_erase (Finset.range active.length)
      (fun w => if active.getD w 0 ≠ 0 then (adj edges w).length else 0)
      (Finset.mem_range.mpr hlt)]
  have h1 : (active.set v 0).getD v 0 = 0 := by
    rw [List.getD_eq_getElem _ _ (by simpa using hlt)]; simp
  have h2 : ∑ w in (Finset.range active.length).erase v,
      (if (active.set v 0).getD w 0 ≠ 0 then (adj edges w).length else 0)
      = ∑ w in (Finset.range active.length).erase v,
        (if active.getD w 0 ≠ 0 then (adj edges w).length else 0) := by
    apply Finset.sum_congr rfl
    intro w hw
    have hne : w ≠ v := (Finset.mem_erase.mp hw).1
    have hwlt : w < active.length := Finset.mem_range.mp (Finset.mem_erase.mp hw).2
    rw [List.getD_eq_getElem _ _ (by simpa using hwlt), List.getD_eq_getElem _ _ hwlt,
      List.getElem_set_ne (fun e => hne e.symm)]
  rw [h2]
  simp only [h1, ne_eq, not_true_eq_false, if_false, hv, not_false_eq_true, if_true]
  omega

/-- The draining loop of `ShrinkToMaxKCoreVertices` stops by itself: with fuel
for the queue and the adjacency entries of the active vertices, more fuel
does not change the result. -/
theorem ShrinkLoop_fuel (k : Nat) (edges : adjacency_list_t) (fuel fuel' : Nat) (st : BinSort)
    (q : List Nat) (a b : Nat)
    (h : q.length + activeDegree edges st.active_vertices ≤ fuel)
    (h' : q.length + activeDegree edges st.active_vertices ≤ fuel') :
    ShrinkLoop k edges fuel st q a b = ShrinkLoop k edges fuel' st q a b := by
  induction fuel generalizing fuel' st q a b with
  | zero =>
    have hq : q = [] := List.length_eq_zero.mp (by omega)
    subst hq
    cases fuel' <;> simp [ShrinkLoop]
  | succ n ih =>
    cases q with
    | nil => cases fuel' <;> simp [ShrinkLoop]
    | cons v q =>
      cases fuel' with
      | zero => simp at h'
      | succ m =>
        simp only [ShrinkLoop]
        simp only [List.length_cons] at h h'
        split
        · next hact =>
          have hr := RemoveNode_active k v edges
            { st with active_vertices := st.active_vertices.set v 0 } q
          have hd := activeDegree_set_zero edges st.active_vertices v hact
          apply ih
          · rw [hr.1]; simp only; omega
          · rw [hr.1]; simp only; omega
        · apply ih <;> omega


theorem sum_range_degree_le (edges : adjacency_list_t) (m : Nat) :
    ∑ w in Finset.range m, (adj edges w).length ≤ totalDegree edges := by
  induction edges generalizing m with
  | nil => simp [adj, totalDegree]
  | cons e es ih =>
    cases m with
    | zero => simp
    | succ m =>
      rw [Finset.sum_range_succ']
      have h1 : ∀ w, adj (e :: es) (w + 1) = adj es w := fun w => by simp [adj]
      have h2 : adj (e :: es) 0 = e := by simp [adj]
      simp only [h1, h2]
      have := ih m
      simp only [totalDegree, List.map_cons, List.sum_cons] at this ⊢
      omega

theorem activeDegree_le_total (edges : adjacency_list_t) (active : List Nat) :
    activeDegree edges active ≤ totalDegree edges := by
  unfold activeDegree
  refine Nat.le_trans (Finset.sum_le_sum (fun w _ => ?_)) (sum_range_degree_le edges active.length)
  split <;> omega

/-- The fuel that `ShrinkToMaxKCoreVertices` passes to its draining loop is
enough: any larger fuel gives the same result. -/
theorem ShrinkLoop_fuel_total (k : Nat) (edges : adjacency_list_t) (fuel fuel' : Nat)
    (st : BinSort) (q : List Nat) (a b : Nat)
    (h : q.length + totalDegree edges ≤ fuel) (h' : q.length + totalDegree edges ≤ fuel') :
    ShrinkLoop k edges fuel st q a b = ShrinkLoop k edges fuel' st q a b := by
  have := activeDegree_le_total edges st.active_vertices
  exact ShrinkLoop_fuel k edges fuel fuel' st q a b (by omega) (by omega)

theorem unvisitedDegree_set (edges : adjacency_list_t) (u : Nat) (visited : List Bool) (i : Nat)
    (hi : i < visited.length) (hv : visited.getD i false = false) :
    unvisitedDegree edges u (visited.set i true) + (adj edges (u + i)).length
      = unvisitedDegree edges u visited := by
  unfold unvisitedDegree
  rw [List.length_set]
  rw [← Finset.add_sum_erase (Finset.range visited.length) _ (Finset.mem_range.mpr hi),
    ← Finset.add_sum_erase (Finset.range visited.length)
      (fun j => if visited.getD j false = false then (adj edges (u + j)).length else 0)
      (Finset.mem_range.mpr hi)]
  have h1 : (visited.set i true).getD i false = true := by
    rw [List.getD_eq_getElem _ _ (by simpa using hi)]; simp
  have h2 : ∑ j in (Finset.range visited.length).erase i,
      (if (visited.set i true).getD j false = false then (adj edges (u + j)).length else 0)
      = ∑ j in (Finset.range visited.length).erase i,
        (if visited.getD j false = false then (adj edges (u + j)).length else 0) := by
    apply Finset.sum_congr rfl
    intro j hj
    have hne : j ≠ i := (Finset.mem_erase.mp hj).1
    have hjlt : j < visited.length := Finset.mem_range.mp (Finset.mem_erase.mp hj).2
    rw [List.getD_eq_getElem _ _ (by simpa using hjlt), List.getD_eq_getElem _ _ hjlt,
      List.getElem_set_ne (fun e => hne e.symm)]
  rw [h2]
  simp only [h1, hv, if_true, Bool.true_eq_false, if_false]
  omega

theorem khop_push (u : Nat) (active : List Nat) (visited : List Bool) (hops : Nat)
    (l : List Nat) (q : List (Nat × Nat)) (hq : ∀ e ∈ q, u ≤ e.1) :
    (l.foldl (fun q neighbour =>
        if active.getD neighbour 0 ≠ 0 then
          if u < neighbour ∧ (!visited.getD (neighbour - u) false) = true then
            q ++ [(neighbour, hops + 1)]
          else q
        else q) q).length ≤ q.length + l.length ∧
    ∀ e ∈ (l.foldl (fun q neighbour =>
        if active.getD neighbour 0 ≠ 0 then
          if u < neighbour ∧ (!visited.getD (neighbour - u) false) = true then
            q ++ [(neighbour, hops + 1)]
          else q
        else q) q), u ≤ e.1 := by
  induction l generalizing q with
  | nil => simpa using hq
  | cons x l ih =>
    simp only [List.foldl_cons, List.length_cons]
    split
    · split
      · next hx =>
        have := ih (q ++ [(x, hops + 1)]) (by
          intro e he
          rcases List.mem_append.mp he with h | h
          · exact hq e h
          · rw [List.mem_singleton] at h; subst h; exact Nat.le_of_lt hx.1)
        simp only [List.length_append, List.length_singleton] at this
        exact ⟨by omega, this.2⟩
      · have := ih q hq; exact ⟨by omega, this.2⟩
    · have := ih q hq; exact ⟨by omega, this.2⟩

/-- The traversal of `GetKHopNeighbourhood` stops by itself: with fuel for the
queue and the adjacency entries of the unvisited vertices, more fuel does
not change the result. -/
theorem KHopLoop_fuel (u : Nat) (edges : adjacency_list_t) (active : List Nat)
    (k remaining : Nat) (fuel fuel' : Nat) (q : List (Nat × Nat)) (visited : List Bool)
    (nv : Nat) (hlen : visited.length = edges.length - u) (hq : ∀ e ∈ q, u ≤ e.1)
    (h : q.length + unvisitedDegree edges u visited ≤ fuel)
    (h' : q.length + unvisitedDegree edges u visited ≤ fuel') :
    KHopLoop u edges active k remaining fuel q visited nv
      = KHopLoop u edges active k remaining fuel' q visited nv := by
  induction fuel generalizing fuel' q visited nv with
  | zero =>
    have hq0 : q = [] := List.length_eq_zero.mp (by omega)
    subst hq0
    cases fuel' <;> simp [KHopLoop]
  | succ n ih =>
    cases q with
    | nil => cases fuel' <;> simp [KHopLoop]
    | cons e q =>
      obtain ⟨v, hops⟩ := e
      cases fuel' with
      | zero => simp at h'
      | succ m =>
        have huv : u ≤ v := hq (v, hops) (List.mem_cons_self _ _)
        have hq' : ∀ e ∈ q, u ≤ e.1 := fun e he => hq e (List.mem_cons_of_mem _ he)
        simp only [KHopLoop]
        simp only [List.length_cons] at h h'
        split
        · split
          · next hvis =>
            have hvis' : visited.getD (v - u) false = false := by simpa using hvis
            by_cases hin : v - u < visited.length
            · have hd := unvisitedDegree_set edges u visited (v - u) hin hvis'
              have huv' : u + (v - u) = v := by omega
              rw [huv'] at hd
              split
              · have hp := khop_push u active (visited.set (v - u) true) hops (adj edges v) q hq'
                apply ih _ _ _ _ (by simpa using hlen) hp.2 <;> omega
              · apply ih _ _ _ _ (by simpa using hlen) hq' <;> omega
            · have hadj : adj edges v = [] := adj_of_length_le edges v (by omega)
              have hset : visited.set (v - u) true = visited :=
                List.set_eq_of_length_le (by omega)
              rw [hadj, hset]
              simp only [List.foldl_nil, ite_self]
              apply ih _ _ _ _ hlen hq' <;> omega
          · apply ih _ _ _ _ hlen hq' <;> omega
        · rfl

theorem unvisitedDegree_le_total (edges : adjacency_list_t) (u : Nat) (visited : List Bool) :
    unvisitedDegree edges u visited ≤ totalDegree edges := by
  unfold unvisitedDegree
  have h1 : ∑ i in Finset.range visited.length,
      (if visited.getD i false = false then (adj edges (u + i)).length else 0)
      ≤ ∑ i in Finset.range visited.length, (adj edges (u + i)).length :=
    Finset.sum_le_sum (fun i _ => by split <;> omega)
  have h2 := Finset.sum_range_add (fun w => (adj edges w).length) u visited.length
  have h3 := sum_range_degree_le edges (u + visited.length)
  omega

/-- The fuel that `GetKHopNeighbourhood` passes to its traversal is enough:
any larger fuel gives the same visited marks. -/
theorem KHopLoop_fuel_total (u : Nat) (edges : adjacency_list_t) (active : List Nat)
    (k remaining : Nat) (fuel' : Nat) (h' : totalDegree edges + 1 ≤ fuel') :
    KHopLoop u edges active k remaining (totalDegree edges + 1) [(u, 0)]
        (List.replicate (edges.length - u) false) 0
      = KHopLoop u edges active k remaining fuel' [(u, 0)]
        (List.replicate (edges.length - u) false) 0 := by
  have := unvisitedDegree_le_total edges u (List.replicate (edges.length - u) false)
  apply KHopLoop_fuel
  · simp
  · intro e he
    rw [List.mem_singleton] at he; subst he; exact Nat.le_refl _
  · simp only [List.length_singleton]; omega
  · simp only [List.length_singleton]; omega

/-- The loop of `std::set_intersection` consumes an element in every
iteration: fuel beyond the two lengths does not change the result. -/
theorem set_intersection_fuel (fuel fuel' : Nat) (a b : List Nat)
    (h : a.length + b.length ≤ fuel) (h' : a.length + b.length ≤ fuel') :
    set_intersection fuel a b = set_intersection fuel' a b := by
  induction fuel generalizing fuel' a b with
  | zero =>
    have h1 : a = [] := List.length_eq_zero.mp (by omega)
    subst h1
    cases fuel' <;> simp [set_intersection]
  | succ n ih =>
    cases a with
    | nil => cases fuel' <;> simp [set_intersection]
    | cons x as =>
      cases b with
      | nil => cases fuel' <;> simp [set_intersection]
      | cons y bs =>
        cases fuel' with
        | zero => simp at h'
        | succ m =>
          simp only [List.length_cons] at h h'
          simp only [set_intersection]
          split
          · exact ih m as (y :: bs) (by simp only [List.length_cons]; omega)
              (by simp only [List.length_cons]; omega)
          · split
            · exact ih m (x :: as) bs (by simp only [List.length_cons]; omega)
                (by simp only [List.length_cons]; omega)
            · rw [ih m as bs (by omega) (by omega)]


/-- What the loop of `PointDominanceTest` returns on points of equal dimension. -/
theorem PointDominanceLoop_spec (p q : List Int) (hlen : p.length = q.length) (eq be : Nat) :
    (PointDominanceLoop p q eq be = none ↔ ¬ List.Forall₂ (· ≤ ·) p q) ∧
    ∀ eq' be', PointDominanceLoop p q eq be = some (eq', be') →
      be' = be + p.length ∧ eq' ≤ eq + p.length ∧ (eq' = eq + p.length ↔ p = q) := by
  induction p generalizing q eq be with
  | nil =>
    have hq : q = [] := List.length_eq_zero.mp hlen.symm
    subst hq
    simp [PointDominanceLoop]
  | cons a p ih =>
    cases q with
    | nil => simp at hlen
    | cons b q =>
      simp only [List.length_cons, Nat.add_right_cancel_iff] at hlen
      simp only [PointDominanceLoop, List.headD_cons, List.tail_cons, List.forall₂_cons,
        List.length_cons]
      by_cases hab : a ≤ b
      · rw [if_pos hab]
        obtain ⟨h1, h2⟩ := ih q hlen (if a = b then eq + 1 else eq) (be + 1)
        refine ⟨by rw [h1]; simp [hab], ?_⟩
        intro eq' be' hsome
        obtain ⟨e1, e2, e3⟩ := h2 eq' be' hsome
        by_cases he : a = b
        · simp only [he, if_true] at e2 e3
          refine ⟨by omega, by omega, ?_⟩
          rw [show eq' = eq + (p.length + 1) ↔ eq' = eq + 1 + p.length by omega, e3]
          simp [he]
        · simp only [he, if_false] at e2 e3
          refine ⟨by omega, by omega, ?_⟩
          constructor
          · intro h; omega
          · intro h; simp only [List.cons.injEq] at h; exact absurd h.1 he
      · rw [if_neg hab]
        simp [hab]

theorem PointDominanceTest_equal_iff (p q : List Int) (hlen : p.length = q.length) :
    PointDominanceTest p q = DominanceTestResult.equal ↔ p = q := by
  obtain ⟨h1, h2⟩ := PointDominanceLoop_spec p q hlen 0 0
  unfold PointDominanceTest
  cases hloop : PointDominanceLoop p q 0 0 with
  | none =>
    simp only
    constructor
    · intro h; cases h
    · intro h
      subst h
      exfalso
      apply (h1.mp hloop)
      exact List.forall₂_same.mpr (fun _ _ => le_refl _)
  | some r =>
    obtain ⟨eq', be'⟩ := r
    obtain ⟨e1, e2, e3⟩ := h2 eq' be' hloop
    simp only
    simp only [Nat.zero_add] at e1 e3
    split
    · next h => simp [e3.mp h]
    · next h =>
      constructor
      · intro hh; cases hh
      · intro hh; exact absurd (e3.mpr hh) h

theorem PointDominanceTest_dominates_iff (p q : List Int) (hlen : p.length = q.length) :
    PointDominanceTest p q = DominanceTestResult.dominates ↔
      List.Forall₂ (· ≤ ·) p q ∧ p ≠ q := by
  obtain ⟨h1, h2⟩ := PointDominanceLoop_spec p q hlen 0 0
  unfold PointDominanceTest
  cases hloop : PointDominanceLoop p q 0 0 with
  | none =>
    simp only
    constructor
    · intro h; cases h
    · intro h; exact absurd h.1 (h1.mp hloop)
  | some r =>
    obtain ⟨eq', be'⟩ := r
    obtain ⟨e1, e2, e3⟩ := h2 eq' be' hloop
    have hall : List.Forall₂ (· ≤ ·) p q := by
      by_contra hc
      rw [h1.mpr hc] at hloop
      cases hloop
    simp only
    simp only [Nat.zero_add] at e1 e3
    split
    · next h =>
      constructor
      · intro hh; cases hh
      · intro hh; exact absurd (e3.mp h) hh.2
    · next h =>
      simp only [true_iff]
      exact ⟨hall, fun hh => h (e3.mpr hh)⟩

theorem sum_lt_of_forall₂_le (p q : List Int) (h : List.Forall₂ (· ≤ ·) p q) (hne : p ≠ q) :
    p.sum < q.sum := by
  induction h with
  | nil => exact absurd rfl hne
  | @cons a b p q hab _ ih =>
    simp only [List.sum_cons]
    by_cases hpq : p = q
    · subst hpq
      have : a ≠ b := fun e => hne (by rw [e])
      omega
    · have := ih hpq
      omega

theorem sum_le_of_forall₂_le (p q : List Int) (h : List.Forall₂ (· ≤ ·) p q) :
    p.sum ≤ q.sum := by
  induction h with
  | nil => simp
  | @cons a b p q hab _ ih => simp only [List.sum_cons]; omega


/-- Bit `d` of the mask of `DeterminePartition` is set exactly when `d` is a
dimension below 32 in which the point exceeds the pivot. -/
theorem DeterminePartition_testBit (point pivot : List Int) (d : Nat) :
    (DeterminePartition point pivot).testBit d =
      decide (d < point.length ∧ d < 32 ∧ pivot.getD d 0 < point.getD d 0) := by
  unfold DeterminePartition
  generalize point.length = n
  induction n with
  | zero => simp
  | succ n ih =>
    rw [List.range_succ, List.foldl_append]
    simp only [List.foldl_cons, List.foldl_nil]
    by_cases hc : pivot.getD n 0 < point.getD n 0
    · rw [if_pos hc, Nat.testBit_mod_two_pow, Nat.testBit_or, ih, Nat.one_shiftLeft,
        Nat.testBit_two_pow]
      by_cases hdn : d = n
      · subst hdn
        have hc2 := hc
        simp only [List.getD_eq_getElem?_getD] at hc2
        by_cases h32 : d < 32 <;> simp [h32, hc2]
      · by_cases h32 : d < 32
        · have e1 : (d < n + 1) = (d < n) := by
            apply propext; constructor <;> intro h <;> omega
          simp [h32, hdn, Ne.symm hdn, e1]
        · simp [h32]
    · rw [if_neg hc, ih]
      by_cases hdn : d = n
      · subst hdn
        have hc2 := hc
        simp only [List.getD_eq_getElem?_getD] at hc2
        simp [hc2]
      · have e1 : (d < n + 1) = (d < n) := by
          apply propext; constructor <;> intro h <;> omega
        simp [e1]

theorem countP_eq_imp {α : Type} (l : List α) (p q : α → Bool)
    (himp : ∀ x ∈ l, p x = true → q x = true) (hcount : l.countP q ≤ l.countP p) :
    ∀ x ∈ l, q x = p x := by
  induction l with
  | nil => simp
  | cons a l ih =>
    have hmono : l.countP p ≤ l.countP q :=
      List.countP_mono_left (fun x hx => himp x (List.mem_cons_of_mem _ hx))
    have ha := himp a (List.mem_cons_self _ _)
    simp only [List.countP_cons] at hcount
    intro x hx
    rcases List.mem_cons.mp hx with rfl | hx
    · cases hp : p x <;> cases hq : q x <;> simp_all
      omega
    · apply ih (fun x hx => himp x (List.mem_cons_of_mem _ hx)) _ x hx
      cases hp : p a <;> cases hq : q a <;> simp_all
      omega

theorem getD_le_of_forall₂ (p q : List Int) (h : List.Forall₂ (· ≤ ·) p q) (d : Nat) :
    p.getD d 0 ≤ q.getD d 0 := by
  induction h generalizing d with
  | nil => simp
  | @cons a b p q hab _ ih =>
    cases d with
    | zero => simpa using hab
    | succ d => simpa using ih d

/-- The sort key of `GetIndicesSortedByPartition` respects dominance: a point
that dominates another one has the smaller key. -/
theorem key_lt_of_dominates (a b : ExtendedPoint) (pivot : List Int)
    (hlen : a.label.length = b.label.length)
    (ham : a.mask = DeterminePartition a.label pivot)
    (hbm : b.mask = DeterminePartition b.label pivot)
    (hab : a.setBitsCount = popcount a.mask) (hbb : b.setBitsCount = popcount b.mask)
    (has : a.sum = a.label.sum) (hbs : b.sum = b.label.sum)
    (hdom : PointDominanceTest a.label b.label = DominanceTestResult.dominates) :
    ExtendedPoint.lt a b = true := by
  obtain ⟨hle, hne⟩ := (PointDominanceTest_dominates_iff _ _ hlen).mp hdom
  have hsum := sum_lt_of_forall₂_le _ _ hle hne
  have himp : ∀ d, a.mask.testBit d = true → b.mask.testBit d = true := by
    intro d
    rw [ham, hbm, DeterminePartition_testBit, DeterminePartition_testBit]
    simp only [decide_eq_true_eq]
    rintro ⟨h1, h2, h3⟩
    have := getD_le_of_forall₂ _ _ hle d
    exact ⟨by omega, h2, by omega⟩
  have hmono : a.setBitsCount ≤ b.setBitsCount := by
    rw [hab, hbb]
    exact List.countP_mono_left (fun d _ => himp d)
  unfold ExtendedPoint.lt
  by_cases h1 : a.setBitsCount < b.setBitsCount
  · simp [h1]
  · have hcnt : b.setBitsCount ≤ a.setBitsCount := by omega
    have hbits : ∀ d ∈ List.range 32, b.mask.testBit d = a.mask.testBit d := by
      apply countP_eq_imp _ _ _ (fun d _ => himp d)
      rw [hab, hbb] at hcnt
      exact hcnt
    have hmask : a.mask = b.mask := by
      apply Nat.eq_of_testBit_eq
      intro d
      by_cases hd : d < 32
      · exact (hbits d (List.mem_range.mpr hd)).symm
      · rw [ham, hbm, DeterminePartition_testBit, DeterminePartition_testBit]
        simp [hd]
    have h2 : ¬ b.setBitsCount < a.setBitsCount := by omega
    have h3 : ¬ a.mask < b.mask := by omega
    have h4 : ¬ b.mask < a.mask := by omega
    have h5 : a.sum < b.sum := by rw [has, hbs]; exact hsum
    simp [h1, h2, h3, h4, h5]


theorem labelLt_cons_cons (x y : Int) (a b : List Int) :
    labelLt (x :: a) (y :: b) = false ↔ y < x ∨ (x = y ∧ labelLt a b = false) := by
  simp only [labelLt, List.headD_cons, List.tail_cons]
  by_cases h1 : y < x
  · simp [h1]
  · by_cases h2 : x < y
    · simp [h1, h2]
      omega
    · have : x = y := by omega
      simp [h1, h2, this]

theorem labelLt_self (a : List Int) : labelLt a a = false := by
  induction a with
  | nil => rfl
  | cons x a ih => rw [labelLt_cons_cons]; exact Or.inr ⟨rfl, ih⟩

theorem labelLt_false_trans (a b c : List Int) (hab : a.length = b.length)
    (hbc : b.length = c.length) (h1 : labelLt b a = false) (h2 : labelLt c b = false) :
    labelLt c a = false := by
  induction a generalizing b c with
  | nil =>
    have hb : b = [] := List.length_eq_zero.mp hab.symm
    subst hb
    have hc : c = [] := List.length_eq_zero.mp hbc.symm
    subst hc
    rfl
  | cons x a ih =>
    cases b with
    | nil => simp at hab
    | cons y b =>
      cases c with
      | nil => simp at hbc
      | cons z c =>
        simp only [List.length_cons, Nat.add_right_cancel_iff] at hab hbc
        rw [labelLt_cons_cons] at h1 h2 ⊢
        rcases h1 with h1 | ⟨e1, h1⟩
        · rcases h2 with h2 | ⟨e2, h2⟩
          · left; omega
          · left; omega
        · rcases h2 with h2 | ⟨e2, h2⟩
          · left; omega
          · right; exact ⟨by omega, ih b c hab hbc h1 h2⟩

theorem labelLt_total (a b : List Int) (hab : a.length = b.length) :
    labelLt b a = false ∨ labelLt a b = false := by
  induction a generalizing b with
  | nil => right; rfl
  | cons x a ih =>
    cases b with
    | nil => left; rfl
    | cons y b =>
      simp only [List.length_cons, Nat.add_right_cancel_iff] at hab
      rw [labelLt_cons_cons, labelLt_cons_cons]
      rcases lt_trichotomy x y with h | h | h
      · left; left; exact h
      · rcases ih b hab with h2 | h2
        · left; right; exact ⟨h.symm, h2⟩
        · right; right; exact ⟨h, h2⟩
      · right; left; exact h

theorem labelLt_antisymm (a b : List Int) (hab : a.length = b.length)
    (h1 : labelLt b a = false) (h2 : labelLt a b = false) : a = b := by
  induction a generalizing b with
  | nil => exact (List.length_eq_zero.mp hab.symm).symm
  | cons x a ih =>
    cases b with
    | nil => simp at hab
    | cons y b =>
      simp only [List.length_cons, Nat.add_right_cancel_iff] at hab
      rw [labelLt_cons_cons] at h1 h2
      rcases h1 with h1 | ⟨e1, h1⟩
      · rcases h2 with h2 | ⟨e2, h2⟩
        · omega
        · omega
      · rcases h2 with h2 | ⟨e2, h2⟩
        · omega
        · rw [e2, ih b hab h1 h2]

/-- The order "not after" of the sort keys, spelled out level by level. -/
theorem ExtendedPoint.lt_false_iff (a b : ExtendedPoint) :
    ExtendedPoint.lt b a = false ↔
      a.setBitsCount < b.setBitsCount ∨ (a.setBitsCount = b.setBitsCount ∧
        (a.mask < b.mask ∨ (a.mask = b.mask ∧
          (a.sum < b.sum ∨ (a.sum = b.sum ∧ labelLt b.label a.label = false))))) := by
  unfold ExtendedPoint.lt
  by_cases h1 : b.setBitsCount < a.setBitsCount
  · simp only [h1, if_true]
    constructor
    · intro h; cases h
    · intro h; omega
  · rw [if_neg h1]
    by_cases h2 : a.setBitsCount < b.setBitsCount
    · simp [h2]
    · rw [if_neg h2]
      have e1 : a.setBitsCount = b.setBitsCount := by omega
      by_cases h3 : b.mask < a.mask
      · simp only [h3, if_true]
        constructor
        · intro h; cases h
        · intro h; omega
      · rw [if_neg h3]
        by_cases h4 : a.mask < b.mask
        · simp [h4, e1]
        · rw [if_neg h4]
          have e2 : a.mask = b.mask := by omega
          by_cases h5 : b.sum < a.sum
          · simp only [h5, if_true]
            constructor
            · intro h; cases h
            · intro h; omega
          · rw [if_neg h5]
            by_cases h6 : a.sum < b.sum
            · simp [h6, e1, e2]
            · rw [if_neg h6]
              have e3 : a.sum = b.sum := by omega
              simp [e1, e2, e3]

theorem ExtendedPoint.lt_false_trans (a b c : ExtendedPoint)
    (hab : a.label.length = b.label.length) (hbc : b.label.length = c.label.length)
    (h1 : ExtendedPoint.lt b a = false) (h2 : ExtendedPoint.lt c b = false) :
    ExtendedPoint.lt c a = false := by
  rw [ExtendedPoint.lt_false_iff] at h1 h2 ⊢
  by_cases hs : a.setBitsCount < c.setBitsCount
  · exact Or.inl hs
  · have h1 := h1.resolve_left (by rcases h2 with h | h <;> omega)
    have h2 := h2.resolve_left (by omega)
    refine Or.inr ⟨by omega, ?_⟩
    obtain ⟨-, h1⟩ := h1
    obtain ⟨-, h2⟩ := h2
    by_cases hm : a.mask < c.mask
    · exact Or.inl hm
    · have h1 := h1.resolve_left (by rcases h2 with h | h <;> omega)
      have h2 := h2.resolve_left (by omega)
      refine Or.inr ⟨by omega, ?_⟩
      obtain ⟨-, h1⟩ := h1
      obtain ⟨-, h2⟩ := h2
      by_cases hsum : a.sum < c.sum
      · exact Or.inl hsum
      · have h1 := h1.resolve_left (by rcases h2 with h | h <;> omega)
        have h2 := h2.resolve_left (by omega)
        exact Or.inr ⟨by omega, labelLt_false_trans _ _ _ hab hbc h1.2 h2.2⟩

theorem ExtendedPoint.lt_total (a b : ExtendedPoint) (hab : a.label.length = b.label.length) :
    ExtendedPoint.lt b a = false ∨ ExtendedPoint.lt a b = false := by
  rw [ExtendedPoint.lt_false_iff, ExtendedPoint.lt_false_iff]
  rcases lt_trichotomy a.setBitsCount b.setBitsCount with h | h | h
  · exact Or.inl (Or.inl h)
  · rcases lt_trichotomy a.mask b.mask with h2 | h2 | h2
    · exact Or.inl (Or.inr ⟨h, Or.inl h2⟩)
    · rcases lt_trichotomy a.sum b.sum with h3 | h3 | h3
      · exact Or.inl (Or.inr ⟨h, Or.inr ⟨h2, Or.inl h3⟩⟩)
      · rcases labelLt_total _ _ hab with h4 | h4
        · exact Or.inl (Or.inr ⟨h, Or.inr ⟨h2, Or.inr ⟨h3, h4⟩⟩⟩)
        · exact Or.inr (Or.inr ⟨h.symm, Or.inr ⟨h2.symm, Or.inr ⟨h3.symm, h4⟩⟩⟩)
      · exact Or.inr (Or.inr ⟨h.symm, Or.inr ⟨h2.symm, Or.inl h3⟩⟩)
    · exact Or.inr (Or.inr ⟨h.symm, Or.inl h2⟩)
  · exact Or.inr (Or.inl h)

theorem ExtendedPoint.label_eq_of_lt_false (a b : ExtendedPoint)
    (hab : a.label.length = b.label.length)
    (h1 : ExtendedPoint.lt b a = false) (h2 : ExtendedPoint.lt a b = false) :
    a.label = b.label := by
  rw [ExtendedPoint.lt_false_iff] at h1 h2
  have h1 := h1.resolve_left (by rcases h2 with h | h <;> omega)
  have h2 := h2.resolve_left (by omega)
  obtain ⟨-, h1⟩ := h1
  obtain ⟨-, h2⟩ := h2
  have h1 := h1.resolve_left (by rcases h2 with h | h <;> omega)
  have h2 := h2.resolve_left (by omega)
  obtain ⟨-, h1⟩ := h1
  obtain ⟨-, h2⟩ := h2
  have h1 := h1.resolve_left (by rcases h2 with h | h <;> omega)
  have h2 := h2.resolve_left (by omega)
  exact labelLt_antisymm _ _ hab h1.2 h2.2

/-- Insertion sort yields a sorted list as soon as the relation is total and
transitive on the elements that occur. -/
theorem pairwise_insertionSort_of {α : Type} (r : α → α → Prop) [DecidableRel r] (P : α → Prop)
    (htot : ∀ a b, P a → P b → r a b ∨ r b a)
    (htrans : ∀ a b c, P a → P b → P c → r a b → r b c → r a c)
    (l : List α) (hP : ∀ x ∈ l, P x) : (l.insertionSort r).Pairwise r := by
  have hins : ∀ (a : α) (l : List α), P a → (∀ x ∈ l, P x) → l.Pairwise r →
      (l.orderedInsert r a).Pairwise r := by
    intro a l hPa
    induction l with
    | nil => intro _ _; simp
    | cons b l ih =>
      intro hPl hpw
      have hPb := hPl b (List.mem_cons_self _ _)
      have hPl2 : ∀ x ∈ l, P x := fun x hx => hPl x (List.mem_cons_of_mem _ hx)
      rw [List.pairwise_cons] at hpw
      rw [List.orderedInsert]
      split
      · next hrab =>
        rw [List.pairwise_cons]
        refine ⟨?_, List.pairwise_cons.mpr hpw⟩
        intro x hx
        rcases List.mem_cons.mp hx with rfl | hx
        · exact hrab
        · exact htrans _ _ _ hPa hPb (hPl2 x hx) hrab (hpw.1 x hx)
      · next hrab =>
        have hrba : r b a := (htot a b hPa hPb).resolve_left hrab
        rw [List.pairwise_cons]
        refine ⟨?_, ih hPl2 hpw.2⟩
        intro x hx
        rcases (List.mem_orderedInsert r).mp hx with rfl | hx
        · exact hrba
        · exact hpw.1 x hx
  induction l with
  | nil => simp
  | cons a l ih =>
    rw [List.insertionSort]
    have hPl2 : ∀ x ∈ l, P x := fun x hx => hP x (List.mem_cons_of_mem _ hx)
    apply hins a _ (hP a (List.mem_cons_self _ _)) _ (ih hPl2)
    intro x hx
    exact hPl2 x ((List.perm_insertionSort r l).subset hx)


theorem labelOf_map_label (S : List ExtendedPoint) (j : Nat) (h : j < S.length) :
    labelOf (S.map fun e => e.label) j = (S.get ⟨j, h⟩).label := by
  simp [labelOf, List.getD_eq_getElem?_getD, List.getElem?_map, h]

/-- Labels listed in the order of their sorted keys: no later label dominates
an earlier one, and equal labels are contiguous. -/
theorem sorted_keys_labels (S : List ExtendedPoint) (pivot : List Int) (dim : Nat)
    (hkeys : ∀ e ∈ S, Keyed pivot dim e)
    (hsorted : S.Pairwise fun a b => ExtendedPoint.lt b a = false) :
    NoLaterDominates (S.map fun e => e.label) S.length ∧
      EqualLabelsContiguous (S.map fun e => e.label) S.length := by
  have hk : ∀ (i : Nat) (h : i < S.length), Keyed pivot dim (S.get ⟨i, h⟩) :=
    fun i h => hkeys _ (List.get_mem S i h)
  have hr : ∀ (i j : Nat) (hi : i < S.length) (hj : j < S.length), i < j →
      ExtendedPoint.lt (S.get ⟨j, hj⟩) (S.get ⟨i, hi⟩) = false := by
    intro i j hi hj hij
    exact List.pairwise_iff_get.mp hsorted ⟨i, hi⟩ ⟨j, hj⟩ hij
  have hrefl : ∀ (a b : ExtendedPoint), Keyed pivot dim a → Keyed pivot dim b →
      a.label = b.label → ExtendedPoint.lt b a = false := by
    intro a b ha hb hab
    obtain ⟨-, a2, a3, a4⟩ := ha
    obtain ⟨-, b2, b3, b4⟩ := hb
    rw [ExtendedPoint.lt_false_iff]
    have e2 : a.mask = b.mask := by rw [a2, b2, hab]
    have e3 : a.setBitsCount = b.setBitsCount := by rw [a3, b3, e2]
    have e4 : a.sum = b.sum := by rw [a4, b4, hab]
    exact Or.inr ⟨e3, Or.inr ⟨e2, Or.inr ⟨e4, by rw [hab]; exact labelLt_self _⟩⟩⟩
  constructor
  · intro j hj i hi
    have hi2 : i < S.length := by omega
    rw [labelOf_map_label S j hj, labelOf_map_label S i hi2]
    intro hdom
    have kj := hk j hj
    have ki := hk i hi2
    have hlt := key_lt_of_dominates _ _ pivot (kj.1.trans ki.1.symm) kj.2.1 ki.2.1 kj.2.2.1
      ki.2.2.1 kj.2.2.2 ki.2.2.2 hdom
    by_cases hij : i = j
    · subst hij
      rw [hrefl _ _ kj kj rfl] at hlt
      cases hlt
    · rw [hr i j hi2 hj (by omega)] at hlt
      cases hlt
  · intro j hj m hm i hi
    have hm2 : m < S.length := by omega
    have hi2 : i < S.length := by omega
    rw [labelOf_map_label S j hj, labelOf_map_label S i hi2, labelOf_map_label S m hm2]
    have kj := hk j hj
    have ki := hk i hi2
    have km := hk m hm2
    rw [PointDominanceTest_equal_iff _ _ (kj.1.trans ki.1.symm),
      PointDominanceTest_equal_iff _ _ (km.1.trans ki.1.symm)]
    intro hji
    -- i ≤ m ≤ j in the sort order, and j is not after i
    have h_ji : ExtendedPoint.lt (S.get ⟨j, hj⟩) (S.get ⟨i, hi2⟩) = false :=
      hrefl _ _ ki kj hji.symm
    have h_im : ExtendedPoint.lt (S.get ⟨m, hm2⟩) (S.get ⟨i, hi2⟩) = false := by
      by_cases e : i = m
      · subst e; exact hrefl _ _ ki ki rfl
      · exact hr i m hi2 hm2 (by omega)
    have h_mj : ExtendedPoint.lt (S.get ⟨j, hj⟩) (S.get ⟨m, hm2⟩) = false := by
      by_cases e : m = j
      · subst e; exact hrefl _ _ km km rfl
      · exact hr m j hm2 hj (by omega)
    have h_ij : ExtendedPoint.lt (S.get ⟨i, hi2⟩) (S.get ⟨j, hj⟩) = false :=
      hrefl _ _ kj ki hji
    -- m ≤ j ≤ i
    have h_mi : ExtendedPoint.lt (S.get ⟨i, hi2⟩) (S.get ⟨m, hm2⟩) = false :=
      ExtendedPoint.lt_false_trans _ _ _ (km.1.trans kj.1.symm) (kj.1.trans ki.1.symm) h_mj h_ij
    exact ExtendedPoint.label_eq_of_lt_false _ _ (km.1.trans ki.1.symm) h_mi h_im

theorem wrapInt32_of_range (x : Int) (h1 : -2147483648 ≤ x) (h2 : x < 2147483648) :
    wrapInt32 x = x := by
  unfold wrapInt32; omega

theorem wrapInt32_add_left (a b : Int) : wrapInt32 (wrapInt32 a + b) = wrapInt32 (a + b) := by
  unfold wrapInt32; omega

/-- The 32-bit accumulation is the exact sum reduced to a 32-bit `int`. -/
theorem accumulate_wrap (values : List Int) (a : Int) :
    accumulate values (wrapInt32 a) = wrapInt32 (a + values.sum) := by
  induction values generalizing a with
  | nil => simp [accumulate]
  | cons x xs ih =>
    have h := ih (a + x)
    simp only [accumulate, List.foldl_cons, List.sum_cons] at h ⊢
    rw [wrapInt32_add_left, h, add_assoc]

theorem accumulate_zero (values : List Int) : accumulate values 0 = wrapInt32 values.sum := by
  have h := accumulate_wrap values 0
  have h0 : wrapInt32 0 = 0 := by decide
  rw [h0, zero_add] at h
  exact h

/-- Without overflow the accumulated `int` is the exact coordinate sum. -/
theorem accumulate_of_NoSumOverflow (points : label_list_t) (h : NoSumOverflow points)
    (p : List Int) (hp : p ∈ points) : accumulate p 0 = p.sum := by
  have h1 := h p hp p.length (Nat.lt_succ_self _)
  rw [List.take_length] at h1
  rw [accumulate_zero]
  exact wrapInt32_of_range _ h1.1 h1.2


/-- The sorted keys of `GetIndicesSortedByPartition`. -/
theorem GetIndicesSortedByPartition_spec (points : label_list_t)
    (hdim : ∀ l ∈ points, l.length = (labelOf points 0).length)
    (hsum : NoSumOverflow points) :
    ∃ S : List ExtendedPoint,
      GetIndicesSortedByPartition points (PartitionData points) = S.map (fun e => e.id) ∧
      (S.map fun e => e.id).Perm (List.range points.length) ∧
      (∀ e ∈ S, Keyed (GetPivot points) (labelOf points 0).length e ∧
        e.label = labelOf points e.id) ∧
      S.Pairwise fun a b => ExtendedPoint.lt b a = false := by
  let mk : Nat → ExtendedPoint := fun index =>
    { id := index
      sum := accumulate (labelOf points index) 0
      mask := (PartitionData points).getD index 0
      setBitsCount := popcount ((PartitionData points).getD index 0)
      label := labelOf points index }
  let keys : List ExtendedPoint := (List.range points.length).map mk
  have hkeys : ∀ e ∈ keys, Keyed (GetPivot points) (labelOf points 0).length e ∧
      e.label = labelOf points e.id := by
    intro e he
    obtain ⟨i, hi, rfl⟩ := List.mem_map.mp he
    have hi2 : i < points.length := List.mem_range.mp hi
    have hmem : labelOf points i ∈ points := by
      simp only [labelOf, List.getD_eq_getElem?_getD, List.getElem?_eq_getElem hi2,
        Option.getD_some]
      exact List.getElem_mem hi2
    refine ⟨⟨hdim _ hmem, ?_, rfl, accumulate_of_NoSumOverflow points hsum _ hmem⟩, rfl⟩
    simp only [mk, PartitionData, labelOf, List.getD_eq_getElem?_getD, List.getElem?_map,
      List.getElem?_eq_getElem hi2, Option.map_some', Option.getD_some]
  refine ⟨keys.insertionSort fun a b => ExtendedPoint.lt b a = false, rfl, ?_, ?_, ?_⟩
  · have h1 := (List.perm_insertionSort (fun a b => ExtendedPoint.lt b a = false) keys).map
      (fun e => e.id)
    have h2 : keys.map (fun e => e.id) = List.range points.length := by
      simp only [keys, List.map_map]
      conv_rhs => rw [← List.map_id (List.range points.length)]
      rfl
    rw [h2] at h1
    exact h1
  · intro e he
    exact hkeys e ((List.perm_insertionSort _ keys).subset he)
  · apply pairwise_insertionSort_of _
      (fun e => e.label.length = (labelOf points 0).length)
    · intro a b ha hb
      exact ExtendedPoint.lt_total a b (ha.trans hb.symm)
    · intro a b c ha hb hc h1 h2
      exact ExtendedPoint.lt_false_trans a b c (ha.trans hb.symm) (hb.trans hc.symm) h1 h2
    · intro e he
      exact (hkeys e he).1.1


theorem getD_set_self (l : List Nat) (i v : Nat) (h : i < l.length) :
    (l.set i v).getD i 0 = v := by
  simp [List.getD_eq_getElem?_getD, List.getElem?_set, h]

theorem getD_set_ne (l : List Nat) (i v x : Nat) (h : i ≠ x) :
    (l.set i v).getD x 0 = l.getD x 0 := by
  simp [List.getD_eq_getElem?_getD, List.getElem?_set, h]

theorem invert_foldl (mapping : List Nat) (js : List Nat) (acc : List Nat)
    (hb : ∀ j ∈ js, mapping.getD j 0 < acc.length)
    (hnd : (js.map fun j => mapping.getD j 0).Nodup) :
    (js.foldl (fun rm newIndex => rm.set (mapping.getD newIndex 0) newIndex) acc).length
        = acc.length ∧
      (∀ j ∈ js, (js.foldl (fun rm newIndex => rm.set (mapping.getD newIndex 0) newIndex)
        acc).getD (mapping.getD j 0) 0 = j) ∧
      ∀ x, x ∉ (js.map fun j => mapping.getD j 0) →
        (js.foldl (fun rm newIndex => rm.set (mapping.getD newIndex 0) newIndex) acc).getD x 0
          = acc.getD x 0 := by
  induction js generalizing acc with
  | nil => simp
  | cons j js ih =>
    simp only [List.foldl_cons]
    rw [List.map_cons, List.nodup_cons] at hnd
    have hb2 : ∀ j2 ∈ js, mapping.getD j2 0 < (acc.set (mapping.getD j 0) j).length := by
      intro j2 hj2
      rw [List.length_set]
      exact hb j2 (List.mem_cons_of_mem _ hj2)
    obtain ⟨h1, h2, h3⟩ := ih (acc.set (mapping.getD j 0) j) hb2 hnd.2
    refine ⟨by rw [h1, List.length_set], ?_, ?_⟩
    · intro j2 hj2
      rcases List.mem_cons.mp hj2 with rfl | hj2
      · rw [h3 _ hnd.1]
        exact getD_set_self _ _ _ (hb j2 (List.mem_cons_self _ _))
      · exact h2 j2 hj2
    · intro x hx
      simp only [List.map_cons, List.mem_cons, not_or] at hx
      rw [h3 x hx.2]
      exact getD_set_ne _ _ _ _ (Ne.symm hx.1)

/-- The function `InvertMapping` inverts a permutation of the vertex ids. -/
theorem InvertMapping_spec (mapping : List Nat)
    (hperm : mapping.Perm (List.range mapping.length)) :
    (InvertMapping mapping).length = mapping.length ∧
      (∀ j, j < mapping.length → mapping.getD j 0 < mapping.length ∧
        (InvertMapping mapping).getD (mapping.getD j 0) 0 = j) ∧
      ∀ x, x < mapping.length → (InvertMapping mapping).getD x 0 < mapping.length ∧
        mapping.getD ((InvertMapping mapping).getD x 0) 0 = x := by
  have hmem : ∀ j, j < mapping.length → mapping.getD j 0 < mapping.length := by
    intro j hj
    have : mapping.getD j 0 ∈ mapping := by
      simp only [List.getD_eq_getElem?_getD, List.getElem?_eq_getElem hj, Option.getD_some]
      exact List.getElem_mem hj
    exact List.mem_range.mp (hperm.subset this)
  have hmap : (List.range mapping.length).map (fun j => mapping.getD j 0) = mapping := by
    apply List.ext_getElem
    · simp
    · intro i h1 h2
      simp [List.getD_eq_getElem?_getD, List.getElem?_eq_getElem h2]
  have hnd : ((List.range mapping.length).map fun j => mapping.getD j 0).Nodup := by
    rw [hmap]
    exact (hperm.nodup_iff).mpr (List.nodup_range _)
  obtain ⟨h1, h2, -⟩ := invert_foldl mapping (List.range mapping.length)
    (List.replicate mapping.length 0)
    (by intro j hj; rw [List.length_replicate]; exact hmem j (List.mem_range.mp hj)) hnd
  have hinv : ∀ j, j < mapping.length →
      (InvertMapping mapping).getD (mapping.getD j 0) 0 = j :=
    fun j hj => h2 j (List.mem_range.mpr hj)
  refine ⟨by unfold InvertMapping; rw [h1, List.length_replicate], ?_, ?_⟩
  · intro j hj
    exact ⟨hmem j hj, hinv j hj⟩
  · intro x hx
    have hxm : x ∈ mapping := hperm.symm.subset (List.mem_range.mpr hx)
    obtain ⟨j, hj, rfl⟩ := List.getElem_of_mem hxm
    have e : mapping.getD j 0 = mapping[j] := by
      simp [List.getD_eq_getElem?_getD, List.getElem?_eq_getElem hj]
    rw [← e, hinv j hj]
    exact ⟨hj, rfl⟩


theorem TransformEdgeLists_adj (edges : adjacency_list_t) (sortedIndices newIndices : List Nat)
    (i : Nat) (hi : i < sortedIndices.length) :
    adj (TransformEdgeLists edges sortedIndices newIndices) i =
      ((adj edges (sortedIndices.getD i 0)).map fun neighbour =>
        newIndices.getD neighbour 0).insertionSort (· ≥ ·) := by
  simp [adj, TransformEdgeLists, List.getD_eq_getElem?_getD, List.getElem?_map,
    List.getElem?_eq_getElem hi]

theorem adj_nodup (edges : adjacency_list_t) (hnd : ∀ l ∈ edges, l.Nodup) (u : Nat) :
    (adj edges u).Nodup := by
  by_cases hu : u < edges.length
  · apply hnd
    simp only [adj, List.getD_eq_getElem?_getD, List.getElem?_eq_getElem hu, Option.getD_some]
    exact List.getElem_mem hu
  · rw [adj_of_length_le edges u (by omega)]
    exact List.nodup_nil

/-- The function `TransformEdgeLists` applied to a permutation and its inverse
keeps the adjacency symmetric and loop-free and sorts every neighbour list
strictly descending. -/
theorem TransformEdgeLists_props (edges : adjacency_list_t) (mapping : List Nat)
    (hperm : mapping.Perm (List.range mapping.length)) (hlen : mapping.length = edges.length)
    (hs : SymmetricAdj edges) (hl : LoopFree edges) (hnd : ∀ l ∈ edges, l.Nodup) :
    (TransformEdgeLists edges mapping (InvertMapping mapping)).length = edges.length ∧
      SymmetricAdj (TransformEdgeLists edges mapping (InvertMapping mapping)) ∧
      LoopFree (TransformEdgeLists edges mapping (InvertMapping mapping)) ∧
      DescendingAdj (TransformEdgeLists edges mapping (InvertMapping mapping)) := by
  obtain ⟨-, hfwd, hbwd⟩ := InvertMapping_spec mapping hperm
  have hlenT : (TransformEdgeLists edges mapping (InvertMapping mapping)).length
      = mapping.length := by
    simp [TransformEdgeLists]
  have hmem : ∀ i, i < mapping.length → ∀ w,
      w ∈ adj (TransformEdgeLists edges mapping (InvertMapping mapping)) i ↔
        ∃ x ∈ adj edges (mapping.getD i 0), (InvertMapping mapping).getD x 0 = w := by
    intro i hi w
    rw [TransformEdgeLists_adj _ _ _ i hi, (List.perm_insertionSort _ _).mem_iff, List.mem_map]
  refine ⟨by rw [hlenT, hlen], ?_, ?_, ?_⟩
  · intro i hi w hw
    rw [hlenT] at hi
    obtain ⟨x, hx, rfl⟩ := (hmem i hi _).mp hw
    have hxb : x < mapping.length := by rw [hlen]; exact hs.bounded _ _ hx
    obtain ⟨hb1, hb2⟩ := hbwd x hxb
    rw [hmem _ hb1]
    refine ⟨mapping.getD i 0, ?_, (hfwd i hi).2⟩
    rw [hb2]
    exact hs.symm _ _ hx
  · intro i hi hw
    rw [hlenT] at hi
    obtain ⟨x, hx, hxi⟩ := (hmem i hi _).mp hw
    have hxb : x < mapping.length := by rw [hlen]; exact hs.bounded _ _ hx
    obtain ⟨-, hb2⟩ := hbwd x hxb
    rw [hxi] at hb2
    rw [hb2] at hx
    exact hl.not_mem _ hx
  · intro l hl2
    simp only [TransformEdgeLists, List.map_map, List.mem_map, Function.comp] at hl2
    obtain ⟨v, -, rfl⟩ := hl2
    have hsorted : (((adj edges v).map fun neighbour =>
        (InvertMapping mapping).getD neighbour 0).insertionSort (· ≥ ·)).Pairwise (· ≥ ·) :=
      List.sorted_insertionSort (· ≥ ·) _
    have hnodup : (((adj edges v).map fun neighbour =>
        (InvertMapping mapping).getD neighbour 0).insertionSort (· ≥ ·)).Nodup := by
      rw [(List.perm_insertionSort _ _).nodup_iff]
      apply List.Nodup.map_on _ (adj_nodup edges hnd v)
      intro x hx y hy hxy
      have hxb : x < mapping.length := by rw [hlen]; exact hs.bounded _ _ hx
      have hyb : y < mapping.length := by rw [hlen]; exact hs.bounded _ _ hy
      rw [← (hbwd x hxb).2, ← (hbwd y hyb).2, hxy]
    exact (hsorted.and hnodup).imp (fun h => lt_of_le_of_ne h.1 (Ne.symm h.2))


/-- The function `UpdateGraph` turns every well-formed input graph whose
coordinate sums do not overflow into a preprocessed graph. -/
theorem UpdateGraph_Preprocessed (labels : label_list_t) (edges : adjacency_list_t)
    (h : WellFormedInput labels edges) (hsum : NoSumOverflow labels) :
    Preprocessed (UpdateGraph labels edges) := by
  obtain ⟨hlen, hdim, hs, hl, hnd⟩ := h
  obtain ⟨S, hS, hperm, hkeys, hsorted⟩ := GetIndicesSortedByPartition_spec labels hdim hsum
  have hSlen : S.length = labels.length := by
    have := hperm.length_eq
    simpa using this
  have hto : (UpdateGraph labels edges).toOriginal = S.map (fun e => e.id) := hS
  have hedges : (UpdateGraph labels edges).edges =
      TransformEdgeLists edges (S.map fun e => e.id) (InvertMapping (S.map fun e => e.id)) := by
    show TransformEdgeLists edges (GetIndicesSortedByPartition labels (PartitionData labels))
      (InvertMapping (GetIndicesSortedByPartition labels (PartitionData labels))) = _
    rw [hS]
  have hlabels : (UpdateGraph labels edges).labels = S.map (fun e => e.label) := by
    show ReorderLabels labels (GetIndicesSortedByPartition labels (PartitionData labels)) = _
    rw [hS, ReorderLabels, List.map_map]
    apply List.map_congr_left
    intro e he
    exact ((hkeys e he).2).symm
  have hsize : (UpdateGraph labels edges).size = labels.length := rfl
  have hperm2 : (S.map fun e => e.id).Perm (List.range (S.map fun e => e.id).length) := by
    rw [List.length_map, hSlen]; exact hperm
  obtain ⟨t1, t2, t3, t4⟩ := TransformEdgeLists_props edges (S.map fun e => e.id) hperm2
    (by rw [List.length_map, hSlen, hlen]) hs hl hnd
  obtain ⟨n1, n2⟩ := sorted_keys_labels S (GetPivot labels) (labelOf labels 0).length
    (fun e he => (hkeys e he).1) hsorted
  unfold Preprocessed
  rw [hedges, hlabels, hsize, ← hSlen]
  exact ⟨by rw [t1, hSlen, hlen], t2, t3, t4, n1, n2⟩

theorem UpdateGraph_Preprocessed_witness :
    WellFormedInput exampleS2Labels exampleK4 ∧ NoSumOverflow exampleS2Labels ∧
      Preprocessed (UpdateGraph exampleS2Labels exampleK4) :=
  ⟨by decide, by decide,
    UpdateGraph_Preprocessed exampleS2Labels exampleK4 (by decide) (by decide)⟩


theorem forall₂_le_iff_getD (p q : List Int) (hlen : p.length = q.length) :
    List.Forall₂ (· ≤ ·) p q ↔ ∀ d, d < p.length → p.getD d 0 ≤ q.getD d 0 := by
  induction p generalizing q with
  | nil =>
    have hq : q = [] := List.length_eq_zero.mp hlen.symm
    subst hq
    simp
  | cons a p ih =>
    cases q with
    | nil => simp at hlen
    | cons b q =>
      simp only [List.length_cons, Nat.add_right_cancel_iff] at hlen
      rw [List.forall₂_cons, ih q hlen]
      constructor
      · rintro ⟨hab, h⟩ d hd
        cases d with
        | zero => simpa using hab
        | succ d =>
          have := h d (by simpa using hd)
          simpa using this
      · intro h
        refine ⟨by simpa using h 0 (by simp), ?_⟩
        intro d hd
        have := h (d + 1) (by simpa using hd)
        simpa using this

theorem PointDominanceTest_dominates_iff_getD (p q : List Int) (hlen : p.length = q.length) :
    PointDominanceTest p q = DominanceTestResult.dominates ↔
      (∀ d, d < p.length → p.getD d 0 ≤ q.getD d 0) ∧ p ≠ q := by
  rw [PointDominanceTest_dominates_iff p q hlen, forall₂_le_iff_getD p q hlen]

theorem PointDominanceTest_incomparable_iff (p q : List Int) (hlen : p.length = q.length) :
    PointDominanceTest p q = DominanceTestResult.incomparable ↔
      ∃ d, d < p.length ∧ q.getD d 0 < p.getD d 0 := by
  have he := PointDominanceTest_equal_iff p q hlen
  have hd := PointDominanceTest_dominates_iff_getD p q hlen
  constructor
  · intro h
    by_contra hc
    have hall : ∀ d, d < p.length → p.getD d 0 ≤ q.getD d 0 := by
      intro d hdl
      by_contra hlt
      exact hc ⟨d, hdl, by omega⟩
    by_cases hpq : p = q
    · rw [he.mpr hpq] at h
      cases h
    · rw [hd.mpr ⟨hall, hpq⟩] at h
      cases h
  · rintro ⟨d, hdl, hlt⟩
    cases hres : PointDominanceTest p q with
    | incomparable => rfl
    | equal =>
      have := he.mp hres
      subst this
      omega
    | dominates =>
      have := (hd.mp hres).1 d hdl
      omega

/-- C11: on points of equal dimension `PointDominanceTest` returns `equal`
exactly for equal points, `dominates` exactly when the first point is at most
the second in every dimension and differs from it, and `incomparable` exactly
when the first point is larger in some dimension. -/
theorem C11_PointDominanceTest_spec (p q : List Int) (hlen : p.length = q.length) :
    (PointDominanceTest p q = DominanceTestResult.equal ↔ p = q) ∧
    (PointDominanceTest p q = DominanceTestResult.dominates ↔
      (∀ d, d < p.length → p.getD d 0 ≤ q.getD d 0) ∧ p ≠ q) ∧
    (PointDominanceTest p q = DominanceTestResult.incomparable ↔
      ∃ d, d < p.length ∧ q.getD d 0 < p.getD d 0) :=
  ⟨PointDominanceTest_equal_iff p q hlen, PointDominanceTest_dominates_iff_getD p q hlen,
    PointDominanceTest_incomparable_iff p q hlen⟩

/-- C11 (witness): the points `(1, 2)` and `(1, 3)`. -/
theorem C11_witness :
    ([1, 2] : List Int).length = ([1, 3] : List Int).length ∧
    PointDominanceTest [1, 2] [1, 3] = DominanceTestResult.dominates ∧
    ((PointDominanceTest [1, 2] [1, 3] = DominanceTestResult.equal ↔
        ([1, 2] : List Int) = [1, 3]) ∧
      (PointDominanceTest [1, 2] [1, 3] = DominanceTestResult.dominates ↔
        (∀ d, d < ([1, 2] : List Int).length →
          ([1, 2] : List Int).getD d 0 ≤ ([1, 3] : List Int).getD d 0) ∧
          ([1, 2] : List Int) ≠ [1, 3]) ∧
      (PointDominanceTest [1, 2] [1, 3] = DominanceTestResult.incomparable ↔
        ∃ d, d < ([1, 2] : List Int).length ∧
          ([1, 3] : List Int).getD d 0 < ([1, 2] : List Int).getD d 0)) :=
  ⟨by decide, by decide, C11_PointDominanceTest_spec [1, 2] [1, 3] (by decide)⟩

theorem PointDominanceTest_reverse_of_dominates (p q : List Int) (hlen : p.length = q.length)
    (h : PointDominanceTest p q = DominanceTestResult.dominates) :
    PointDominanceTest q p = DominanceTestResult.incomparable := by
  obtain ⟨hall, hne⟩ := (PointDominanceTest_dominates_iff_getD p q hlen).mp h
  rw [PointDominanceTest_incomparable_iff q p hlen.symm]
  by_contra hc
  apply hne
  apply List.ext_getElem hlen
  intro d h1 h2
  have h3 := hall d h1
  have h4 : ¬ p.getD d 0 < q.getD d 0 := fun hlt => hc ⟨d, h2, hlt⟩
  have h5 : p.getD d 0 = q.getD d 0 := by omega
  simpa [List.getD_eq_getElem?_getD, List.getElem?_eq_getElem h1,
    List.getElem?_eq_getElem h2] using h5

/-- C12: on points of equal dimension the result `equal` is symmetric, and if
the first point dominates the second then the reverse test returns
`incomparable`. -/
theorem C12_PointDominanceTest_antisymmetric (p q : List Int) (hlen : p.length = q.length) :
    (PointDominanceTest p q = DominanceTestResult.equal ↔
      PointDominanceTest q p = DominanceTestResult.equal) ∧
    (PointDominanceTest p q = DominanceTestResult.dominates →
      PointDominanceTest q p = DominanceTestResult.incomparable) := by
  refine ⟨?_, PointDominanceTest_reverse_of_dominates p q hlen⟩
  rw [PointDominanceTest_equal_iff p q hlen, PointDominanceTest_equal_iff q p hlen.symm]
  exact eq_comm

/-- C12 (witness): the points `(1, 2)` and `(1, 3)`, where the first dominates
the second. -/
theorem C12_witness :
    ([1, 2] : List Int).length = ([1, 3] : List Int).length ∧
    PointDominanceTest [1, 2] [1, 3] = DominanceTestResult.dominates ∧
    PointDominanceTest [1, 3] [1, 2] = DominanceTestResult.incomparable ∧
    ((PointDominanceTest [1, 2] [1, 3] = DominanceTestResult.equal ↔
        PointDominanceTest [1, 3] [1, 2] = DominanceTestResult.equal) ∧
      (PointDominanceTest [1, 2] [1, 3] = DominanceTestResult.dominates →
        PointDominanceTest [1, 3] [1, 2] = DominanceTestResult.incomparable)) :=
  ⟨by decide, by decide, by decide,
    C12_PointDominanceTest_antisymmetric [1, 2] [1, 3] (by decide)⟩


theorem getD_set_bool_ne (l : List Bool) (i x : Nat) (v : Bool) (h : i ≠ x) :
    (l.set i v).getD x false = l.getD x false := by
  simp [List.getD_eq_getElem?_getD, List.getElem?_set, h]

theorem getD_set_bool_self (l : List Bool) (i : Nat) (v : Bool) (h : i < l.length) :
    (l.set i v).getD i false = v := by
  simp [List.getD_eq_getElem?_getD, List.getElem?_set, h]

theorem unmarkedLabels_congr (labels : label_list_t) (rest : List Nat) (index : Nat)
    (marks marks2 : List Bool)
    (h : ∀ i, index ≤ i → marks2.getD i false = marks.getD i false) :
    unmarkedLabels labels rest index marks2 = unmarkedLabels labels rest index marks := by
  induction rest generalizing index with
  | nil => rfl
  | cons c rest ih =>
    simp only [unmarkedLabels]
    rw [h index (le_refl _), ih (index + 1) (fun i hi => h i (by omega))]

theorem unmarkedLabels_replicate (labels : label_list_t) (rest : List Nat) (index n : Nat) :
    unmarkedLabels labels rest index (List.replicate n false) = rest.map (labelOf labels) := by
  induction rest generalizing index with
  | nil => rfl
  | cons c rest ih =>
    simp only [unmarkedLabels, List.map_cons]
    rw [ih (index + 1)]
    have : (List.replicate n false).getD index false = false := by
      by_cases h : index < n <;> simp [List.getD_eq_getElem?_getD, List.getElem?_replicate, h]
    rw [this]
    simp

/-- The inner loop of `GroupDominanceTest` is the scan `scanBag` of the labels
of the unmarked members of group 1. -/
theorem GroupDominanceInner_scanBag (labels : label_list_t) (label2 : List Int)
    (rest : List Nat) (index : Nat) (marks : List Bool)
    (hlen : index + rest.length ≤ marks.length) :
    match GroupDominanceInner labels label2 rest index marks with
    | none => scanBag label2 (unmarkedLabels labels rest index marks) = none
    | some (marks2, dominated) =>
      scanBag label2 (unmarkedLabels labels rest index marks)
          = some (unmarkedLabels labels rest index marks2, dominated) ∧
        marks2.length = marks.length ∧
        ∀ i, i < index → marks2.getD i false = marks.getD i false := by
  induction rest generalizing index with
  | nil => simp [GroupDominanceInner, unmarkedLabels, scanBag]
  | cons c rest ih =>
    simp only [List.length_cons] at hlen
    have hrec := ih (index + 1) (by omega)
    simp only [GroupDominanceInner, unmarkedLabels]
    cases hm : marks.getD index false with
    | true =>
      simp only [Bool.not_true, Bool.false_eq_true, if_false, if_true]
      cases hres : GroupDominanceInner labels label2 rest (index + 1) marks with
      | none =>
        rw [hres] at hrec
        exact hrec
      | some r =>
        obtain ⟨marks2, dominated⟩ := r
        rw [hres] at hrec
        obtain ⟨h1, h2, h3⟩ := hrec
        refine ⟨?_, h2, fun i hi => h3 i (by omega)⟩
        rw [h3 index (by omega), hm]
        simpa using h1
    | false =>
      simp only [Bool.not_false, if_true, Bool.false_eq_true, if_false]
      cases hp : PointDominanceTest (labelOf labels c) label2 with
      | equal =>
        simp only [scanBag, hp]
        refine ⟨?_, by simp, fun i hi => getD_set_bool_ne _ _ _ _ (by omega)⟩
        rw [getD_set_bool_self _ _ _ (by omega)]
        simp only [if_true]
        congr 2
        exact (unmarkedLabels_congr labels rest (index + 1) marks _
          (fun i hi => getD_set_bool_ne _ _ _ _ (by omega))).symm
      | dominates =>
        simp only [scanBag, hp]
        rw [hm]
        simp
      | incomparable =>
        simp only [scanBag, hp]
        cases hres : GroupDominanceInner labels label2 rest (index + 1) marks with
        | none =>
          rw [hres] at hrec
          simp only at hrec ⊢
          rw [hrec]
        | some r =>
          obtain ⟨marks2, dominated⟩ := r
          rw [hres] at hrec
          obtain ⟨h1, h2, h3⟩ := hrec
          simp only
          refine ⟨?_, h2, fun i hi => h3 i (by omega)⟩
          rw [h1, h3 index (by omega), hm]
          simp

/-- The outer loop of `GroupDominanceTest` is `loopBag` on the labels. -/
theorem GroupDominanceLoop_loopBag (labels : label_list_t) (group1 group2 : List Nat)
    (marks : List Bool) (flag : Bool) (hlen : group1.length = marks.length) :
    GroupDominanceLoop labels group1 group2 marks flag =
      loopBag (group2.map (labelOf labels)) (unmarkedLabels labels group1 0 marks) flag := by
  induction group2 generalizing marks flag with
  | nil => simp [GroupDominanceLoop, loopBag]
  | cons b rest ih =>
    simp only [GroupDominanceLoop, List.map_cons, loopBag]
    have h := GroupDominanceInner_scanBag labels (labelOf labels b) group1 0 marks (by omega)
    cases hres : GroupDominanceInner labels (labelOf labels b) group1 0 marks with
    | none =>
      rw [hres] at h
      simp only at h ⊢
      rw [h]
    | some r =>
      obtain ⟨marks2, dominated⟩ := r
      rw [hres] at h
      obtain ⟨h1, h2, -⟩ := h
      simp only
      rw [h1]
      exact ih marks2 _ (by omega)

/-- The function `GroupDominanceTest` as a computation on the two label lists. -/
theorem GroupDominanceTest_eq_loopBag (labels : label_list_t) (group1 group2 : List Nat) :
    GroupDominanceTest group1 group2 labels =
      loopBag (group2.map (labelOf labels)) (group1.map (labelOf labels)) false := by
  unfold GroupDominanceTest
  rw [GroupDominanceLoop_loopBag labels group1 group2 _ _ (by simp),
    unmarkedLabels_replicate]

theorem PointDominanceTest_self (p : List Int) :
    PointDominanceTest p p = DominanceTestResult.equal :=
  (PointDominanceTest_equal_iff p p rfl).mpr rfl

theorem loopBag_self (L : List (List Int)) (flag : Bool) : loopBag L L flag = flag := by
  induction L generalizing flag with
  | nil => rfl
  | cons a L ih =>
    simp only [loopBag, scanBag, PointDominanceTest_self]
    rw [ih]
    simp

/-- C14: no group dominates itself, for any list of vertices and any labels. -/
theorem C14_GroupDominanceTest_irreflexive (A : List Nat) (labels : label_list_t) :
    GroupDominanceTest A A labels = false := by
  rw [GroupDominanceTest_eq_loopBag, loopBag_self]


theorem scanBag_none (label2 : List Int) (U : List (List Int))
    (h : scanBag label2 U = none) :
    ∀ a ∈ U, PointDominanceTest a label2 = DominanceTestResult.incomparable := by
  induction U with
  | nil => simp
  | cons c U ih =>
    simp only [scanBag] at h
    cases hp : PointDominanceTest c label2 with
    | equal => rw [hp] at h; simp at h
    | dominates => rw [hp] at h; simp at h
    | incomparable =>
      rw [hp] at h
      simp only at h
      cases hs : scanBag label2 U with
      | none =>
        intro a ha
        rcases List.mem_cons.mp ha with rfl | ha
        · exact hp
        · exact ih hs a ha
      | some r => rw [hs] at h; simp at h

theorem scanBag_some (label2 : List Int) (U U2 : List (List Int)) (dominated : Bool)
    (h : scanBag label2 U = some (U2, dominated)) :
    (dominated = false → ∃ a, PointDominanceTest a label2 = DominanceTestResult.equal ∧
      U.Perm (a :: U2)) ∧
    (dominated = true → U2 = U ∧
      ∃ a ∈ U, PointDominanceTest a label2 = DominanceTestResult.dominates) := by
  induction U generalizing U2 with
  | nil => simp [scanBag] at h
  | cons c U ih =>
    simp only [scanBag] at h
    cases hp : PointDominanceTest c label2 with
    | equal =>
      rw [hp] at h
      simp only [Option.some.injEq, Prod.mk.injEq] at h
      obtain ⟨rfl, rfl⟩ := h
      exact ⟨fun _ => ⟨c, hp, List.Perm.refl _⟩, fun hc => by cases hc⟩
    | dominates =>
      rw [hp] at h
      simp only [Option.some.injEq, Prod.mk.injEq] at h
      obtain ⟨rfl, rfl⟩ := h
      exact ⟨fun hc => (by cases hc), fun _ => ⟨rfl, c, List.mem_cons_self _ _, hp⟩⟩
    | incomparable =>
      rw [hp] at h
      simp only at h
      cases hs : scanBag label2 U with
      | none => rw [hs] at h; simp at h
      | some r =>
        obtain ⟨U3, d3⟩ := r
        rw [hs] at h
        simp only [Option.some.injEq, Prod.mk.injEq] at h
        obtain ⟨rfl, rfl⟩ := h
        obtain ⟨i1, i2⟩ := ih U3 hs
        constructor
        · intro hd
          obtain ⟨a, ha, hperm⟩ := i1 hd
          exact ⟨a, ha, (hperm.cons c).trans (List.Perm.swap a c U3)⟩
        · intro hd
          obtain ⟨e, a, ha, hdom⟩ := i2 hd
          exact ⟨by rw [e], a, List.mem_cons_of_mem _ ha, hdom⟩

theorem PointDominanceTest_dominates_trans (p q r : List Int) (hpq : p.length = q.length)
    (hqr : q.length = r.length)
    (h1 : PointDominanceTest p q = DominanceTestResult.dominates)
    (h2 : PointDominanceTest q r = DominanceTestResult.dominates) :
    PointDominanceTest p r = DominanceTestResult.dominates := by
  obtain ⟨a1, n1⟩ := (PointDominanceTest_dominates_iff_getD p q hpq).mp h1
  obtain ⟨a2, n2⟩ := (PointDominanceTest_dominates_iff_getD q r hqr).mp h2
  rw [PointDominanceTest_dominates_iff_getD p r (hpq.trans hqr)]
  refine ⟨fun d hd => le_trans (a1 d hd) (a2 d (by omega)), ?_⟩
  intro hpr
  subst hpr
  apply n1
  apply List.ext_getElem hpq
  intro d h1 h2
  have h3 := a1 d h1
  have h4 := a2 d h2
  have h5 : p.getD d 0 = q.getD d 0 := by omega
  simpa [List.getD_eq_getElem?_getD, List.getElem?_eq_getElem h1,
    List.getElem?_eq_getElem h2] using h5

theorem count_snoc (L a : List Int) (P : List (List Int)) :
    List.count L (P ++ [a]) = List.count L P + if a = L then 1 else 0 := by
  rw [List.count_append, List.count_singleton]
  by_cases h : a = L <;> simp [h]

theorem count_of_perm_cons (L a : List Int) (U U2 : List (List Int)) (h : U.Perm (a :: U2)) :
    List.count L U = List.count L U2 + if a = L then 1 else 0 := by
  simp only [List.count]
  rw [h.countP_eq, List.countP_cons]
  by_cases h : a = L <;> simp [h]

/-- If `loopBag` returns `true` and no label of group 2 is dominated by a
later one, then every label that group 2 has more often than group 1 is
dominated by a label that group 1 has more often, and there is such a label
of group 1. -/
theorem loopBag_sound (dim : Nat) (LA LB : List (List Int))
    (hA : ∀ a ∈ LA, a.length = dim) (hB : ∀ b ∈ LB, b.length = dim)
    (hsorted : LB.Pairwise fun x y => PointDominanceTest y x ≠ DominanceTestResult.dominates)
    (R P U : List (List Int)) (flag : Bool) (hPR : LB = P ++ R)
    (hU : ∀ a ∈ U, a ∈ LA)
    (J1 : ∀ L, List.count L LA ≤ List.count L U + List.count L P)
    (J2 : ∀ L, List.count L LA < List.count L U + List.count L P →
      ∃ L2, List.count L2 LB < List.count L2 LA ∧
        PointDominanceTest L2 L = DominanceTestResult.dominates)
    (J3 : flag = true → ∃ L, List.count L LA < List.count L U + List.count L P)
    (hrun : loopBag R U flag = true) :
    (∀ L, List.count L LA < List.count L LB →
      ∃ L2, List.count L2 LB < List.count L2 LA ∧
        PointDominanceTest L2 L = DominanceTestResult.dominates) ∧
    ∃ L2, List.count L2 LB < List.count L2 LA := by
  induction R generalizing P U flag with
  | nil =>
    simp only [List.append_nil] at hPR
    subst hPR
    simp only [loopBag] at hrun
    obtain ⟨L, hL⟩ := J3 hrun
    obtain ⟨L2, h2, -⟩ := J2 L hL
    refine ⟨fun L3 hL3 => J2 L3 ?_, L2, h2⟩
    omega
  | cons lb R ih =>
    simp only [loopBag] at hrun
    cases hs : scanBag lb U with
    | none => rw [hs] at hrun; simp at hrun
    | some r =>
      obtain ⟨U2, d⟩ := r
      rw [hs] at hrun
      simp only at hrun
      obtain ⟨s1, s2⟩ := scanBag_some lb U U2 d hs
      have hlb : lb ∈ LB := by rw [hPR]; simp
      have hPR2 : LB = (P ++ [lb]) ++ R := by rw [hPR]; simp
      cases d with
      | false =>
        obtain ⟨a, ha, hperm⟩ := s1 rfl
        have haU : a ∈ U := hperm.symm.subset (List.mem_cons_self _ _)
        have hae : a = lb :=
          (PointDominanceTest_equal_iff a lb ((hA a (hU a haU)).trans (hB lb hlb).symm)).mp ha
        subst hae
        have hcnt : ∀ L, List.count L U2 + List.count L (P ++ [a])
            = List.count L U + List.count L P := by
          intro L
          rw [count_snoc, count_of_perm_cons L a U U2 hperm]
          omega
        apply ih (P ++ [a]) U2 (flag || false) hPR2
        · intro x hx
          exact hU x (hperm.symm.subset (List.mem_cons_of_mem _ hx))
        · intro L; rw [hcnt]; exact J1 L
        · intro L; rw [hcnt]; exact J2 L
        · intro hf
          simp only [Bool.or_false] at hf
          obtain ⟨L, hL⟩ := J3 hf
          exact ⟨L, by rw [hcnt]; exact hL⟩
        · exact hrun
      | true =>
        obtain ⟨e, a, haU, hdom⟩ := s2 rfl
        have e2 := e.symm
        subst e2
        have hcnt : ∀ L, List.count L (P ++ [lb])
            = List.count L P + if lb = L then 1 else 0 := fun L => count_snoc L lb P
        have halen : a.length = dim := hA a (hU a haU)
        have hlblen : lb.length = dim := hB lb hlb
        have hkey : ∃ L2, List.count L2 LB < List.count L2 LA ∧
            PointDominanceTest L2 lb = DominanceTestResult.dominates := by
          by_cases hca : List.count a LB < List.count a LA
          · exact ⟨a, hca, hdom⟩
          · -- all copies of `a` in group 2 are already processed
            have hne : a ≠ lb := by
              intro e
              rw [e, PointDominanceTest_self] at hdom
              cases hdom
            have hR : a ∉ R := by
              intro haR
              rw [hPR] at hsorted
              have h2 := (List.pairwise_append.mp hsorted).2.1
              exact (List.pairwise_cons.mp h2).1 a haR hdom
            have hcR : List.count a R = 0 := List.count_eq_zero_of_not_mem hR
            have hcB : List.count a LB = List.count a P := by
              rw [hPR, List.count_append, List.count_cons, hcR]
              simp [Ne.symm hne]
            have hcU : 0 < List.count a U := List.count_pos_iff.mpr haU
            obtain ⟨L2, h2, hd2⟩ := J2 a (by omega)
            have hL2 : L2 ∈ LA := by
              apply List.count_pos_iff.mp
              omega
            exact ⟨L2, h2, PointDominanceTest_dominates_trans L2 a lb
              ((hA L2 hL2).trans halen.symm) (halen.trans hlblen.symm) hd2 hdom⟩
        apply ih (P ++ [lb]) U (flag || true) hPR2 hU
        · intro L
          rw [hcnt]
          have := J1 L
          omega
        · intro L hL
          rw [hcnt] at hL
          by_cases hLe : lb = L
          · subst hLe
            exact hkey
          · rw [if_neg hLe] at hL
            exact J2 L hL
        · intro _
          refine ⟨lb, ?_⟩
          rw [hcnt]
          have := J1 lb
          simp only [if_true]
          omega
        · exact hrun

/-- If every label that group 2 has more often than group 1 is dominated by a
label that group 1 has more often, and there is such a label of group 2, then
`loopBag` returns `true`. -/
theorem loopBag_complete (dim : Nat) (LA LB : List (List Int))
    (hA : ∀ a ∈ LA, a.length = dim) (hB : ∀ b ∈ LB, b.length = dim)
    (H1 : ∃ L, List.count L LA < List.count L LB)
    (H2 : ∀ L, List.count L LA < List.count L LB →
      ∃ L2, List.count L2 LB < List.count L2 LA ∧
        PointDominanceTest L2 L = DominanceTestResult.dominates)
    (R P U : List (List Int)) (flag : Bool) (hPR : LB = P ++ R)
    (hU : ∀ a ∈ U, a ∈ LA)
    (J1 : ∀ L, List.count L LA ≤ List.count L U + List.count L P)
    (J4 : flag = false → ∀ L, List.count L LA = List.count L U + List.count L P) :
    loopBag R U flag = true := by
  induction R generalizing P U flag with
  | nil =>
    simp only [List.append_nil] at hPR
    subst hPR
    simp only [loopBag]
    cases flag with
    | true => rfl
    | false =>
      obtain ⟨L, hL⟩ := H1
      have := J4 rfl L
      omega
  | cons lb R ih =>
    simp only [loopBag]
    have hlb : lb ∈ LB := by rw [hPR]; simp
    have hPR2 : LB = (P ++ [lb]) ++ R := by rw [hPR]; simp
    have hcB : List.count lb LB = List.count lb P + 1 + List.count lb R := by
      rw [hPR, List.count_append, List.count_cons]
      simp
      omega
    cases hs : scanBag lb U with
    | none =>
      exfalso
      have hnone := scanBag_none lb U hs
      by_cases hc : List.count lb LA < List.count lb LB
      · obtain ⟨L2, h2, hd2⟩ := H2 lb hc
        have hP : List.count L2 P ≤ List.count L2 LB := by
          rw [hPR, List.count_append]
          omega
        have hL2U : L2 ∈ U := by
          apply List.count_pos_iff.mp
          have := J1 L2
          omega
        rw [hnone L2 hL2U] at hd2
        cases hd2
      · have hlbU : lb ∈ U := by
          apply List.count_pos_iff.mp
          have := J1 lb
          omega
        have := hnone lb hlbU
        rw [PointDominanceTest_self] at this
        cases this
    | some r =>
      obtain ⟨U2, d⟩ := r
      simp only
      obtain ⟨s1, s2⟩ := scanBag_some lb U U2 d hs
      cases d with
      | false =>
        obtain ⟨a, ha, hperm⟩ := s1 rfl
        have haU : a ∈ U := hperm.symm.subset (List.mem_cons_self _ _)
        have hae : a = lb :=
          (PointDominanceTest_equal_iff a lb ((hA a (hU a haU)).trans (hB lb hlb).symm)).mp ha
        subst hae
        have hcnt : ∀ L, List.count L U2 + List.count L (P ++ [a])
            = List.count L U + List.count L P := by
          intro L
          rw [count_snoc, count_of_perm_cons L a U U2 hperm]
          omega
        apply ih (P ++ [a]) U2 (flag || false) hPR2
        · intro x hx
          exact hU x (hperm.symm.subset (List.mem_cons_of_mem _ hx))
        · intro L; rw [hcnt]; exact J1 L
        · intro hf L
          simp only [Bool.or_false] at hf
          rw [hcnt]
          exact J4 hf L
      | true =>
        obtain ⟨e, -⟩ := s2 rfl
        have e2 := e.symm
        subst e2
        apply ih (P ++ [lb]) U (flag || true) hPR2 hU
        · intro L
          rw [count_snoc]
          have := J1 L
          omega
        · intro hf
          simp at hf


theorem count_diff_labels (L : List Int) (l₁ l₂ : List (List Int)) :
    List.count L (l₁.diff l₂) = List.count L l₁ - List.count L l₂ := by
  induction l₂ generalizing l₁ with
  | nil => simp
  | cons b l₂ ih =>
    rw [List.diff_cons, ih, List.count_erase, List.count_cons]
    by_cases h : b = L
    · subst h; simp; omega
    · simp [h]

theorem mem_diff_labels (L : List Int) (l₁ l₂ : List (List Int)) :
    L ∈ l₁.diff l₂ ↔ List.count L l₂ < List.count L l₁ := by
  rw [← List.count_pos_iff, count_diff_labels]
  omega

theorem count_le_of_length_eq (LA LB : List (List Int)) (hlen : LA.length = LB.length)
    (h : ∀ L, List.count L LB ≤ List.count L LA) : ∀ L, List.count L LA ≤ List.count L LB := by
  induction LB generalizing LA with
  | nil =>
    have : LA = [] := List.length_eq_zero.mp hlen
    subst this
    simp
  | cons b LB ih =>
    have hb : b ∈ LA := by
      apply List.count_pos_iff.mp
      have := h b
      rw [List.count_cons] at this
      simp at this
      omega
    have hlen2 : (LA.erase b).length = LB.length := by
      rw [List.length_erase_of_mem hb, hlen]
      simp
    have h2 : ∀ L, List.count L LB ≤ List.count L (LA.erase b) := by
      intro L
      have := h L
      rw [List.count_cons] at this
      rw [List.count_erase]
      by_cases e : b = L
      · subst e; simp at this ⊢; omega
      · simp [e] at this ⊢; omega
    intro L
    have := ih (LA.erase b) hlen2 h2 L
    rw [List.count_erase] at this
    rw [List.count_cons]
    by_cases e : b = L
    · subst e
      have hpos : 0 < List.count b LA := List.count_pos_iff.mpr hb
      simp at this ⊢
      omega
    · simp [e] at this ⊢
      omega

/-- The specification of group dominance in terms of label counts. -/
theorem GroupDominatesSpec_iff_count (A B : List Nat) (labels : label_list_t) :
    GroupDominatesSpec A B labels ↔
      (∃ L, List.count L (A.map (labelOf labels)) < List.count L (B.map (labelOf labels))) ∧
      ∀ L, List.count L (A.map (labelOf labels)) < List.count L (B.map (labelOf labels)) →
        ∃ L2, List.count L2 (B.map (labelOf labels)) < List.count L2 (A.map (labelOf labels)) ∧
          PointDominanceTest L2 L = DominanceTestResult.dominates := by
  unfold GroupDominatesSpec
  constructor
  · rintro ⟨h1, h2⟩
    constructor
    · obtain ⟨L, hL⟩ := List.exists_mem_of_ne_nil _ h1
      exact ⟨L, (mem_diff_labels _ _ _).mp hL⟩
    · intro L hL
      obtain ⟨a, ha, hd⟩ := h2 L ((mem_diff_labels _ _ _).mpr hL)
      exact ⟨a, (mem_diff_labels _ _ _).mp ha, hd⟩
  · rintro ⟨⟨L, hL⟩, h2⟩
    constructor
    · exact List.ne_nil_of_mem ((mem_diff_labels _ _ _).mpr hL)
    · intro b hb
      obtain ⟨L2, hL2, hd⟩ := h2 b ((mem_diff_labels _ _ _).mp hb)
      exact ⟨L2, (mem_diff_labels _ _ _).mpr hL2, hd⟩

/-- The function `GroupDominanceTest` agrees with the bag-difference
specification on equal-size groups of labels of one dimension, when no member
of the second group is dominated by a later member of it. -/
theorem GroupDominanceTest_iff_spec (labels : label_list_t) (A B : List Nat) (dim : Nat)
    (hA : ∀ v ∈ A, (labelOf labels v).length = dim)
    (hB : ∀ v ∈ B, (labelOf labels v).length = dim)
    (hlen : A.length = B.length) (hsorted : SortedForDominance labels B) :
    GroupDominanceTest A B labels = true ↔ GroupDominatesSpec A B labels := by
  have hA2 : ∀ a ∈ A.map (labelOf labels), a.length = dim := by
    intro a ha
    obtain ⟨v, hv, rfl⟩ := List.mem_map.mp ha
    exact hA v hv
  have hB2 : ∀ b ∈ B.map (labelOf labels), b.length = dim := by
    intro b hb
    obtain ⟨v, hv, rfl⟩ := List.mem_map.mp hb
    exact hB v hv
  rw [GroupDominanceTest_eq_loopBag, GroupDominatesSpec_iff_count]
  constructor
  · intro hrun
    obtain ⟨h1, L2, hL2⟩ := loopBag_sound dim _ _ hA2 hB2 hsorted
      (B.map (labelOf labels)) [] (A.map (labelOf labels)) false (by simp) (fun a ha => ha)
      (by intro L; simp) (by intro L hL; simp at hL) (by intro h; cases h) hrun
    refine ⟨?_, h1⟩
    by_contra hc
    push_neg at hc
    have := count_le_of_length_eq (A.map (labelOf labels)) (B.map (labelOf labels))
      (by simp [hlen]) hc L2
    omega
  · rintro ⟨H1, H2⟩
    exact loopBag_complete dim _ _ hA2 hB2 H1 H2 (B.map (labelOf labels)) []
      (A.map (labelOf labels)) false (by simp) (fun a ha => ha) (by intro L; simp)
      (by intro _ L; simp)

/-- Groups with the same bag of labels do not dominate each other, when no
member of the second group is dominated by a later member of it. -/
theorem GroupDominanceTest_of_perm (labels : label_list_t) (A B : List Nat) (dim : Nat)
    (hA : ∀ v ∈ A, (labelOf labels v).length = dim)
    (hB : ∀ v ∈ B, (labelOf labels v).length = dim)
    (hperm : (A.map (labelOf labels)).Perm (B.map (labelOf labels)))
    (hsorted : SortedForDominance labels B) :
    GroupDominanceTest A B labels = false := by
  have hlen : A.length = B.length := by simpa using hperm.length_eq
  cases hres : GroupDominanceTest A B labels with
  | false => rfl
  | true =>
    exfalso
    obtain ⟨⟨L, hL⟩, -⟩ := (GroupDominatesSpec_iff_count A B labels).mp
      ((GroupDominanceTest_iff_spec labels A B dim hA hB hlen hsorted).mp hres)
    have : List.count L (A.map (labelOf labels)) = List.count L (B.map (labelOf labels)) := by
      simp only [List.count]
      exact hperm.countP_eq _
    omega

/-- C13 (amended): for equal-size groups over labels of one dimension, where
no member of the second group is strictly dominated by a later member of it
(the documented precondition), `GroupDominanceTest` returns `true` exactly
when the bag difference `B'` is not empty and every label of `B'` is strictly
dominated by a label of the bag difference `A'`. -/
theorem C13_GroupDominanceTest_bag_difference (labels : label_list_t) (A B : List Nat)
    (dim : Nat) (hA : ∀ v ∈ A, (labelOf labels v).length = dim)
    (hB : ∀ v ∈ B, (labelOf labels v).length = dim)
    (hlen : A.length = B.length) (hsorted : SortedForDominance labels B) :
    GroupDominanceTest A B labels = true ↔ GroupDominatesSpec A B labels :=
  GroupDominanceTest_iff_spec labels A B dim hA hB hlen hsorted

/-- C13 (witness): the groups `[0, 1]` and `[1, 2]` over the labels `(0, 0)`,
`(1, 1)`, `(2, 2)`; the first dominates the second. -/
theorem C13_witness :
    (∀ v ∈ [0, 1], (labelOf [[0, 0], [1, 1], [2, 2]] v).length = 2) ∧
    (∀ v ∈ [1, 2], (labelOf [[0, 0], [1, 1], [2, 2]] v).length = 2) ∧
    SortedForDominance [[0, 0], [1, 1], [2, 2]] [1, 2] ∧
    GroupDominanceTest [0, 1] [1, 2] [[0, 0], [1, 1], [2, 2]] = true ∧
    (GroupDominanceTest [0, 1] [1, 2] [[0, 0], [1, 1], [2, 2]] = true ↔
      GroupDominatesSpec [0, 1] [1, 2] [[0, 0], [1, 1], [2, 2]]) :=
  ⟨by decide, by decide, by decide, by decide,
    C13_GroupDominanceTest_bag_difference [[0, 0], [1, 1], [2, 2]] [0, 1] [1, 2] 2
      (by decide) (by decide) (by decide) (by decide)⟩

/-- C13 (counterexample): over the labels `(0, 0)`, `(1, 1)` the groups
`[0, 1]` and `[1, 0]` have the same label bag, so the bag differences are
empty, yet `GroupDominanceTest` returns `true`: the second group lists the
dominated label first. -/
theorem C13_counterexample :
    ([0, 1] : List Nat).length = ([1, 0] : List Nat).length ∧
    GroupDominanceTest [0, 1] [1, 0] [[0, 0], [1, 1]] = true ∧
    ¬ GroupDominatesSpec [0, 1] [1, 0] [[0, 0], [1, 1]] ∧
    ¬ SortedForDominance [[0, 0], [1, 1]] [1, 0] := by
  decide

/-- C15 (amended): equal-size groups whose members carry the same bag of
labels of one dimension do not dominate each other, when no member of the
second group is strictly dominated by a later member of it (the documented
precondition). -/
theorem C15_GroupDominanceTest_same_bag (labels : label_list_t) (A B : List Nat) (dim : Nat)
    (hA : ∀ v ∈ A, (labelOf labels v).length = dim)
    (hB : ∀ v ∈ B, (labelOf labels v).length = dim)
    (hperm : (A.map (labelOf labels)).Perm (B.map (labelOf labels)))
    (hsorted : SortedForDominance labels B) :
    GroupDominanceTest A B labels = false :=
  GroupDominanceTest_of_perm labels A B dim hA hB hperm hsorted

/-- C15 (witness): two groups on different vertices with the label bag
`(0, 1)`, `(1, 0)`, listed in different orders. -/
theorem C15_witness :
    (∀ v ∈ [0, 1], (labelOf [[0, 1], [1, 0], [1, 0], [0, 1]] v).length = 2) ∧
    (∀ v ∈ [2, 3], (labelOf [[0, 1], [1, 0], [1, 0], [0, 1]] v).length = 2) ∧
    (([0, 1] : List Nat).map (labelOf [[0, 1], [1, 0], [1, 0], [0, 1]])).Perm
      (([2, 3] : List Nat).map (labelOf [[0, 1], [1, 0], [1, 0], [0, 1]])) ∧
    SortedForDominance [[0, 1], [1, 0], [1, 0], [0, 1]] [2, 3] ∧
    GroupDominanceTest [0, 1] [2, 3] [[0, 1], [1, 0], [1, 0], [0, 1]] = false :=
  ⟨by decide, by decide, by decide, by decide,
    C15_GroupDominanceTest_same_bag [[0, 1], [1, 0], [1, 0], [0, 1]] [0, 1] [2, 3] 2
      (by decide) (by decide) (by decide) (by decide)⟩

/-- C15 (counterexample): the groups `[0, 1]` and `[3, 2]` carry the same
label bag `(0, 0)`, `(1, 1)` on different vertices, and `GroupDominanceTest`
returns `true` because the second group lists the dominated label first. -/
theorem C15_counterexample :
    ([0, 1] : List Nat).length = ([3, 2] : List Nat).length ∧
    (([0, 1] : List Nat).map (labelOf [[0, 0], [1, 1], [0, 0], [1, 1]])).Perm
      (([3, 2] : List Nat).map (labelOf [[0, 0], [1, 1], [0, 0], [1, 1]])) ∧
    GroupDominanceTest [0, 1] [3, 2] [[0, 0], [1, 1], [0, 0], [1, 1]] = true := by
  decide


/-- C16 (failing input): on the graph that `UpdateGraph` builds for the
triangle with a pendant vertex, the sky-layers are `{0, 3}`, `{1}`, `{2}`, but
the boundaries `[0, 2, 3, 4]` cut the vertex order into the index blocks
`{0, 1}`, `{2}`, `{3}`. With the skyline `[[0, 1]]` the test `CanTerminate`
holds for layer 1, whose boundary is 2, yet the group `[2, 3]` is an edge on
vertices from 2 on that no skyline group dominates. -/
theorem C16_termination_unsound :
    WellFormedInput examplePendantLabels examplePendant ∧
    (GenerateSkyLayers (OrderByPartition examplePendantLabels).2).map
      (fun layer => layer.map fun p => p.id) = [[0, 3], [1], [2]] ∧
    (UpdateGraph examplePendantLabels examplePendant).skyLayersBoundaries = [0, 2, 3, 4] ∧
    CanTerminate
      [GetWorstVirtualPoint [0, 1] (UpdateGraph examplePendantLabels examplePendant).labels]
      ((UpdateGraph examplePendantLabels examplePendant).layerRepresentatives.getD 1 []) = true ∧
    (∀ x ∈ [2, 3],
      (UpdateGraph examplePendantLabels examplePendant).skyLayersBoundaries.getD 1 0 ≤ x) ∧
    IsKCore [2, 3] (UpdateGraph examplePendantLabels examplePendant).edges 1 = true ∧
    IsDominatedBySkyline [2, 3] [[0, 1]]
      (UpdateGraph examplePendantLabels examplePendant).labels = false := by
  decide

theorem OrderByPartition_getD (points : label_list_t) (i : Nat) (hi : i < points.length) :
    (OrderByPartition points).2.getD i (Point.mk 0 0 []) =
      { id := i
        mask := (PartitionData points).getD ((OrderByPartition points).1.getD i 0) 0
        label := labelOf points ((OrderByPartition points).1.getD i 0) } := by
  simp [OrderByPartition, ReorderPointsByIndex, List.getD_eq_getElem?_getD,
    List.getElem?_map, List.getElem?_range hi]

theorem PartitionData_getD (points : label_list_t) (i : Nat) (hi : i < points.length) :
    (PartitionData points).getD i 0 = DeterminePartition (labelOf points i) (GetPivot points) := by
  simp [PartitionData, labelOf, List.getD_eq_getElem?_getD, List.getElem?_map,
    List.getElem?_eq_getElem hi]

/-- The order that `OrderByPartition` returns, position by position. -/
theorem OrderByPartition_spec (points : label_list_t)
    (hdim : ∀ l ∈ points, l.length = (labelOf points 0).length)
    (hsum : NoSumOverflow points) :
    (OrderByPartition points).1.Perm (List.range points.length) ∧
    (∀ i, i < points.length → (OrderByPartition points).1.getD i 0 < points.length) ∧
    (∀ i j, i < j → j < points.length →
      ∃ a b : ExtendedPoint,
        Keyed (GetPivot points) (labelOf points 0).length a ∧
        Keyed (GetPivot points) (labelOf points 0).length b ∧
        a.label = labelOf points ((OrderByPartition points).1.getD i 0) ∧
        b.label = labelOf points ((OrderByPartition points).1.getD j 0) ∧
        ExtendedPoint.lt b a = false) := by
  obtain ⟨S, hS, hperm, hkeys, hsorted⟩ := GetIndicesSortedByPartition_spec points hdim hsum
  have hidx : (OrderByPartition points).1 = S.map fun e => e.id := hS
  have hSlen : S.length = points.length := by simpa using hperm.length_eq
  have hget : ∀ i (h : i < S.length), (OrderByPartition points).1.getD i 0 = (S.get ⟨i, h⟩).id := by
    intro i h
    rw [hidx]
    simp [List.getD_eq_getElem?_getD, List.getElem?_map, List.getElem?_eq_getElem h]
  refine ⟨by rw [hidx]; exact hperm, ?_, ?_⟩
  · intro i hi
    have h : i < S.length := by omega
    rw [hget i h]
    have hmem : (S.get ⟨i, h⟩).id ∈ S.map fun e => e.id :=
      List.mem_map.mpr ⟨_, List.get_mem S i h, rfl⟩
    exact List.mem_range.mp (hperm.subset hmem)
  · intro i j hij hj
    have hj2 : j < S.length := by omega
    have hi2 : i < S.length := by omega
    refine ⟨S.get ⟨i, hi2⟩, S.get ⟨j, hj2⟩, (hkeys _ (List.get_mem S i hi2)).1,
      (hkeys _ (List.get_mem S j hj2)).1, ?_, ?_, ?_⟩
    · rw [hget i hi2]; exact (hkeys _ (List.get_mem S i hi2)).2
    · rw [hget j hj2]; exact (hkeys _ (List.get_mem S j hj2)).2
    · exact List.pairwise_iff_get.mp hsorted ⟨i, hi2⟩ ⟨j, hj2⟩ hij

/-- C17: in the order returned by `OrderByPartition` for a non-empty list of
points of one dimension whose coordinate sums do not overflow the 32-bit `int`
they are accumulated in, no point strictly dominates a point that precedes
it. -/
theorem C17_OrderByPartition_no_later_dominates (points : label_list_t) (_hne : points ≠ [])
    (hdim : ∀ l ∈ points, l.length = (labelOf points 0).length)
    (hsum : NoSumOverflow points) :
    ∀ i j, i < j → j < points.length →
      PointDominanceTest ((OrderByPartition points).2.getD j (Point.mk 0 0 [])).label
        ((OrderByPartition points).2.getD i (Point.mk 0 0 [])).label
          ≠ DominanceTestResult.dominates := by
  intro i j hij hj
  rw [OrderByPartition_getD points j hj, OrderByPartition_getD points i (by omega)]
  obtain ⟨-, -, h3⟩ := OrderByPartition_spec points hdim hsum
  obtain ⟨a, b, ka, kb, la, lb, hlt⟩ := h3 i j hij hj
  simp only
  rw [← la, ← lb]
  intro hdom
  have := key_lt_of_dominates b a (GetPivot points) (kb.1.trans ka.1.symm) kb.2.1 ka.2.1
    kb.2.2.1 ka.2.2.1 kb.2.2.2 ka.2.2.2 hdom
  rw [hlt] at this
  cases this

/-- C17 (witness): the four points of the antichain example. -/
theorem C17_witness :
    exampleAntichainLabels ≠ [] ∧
    (∀ l ∈ exampleAntichainLabels, l.length = (labelOf exampleAntichainLabels 0).length) ∧
    NoSumOverflow exampleAntichainLabels ∧
    (OrderByPartition exampleAntichainLabels).1 = [1, 2, 3, 0] ∧
    ∀ i j, i < j → j < exampleAntichainLabels.length →
      PointDominanceTest
        ((OrderByPartition exampleAntichainLabels).2.getD j (Point.mk 0 0 [])).label
        ((OrderByPartition exampleAntichainLabels).2.getD i (Point.mk 0 0 [])).label
          ≠ DominanceTestResult.dominates :=
  ⟨by decide, by decide, by decide, by decide,
    C17_OrderByPartition_no_later_dominates exampleAntichainLabels (by decide) (by decide)
      (by decide)⟩

theorem labelLt_iff_lex (a b : List Int) (hlen : a.length = b.length) :
    labelLt a b = true ↔ List.Lex (· < ·) a b := by
  induction a generalizing b with
  | nil =>
    have hb : b = [] := List.length_eq_zero.mp hlen.symm
    subst hb
    simp [labelLt]
  | cons x a ih =>
    cases b with
    | nil => simp at hlen
    | cons y b =>
      simp only [List.length_cons, Nat.add_right_cancel_iff] at hlen
      simp only [labelLt, List.headD_cons, List.tail_cons]
      by_cases h1 : y < x
      · rw [if_pos h1]
        constructor
        · intro h; cases h
        · intro h
          cases h with
          | cons h => omega
          | rel h => omega
      · rw [if_neg h1]
        by_cases h2 : x < y
        · rw [if_pos h2]
          exact ⟨fun _ => List.Lex.rel h2, fun _ => rfl⟩
        · rw [if_neg h2]
          have e : x = y := by omega
          subst e
          rw [ih b hlen]
          constructor
          · intro h; exact List.Lex.cons h
          · intro h
            cases h with
            | cons h => exact h
            | rel h => omega

/-- The key order of `GetIndicesSortedByPartition` is the lexicographic order
of the specification. -/
theorem ExtendedPoint.lt_false_iff_specKeyLE (a b : ExtendedPoint)
    (hlen : a.label.length = b.label.length) :
    ExtendedPoint.lt b a = false ↔
      specKeyLE (a.setBitsCount, a.mask, a.sum, a.label)
        (b.setBitsCount, b.mask, b.sum, b.label) := by
  rw [ExtendedPoint.lt_false_iff]
  unfold specKeyLE
  simp only
  have : labelLt b.label a.label = false ↔ ¬ List.Lex (· < ·) b.label a.label := by
    rw [← labelLt_iff_lex b.label a.label hlen.symm]
    simp
  rw [this]

theorem GetPivot_getD (points : label_list_t) (d : Nat) (hd : d < (labelOf points 0).length) :
    (GetPivot points).getD d 0 =
      ((points.map fun point => point.getD d 0).insertionSort (· ≤ ·)).getD
        (points.length / 2) 0 := by
  simp [GetPivot, List.getD_eq_getElem?_getD, List.getElem?_map, List.getElem?_range hd]

theorem skyBlockLoop_excl (layer : List Point) (currentPoint : Point) (tmpMask : Nat)
    (ps : List Nat) (bd : Bool) :
    (skyBlockLoop layer currentPoint tmpMask ps bd false).2 = true →
      (skyBlockLoop layer currentPoint tmpMask ps bd false).1 = false := by
  induction ps generalizing bd with
  | nil => simp [skyBlockLoop]
  | cons p rest ih =>
    simp only [skyBlockLoop]
    split
    · split
      · next h =>
        cases hres : PointDominanceTest (layer.getD p (Point.mk 0 0 [])).label
          currentPoint.label <;> simp
      · next h =>
        simp only [Bool.or_eq_true, decide_eq_true_eq, not_or] at h
        have e1 : decide (PointDominanceTest (layer.getD p (Point.mk 0 0 [])).label
            currentPoint.label = DominanceTestResult.equal) = false := by simpa using h.2
        rw [e1]
        exact ih _
    · exact ih _

theorem skyMaskLoop_excl (layer : List Point) (table : List LMInfo) (currentPoint : Point)
    (maxMask : Nat) (ms : List Nat) (bd : Bool) :
    (skyMaskLoop layer table currentPoint maxMask ms bd false).2 = true →
      (skyMaskLoop layer table currentPoint maxMask ms bd false).1 = false := by
  induction ms generalizing bd with
  | nil => simp [skyMaskLoop]
  | cons m rest ih =>
    simp only [skyMaskLoop]
    split
    · exact ih _
    · split
      · split
        · simp
        · split
          · exact skyBlockLoop_excl _ _ _ _ _
          · next h =>
            simp only [Bool.or_eq_true, not_or, Bool.not_eq_true] at h
            rw [h.2]
            exact ih _
      · exact ih _

/-- The result of the loop over the layers: either the point is appended to
the first layer in which it is not dominated or equal to a point, or it is
dominated in every layer and the layers are unchanged. -/
theorem skyLayerLoop_spec (nd : List (List Point)) (lm : List (List LMInfo))
    (currentPoint : Point) (maxMask : Nat) (js : List Nat) (sky : List (List Point))
    (ln : Nat) (bd : Bool) :
    (∃ pre j post, js = pre ++ j :: post ∧
      (∀ i ∈ pre, skyMaskLoop (nd.getD i []) (lm.getD i []) currentPoint maxMask
        (List.range (currentPoint.mask + 1)) false false = (true, false)) ∧
      ((skyMaskLoop (nd.getD j []) (lm.getD j []) currentPoint maxMask
        (List.range (currentPoint.mask + 1)) false false).1 = false) ∧
      skyLayerLoop nd lm currentPoint maxMask js sky ln bd false =
        (sky.set j (sky.getD j [] ++ [currentPoint]), j, false,
          (skyMaskLoop (nd.getD j []) (lm.getD j []) currentPoint maxMask
            (List.range (currentPoint.mask + 1)) false false).2)) ∨
    ((∀ i ∈ js, skyMaskLoop (nd.getD i []) (lm.getD i []) currentPoint maxMask
        (List.range (currentPoint.mask + 1)) false false = (true, false)) ∧
      skyLayerLoop nd lm currentPoint maxMask js sky ln bd false =
        (sky, ln, (if js = [] then bd else true), false)) := by
  induction js generalizing ln bd with
  | nil => right; simp [skyLayerLoop]
  | cons j rest ih =>
    simp only [skyLayerLoop]
    have hex := skyMaskLoop_excl (nd.getD j []) (lm.getD j []) currentPoint maxMask
      (List.range (currentPoint.mask + 1)) false
    cases h1 : (skyMaskLoop (nd.getD j []) (lm.getD j []) currentPoint maxMask
        (List.range (currentPoint.mask + 1)) false false).1 with
    | false =>
      left
      refine ⟨[], j, rest, rfl, by simp, h1, ?_⟩
      simp [h1]
    | true =>
      have h2 : (skyMaskLoop (nd.getD j []) (lm.getD j []) currentPoint maxMask
          (List.range (currentPoint.mask + 1)) false false).2 = false := by
        cases h2 : (skyMaskLoop (nd.getD j []) (lm.getD j []) currentPoint maxMask
          (List.range (currentPoint.mask + 1)) false false).2 with
        | false => rfl
        | true => rw [hex h2] at h1; cases h1
      have hM : skyMaskLoop (nd.getD j []) (lm.getD j []) currentPoint maxMask
          (List.range (currentPoint.mask + 1)) false false = (true, false) :=
        Prod.ext h1 h2
      simp only [h1, h2, Bool.not_true, Bool.or_false, Bool.false_eq_true, if_false]
      rcases ih ln true with ⟨pre, j2, post, e, hpre, hj2, hres⟩ | ⟨hall, hres⟩
      · left
        refine ⟨j :: pre, j2, post, by rw [e]; rfl, ?_, hj2, hres⟩
        intro i hi
        rcases List.mem_cons.mp hi with rfl | hi
        · exact hM
        · exact hpre i hi
      · right
        refine ⟨?_, ?_⟩
        · intro i hi
          rcases List.mem_cons.mp hi with rfl | hi
          · exact hM
          · exact hall i hi
        · rw [hres]
          by_cases hr : rest = [] <;> simp [hr]

theorem UpdateSkyLayers_length (nd : List (List Point)) (lm : List (List LMInfo))
    (newPoint : Point) (maxMask layerNumber : Nat) :
    (UpdateSkyLayers nd lm newPoint maxMask layerNumber).1.length =
      if layerNumber = nd.length then nd.length + 1 else nd.length := by
  unfold UpdateSkyLayers
  by_cases e : layerNumber = nd.length
  · simp [e]
  · simp [e]

theorem flatten_set_append (sky : List (List Point)) (j : Nat) (q : Point)
    (hj : j < sky.length) :
    (sky.set j (sky.getD j [] ++ [q])).flatten.Perm (q :: sky.flatten) := by
  induction sky generalizing j with
  | nil => simp at hj
  | cons l sky ih =>
    cases j with
    | zero =>
      simp only [List.set_cons_zero, List.flatten_cons, List.getD_cons_zero]
      rw [List.append_assoc]
      exact (List.perm_append_left_iff l).mpr (by simp)
        |>.trans List.perm_middle
    | succ j =>
      simp only [List.set_cons_succ, List.flatten_cons, List.getD_cons_succ]
      have := ih j (by simpa using hj)
      exact ((List.perm_append_left_iff l).mpr this).trans List.perm_middle

theorem mem_set_append (sky : List (List Point)) (j : Nat) (q : Point) (l : List Point)
    (hl : l ∈ sky.set j (sky.getD j [] ++ [q])) (hne : ∀ x ∈ sky, x ≠ []) : l ≠ [] := by
  rcases List.mem_or_eq_of_mem_set hl with h | h
  · exact hne l h
  · rw [h]; simp

/-- One step of `GenerateSkyLayers` adds the point to exactly one layer and
keeps all layers non-empty and the two layer lists of equal length. -/
theorem GenerateSkyLayersStep_partition (maxMask : Nat)
    (s : List (List Point) × List (List Point) × List (List LMInfo)) (q : Point)
    (P : List Point) (hlen : s.2.1.length = s.1.length) (hperm : s.1.flatten.Perm P)
    (hne : ∀ l ∈ s.1, l ≠ []) :
    (GenerateSkyLayersStep maxMask s q).2.1.length = (GenerateSkyLayersStep maxMask s q).1.length ∧
    (GenerateSkyLayersStep maxMask s q).1.flatten.Perm (P ++ [q]) ∧
    ∀ l ∈ (GenerateSkyLayersStep maxMask s q).1, l ≠ [] := by
  obtain ⟨sky, nd, lm⟩ := s
  simp only at hlen hperm hne
  have hPq : (q :: sky.flatten).Perm (P ++ [q]) :=
    (List.Perm.cons q hperm).trans (by simpa using (List.perm_append_comm : ([q] ++ P).Perm _))
  unfold GenerateSkyLayersStep
  simp only
  rcases skyLayerLoop_spec nd lm q maxMask (List.range nd.length) sky 0 true with
    ⟨pre, j, post, e, -, -, hres⟩ | ⟨-, hres⟩
  · have hj : j < nd.length := by
      have : j ∈ List.range nd.length := by rw [e]; simp
      exact List.mem_range.mp this
    rw [hres]
    simp only [Bool.false_eq_true, if_false]
    have hpermj := (flatten_set_append sky j q (by omega)).trans hPq
    have hnej : ∀ l ∈ sky.set j (sky.getD j [] ++ [q]), l ≠ [] :=
      fun l hl => mem_set_append sky j q l hl hne
    split
    · refine ⟨?_, hpermj, hnej⟩
      rw [UpdateSkyLayers_length nd lm q maxMask j, if_neg (by omega)]
      simp [hlen]
    · exact ⟨by simp [hlen], hpermj, hnej⟩
  · rw [hres]
    have hb : (if List.range nd.length = [] then true else true) = true := by split <;> rfl
    simp only [hb, if_true, Bool.not_false]
    refine ⟨?_, ?_, ?_⟩
    · rw [UpdateSkyLayers_length nd lm q maxMask nd.length, if_pos rfl]
      simp [hlen]
    · rw [List.flatten_append]
      simpa using (List.perm_append_comm.trans hPq)
    · intro l hl
      rcases List.mem_append.mp hl with h | h
      · exact hne l h
      · simp at h; rw [h]; simp

theorem GenerateSkyLayers_foldl_partition (maxMask : Nat) (pts : List Point)
    (s : List (List Point) × List (List Point) × List (List LMInfo))
    (P : List Point) (hlen : s.2.1.length = s.1.length) (hperm : s.1.flatten.Perm P)
    (hne : ∀ l ∈ s.1, l ≠ []) :
    (pts.foldl (GenerateSkyLayersStep maxMask) s).1.flatten.Perm (P ++ pts) ∧
    ∀ l ∈ (pts.foldl (GenerateSkyLayersStep maxMask) s).1, l ≠ [] := by
  induction pts generalizing s P with
  | nil => simpa using ⟨hperm, hne⟩
  | cons q pts ih =>
    obtain ⟨h1, h2, h3⟩ := GenerateSkyLayersStep_partition maxMask s q P hlen hperm hne
    have := ih (GenerateSkyLayersStep maxMask s q) (P ++ [q]) h1 h2 h3
    simpa using this

/-- The layers of `GenerateSkyLayers` partition the input points, and no layer
is empty. -/
theorem GenerateSkyLayers_partition (pts : List Point) :
    (GenerateSkyLayers pts).flatten.Perm pts ∧ ∀ l ∈ GenerateSkyLayers pts, l ≠ [] := by
  unfold GenerateSkyLayers
  have := GenerateSkyLayers_foldl_partition
    (((2 <<< ((pts.getD 0 (Point.mk 0 0 [])).label.length - 1)) + 2 ^ 32 - 1) % 2 ^ 32)
    pts ([], [], []) [] rfl (by simp) (by simp)
  simpa using this

theorem OrderByPartition_ids (points : label_list_t) :
    (OrderByPartition points).2.map (fun p => p.id) = List.range points.length := by
  simp only [OrderByPartition, ReorderPointsByIndex, List.map_map]
  conv_rhs => rw [← List.map_id (List.range points.length)]
  rfl

theorem DeterminePartition_lt (point pivot : List Int) :
    DeterminePartition point pivot < 2 ^ 32 := by
  apply Nat.lt_pow_two_of_testBit
  intro i hi
  rw [DeterminePartition_testBit]
  simp
  omega

theorem DeterminePartition_lt_dim (point pivot : List Int) :
    DeterminePartition point pivot < 2 ^ point.length := by
  apply Nat.lt_pow_two_of_testBit
  intro i hi
  rw [DeterminePartition_testBit]
  simp
  omega

theorem DeterminePartition_subset (p q pivot : List Int) (hlen : p.length = q.length)
    (hle : List.Forall₂ (· ≤ ·) p q) (d : Nat)
    (h : (DeterminePartition p pivot).testBit d = true) :
    (DeterminePartition q pivot).testBit d = true := by
  rw [DeterminePartition_testBit] at h ⊢
  simp only [decide_eq_true_eq] at h ⊢
  obtain ⟨h1, h2, h3⟩ := h
  have := getD_le_of_forall₂ _ _ hle d
  exact ⟨by omega, h2, by omega⟩

theorem popcount_eq_of_subset (a b : Nat) (ha : a < 2 ^ 32) (hb : b < 2 ^ 32)
    (hsub : ∀ d, a.testBit d = true → b.testBit d = true)
    (hcount : popcount b ≤ popcount a) : a = b := by
  have hbits : ∀ d ∈ List.range 32, b.testBit d = a.testBit d :=
    countP_eq_imp _ _ _ (fun d _ => hsub d) hcount
  apply Nat.eq_of_testBit_eq
  intro d
  by_cases hd : d < 32
  · exact (hbits d (List.mem_range.mpr hd)).symm
  · have h1 : a < 2 ^ d := lt_of_lt_of_le ha (Nat.pow_le_pow_right (by decide) (by omega))
    have h2 : b < 2 ^ d := lt_of_lt_of_le hb (Nat.pow_le_pow_right (by decide) (by omega))
    rw [Nat.testBit_lt_two_pow h1, Nat.testBit_lt_two_pow h2]

theorem and_eq_of_subset (a b : Nat) (hsub : ∀ d, a.testBit d = true → b.testBit d = true) :
    a &&& b = a := by
  apply Nat.eq_of_testBit_eq
  intro d
  rw [Nat.testBit_and]
  cases h : a.testBit d with
  | false => simp
  | true => simp [hsub d h]

/-- Masks of which the first is bitwise contained in the second are not
incomparable for `AreIncomparable`. -/
theorem AreIncomparable_of_subset (a b : Nat) (ha : a < 2 ^ 32) (hb : b < 2 ^ 32)
    (hsub : ∀ d, a.testBit d = true → b.testBit d = true) : AreIncomparable a b = false := by
  unfold AreIncomparable
  rw [and_eq_of_subset a b hsub]
  simp only [Bool.or_eq_false_iff, Bool.and_eq_false_iff, decide_eq_false_iff_not, not_le,
    ne_eq, not_not, lt_self_iff_false, not_false_eq_true, and_true]
  by_cases h : popcount b ≤ popcount a
  · right; exact popcount_eq_of_subset a b ha hb hsub h
  · left; omega

theorem le_of_subset (a b : Nat) (hsub : ∀ d, a.testBit d = true → b.testBit d = true) :
    a ≤ b := by
  rw [← and_eq_of_subset a b hsub]
  exact Nat.and_le_right

theorem AreIncomparable_zero (t : Nat) (ht : t < 2 ^ 32) : AreIncomparable 0 t = false :=
  AreIncomparable_of_subset 0 t (by decide) ht (fun d h => by simp at h)

theorem maxMask_eq (dim : Nat) (h1 : 1 ≤ dim) (h2 : dim ≤ 32) :
    ((2 <<< (dim - 1)) + 2 ^ 32 - 1) % 2 ^ 32 = 2 ^ dim - 1 := by
  interval_cases dim <;> rfl

/-- A point whose mask against another point has all `dim` bits set is
strictly dominated by that point. -/
theorem dominates_of_mask_full (q f : List Int) (dim : Nat) (hq : q.length = dim)
    (hf : f.length = dim) (hdim : dim ≤ 32)
    (h : DeterminePartition q f = ((2 <<< (dim - 1)) + 2 ^ 32 - 1) % 2 ^ 32) :
    PointDominanceTest f q = DominanceTestResult.dominates := by
  by_cases h0 : dim = 0
  · subst h0
    have : q = [] := List.length_eq_zero.mp hq
    subst this
    have h2 : DeterminePartition [] f = 0 := rfl
    rw [h2] at h
    exact absurd h (by decide)
  · rw [maxMask_eq dim (by omega) hdim] at h
    have hbit : ∀ d, d < dim → f.getD d 0 < q.getD d 0 := by
      intro d hd
      have h1 : (DeterminePartition q f).testBit d = true := by
        rw [h, Nat.testBit_two_pow_sub_one]
        simpa using hd
      rw [DeterminePartition_testBit] at h1
      simp only [decide_eq_true_eq] at h1
      exact h1.2.2
    rw [PointDominanceTest_dominates_iff_getD f q (hf.trans hq.symm)]
    refine ⟨fun d hd => le_of_lt (hbit d (by omega)), ?_⟩
    intro e
    have := hbit 0 (by omega)
    rw [e] at this
    omega


theorem getD_mem_of_lt (layer : List Point) (p : Nat) (h : p < layer.length) :
    layer.getD p (Point.mk 0 0 []) ∈ layer := by
  simp only [List.getD_eq_getElem?_getD, List.getElem?_eq_getElem h, Option.getD_some]
  exact List.getElem_mem h

theorem skyBlockLoop_sound (layer : List Point) (q : Point) (tmpMask : Nat) (ps : List Nat)
    (bd : Bool) (hps : ∀ p ∈ ps, p < layer.length) :
    ((skyBlockLoop layer q tmpMask ps bd false).1 = true → bd = true ∨
      ∃ e ∈ layer, PointDominanceTest e.label q.label = DominanceTestResult.dominates) ∧
    ((skyBlockLoop layer q tmpMask ps bd false).2 = true →
      ∃ e ∈ layer, PointDominanceTest e.label q.label = DominanceTestResult.equal) := by
  induction ps generalizing bd with
  | nil => simp only [skyBlockLoop]; exact ⟨fun h => Or.inl h, fun h => by cases h⟩
  | cons p rest ih =>
    have hp := hps p (List.mem_cons_self _ _)
    have hrest : ∀ x ∈ rest, x < layer.length := fun x hx => hps x (List.mem_cons_of_mem _ hx)
    simp only [skyBlockLoop]
    split
    · split
      · simp only [decide_eq_true_eq]
        exact ⟨fun h => Or.inr ⟨_, getD_mem_of_lt layer p hp, h⟩,
          fun h => ⟨_, getD_mem_of_lt layer p hp, h⟩⟩
      · next h =>
        simp only [Bool.or_eq_true, decide_eq_true_eq, not_or] at h
        have e1 : decide (PointDominanceTest (layer.getD p (Point.mk 0 0 [])).label
            q.label = DominanceTestResult.equal) = false := by simpa using h.2
        have e2 : decide (PointDominanceTest (layer.getD p (Point.mk 0 0 [])).label
            q.label = DominanceTestResult.dominates) = false := by simpa using h.1
        rw [e1, e2]
        obtain ⟨i1, i2⟩ := ih false hrest
        exact ⟨fun h => Or.inr ((i1 h).resolve_left (by simp)), i2⟩
    · exact ih bd hrest

theorem skyBlockLoop_complete (layer : List Point) (q : Point) (tmpMask : Nat) (ps : List Nat)
    (bd : Bool)
    (h1 : (skyBlockLoop layer q tmpMask ps bd false).1 = false)
    (h2 : (skyBlockLoop layer q tmpMask ps bd false).2 = false) :
    ∀ p ∈ ps, AreIncomparable (layer.getD p (Point.mk 0 0 [])).mask tmpMask = false →
      PointDominanceTest (layer.getD p (Point.mk 0 0 [])).label q.label
        = DominanceTestResult.incomparable := by
  induction ps generalizing bd with
  | nil => simp
  | cons p rest ih =>
    simp only [skyBlockLoop] at h1 h2
    intro x hx hinc
    by_cases hA : AreIncomparable (layer.getD p (Point.mk 0 0 [])).mask tmpMask = false
    · simp only [hA, Bool.not_false, if_true] at h1 h2
      by_cases hde : (decide (PointDominanceTest (layer.getD p (Point.mk 0 0 [])).label
            q.label = DominanceTestResult.dominates) ||
          decide (PointDominanceTest (layer.getD p (Point.mk 0 0 [])).label
            q.label = DominanceTestResult.equal)) = true
      · rw [if_pos hde] at h1 h2
        simp only at h1 h2
        rw [h1, h2] at hde
        simp at hde
      · rw [if_neg hde] at h1 h2
        simp only [Bool.or_eq_true, decide_eq_true_eq, not_or] at hde
        rcases List.mem_cons.mp hx with rfl | hx
        · cases hres : PointDominanceTest (layer.getD x (Point.mk 0 0 [])).label q.label with
          | incomparable => rfl
          | dominates => exact absurd hres hde.1
          | equal => exact absurd hres hde.2
        · have e1 : decide (PointDominanceTest (layer.getD p (Point.mk 0 0 [])).label
              q.label = DominanceTestResult.equal) = false := by simpa using hde.2
          rw [e1] at h1 h2
          exact ih _ h1 h2 x hx hinc
    · have hA2 : AreIncomparable (layer.getD p (Point.mk 0 0 [])).mask tmpMask = true := by
        simpa using hA
      simp only [hA2, Bool.not_true, Bool.false_eq_true, if_false] at h1 h2
      rcases List.mem_cons.mp hx with rfl | hx
      · rw [hinc] at hA2; cases hA2
      · exact ih _ h1 h2 x hx hinc

theorem mem_range'_lt (a b x : Nat) (h : x ∈ List.range' a (b + 1 - a)) : a ≤ x ∧ x ≤ b := by
  rw [List.mem_range'] at h
  obtain ⟨i, hi, rfl⟩ := h
  omega

/-- What the scan of one layer by masks reports is true: a reported
domination or equality comes from a point of the layer. -/
theorem skyMaskLoop_sound (layer : List Point) (tbl : List LMInfo) (q : Point) (dim : Nat)
    (hq : q.label.length = dim) (hl : ∀ e ∈ layer, e.label.length = dim) (hdim : dim ≤ 32)
    (htf : ∀ m, (tbl.getD m (LMInfo.mk 0 0 0)).size ≠ 0 →
      (tbl.getD m (LMInfo.mk 0 0 0)).firstPos ≤ (tbl.getD m (LMInfo.mk 0 0 0)).lastPos ∧
        (tbl.getD m (LMInfo.mk 0 0 0)).lastPos < layer.length)
    (ms : List Nat) (bd : Bool) :
    ((skyMaskLoop layer tbl q (((2 <<< (dim - 1)) + 2 ^ 32 - 1) % 2 ^ 32) ms bd false).1 = true →
      bd = true ∨
        ∃ e ∈ layer, PointDominanceTest e.label q.label = DominanceTestResult.dominates) ∧
    ((skyMaskLoop layer tbl q (((2 <<< (dim - 1)) + 2 ^ 32 - 1) % 2 ^ 32) ms bd false).2 = true →
      ∃ e ∈ layer, PointDominanceTest e.label q.label = DominanceTestResult.equal) := by
  induction ms generalizing bd with
  | nil => simp only [skyMaskLoop]; exact ⟨fun h => Or.inl h, fun h => by cases h⟩
  | cons m rest ih =>
    simp only [skyMaskLoop]
    split
    · exact ih bd
    · next hsize =>
      obtain ⟨hfl, hll⟩ := htf m hsize
      split
      · split
        · next hfull =>
          simp only [Bool.false_eq_true, false_implies, and_true]
          intro _
          right
          have hmem := getD_mem_of_lt layer (tbl.getD m (LMInfo.mk 0 0 0)).firstPos (by omega)
          exact ⟨_, hmem, dominates_of_mask_full q.label _ dim hq (hl _ hmem) hdim hfull⟩
        · have hb := skyBlockLoop_sound layer q
            (DeterminePartition q.label
              (layer.getD (tbl.getD m (LMInfo.mk 0 0 0)).firstPos (Point.mk 0 0 [])).label)
            (List.range' (tbl.getD m (LMInfo.mk 0 0 0)).firstPos
              ((tbl.getD m (LMInfo.mk 0 0 0)).lastPos + 1
                - (tbl.getD m (LMInfo.mk 0 0 0)).firstPos)) false
            (fun p hp => by have := mem_range'_lt _ _ _ hp; omega)
          split
          · exact ⟨fun h => Or.inr ((hb.1 h).resolve_left (by simp)), hb.2⟩
          · next hnot =>
            simp only [Bool.or_eq_true, not_or, Bool.not_eq_true] at hnot
            rw [hnot.1, hnot.2]
            obtain ⟨i1, i2⟩ := ih false
            exact ⟨fun h => Or.inr ((i1 h).resolve_left (by simp)), i2⟩
      · exact ih bd

/-- When the scan of one layer by masks reports nothing, every examined block
holds no point that dominates or equals the current point, among the points
whose stored mask is not incomparable. -/
theorem skyMaskLoop_complete (layer : List Point) (tbl : List LMInfo) (q : Point)
    (maxMask : Nat) (ms : List Nat) (bd : Bool)
    (h1 : (skyMaskLoop layer tbl q maxMask ms bd false).1 = false)
    (h2 : (skyMaskLoop layer tbl q maxMask ms bd false).2 = false) :
    ∀ m ∈ ms, (tbl.getD m (LMInfo.mk 0 0 0)).size ≠ 0 → AreIncomparable m q.mask = false →
      ∀ p ∈ List.range' (tbl.getD m (LMInfo.mk 0 0 0)).firstPos
          ((tbl.getD m (LMInfo.mk 0 0 0)).lastPos + 1 - (tbl.getD m (LMInfo.mk 0 0 0)).firstPos),
        AreIncomparable (layer.getD p (Point.mk 0 0 [])).mask
          (DeterminePartition q.label
            (layer.getD (tbl.getD m (LMInfo.mk 0 0 0)).firstPos (Point.mk 0 0 [])).label)
            = false →
        PointDominanceTest (layer.getD p (Point.mk 0 0 [])).label q.label
          = DominanceTestResult.incomparable := by
  induction ms generalizing bd with
  | nil => simp
  | cons m rest ih =>
    simp only [skyMaskLoop] at h1 h2
    intro x hx hsize hinc
    by_cases hs : (tbl.getD m (LMInfo.mk 0 0 0)).size = 0
    · rw [if_pos hs] at h1 h2
      rcases List.mem_cons.mp hx with rfl | hx
      · exact absurd hs hsize
      · exact ih bd h1 h2 x hx hsize hinc
    · rw [if_neg hs] at h1 h2
      by_cases hA : AreIncomparable m q.mask = false
      · simp only [hA, Bool.not_false, if_true] at h1 h2
        by_cases hfull : DeterminePartition q.label
            (layer.getD (tbl.getD m (LMInfo.mk 0 0 0)).firstPos (Point.mk 0 0 [])).label = maxMask
        · rw [if_pos hfull] at h1
          simp at h1
        · rw [if_neg hfull] at h1 h2
          split at h1
          · next hr =>
            rw [if_pos hr] at h2
            rw [h1, h2] at hr
            simp at hr
          · next hr =>
            rw [if_neg hr] at h2
            simp only [Bool.or_eq_true, not_or, Bool.not_eq_true] at hr
            rcases List.mem_cons.mp hx with rfl | hx
            · exact skyBlockLoop_complete layer q _ _ false hr.1 hr.2
            · rw [hr.2] at h1 h2
              exact ih _ h1 h2 x hx hsize hinc
      · have hA2 : AreIncomparable m q.mask = true := by simpa using hA
        simp only [hA2, Bool.not_true, Bool.false_eq_true, if_false] at h1 h2
        rcases List.mem_cons.mp hx with rfl | hx
        · rw [hinc] at hA2; cases hA2
        · exact ih bd h1 h2 x hx hsize hinc


theorem LayerInv.dim_nd {pivot : List Int} {maxMask : Nat} {P skyL ndL : List Point}
    {tbl : List LMInfo} (h : LayerInv pivot maxMask P skyL ndL tbl) (dim : Nat)
    (hP : ∀ p ∈ P, p.label.length = dim) : ∀ e ∈ ndL, e.label.length = dim := by
  intro e he
  obtain ⟨p, hp, hpe⟩ := h.nd_sky e he
  rw [← hpe]
  exact hP p (h.sub p hp)

theorem LayerInv.weaken {pivot : List Int} {maxMask : Nat} {P skyL ndL : List Point}
    {tbl : List LMInfo} (h : LayerInv pivot maxMask P skyL ndL tbl) (q : Point) :
    LayerInv pivot maxMask (P ++ [q]) skyL ndL tbl :=
  ⟨fun p hp => List.mem_append_left _ (h.sub p hp), h.nd_sky, h.sky_nd, h.noDom, h.tableLen,
    h.tableFirst, h.tablePoint⟩

/-- When the scan of a layer reports neither domination nor equality, no
point of the layer dominates the current point. -/
theorem LayerInv.scan_complete {pivot : List Int} {maxMask : Nat} {P skyL ndL : List Point}
    {tbl : List LMInfo} (h : LayerInv pivot maxMask P skyL ndL tbl) (dim : Nat)
    (hP : ∀ p ∈ P, p.label.length = dim) (q : Point) (hq : q.label.length = dim)
    (hqm : q.mask = DeterminePartition q.label pivot)
    (h1 : (skyMaskLoop ndL tbl q maxMask (List.range (q.mask + 1)) false false).1 = false)
    (h2 : (skyMaskLoop ndL tbl q maxMask (List.range (q.mask + 1)) false false).2 = false) :
    ∀ e ∈ ndL, PointDominanceTest e.label q.label ≠ DominanceTestResult.dominates := by
  intro e he hdom
  obtain ⟨pos, hpos, rfl⟩ := List.getElem_of_mem he
  have hget : ndL.getD pos (Point.mk 0 0 []) = ndL[pos] := by
    simp [List.getD_eq_getElem?_getD, List.getElem?_eq_getElem hpos]
  have hlen : (ndL[pos]).label.length = dim := h.dim_nd dim hP _ he
  obtain ⟨hle, -⟩ := (PointDominanceTest_dominates_iff _ _ (hlen.trans hq.symm)).mp hdom
  obtain ⟨t1, t2, t3, t4⟩ := h.tablePoint pos hpos
  rw [hget] at t1 t2 t3 t4
  have hsub := DeterminePartition_subset _ _ pivot (hlen.trans hq.symm) hle
  have hinc : AreIncomparable (DeterminePartition (ndL[pos]).label pivot) q.mask = false := by
    rw [hqm]
    exact AreIncomparable_of_subset _ _ (DeterminePartition_lt _ _) (DeterminePartition_lt _ _)
      hsub
  have hmem : DeterminePartition (ndL[pos]).label pivot ∈ List.range (q.mask + 1) := by
    rw [List.mem_range, hqm]
    have := le_of_subset _ _ hsub
    omega
  have hc := skyMaskLoop_complete ndL tbl q maxMask _ false h1 h2 _ hmem t1 hinc pos
    (by
      rw [List.mem_range']
      exact ⟨pos - (tbl.getD (DeterminePartition (ndL[pos]).label pivot)
        (LMInfo.mk 0 0 0)).firstPos, by omega, by omega⟩)
    (by
      rw [hget]
      rcases t4 with t4 | t4
      · rw [t4]
        exact AreIncomparable_zero _ (DeterminePartition_lt _ _)
      · rw [t4]
        exact AreIncomparable_of_subset _ _ (DeterminePartition_lt _ _)
          (DeterminePartition_lt _ _)
          (DeterminePartition_subset _ _ _ (hlen.trans hq.symm) hle))
  rw [hget, hdom] at hc
  cases hc

/-- What the scan of a layer reports is witnessed by a point of the layer. -/
theorem LayerInv.scan_sound {pivot : List Int} {P skyL ndL : List Point}
    {tbl : List LMInfo} (dim : Nat)
    (h : LayerInv pivot (((2 <<< (dim - 1)) + 2 ^ 32 - 1) % 2 ^ 32) P skyL ndL tbl)
    (hdim : dim ≤ 32) (hP : ∀ p ∈ P, p.label.length = dim) (q : Point)
    (hq : q.label.length = dim) (ms : List Nat) :
    ((skyMaskLoop ndL tbl q (((2 <<< (dim - 1)) + 2 ^ 32 - 1) % 2 ^ 32) ms false false).1 = true →
        ∃ e ∈ ndL, PointDominanceTest e.label q.label = DominanceTestResult.dominates) ∧
    ((skyMaskLoop ndL tbl q (((2 <<< (dim - 1)) + 2 ^ 32 - 1) % 2 ^ 32) ms false false).2 = true →
      ∃ e ∈ ndL, PointDominanceTest e.label q.label = DominanceTestResult.equal) := by
  obtain ⟨s1, s2⟩ := skyMaskLoop_sound ndL tbl q dim hq (h.dim_nd dim hP) hdim h.tableFirst ms
    false
  exact ⟨fun hh => (s1 hh).resolve_left (by simp), s2⟩

/-- A point that equals a point of the layer joins the layer; the layer
without duplicates and the table are unchanged. -/
theorem LayerInv.add_equal {pivot : List Int} {maxMask : Nat} {P skyL ndL : List Point}
    {tbl : List LMInfo} (h : LayerInv pivot maxMask P skyL ndL tbl) (dim : Nat)
    (hP : ∀ p ∈ P, p.label.length = dim) (q : Point) (hq : q.label.length = dim)
    (hsorted : ∀ p ∈ P, PointDominanceTest q.label p.label ≠ DominanceTestResult.dominates)
    (heq : ∃ e ∈ ndL, PointDominanceTest e.label q.label = DominanceTestResult.equal) :
    LayerInv pivot maxMask (P ++ [q]) (skyL ++ [q]) ndL tbl := by
  obtain ⟨e, he, hee⟩ := heq
  have hel : e.label = q.label :=
    (PointDominanceTest_equal_iff _ _ ((h.dim_nd dim hP e he).trans hq.symm)).mp hee
  refine ⟨?_, ?_, ?_, ?_, h.tableLen, h.tableFirst, h.tablePoint⟩
  · intro p hp
    rcases List.mem_append.mp hp with hp | hp
    · exact List.mem_append_left _ (h.sub p hp)
    · exact List.mem_append_right _ hp
  · intro e2 he2
    obtain ⟨p, hp, hpe⟩ := h.nd_sky e2 he2
    exact ⟨p, List.mem_append_left _ hp, hpe⟩
  · intro p hp
    rcases List.mem_append.mp hp with hp | hp
    · exact h.sky_nd p hp
    · simp only [List.mem_singleton] at hp
      subst hp
      exact ⟨e, he, hel⟩
  · intro p hp p2 hp2
    rcases List.mem_append.mp hp with hp1 | hp1
    · rcases List.mem_append.mp hp2 with hp3 | hp3
      · exact h.noDom p hp1 p2 hp3
      · simp only [List.mem_singleton] at hp3
        rw [hp3]
        obtain ⟨p3, hp4, hl3⟩ := h.nd_sky e he
        rw [← hel, ← hl3]
        exact h.noDom p hp1 p3 hp4
    · simp only [List.mem_singleton] at hp1
      rw [hp1]
      rcases List.mem_append.mp hp2 with hp3 | hp3
      · exact hsorted p2 (h.sub p2 hp3)
      · simp only [List.mem_singleton] at hp3
        rw [hp3, PointDominanceTest_self]
        simp

theorem getD_snoc_point (l : List Point) (x : Point) (pos : Nat) :
    (l ++ [x]).getD pos (Point.mk 0 0 []) =
      if pos < l.length then l.getD pos (Point.mk 0 0 []) else
        if pos = l.length then x else Point.mk 0 0 [] := by
  simp only [List.getD_eq_getElem?_getD]
  by_cases h : pos < l.length
  · rw [if_pos h, List.getElem?_append_left h]
  · rw [if_neg h, List.getElem?_append_right (by omega)]
    by_cases e : pos = l.length
    · simp [e]
    · rw [if_neg e]
      have : pos - l.length ≠ 0 := by omega
      rw [List.getElem?_eq_none (by simp; omega)]
      rfl

theorem getD_set_info (tbl : List LMInfo) (m x : Nat) (v : LMInfo) (hm : m < tbl.length) :
    (tbl.set m v).getD x (LMInfo.mk 0 0 0) =
      if x = m then v else tbl.getD x (LMInfo.mk 0 0 0) := by
  simp only [List.getD_eq_getElem?_getD, List.getElem?_set]
  by_cases e : m = x
  · subst e; simp [hm]
  · simp [e, Ne.symm e]

/-- A point that no point of the layer dominates or equals joins the layer,
its copy joins the layer without duplicates, and the table is updated as in
`UpdateSkyLayers`. -/
theorem LayerInv.add_new {pivot : List Int} {maxMask : Nat} {P skyL ndL : List Point}
    {tbl : List LMInfo} (h : LayerInv pivot maxMask P skyL ndL tbl) (q : Point)
    (hqm : q.mask = DeterminePartition q.label pivot) (hmax : q.mask ≤ maxMask)
    (hsorted : ∀ p ∈ P, PointDominanceTest q.label p.label ≠ DominanceTestResult.dominates)
    (hnd : ∀ e ∈ ndL, PointDominanceTest e.label q.label ≠ DominanceTestResult.dominates) :
    LayerInv pivot maxMask (P ++ [q]) (skyL ++ [q])
      (ndL ++ [if (tbl.getD q.mask (LMInfo.mk 0 0 0)).size = 0 then { q with mask := 0 }
        else
          { q with
            mask := DeterminePartition q.label
              (ndL.getD (tbl.getD q.mask (LMInfo.mk 0 0 0)).firstPos (Point.mk 0 0 [])).label }])
      (tbl.set q.mask
        { firstPos := if (tbl.getD q.mask (LMInfo.mk 0 0 0)).size = 0 then ndL.length
            else (tbl.getD q.mask (LMInfo.mk 0 0 0)).firstPos
          lastPos := ndL.length
          size := (tbl.getD q.mask (LMInfo.mk 0 0 0)).size + 1 }) := by
  have hmlt : q.mask < tbl.length := by rw [h.tableLen]; omega
  have hstored : ∀ (c : Prop) [Decidable c] (a b : Nat),
      (if c then ({ q with mask := a } : Point) else { q with mask := b }).label = q.label := by
    intro c _ a b
    split <;> rfl
  refine ⟨?_, ?_, ?_, ?_, by rw [List.length_set]; exact h.tableLen, ?_, ?_⟩
  · intro p hp
    rcases List.mem_append.mp hp with hp | hp
    · exact List.mem_append_left _ (h.sub p hp)
    · exact List.mem_append_right _ hp
  · intro e he
    rcases List.mem_append.mp he with he | he
    · obtain ⟨p, hp, hpe⟩ := h.nd_sky e he
      exact ⟨p, List.mem_append_left _ hp, hpe⟩
    · simp only [List.mem_singleton] at he
      subst he
      exact ⟨q, by simp, (hstored _ _ _).symm⟩
  · intro p hp
    rcases List.mem_append.mp hp with hp | hp
    · obtain ⟨e, he, hpe⟩ := h.sky_nd p hp
      exact ⟨e, List.mem_append_left _ he, hpe⟩
    · simp only [List.mem_singleton] at hp
      subst hp
      exact ⟨_, List.mem_append_right _ (List.mem_singleton_self _), hstored _ _ _⟩
  · intro p hp p2 hp2
    rcases List.mem_append.mp hp with hp1 | hp1
    · rcases List.mem_append.mp hp2 with hp3 | hp3
      · exact h.noDom p hp1 p2 hp3
      · simp only [List.mem_singleton] at hp3
        rw [hp3]
        obtain ⟨e, he, hpe⟩ := h.sky_nd p hp1
        rw [← hpe]
        exact hnd e he
    · simp only [List.mem_singleton] at hp1
      rw [hp1]
      rcases List.mem_append.mp hp2 with hp3 | hp3
      · exact hsorted p2 (h.sub p2 hp3)
      · simp only [List.mem_singleton] at hp3
        rw [hp3, PointDominanceTest_self]
        simp
  · intro m hm
    rw [getD_set_info tbl q.mask m _ hmlt] at hm ⊢
    simp only [List.length_append, List.length_singleton]
    by_cases e : m = q.mask
    · rw [if_pos e]
      simp only
      by_cases hs : (tbl.getD q.mask (LMInfo.mk 0 0 0)).size = 0
      · rw [if_pos hs]; omega
      · rw [if_neg hs]
        have := h.tableFirst q.mask hs
        omega
    · rw [if_neg e] at hm ⊢
      have := h.tableFirst m hm
      omega
  · intro pos hpos
    simp only [List.length_append, List.length_singleton] at hpos
    rw [getD_snoc_point]
    by_cases hlt : pos < ndL.length
    · rw [if_pos hlt]
      obtain ⟨t1, t2, t3, t4⟩ := h.tablePoint pos hlt
      rw [getD_set_info tbl q.mask _ _ hmlt]
      by_cases e : DeterminePartition (ndL.getD pos (Point.mk 0 0 [])).label pivot = q.mask
      · rw [if_pos e]
        rw [e] at t1 t2 t3 t4
        simp only
        rw [if_neg t1]
        have tf := h.tableFirst q.mask t1
        refine ⟨by omega, t2, by omega, ?_⟩
        rw [getD_snoc_point, if_pos (by omega)]
        exact t4
      · rw [if_neg e]
        have tf := h.tableFirst _ t1
        refine ⟨t1, t2, t3, ?_⟩
        rw [getD_snoc_point, if_pos (by omega)]
        exact t4
    · have hpe : pos = ndL.length := by omega
      rw [if_neg hlt, if_pos hpe, hstored, ← hqm, getD_set_info tbl q.mask _ _ hmlt, if_pos rfl]
      simp only
      by_cases hs : (tbl.getD q.mask (LMInfo.mk 0 0 0)).size = 0
      · simp only [hs, if_true]
        exact ⟨by omega, by omega, by omega, Or.inl trivial⟩
      · simp only [hs, if_false]
        have tf := h.tableFirst q.mask hs
        refine ⟨by omega, by omega, by omega, Or.inr ?_⟩
        rw [getD_snoc_point, if_pos (by omega)]

/-- A new layer of one point satisfies the layer invariant. -/
theorem LayerInv.new_layer (pivot : List Int) (maxMask : Nat) (P : List Point) (q : Point)
    (hqm : q.mask = DeterminePartition q.label pivot) (hmax : q.mask ≤ maxMask) :
    LayerInv pivot maxMask (P ++ [q]) [q] [{ q with mask := 0 }]
      ((List.replicate (maxMask + 1) (LMInfo.mk 0 0 0)).set q.mask (LMInfo.mk 0 0 1)) := by
  have hmlt : q.mask < (List.replicate (maxMask + 1) (LMInfo.mk 0 0 0)).length := by
    rw [List.length_replicate]; omega
  have hrep : ∀ m, (List.replicate (maxMask + 1) (LMInfo.mk 0 0 0)).getD m (LMInfo.mk 0 0 0)
      = LMInfo.mk 0 0 0 := by
    intro m
    by_cases hm : m < maxMask + 1 <;>
      simp [List.getD_eq_getElem?_getD, List.getElem?_replicate, hm]
  refine ⟨?_, ?_, ?_, ?_, by simp, ?_, ?_⟩
  · intro p hp
    simp only [List.mem_singleton] at hp
    subst hp
    simp
  · intro e he
    simp only [List.mem_singleton] at he
    subst he
    exact ⟨q, by simp, rfl⟩
  · intro p hp
    simp only [List.mem_singleton] at hp
    subst hp
    exact ⟨_, List.mem_singleton_self _, rfl⟩
  · intro p hp p2 hp2
    simp only [List.mem_singleton] at hp hp2
    subst hp
    subst hp2
    rw [PointDominanceTest_self]
    simp
  · intro m hm
    rw [getD_set_info _ q.mask m _ hmlt] at hm ⊢
    by_cases e : m = q.mask
    · rw [if_pos e]; simp
    · rw [if_neg e, hrep] at hm
      exact absurd rfl hm
  · intro pos hpos
    simp only [List.length_singleton] at hpos
    have hp0 : pos = 0 := by omega
    subst hp0
    simp only [List.getD_cons_zero]
    rw [← hqm, getD_set_info _ q.mask _ _ hmlt, if_pos rfl]
    simp


theorem getD_set_same {α : Type} (l : List (List α)) (j : Nat) (x : List α) (h : j < l.length) :
    (l.set j x).getD j [] = x := by
  simp [List.getD_eq_getElem?_getD, List.getElem?_set, h]

theorem getD_set_other {α : Type} (l : List (List α)) (j i : Nat) (x : List α) (h : i ≠ j) :
    (l.set j x).getD i [] = l.getD i [] := by
  simp [List.getD_eq_getElem?_getD, List.getElem?_set, Ne.symm h]

theorem getD_snoc_left {α : Type} (l : List (List α)) (x : List α) (i : Nat)
    (h : i < l.length) : (l ++ [x]).getD i [] = l.getD i [] := by
  simp [List.getD_eq_getElem?_getD, List.getElem?_append_left h]

theorem getD_snoc_last {α : Type} (l : List (List α)) (x : List α) :
    (l ++ [x]).getD l.length [] = x := by
  simp [List.getD_eq_getElem?_getD]

theorem range_split (n j : Nat) (pre post : List Nat) (e : List.range n = pre ++ j :: post) :
    j < n ∧ ∀ i, i < j → i ∈ pre := by
  have hj : j ∈ List.range n := by rw [e]; simp
  have hjn := List.mem_range.mp hj
  have hlen : pre.length < n := by
    have := congrArg List.length e
    simp at this
    omega
  have hget : (List.range n)[pre.length]? = some j := by
    rw [e, List.getElem?_append_right (le_refl _)]
    simp
  rw [List.getElem?_range hlen] at hget
  have hpj : pre.length = j := by simpa using hget
  have hpre : pre = List.range j := by
    have := congrArg (List.take pre.length) e
    rw [List.take_range, List.take_left' rfl] at this
    rw [← this, hpj]
    congr 1
    omega
  refine ⟨hjn, fun i hi => ?_⟩
  rw [hpre]
  exact List.mem_range.mpr hi

theorem UpdateSkyLayers_existing (nd : List (List Point)) (lm : List (List LMInfo))
    (q : Point) (maxMask j : Nat) (h : j ≠ nd.length) :
    UpdateSkyLayers nd lm q maxMask j =
      (nd.set j (nd.getD j [] ++
          [if ((lm.getD j []).getD q.mask (LMInfo.mk 0 0 0)).size = 0 then { q with mask := 0 }
            else
              { q with
                mask := DeterminePartition q.label
                  ((nd.getD j []).getD ((lm.getD j []).getD q.mask (LMInfo.mk 0 0 0)).firstPos
                    (Point.mk 0 0 [])).label }]),
        lm.set j ((lm.getD j []).set q.mask
          { firstPos := if ((lm.getD j []).getD q.mask (LMInfo.mk 0 0 0)).size = 0
              then (nd.getD j []).length
              else ((lm.getD j []).getD q.mask (LMInfo.mk 0 0 0)).firstPos
            lastPos := (nd.getD j []).length
            size := ((lm.getD j []).getD q.mask (LMInfo.mk 0 0 0)).size + 1 })) := by
  unfold UpdateSkyLayers
  rw [if_neg h]

theorem UpdateSkyLayers_new (nd : List (List Point)) (lm : List (List LMInfo))
    (q : Point) (maxMask : Nat) :
    UpdateSkyLayers nd lm q maxMask nd.length =
      (nd ++ [[{ q with mask := 0 }]],
        lm ++ [(List.replicate (maxMask + 1) (LMInfo.mk 0 0 0)).set q.mask (LMInfo.mk 0 0 1)]) := by
  unfold UpdateSkyLayers
  rw [if_pos rfl]

theorem mask_le_maxMask (q : Point) (pivot : List Int) (dim : Nat)
    (hq : q.label.length = dim) (hdim : dim ≤ 32)
    (hqm : q.mask = DeterminePartition q.label pivot) :
    q.mask ≤ ((2 <<< (dim - 1)) + 2 ^ 32 - 1) % 2 ^ 32 := by
  have h := DeterminePartition_lt_dim q.label pivot
  rw [hq, ← hqm] at h
  by_cases h0 : dim = 0
  · subst h0
    have : q.mask = 0 := by simpa using h
    rw [this]
    exact Nat.zero_le _
  · rw [maxMask_eq dim (by omega) hdim]
    omega

/-- One step of `GenerateSkyLayers` keeps the invariant of the layers. -/
theorem GenerateSkyLayersStep_inv (pivot : List Int) (dim : Nat) (hdim : dim ≤ 32)
    (P : List Point) (s : List (List Point) × List (List Point) × List (List LMInfo))
    (q : Point)
    (hinv : LayersInv pivot (((2 <<< (dim - 1)) + 2 ^ 32 - 1) % 2 ^ 32) P s)
    (hP : ∀ p ∈ P, p.label.length = dim) (hq : q.label.length = dim)
    (hqm : q.mask = DeterminePartition q.label pivot)
    (hsorted : ∀ p ∈ P, PointDominanceTest q.label p.label ≠ DominanceTestResult.dominates) :
    LayersInv pivot (((2 <<< (dim - 1)) + 2 ^ 32 - 1) % 2 ^ 32) (P ++ [q])
      (GenerateSkyLayersStep (((2 <<< (dim - 1)) + 2 ^ 32 - 1) % 2 ^ 32) s q) := by
  obtain ⟨sky, nd, lm⟩ := s
  obtain ⟨hlen1, hlen2, hlayer, hprev⟩ := hinv
  simp only at hlen1 hlen2 hlayer hprev
  have hmax := mask_le_maxMask q pivot dim hq hdim hqm
  -- a layer whose scan reports domination holds a dominating point
  have hdomin : ∀ i, i < sky.length →
      skyMaskLoop (nd.getD i []) (lm.getD i []) q (((2 <<< (dim - 1)) + 2 ^ 32 - 1) % 2 ^ 32)
        (List.range (q.mask + 1)) false false = (true, false) →
      ∃ p ∈ sky.getD i [], PointDominanceTest p.label q.label
        = DominanceTestResult.dominates := by
    intro i hi hM
    obtain ⟨e, he, hd⟩ := ((hlayer i hi).scan_sound dim hdim hP q hq _).1 (by rw [hM])
    obtain ⟨p, hp, hpe⟩ := (hlayer i hi).nd_sky e he
    exact ⟨p, hp, by rw [hpe]; exact hd⟩
  unfold GenerateSkyLayersStep
  simp only
  rcases skyLayerLoop_spec nd lm q (((2 <<< (dim - 1)) + 2 ^ 32 - 1) % 2 ^ 32)
      (List.range nd.length) sky 0 true with
    ⟨pre, j, post, e, hpre, hM1, hres⟩ | ⟨hall, hres⟩
  · obtain ⟨hj, hprej⟩ := range_split nd.length j pre post e
    have hjs : j < sky.length := by omega
    rw [hres]
    simp only [Bool.false_eq_true, if_false]
    -- the layers of the new state
    have hprev2 : ∀ i, i + 1 < sky.length →
        ∀ x ∈ (sky.set j (sky.getD j [] ++ [q])).getD (i + 1) [],
          ∃ p ∈ (sky.set j (sky.getD j [] ++ [q])).getD i [],
            PointDominanceTest p.label x.label = DominanceTestResult.dominates := by
      intro i hi x hx
      have hsup : ∀ p ∈ sky.getD i [], p ∈ (sky.set j (sky.getD j [] ++ [q])).getD i [] := by
        intro p hp
        by_cases hij : i = j
        · subst hij
          rw [getD_set_same sky i _ hjs]
          exact List.mem_append_left _ hp
        · rw [getD_set_other sky j i _ hij]
          exact hp
      by_cases hij : i + 1 = j
      · rw [hij, getD_set_same sky j _ hjs] at hx
        rcases List.mem_append.mp hx with hx | hx
        · rw [← hij] at hx
          obtain ⟨p, hp, hd⟩ := hprev i hi x hx
          exact ⟨p, hsup p hp, hd⟩
        · simp only [List.mem_singleton] at hx
          rw [hx]
          obtain ⟨p, hp, hd⟩ := hdomin i (by omega) (hpre i (hprej i (by omega)))
          exact ⟨p, hsup p hp, hd⟩
      · rw [getD_set_other sky j (i + 1) _ hij] at hx
        obtain ⟨p, hp, hd⟩ := hprev i hi x hx
        exact ⟨p, hsup p hp, hd⟩
    cases hM2 : (skyMaskLoop (nd.getD j []) (lm.getD j []) q
        (((2 <<< (dim - 1)) + 2 ^ 32 - 1) % 2 ^ 32) (List.range (q.mask + 1)) false false).2 with
    | true =>
      simp only [Bool.not_true, Bool.false_eq_true, if_false]
      refine ⟨by simp [hlen1], by simp [hlen2], ?_, ?_⟩
      · intro i hi
        simp only [List.length_set] at hi
        by_cases hij : i = j
        · subst hij
          rw [getD_set_same sky i _ hjs]
          exact (hlayer i hi).add_equal dim hP q hq hsorted
            (((hlayer i hi).scan_sound dim hdim hP q hq _).2 hM2)
        · rw [getD_set_other sky j i _ hij]
          exact (hlayer i hi).weaken q
      · intro i hi
        simp only [List.length_set] at hi
        exact hprev2 i hi
    | false =>
      simp only [Bool.not_false, if_true]
      rw [UpdateSkyLayers_existing nd lm q _ j (by omega)]
      refine ⟨by simp [hlen1], by simp [hlen2], ?_, ?_⟩
      · intro i hi
        simp only [List.length_set] at hi
        by_cases hij : i = j
        · subst hij
          rw [getD_set_same sky i _ hjs, getD_set_same nd i _ (by omega),
            getD_set_same lm i _ (by omega)]
          exact (hlayer i hi).add_new q hqm hmax hsorted
            ((hlayer i hi).scan_complete dim hP q hq hqm hM1 hM2)
        · rw [getD_set_other sky j i _ hij, getD_set_other nd j i _ hij,
            getD_set_other lm j i _ hij]
          exact (hlayer i hi).weaken q
      · intro i hi
        simp only [List.length_set] at hi
        exact hprev2 i hi
  · rw [hres]
    have hb : (if List.range nd.length = [] then true else true) = true := by split <;> rfl
    simp only [hb, if_true, Bool.not_false]
    rw [UpdateSkyLayers_new]
    refine ⟨by simp [hlen1], by simp [hlen2], ?_, ?_⟩
    · intro i hi
      simp only [List.length_append, List.length_singleton] at hi
      by_cases hil : i < sky.length
      · rw [getD_snoc_left sky _ i hil, getD_snoc_left nd _ i (by omega),
          getD_snoc_left lm _ i (by omega)]
        exact (hlayer i hil).weaken q
      · have hie : i = sky.length := by omega
        subst hie
        rw [getD_snoc_last sky]
        conv => arg 5; rw [← hlen1, getD_snoc_last nd]
        conv => arg 6; rw [← hlen2, getD_snoc_last lm]
        exact LayerInv.new_layer pivot _ P q hqm hmax
    · intro i hi x hx
      simp only [List.length_append, List.length_singleton] at hi
      rw [getD_snoc_left sky _ i (by omega)]
      by_cases hil : i + 1 < sky.length
      · rw [getD_snoc_left sky _ (i + 1) hil] at hx
        exact hprev i hil x hx
      · have hie : i + 1 = sky.length := by omega
        rw [hie, getD_snoc_last sky] at hx
        simp only [List.mem_singleton] at hx
        rw [hx]
        exact hdomin i (by omega) (hall i (List.mem_range.mpr (by omega)))


theorem getD_of_lt {α : Type} (l : List α) (d : α) (j : Nat) (h : j < l.length) :
    l.getD j d = l[j] := by
  simp [List.getD_eq_getElem?_getD, List.getElem?_eq_getElem h]

theorem GenerateSkyLayers_foldl_inv (pivot : List Int) (dim : Nat) (hdim : dim ≤ 32)
    (pts : List Point) (P : List Point)
    (s : List (List Point) × List (List Point) × List (List LMInfo))
    (hinv : LayersInv pivot (((2 <<< (dim - 1)) + 2 ^ 32 - 1) % 2 ^ 32) P s)
    (hk : ∀ p ∈ P ++ pts, p.label.length = dim ∧ p.mask = DeterminePartition p.label pivot)
    (hsorted : (P ++ pts).Pairwise fun a b =>
      PointDominanceTest b.label a.label ≠ DominanceTestResult.dominates) :
    LayersInv pivot (((2 <<< (dim - 1)) + 2 ^ 32 - 1) % 2 ^ 32) (P ++ pts)
      (pts.foldl (GenerateSkyLayersStep (((2 <<< (dim - 1)) + 2 ^ 32 - 1) % 2 ^ 32)) s) := by
  induction pts generalizing P s with
  | nil => simpa using hinv
  | cons q pts ih =>
    have hq := hk q (by simp)
    have hstep := GenerateSkyLayersStep_inv pivot dim hdim P s q hinv
      (fun p hp => (hk p (List.mem_append_left _ hp)).1) hq.1 hq.2
      (fun p hp => by
        have h1 := (List.pairwise_append.mp hsorted).2.2 p hp q (List.mem_cons_self _ _)
        exact h1)
    have := ih (P ++ [q]) _ hstep (by simpa using hk) (by simpa using hsorted)
    simpa using this

/-- The layers of `GenerateSkyLayers` on a list of points of one dimension
that carry their masks against a pivot and are ordered so that no point
dominates an earlier one: no point of a layer dominates another point of the
layer, and every point of a later layer is dominated by a point of the layer
before. -/
theorem GenerateSkyLayers_layers (pivot : List Int) (dim : Nat) (hdim : dim ≤ 32)
    (pts : List Point) (h0 : (pts.getD 0 (Point.mk 0 0 [])).label.length = dim)
    (hk : ∀ p ∈ pts, p.label.length = dim ∧ p.mask = DeterminePartition p.label pivot)
    (hsorted : pts.Pairwise fun a b =>
      PointDominanceTest b.label a.label ≠ DominanceTestResult.dominates) :
    (∀ l ∈ GenerateSkyLayers pts, ∀ p ∈ l, ∀ q ∈ l,
      PointDominanceTest p.label q.label ≠ DominanceTestResult.dominates) ∧
    ∀ j, j + 1 < (GenerateSkyLayers pts).length →
      ∀ q ∈ (GenerateSkyLayers pts).getD (j + 1) [],
        ∃ p ∈ (GenerateSkyLayers pts).getD j [],
          PointDominanceTest p.label q.label = DominanceTestResult.dominates := by
  have hinit : LayersInv pivot (((2 <<< (dim - 1)) + 2 ^ 32 - 1) % 2 ^ 32) []
      (([], [], []) : List (List Point) × List (List Point) × List (List LMInfo)) :=
    ⟨rfl, rfl, fun j hj => by simp at hj, fun j hj => by simp at hj⟩
  have hfin := GenerateSkyLayers_foldl_inv pivot dim hdim pts [] _ hinit (by simpa using hk)
    (by simpa using hsorted)
  unfold GenerateSkyLayers
  simp only [h0]
  obtain ⟨-, -, hlayer, hprev⟩ := hfin
  refine ⟨?_, hprev⟩
  intro l hl p hp q hq
  obtain ⟨j, hj, rfl⟩ := List.getElem_of_mem hl
  have := (hlayer j hj).noDom
  rw [getD_of_lt _ [] j hj] at this
  exact this p hp q hq

/-- The points that `OrderByPartition` returns carry their labels' masks
against the pivot, and no point dominates an earlier one when no coordinate sum
overflows. -/
theorem OrderByPartition_points (points : label_list_t)
    (hdim : ∀ l ∈ points, l.length = (labelOf points 0).length)
    (hsum : NoSumOverflow points) :
    (∀ p ∈ (OrderByPartition points).2, p.label.length = (labelOf points 0).length ∧
      p.mask = DeterminePartition p.label (GetPivot points)) ∧
    (OrderByPartition points).2.Pairwise fun a b =>
      PointDominanceTest b.label a.label ≠ DominanceTestResult.dominates := by
  obtain ⟨-, h2, h3⟩ := OrderByPartition_spec points hdim hsum
  have hform : (OrderByPartition points).2 = (List.range points.length).map fun index =>
      ({ id := index
         mask := (PartitionData points).getD ((OrderByPartition points).1.getD index 0) 0
         label := labelOf points ((OrderByPartition points).1.getD index 0) } : Point) := rfl
  constructor
  · intro p hp
    rw [hform] at hp
    obtain ⟨i, hi, rfl⟩ := List.mem_map.mp hp
    have hi2 := List.mem_range.mp hi
    have hidx := h2 i hi2
    refine ⟨?_, PartitionData_getD points _ hidx⟩
    apply hdim
    rw [labelOf, getD_of_lt points [] _ hidx]
    exact List.getElem_mem hidx
  · rw [hform, List.pairwise_map]
    apply List.Pairwise.imp_of_mem _ (List.pairwise_lt_range points.length)
    intro i j hi hj hij
    obtain ⟨a, b, ka, kb, la, lb, hlt⟩ := h3 i j hij (List.mem_range.mp hj)
    simp only
    rw [← la, ← lb]
    intro hdom
    have := key_lt_of_dominates b a (GetPivot points) (kb.1.trans ka.1.symm) kb.2.1 ka.2.1
      kb.2.2.1 ka.2.2.1 kb.2.2.2 ka.2.2.2 hdom
    rw [hlt] at this
    cases this

/-- Without any assumption on the order of the groups, `GroupDominanceTest`
returns `true` whenever the bag-difference specification holds. -/
theorem GroupDominanceTest_of_spec (labels : label_list_t) (A B : List Nat) (dim : Nat)
    (hA : ∀ v ∈ A, (labelOf labels v).length = dim)
    (hB : ∀ v ∈ B, (labelOf labels v).length = dim)
    (hspec : GroupDominatesSpec A B labels) : GroupDominanceTest A B labels = true := by
  have hA2 : ∀ a ∈ A.map (labelOf labels), a.length = dim := by
    intro a ha
    obtain ⟨v, hv, rfl⟩ := List.mem_map.mp ha
    exact hA v hv
  have hB2 : ∀ b ∈ B.map (labelOf labels), b.length = dim := by
    intro b hb
    obtain ⟨v, hv, rfl⟩ := List.mem_map.mp hb
    exact hB v hv
  obtain ⟨H1, H2⟩ := (GroupDominatesSpec_iff_count A B labels).mp hspec
  rw [GroupDominanceTest_eq_loopBag]
  exact loopBag_complete dim _ _ hA2 hB2 H1 H2 (B.map (labelOf labels)) []
    (A.map (labelOf labels)) false (by simp) (fun a ha => ha) (by intro L; simp)
    (by intro _ L; simp)


/-- C21 (failing input): for the labels of the pendant example the layers of
`GenerateSkyLayers` are `{0, 3}`, `{1}`, `{2}` with dimension-wise minima
`(0, 0)`, `(0, 2)`, `(1, 2)`, but `UpdateGraph` stores the representatives
`(0, 1)`, `(1, 2)`, `(2, 0)`: the minima over the index blocks `{0, 1}`,
`{2}`, `{3}`. -/
theorem C21_representatives_of_index_blocks :
    WellFormedInput examplePendantLabels examplePendant ∧
    (GenerateSkyLayers (OrderByPartition examplePendantLabels).2).map
      (fun layer => layer.map fun p => p.id) = [[0, 3], [1], [2]] ∧
    (GenerateSkyLayers (OrderByPartition examplePendantLabels).2).map layerMinimum
      = [[0, 0], [0, 2], [1, 2]] ∧
    (UpdateGraph examplePendantLabels examplePendant).layerRepresentatives
      = [[0, 1], [1, 2], [2, 0]] ∧
    (UpdateGraph examplePendantLabels examplePendant).layerRepresentatives.getD 0 []
      ≠ layerMinimum ((GenerateSkyLayers (OrderByPartition examplePendantLabels).2).getD 0 [])
        := by
  decide


theorem GetIndicesSortedByPartition_perm (points : label_list_t) (point_partitions : List Nat) :
    (GetIndicesSortedByPartition points point_partitions).Perm (List.range points.length) := by
  unfold GetIndicesSortedByPartition
  simp only
  have h1 := (List.perm_insertionSort (fun a b => ExtendedPoint.lt b a = false)
    ((List.range points.length).map fun index =>
      ({ id := index
         sum := accumulate (labelOf points index) 0
         mask := point_partitions.getD index 0
         setBitsCount := popcount (point_partitions.getD index 0)
         label := labelOf points index } : ExtendedPoint))).map (fun e => e.id)
  refine h1.trans ?_
  rw [List.map_map]
  conv_rhs => rw [← List.map_id (List.range points.length)]
  exact List.Perm.refl _

theorem UpdateGraph_toOriginal_perm (labels : label_list_t) (edges : adjacency_list_t) :
    (UpdateGraph labels edges).toOriginal.Perm (List.range labels.length) :=
  GetIndicesSortedByPartition_perm labels (PartitionData labels)

theorem UpdateGraph_toOriginal_length (labels : label_list_t) (edges : adjacency_list_t) :
    (UpdateGraph labels edges).toOriginal.length = labels.length := by
  simpa using (UpdateGraph_toOriginal_perm labels edges).length_eq

/-- The two index maps of `UpdateGraph` are inverse to each other. -/
theorem UpdateGraph_maps (labels : label_list_t) (edges : adjacency_list_t) :
    (UpdateGraph labels edges).toRelabelled.length = labels.length ∧
    (∀ i, i < labels.length → (UpdateGraph labels edges).toOriginal.getD i 0 < labels.length ∧
      (UpdateGraph labels edges).toRelabelled.getD
        ((UpdateGraph labels edges).toOriginal.getD i 0) 0 = i) ∧
    ∀ v, v < labels.length → (UpdateGraph labels edges).toRelabelled.getD v 0 < labels.length ∧
      (UpdateGraph labels edges).toOriginal.getD
        ((UpdateGraph labels edges).toRelabelled.getD v 0) 0 = v := by
  have hlen := UpdateGraph_toOriginal_length labels edges
  have hperm : (UpdateGraph labels edges).toOriginal.Perm
      (List.range (UpdateGraph labels edges).toOriginal.length) := by
    rw [hlen]; exact UpdateGraph_toOriginal_perm labels edges
  have h := InvertMapping_spec (UpdateGraph labels edges).toOriginal hperm
  rw [hlen] at h
  exact h

theorem perm_range_of_nodup (l : List Nat) (n : Nat) (hlen : l.length = n) (hnd : l.Nodup)
    (hb : ∀ x ∈ l, x < n) : l.Perm (List.range n) := by
  have hsub : l.Subperm (List.range n) :=
    hnd.subperm (fun x hx => List.mem_range.mpr (hb x hx))
  exact hsub.perm_of_length_le (by simp [hlen])

theorem UpdateGraph_toRelabelled_perm (labels : label_list_t) (edges : adjacency_list_t) :
    (UpdateGraph labels edges).toRelabelled.Perm (List.range labels.length) := by
  obtain ⟨h1, -, h3⟩ := UpdateGraph_maps labels edges
  apply perm_range_of_nodup _ _ h1
  · rw [List.nodup_iff_injective_get]
    intro a b hab
    have ha : (a : Nat) < labels.length := by rw [← h1]; exact a.isLt
    have hb : (b : Nat) < labels.length := by rw [← h1]; exact b.isLt
    have ea : (UpdateGraph labels edges).toRelabelled.getD a 0
        = (UpdateGraph labels edges).toRelabelled.get a := by
      simp [List.getD_eq_getElem?_getD]
    have eb : (UpdateGraph labels edges).toRelabelled.getD b 0
        = (UpdateGraph labels edges).toRelabelled.get b := by
      simp [List.getD_eq_getElem?_getD]
    have h4 := (h3 a ha).2
    have h5 := (h3 b hb).2
    rw [ea, hab, ← eb, h5] at h4
    exact Fin.ext h4.symm
  · intro x hx
    obtain ⟨i, hi, rfl⟩ := List.getElem_of_mem hx
    have hi2 : i < labels.length := by rw [← h1]; exact hi
    have := (h3 i hi2).1
    rwa [getD_of_lt _ 0 i hi] at this

theorem UpdateGraph_labels (labels : label_list_t) (edges : adjacency_list_t) :
    (UpdateGraph labels edges).labels.length = labels.length ∧
    ∀ i, i < labels.length →
      labelOf (UpdateGraph labels edges).labels i
        = labelOf labels ((UpdateGraph labels edges).toOriginal.getD i 0) := by
  have hlen := UpdateGraph_toOriginal_length labels edges
  have hl : (UpdateGraph labels edges).labels
      = (UpdateGraph labels edges).toOriginal.map (labelOf labels) := rfl
  refine ⟨by rw [hl, List.length_map, hlen], ?_⟩
  intro i hi
  have hi2 : i < (UpdateGraph labels edges).toOriginal.length := by omega
  rw [hl, labelOf, List.getD_eq_getElem?_getD, List.getElem?_map,
    List.getElem?_eq_getElem hi2, getD_of_lt _ 0 i hi2]
  rfl

/-- C24: after `UpdateGraph` on `n` labelled vertices `toOriginal` and
`toRelabelled` are permutations of `0 .. n-1` that are inverse to each other,
and the new label of vertex `i` is the input label of vertex `toOriginal[i]`. -/
theorem C24_UpdateGraph_inverse_maps (labels : label_list_t) (edges : adjacency_list_t) :
    (UpdateGraph labels edges).toOriginal.Perm (List.range labels.length) ∧
    (UpdateGraph labels edges).toRelabelled.Perm (List.range labels.length) ∧
    (∀ i, i < labels.length →
      (UpdateGraph labels edges).toRelabelled.getD
        ((UpdateGraph labels edges).toOriginal.getD i 0) 0 = i) ∧
    (∀ v, v < labels.length →
      (UpdateGraph labels edges).toOriginal.getD
        ((UpdateGraph labels edges).toRelabelled.getD v 0) 0 = v) ∧
    (UpdateGraph labels edges).labels.length = labels.length ∧
    ∀ i, i < labels.length →
      labelOf (UpdateGraph labels edges).labels i
        = labelOf labels ((UpdateGraph labels edges).toOriginal.getD i 0) := by
  obtain ⟨-, h2, h3⟩ := UpdateGraph_maps labels edges
  obtain ⟨l1, l2⟩ := UpdateGraph_labels labels edges
  exact ⟨UpdateGraph_toOriginal_perm labels edges, UpdateGraph_toRelabelled_perm labels edges,
    fun i hi => (h2 i hi).2, fun v hv => (h3 v hv).2, l1, l2⟩

theorem TransformEdgeLists_mem (edges : adjacency_list_t) (sortedIndices newIndices : List Nat)
    (i : Nat) (hi : i < sortedIndices.length) (w : Nat) :
    w ∈ adj (TransformEdgeLists edges sortedIndices newIndices) i ↔
      ∃ x ∈ adj edges (sortedIndices.getD i 0), newIndices.getD x 0 = w := by
  rw [TransformEdgeLists_adj _ _ _ i hi, (List.perm_insertionSort _ _).mem_iff, List.mem_map]

theorem BoundedAdj.adj_lt {edges : adjacency_list_t} (hb : BoundedAdj edges) (u v : Nat)
    (hv : v ∈ adj edges u) : v < edges.length := by
  by_cases hu : u < edges.length
  · apply hb (adj edges u) _ v hv
    rw [adj, getD_of_lt edges [] u hu]
    exact List.getElem_mem hu
  · rw [adj_of_length_le edges u (by omega)] at hv
    simp at hv

/-- The edge lists of `UpdateGraph`: `(u, v)` is an edge of the input exactly
when the relabelled pair is an edge of the result. -/
theorem UpdateGraph_edge_iff (labels : label_list_t) (edges : adjacency_list_t)
    (hlen : labels.length = edges.length) (hb : BoundedAdj edges) (u v : Nat)
    (hu : u < edges.length) (hv : v < edges.length) :
    v ∈ adj edges u ↔
      (UpdateGraph labels edges).toRelabelled.getD v 0 ∈
        adj (UpdateGraph labels edges).edges ((UpdateGraph labels edges).toRelabelled.getD u 0)
      := by
  obtain ⟨h1, h2, h3⟩ := UpdateGraph_maps labels edges
  have hlenO := UpdateGraph_toOriginal_length labels edges
  have he : (UpdateGraph labels edges).edges = TransformEdgeLists edges
      (UpdateGraph labels edges).toOriginal (UpdateGraph labels edges).toRelabelled := rfl
  obtain ⟨hu1, hu2⟩ := h3 u (by omega)
  rw [he, TransformEdgeLists_mem _ _ _ _ (by omega), hu2]
  constructor
  · intro h
    exact ⟨v, h, rfl⟩
  · rintro ⟨x, hx, hxv⟩
    have hxb : x < labels.length := by rw [hlen]; exact hb.adj_lt u x hx
    have e1 := (h3 x hxb).2
    have e2 := (h3 v (by omega)).2
    rw [hxv, e2] at e1
    rw [e1]
    exact hx

theorem SymmetricAdj.boundedAdj {edges : adjacency_list_t} (hs : SymmetricAdj edges) :
    BoundedAdj edges := by
  intro l hl v hv
  obtain ⟨u, hu, rfl⟩ := List.getElem_of_mem hl
  apply hs.bounded u v
  rw [adj, getD_of_lt edges [] u hu]
  exact hv

theorem UpdateGraph_edges_length (labels : label_list_t) (edges : adjacency_list_t) :
    (UpdateGraph labels edges).edges.length = labels.length := by
  have he : (UpdateGraph labels edges).edges = TransformEdgeLists edges
      (UpdateGraph labels edges).toOriginal (UpdateGraph labels edges).toRelabelled := rfl
  rw [he]
  simp only [TransformEdgeLists, List.length_map]
  exact UpdateGraph_toOriginal_length labels edges

/-- C22: if the input adjacency of `n` labelled vertices is symmetric, then
the adjacency after `UpdateGraph` is symmetric, and `(u, v)` is an edge of the
input exactly when `(toRelabelled[u], toRelabelled[v])` is an edge of the
result. -/
theorem C22_UpdateGraph_symmetric (labels : label_list_t) (edges : adjacency_list_t)
    (hlen : labels.length = edges.length) (hs : SymmetricAdj edges) :
    SymmetricAdj (UpdateGraph labels edges).edges ∧
    ∀ u v, u < edges.length → v < edges.length →
      (v ∈ adj edges u ↔
        (UpdateGraph labels edges).toRelabelled.getD v 0 ∈
          adj (UpdateGraph labels edges).edges
            ((UpdateGraph labels edges).toRelabelled.getD u 0)) := by
  have hiff := UpdateGraph_edge_iff labels edges hlen hs.boundedAdj
  refine ⟨?_, hiff⟩
  obtain ⟨h1, h2, h3⟩ := UpdateGraph_maps labels edges
  have hlenO := UpdateGraph_toOriginal_length labels edges
  have he : (UpdateGraph labels edges).edges = TransformEdgeLists edges
      (UpdateGraph labels edges).toOriginal (UpdateGraph labels edges).toRelabelled := rfl
  intro i hi w hw
  rw [UpdateGraph_edges_length] at hi
  obtain ⟨hi1, hi2⟩ := h2 i hi
  have hw2 := hw
  rw [he, TransformEdgeLists_mem _ _ _ _ (by omega)] at hw2
  obtain ⟨x, hx, rfl⟩ := hw2
  have hxb : x < edges.length := hs.bounded _ _ hx
  have hx2 := hs.symm _ _ hx
  have := (hiff x _ hxb (by omega)).mp hx2
  rw [hi2] at this
  exact this

/-- C22 (witness): the path `1 - 0 - 2 - 3` with the antichain labels, which
`UpdateGraph` relabels by `toRelabelled = [3, 0, 1, 2]`. -/
theorem C22_witness :
    exampleAntichainLabels.length = examplePath.length ∧ SymmetricAdj examplePath ∧
    (UpdateGraph exampleAntichainLabels examplePath).toRelabelled = [3, 0, 1, 2] ∧
    (UpdateGraph exampleAntichainLabels examplePath).edges = [[3], [3, 2], [1], [1, 0]] ∧
    SymmetricAdj (UpdateGraph exampleAntichainLabels examplePath).edges :=
  ⟨by decide, by decide, by decide, by decide,
    (C22_UpdateGraph_symmetric exampleAntichainLabels examplePath (by decide) (by decide)).1⟩

/-- The neighbour lists of `UpdateGraph` are strictly decreasing when no
neighbour list of the input repeats an id. -/
theorem UpdateGraph_descending (labels : label_list_t) (edges : adjacency_list_t)
    (hlen : labels.length = edges.length) (hb : BoundedAdj edges)
    (hnd : ∀ l ∈ edges, l.Nodup) : DescendingAdj (UpdateGraph labels edges).edges := by
  obtain ⟨h1, h2, h3⟩ := UpdateGraph_maps labels edges
  have he : (UpdateGraph labels edges).edges = TransformEdgeLists edges
      (UpdateGraph labels edges).toOriginal (UpdateGraph labels edges).toRelabelled := rfl
  intro l hl2
  rw [he] at hl2
  simp only [TransformEdgeLists, List.map_map, List.mem_map, Function.comp] at hl2
  obtain ⟨v, -, rfl⟩ := hl2
  have hsorted : (((adj edges v).map fun neighbour =>
      (UpdateGraph labels edges).toRelabelled.getD neighbour 0).insertionSort
        (· ≥ ·)).Pairwise (· ≥ ·) :=
    List.sorted_insertionSort (· ≥ ·) _
  have hnodup : (((adj edges v).map fun neighbour =>
      (UpdateGraph labels edges).toRelabelled.getD neighbour 0).insertionSort
        (· ≥ ·)).Nodup := by
    rw [(List.perm_insertionSort _ _).nodup_iff]
    apply List.Nodup.map_on _ (adj_nodup edges hnd v)
    intro x hx y hy hxy
    have hxb : x < labels.length := by rw [hlen]; exact hb.adj_lt _ _ hx
    have hyb : y < labels.length := by rw [hlen]; exact hb.adj_lt _ _ hy
    rw [← (h3 x hxb).2, ← (h3 y hyb).2, hxy]
  exact (hsorted.and hnodup).imp (fun h => lt_of_le_of_ne h.1 (Ne.symm h.2))

/-- C23 (amended): if no neighbour list of the input repeats an id (and every
neighbour id is a vertex), then after `UpdateGraph` every neighbour list is
strictly decreasing. -/
theorem C23_UpdateGraph_strictly_descending (labels : label_list_t) (edges : adjacency_list_t)
    (hlen : labels.length = edges.length) (hb : BoundedAdj edges)
    (hnd : ∀ l ∈ edges, l.Nodup) : DescendingAdj (UpdateGraph labels edges).edges :=
  UpdateGraph_descending labels edges hlen hb hnd

/-- C23 (witness): the path `1 - 0 - 2 - 3`. -/
theorem C23_witness :
    exampleAntichainLabels.length = examplePath.length ∧ BoundedAdj examplePath ∧
    (∀ l ∈ examplePath, l.Nodup) ∧
    (UpdateGraph exampleAntichainLabels examplePath).edges = [[3], [3, 2], [1], [1, 0]] ∧
    DescendingAdj (UpdateGraph exampleAntichainLabels examplePath).edges :=
  ⟨by decide, by decide, by decide, by decide,
    C23_UpdateGraph_strictly_descending exampleAntichainLabels examplePath (by decide)
      (by decide) (by decide)⟩

/-- C23 (counterexample): an edge file that lists the edge `0 - 1` twice loads
as `[[1, 1], [0, 0]]`; the adjacency is symmetric and sorted, and after
`UpdateGraph` the lists are `[1, 1]` and `[0, 0]`, which are not strictly
decreasing. -/
theorem C23_counterexample :
    SymmetricAdj [[1, 1], [0, 0]] ∧ LoopFree [[1, 1], [0, 0]] ∧
    (UpdateGraph [[0, 0], [1, 1]] [[1, 1], [0, 0]]).edges = [[1, 1], [0, 0]] ∧
    ¬ DescendingAdj (UpdateGraph [[0, 0], [1, 1]] [[1, 1], [0, 0]]).edges := by
  decide


theorem descending_getLast (l : List Nat) (v : Nat) (hl : l.Pairwise (· > ·)) (hv : v ∈ l)
    (hge : ∀ x ∈ l, v ≤ x) : l.getLast? = some v := by
  have hdrop := descending_min_last l v hl hv hge
  have hne : l ≠ [] := List.ne_nil_of_mem hv
  have hsplit := List.dropLast_append_getLast hne
  rw [List.getLast?_eq_getLast _ hne]
  congr 1
  rw [← hsplit] at hv
  rcases List.mem_append.mp hv with h | h
  · rw [hdrop] at h
    have := (List.mem_filter.mp h).2
    simp at this
  · simp only [List.mem_singleton] at h
    exact h.symm

theorem assertLoop_spec (u : Nat) (L : List Nat) (E : adjacency_list_t) (b : Bool)
    (hL : L.Nodup) (hb : ∀ w ∈ L, w < E.length)
    (hlast : ∀ w ∈ L, (adj E w).getLast? = some u) :
    (L.foldl
      (fun (acc : adjacency_list_t × Bool) neighbour =>
        (acc.1.set neighbour (adj acc.1 neighbour).dropLast,
          acc.2 && decide ((adj acc.1 neighbour).getLast? = some u)))
      (E, b)).2 = b := by
  induction L generalizing E b with
  | nil => rfl
  | cons w L ih =>
    have hn := List.nodup_cons.mp hL
    have hw : w < E.length := hb w (List.mem_cons_self w L)
    simp only [List.foldl_cons]
    rw [ih (E.set w (adj E w).dropLast) _ hn.2
      (fun x hx => by simpa using hb x (List.mem_cons_of_mem w hx))]
    · simp [hlast w (List.mem_cons_self w L)]
    · intro x hx
      have hxw : x ≠ w := fun e => hn.1 (e ▸ hx)
      rw [adj_set E w x _ hw, if_neg hxw]
      exact hlast x (List.mem_cons_of_mem w hx)

/-- The function `RemoveVertex` under its preconditions: every assertion
holds, the list of the removed vertex is empty, and every other list loses
exactly the removed vertex. -/
theorem RemoveVertex_spec (edges : adjacency_list_t) (u : Nat) (hs : SymmetricAdj edges)
    (_hl : LoopFree edges) (hd : DescendingAdj edges) (hnb : NoVertexBelow edges u)
    (hu : u < edges.length) :
    RemoveVertexAsserts edges u = true ∧
    (RemoveVertex edges u).length = edges.length ∧
    ∀ w, adj (RemoveVertex edges u) w =
      if w = u then [] else (adj edges w).filter fun x => decide (x ≠ u) := by
  have hnodup : (adj edges u).Nodup := (hd.adj_pairwise u).imp (fun h => Nat.ne_of_gt h)
  have hbound : ∀ w ∈ adj edges u, w < edges.length := fun w hw => hs.bounded u w hw
  have hlast : ∀ w ∈ adj edges u, (adj edges w).getLast? = some u := by
    intro w hw
    exact descending_getLast _ u (hd.adj_pairwise w) (hs.symm u w hw)
      (fun x hx => hnb.adj_ge w x hx)
  obtain ⟨hlen, hadj⟩ := removeLoop_adj (adj edges u) edges hnodup hbound
  refine ⟨assertLoop_spec u _ edges true hnodup hbound hlast, ?_, ?_⟩
  · unfold RemoveVertex
    rw [List.length_set, hlen]
  · intro w
    unfold RemoveVertex
    rw [adj_set _ u w [] (by rw [hlen]; exact hu), hadj w]
    by_cases hwu : w = u
    · rw [if_pos hwu, if_pos hwu]
    · rw [if_neg hwu, if_neg hwu]
      by_cases hmem : w ∈ adj edges u
      · rw [if_pos hmem, descending_min_last _ u (hd.adj_pairwise w) (hs.symm u w hmem)
          (fun x hx => hnb.adj_ge w x hx)]
        apply List.filter_congr
        intro x hx
        have := hnb.adj_ge w x hx
        by_cases hxu : x = u
        · subst hxu; simp
        · have : u + 1 ≤ x := by omega
          simp [hxu, this]
      · rw [if_neg hmem]
        symm
        rw [List.filter_eq_self]
        intro x hx
        have : x ≠ u := fun e => hmem (hs.symm w u (e ▸ hx))
        simpa using this

theorem RemoveVertex_symmetric_descending (edges : adjacency_list_t) (u : Nat)
    (hs : SymmetricAdj edges) (hl : LoopFree edges) (hd : DescendingAdj edges)
    (hnb : NoVertexBelow edges u) (hu : u < edges.length) :
    SymmetricAdj (RemoveVertex edges u) ∧ DescendingAdj (RemoveVertex edges u) := by
  obtain ⟨-, hlen, hadj⟩ := RemoveVertex_spec edges u hs hl hd hnb hu
  have hmem : ∀ w x, x ∈ adj (RemoveVertex edges u) w ↔ w ≠ u ∧ x ∈ adj edges w ∧ x ≠ u := by
    intro w x
    rw [hadj w]
    by_cases hwu : w = u
    · simp [hwu]
    · simp [hwu, List.mem_filter]
  constructor
  · intro w _ x hx
    obtain ⟨h1, h2, h3⟩ := (hmem w x).mp hx
    exact (hmem x w).mpr ⟨h3, hs.symm w x h2, h1⟩
  · intro l hl2
    obtain ⟨j, hj, rfl⟩ := List.getElem_of_mem hl2
    have e : (RemoveVertex edges u)[j] = adj (RemoveVertex edges u) j := by
      rw [adj, getD_of_lt _ [] j hj]
    rw [e, hadj j]
    split
    · exact List.Pairwise.nil
    · exact (hd.adj_pairwise j).sublist (List.filter_sublist _)

/-- C29: if the adjacency is symmetric, loop-free and strictly descending and
no list mentions a vertex below `u`, then in `RemoveVertex(edges, u)` every
assertion holds (only `u` is popped), the list of `u` is empty afterwards,
every other list loses `u` and keeps its other entries, and the result is
again symmetric and strictly descending. -/
theorem C29_RemoveVertex_frame (edges : adjacency_list_t) (u : Nat) (hs : SymmetricAdj edges)
    (hl : LoopFree edges) (hd : DescendingAdj edges) (hnb : NoVertexBelow edges u)
    (hu : u < edges.length) :
    RemoveVertexAsserts edges u = true ∧
    (RemoveVertex edges u).length = edges.length ∧
    adj (RemoveVertex edges u) u = [] ∧
    (∀ w, w ≠ u →
      adj (RemoveVertex edges u) w = (adj edges w).filter fun x => decide (x ≠ u)) ∧
    SymmetricAdj (RemoveVertex edges u) ∧ DescendingAdj (RemoveVertex edges u) := by
  obtain ⟨h1, h2, h3⟩ := RemoveVertex_spec edges u hs hl hd hnb hu
  obtain ⟨h4, h5⟩ := RemoveVertex_symmetric_descending edges u hs hl hd hnb hu
  refine ⟨h1, h2, ?_, ?_, h4, h5⟩
  · rw [h3 u, if_pos rfl]
  · intro w hw
    rw [h3 w, if_neg hw]

/-- C29 (witness): removing vertex 0 from the complete graph on four vertices. -/
theorem C29_witness :
    SymmetricAdj exampleK4desc ∧ LoopFree exampleK4desc ∧ DescendingAdj exampleK4desc ∧
    NoVertexBelow exampleK4desc 0 ∧
    RemoveVertex exampleK4desc 0 = [[], [3, 2], [3, 1], [2, 1]] ∧
    RemoveVertexAsserts exampleK4desc 0 = true :=
  ⟨by decide, by decide, by decide, by decide, by decide,
    (C29_RemoveVertex_frame exampleK4desc 0 (by decide) (by decide) (by decide) (by decide)
      (by decide)).1⟩


theorem BinSortByDegree_eq (edges : adjacency_list_t) :
    BinSortByDegree edges =
      (((List.range (maxDegreeOf edges + 1)).foldl (fillBin (binsOf edges))
          (List.replicate edges.length 0, List.replicate edges.length 0,
            List.replicate (maxDegreeOf edges + 1) 0, 0)).1,
        ((List.range (maxDegreeOf edges + 1)).foldl (fillBin (binsOf edges))
          (List.replicate edges.length 0, List.replicate edges.length 0,
            List.replicate (maxDegreeOf edges + 1) 0, 0)).2.1,
        ((List.range (maxDegreeOf edges + 1)).foldl (fillBin (binsOf edges))
          (List.replicate edges.length 0, List.replicate edges.length 0,
            List.replicate (maxDegreeOf edges + 1) 0, 0)).2.2.1) := rfl

theorem degrees_getD (edges : adjacency_list_t) (i : Nat) :
    (edges.map List.length).getD i 0 = GetDegree edges i := by
  unfold GetDegree adj
  by_cases h : i < edges.length
  · simp [List.getD_eq_getElem?_getD, List.getElem?_map, List.getElem?_eq_getElem h]
  · simp [List.getD_eq_getElem?_getD, List.getElem?_map, List.getElem?_eq_none (by omega : edges.length ≤ i)]

theorem GetDegree_le_maxDegreeOf (edges : adjacency_list_t) (v : Nat) :
    GetDegree edges v ≤ maxDegreeOf edges := by
  have hgen : ∀ (l : List Nat) (a : Nat), a ≤ l.foldl max a ∧ ∀ x ∈ l, x ≤ l.foldl max a := by
    intro l
    induction l with
    | nil => intro a; simp
    | cons y l ih =>
      intro a
      simp only [List.foldl_cons]
      obtain ⟨h1, h2⟩ := ih (max a y)
      refine ⟨le_trans (le_max_left a y) h1, ?_⟩
      intro x hx
      rcases List.mem_cons.mp hx with rfl | hx
      · exact le_trans (le_max_right a x) h1
      · exact h2 x hx
  by_cases h : v < edges.length
  · unfold maxDegreeOf
    apply (hgen _ 0).2
    rw [← degrees_getD]
    rw [getD_of_lt _ 0 v (by simpa using h)]
    exact List.getElem_mem _
  · unfold GetDegree
    rw [adj_of_length_le edges v (by omega)]
    simp

theorem getD_set_list (l : List (List Nat)) (j i : Nat) (x : List Nat) (hj : j < l.length) :
    (l.set j x).getD i [] = if i = j then x else l.getD i [] := by
  by_cases h : i = j
  · subst h
    rw [if_pos rfl, getD_set_same l i x hj]
  · rw [if_neg h, getD_set_other l j i x h]

/-- The bins of `BinSortByDegree`: bin `d` lists the vertices of degree `d`
in ascending order. -/
theorem binsOf_getD (edges : adjacency_list_t)
    (hdeg : ∀ v, v < edges.length → GetDegree edges v < edges.length) (d : Nat) :
    (binsOf edges).getD d [] =
      (List.range edges.length).filter fun v => decide (GetDegree edges v = d) := by
  unfold binsOf
  have hgen : ∀ m, m ≤ edges.length →
      ((List.range m).foldl
        (fun bins i =>
          bins.set ((edges.map List.length).getD i 0)
            (bins.getD ((edges.map List.length).getD i 0) [] ++ [i]))
        (List.replicate edges.length [])).length = edges.length ∧
      ∀ d, ((List.range m).foldl
        (fun bins i =>
          bins.set ((edges.map List.length).getD i 0)
            (bins.getD ((edges.map List.length).getD i 0) [] ++ [i]))
        (List.replicate edges.length [])).getD d [] =
          (List.range m).filter fun v => decide (GetDegree edges v = d) := by
    intro m
    induction m with
    | zero =>
      intro _
      refine ⟨by simp, fun d => ?_⟩
      by_cases hd : d < edges.length <;>
        simp [List.getD_eq_getElem?_getD, List.getElem?_replicate, hd]
    | succ m ih =>
      intro hm
      obtain ⟨h1, h2⟩ := ih (by omega)
      rw [List.range_succ, List.foldl_append]
      simp only [List.foldl_cons, List.foldl_nil]
      refine ⟨by rw [List.length_set, h1], fun d => ?_⟩
      rw [degrees_getD, getD_set_list _ _ _ _ (by rw [h1]; exact hdeg m (by omega)), h2,
        List.filter_append]
      by_cases hd : d = GetDegree edges m
      · subst hd
        simp [h2]
      · rw [if_neg hd]
        have e : List.filter (fun v => decide (GetDegree edges v = d)) [m] = [] := by
          simp [Ne.symm hd]
        rw [e, List.append_nil]
        exact h2 d
  exact (hgen edges.length (le_refl _)).2 d


theorem countBelow_mono (edges : adjacency_list_t) {a b : Nat} (h : a ≤ b) :
    countBelow edges a ≤ countBelow edges b := by
  unfold countBelow
  apply List.countP_mono_left
  intro v _ hv
  simp only [decide_eq_true_eq] at hv ⊢
  omega

theorem countBelow_le (edges : adjacency_list_t) (d : Nat) : countBelow edges d ≤ edges.length := by
  unfold countBelow
  have := List.countP_le_length (fun v => decide (GetDegree edges v < d)) (l := List.range edges.length)
  simpa using this

theorem countBelow_zero (edges : adjacency_list_t) : countBelow edges 0 = 0 := by
  unfold countBelow
  simp

theorem countBelow_top (edges : adjacency_list_t) :
    countBelow edges (maxDegreeOf edges + 1) = edges.length := by
  unfold countBelow
  rw [List.countP_eq_length.mpr]
  · simp
  · intro v _
    have := GetDegree_le_maxDegreeOf edges v
    simp only [decide_eq_true_eq]
    omega

theorem countBelow_succ (edges : adjacency_list_t)
    (hdeg : ∀ v, v < edges.length → GetDegree edges v < edges.length) (m : Nat) :
    countBelow edges (m + 1) = countBelow edges m + ((binsOf edges).getD m []).length := by
  rw [binsOf_getD edges hdeg]
  unfold countBelow
  rw [← List.countP_eq_length_filter]
  generalize List.range edges.length = l
  induction l with
  | nil => simp
  | cons x l ih =>
    simp only [List.countP_cons, ih, decide_eq_true_eq]
    by_cases h1 : GetDegree edges x < m
    · have h2 : GetDegree edges x < m + 1 := by omega
      have h3 : ¬ GetDegree edges x = m := by omega
      simp only [h1, h2, h3, if_true, if_false]
      omega
    · by_cases h3 : GetDegree edges x = m
      · simp only [h3, lt_irrefl, Nat.lt_succ_self, if_true, if_false]
        omega
      · have h2 : ¬ GetDegree edges x < m + 1 := by omega
        simp only [h1, h2, h3, if_false]
        omega

theorem FillInv.congr {edges : adjacency_list_t} {Q Q2 : Nat → Prop} {S NP : List Nat} {idx : Nat}
    (h : FillInv edges Q S NP idx) (hq : ∀ v, v < edges.length → (Q v ↔ Q2 v)) :
    FillInv edges Q2 S NP idx where
  lenS := h.lenS
  lenNP := h.lenNP
  idx_le := h.idx_le
  pos := fun p hp => by
    obtain ⟨a, b, c⟩ := h.pos p hp
    exact ⟨a, (hq _ a).mp b, c⟩
  vtx := fun v hv hQ => h.vtx v hv ((hq v hv).mpr hQ)

theorem FillInv.step {edges : adjacency_list_t} {Q : Nat → Prop} {S NP : List Nat} {idx : Nat}
    (h : FillInv edges Q S NP idx) (x : Nat) (hx : x < edges.length) (hQ : ¬ Q x)
    (h1 : countBelow edges (GetDegree edges x) ≤ idx)
    (h2 : idx < countBelow edges (GetDegree edges x + 1)) :
    FillInv edges (fun v => Q v ∨ v = x) (S.set idx x) (NP.set x idx) (idx + 1) := by
  have hidx : idx < edges.length := lt_of_lt_of_le h2 (countBelow_le edges _)
  refine ⟨by rw [List.length_set, h.lenS], by rw [List.length_set, h.lenNP], hidx, ?_, ?_⟩
  · intro p hp
    by_cases hpi : p = idx
    · subst hpi
      rw [getD_set_self S p x (by rw [h.lenS]; exact hidx),
        getD_set_self NP x p (by rw [h.lenNP]; exact hx)]
      exact ⟨hx, Or.inr rfl, rfl, h1, h2⟩
    · have hp2 : p < idx := by omega
      obtain ⟨a, b, c, d⟩ := h.pos p hp2
      rw [getD_set_ne S idx x p (Ne.symm hpi)]
      have hne : x ≠ S.getD p 0 := by
        intro e
        rw [← e] at b
        exact hQ b
      rw [getD_set_ne NP x idx _ hne]
      exact ⟨a, Or.inl b, c, d⟩
  · intro v hv hq
    by_cases hvx : v = x
    · subst hvx
      rw [getD_set_self NP v idx (by rw [h.lenNP]; exact hx),
        getD_set_self S idx v (by rw [h.lenS]; exact hidx)]
      exact ⟨by omega, rfl⟩
    · have hq2 : Q v := by
        rcases hq with hq | hq
        · exact hq
        · exact absurd hq hvx
      obtain ⟨a, b⟩ := h.vtx v hv hq2
      rw [getD_set_ne NP x idx v (Ne.symm hvx), getD_set_ne S idx x _ (by omega)]
      exact ⟨by omega, b⟩

theorem fillNode_foldl (edges : adjacency_list_t) (m : Nat) (L : List Nat) :
    ∀ (Q : Nat → Prop) (S NP BB : List Nat) (idx : Nat), FillInv edges Q S NP idx → L.Nodup →
      (∀ x ∈ L, x < edges.length ∧ ¬ Q x ∧ GetDegree edges x = m) →
      countBelow edges m ≤ idx → idx + L.length ≤ countBelow edges (m + 1) →
      ∃ S2 NP2, L.foldl fillNode (S, NP, BB, idx) = (S2, NP2, BB, idx + L.length) ∧
        FillInv edges (fun v => Q v ∨ v ∈ L) S2 NP2 (idx + L.length) := by
  induction L with
  | nil =>
    intro Q S NP BB idx h _ _ _ _
    exact ⟨S, NP, rfl, h.congr (fun v _ => by simp)⟩
  | cons x L ih =>
    intro Q S NP BB idx h hnd hL h1 h2
    simp only [List.length_cons] at h2
    obtain ⟨hx, hQx, hdx⟩ := hL x (List.mem_cons_self _ _)
    have hstep := h.step x hx hQx (by rw [hdx]; exact h1) (by rw [hdx]; omega)
    obtain ⟨S2, NP2, e, hinv⟩ := ih (fun v => Q v ∨ v = x) (S.set idx x) (NP.set x idx) BB (idx + 1)
      hstep (List.nodup_cons.mp hnd).2
      (fun y hy => by
        obtain ⟨a, b, c⟩ := hL y (List.mem_cons_of_mem _ hy)
        refine ⟨a, ?_, c⟩
        rintro (hq | hq)
        · exact b hq
        · subst hq
          exact (List.nodup_cons.mp hnd).1 hy)
      (by omega) (by omega)
    refine ⟨S2, NP2, ?_, ?_⟩
    · simp only [List.foldl_cons, List.length_cons]
      have e2 : fillNode (S, NP, BB, idx) x = (S.set idx x, NP.set x idx, BB, idx + 1) := rfl
      rw [e2, e]
      congr 3
      omega
    · have e3 : idx + (x :: L).length = idx + 1 + L.length := by
        simp only [List.length_cons]; omega
      rw [e3]
      apply hinv.congr
      intro v _
      simp only [List.mem_cons]
      tauto

theorem fillBin_foldl (edges : adjacency_list_t)
    (hdeg : ∀ v, v < edges.length → GetDegree edges v < edges.length) :
    ∀ m, m ≤ maxDegreeOf edges + 1 →
      ∃ S NP BB, (List.range m).foldl (fillBin (binsOf edges))
          (List.replicate edges.length 0, List.replicate edges.length 0,
            List.replicate (maxDegreeOf edges + 1) 0, 0) = (S, NP, BB, countBelow edges m) ∧
        FillInv edges (fun v => GetDegree edges v < m) S NP (countBelow edges m) ∧
        BB.length = maxDegreeOf edges + 1 ∧
        ∀ d, d < m → BB.getD d 0 = countBelow edges d := by
  intro m
  induction m with
  | zero =>
    intro _
    refine ⟨List.replicate edges.length 0, List.replicate edges.length 0,
      List.replicate (maxDegreeOf edges + 1) 0, ?_, ?_, by simp, fun d hd => by omega⟩
    · rw [countBelow_zero]; rfl
    · rw [countBelow_zero]
      exact ⟨by simp, by simp, by omega, fun p hp => by omega, fun v _ hq => by omega⟩
  | succ m ih =>
    intro hm
    obtain ⟨S, NP, BB, e, hinv, hlen, hBB⟩ := ih (by omega)
    rw [List.range_succ, List.foldl_append]
    simp only [List.foldl_cons, List.foldl_nil]
    rw [e]
    have hL := binsOf_getD edges hdeg m
    obtain ⟨S2, NP2, e2, hinv2⟩ := fillNode_foldl edges m ((binsOf edges).getD m []) _ S NP
      (BB.set m (countBelow edges m)) (countBelow edges m) hinv
      (by rw [hL]; exact (List.nodup_range _).filter _)
      (fun x hx => by
        rw [hL] at hx
        simp only [List.mem_filter, List.mem_range, decide_eq_true_eq] at hx
        exact ⟨hx.1, by omega, hx.2⟩)
      (le_refl _) (by rw [countBelow_succ edges hdeg m])
    refine ⟨S2, NP2, BB.set m (countBelow edges m), ?_, ?_, by rw [List.length_set, hlen], ?_⟩
    · unfold fillBin
      simp only
      rw [e2, countBelow_succ edges hdeg m]
    · rw [countBelow_succ edges hdeg m]
      apply hinv2.congr
      intro v hv
      rw [hL]
      simp only [List.mem_filter, List.mem_range, decide_eq_true_eq]
      constructor
      · rintro (h | h) <;> omega
      · intro h
        by_cases h3 : GetDegree edges v < m
        · exact Or.inl h3
        · exact Or.inr ⟨hv, by omega⟩
    · intro d hd
      by_cases hdm : d = m
      · subst hdm
        rw [getD_set_self BB d _ (by omega)]
      · rw [getD_set_ne BB m _ d (Ne.symm hdm)]
        exact hBB d (by omega)

/-- The result of `BinSortByDegree`: every vertex is placed inside the block of
its degree, the position map inverts the order, and the boundaries count the
vertices of smaller degree. -/
theorem BinSortByDegree_fill (edges : adjacency_list_t)
    (hdeg : ∀ v, v < edges.length → GetDegree edges v < edges.length) :
    FillInv edges (fun _ => True) (BinSortByDegree edges).1 (BinSortByDegree edges).2.1
      edges.length ∧
    (BinSortByDegree edges).2.2.length = maxDegreeOf edges + 1 ∧
    ∀ d, d ≤ maxDegreeOf edges → (BinSortByDegree edges).2.2.getD d 0 = countBelow edges d := by
  obtain ⟨S, NP, BB, e, hinv, hlen, hBB⟩ := fillBin_foldl edges hdeg (maxDegreeOf edges + 1)
    (le_refl _)
  rw [BinSortByDegree_eq, e]
  rw [countBelow_top] at hinv
  refine ⟨hinv.congr (fun v _ => ?_), hlen, fun d hd => hBB d (by omega)⟩
  have := GetDegree_le_maxDegreeOf edges v
  exact ⟨fun _ => trivial, fun _ => by omega⟩

theorem FillInv.degree_lt_of_lt {edges : adjacency_list_t} {Q : Nat → Prop} {S NP : List Nat}
    (h : FillInv edges Q S NP edges.length) (p d : Nat) (hp : p < countBelow edges d) :
    GetDegree edges (S.getD p 0) < d := by
  have hp2 : p < edges.length := lt_of_lt_of_le hp (countBelow_le edges d)
  obtain ⟨_, _, _, h1, _⟩ := h.pos p hp2
  by_contra hge
  have := countBelow_mono edges (by omega : d ≤ GetDegree edges (S.getD p 0))
  omega

theorem FillInv.degree_ge_of_ge {edges : adjacency_list_t} {Q : Nat → Prop} {S NP : List Nat}
    (h : FillInv edges Q S NP edges.length) (p d : Nat) (hp2 : p < edges.length)
    (hp : countBelow edges d ≤ p) :
    d ≤ GetDegree edges (S.getD p 0) := by
  obtain ⟨_, _, _, _, h2⟩ := h.pos p hp2
  by_contra hge
  have := countBelow_mono edges (by omega : GetDegree edges (S.getD p 0) + 1 ≤ d)
  omega

theorem FillInv.sorted {edges : adjacency_list_t} {Q : Nat → Prop} {S NP : List Nat}
    (h : FillInv edges Q S NP edges.length) (p q : Nat) (hpq : p ≤ q) (hq : q < edges.length) :
    GetDegree edges (S.getD p 0) ≤ GetDegree edges (S.getD q 0) := by
  obtain ⟨_, _, _, h1, _⟩ := h.pos p (by omega)
  exact h.degree_ge_of_ge q _ hq (by omega)

theorem FillInv.perm {edges : adjacency_list_t} {Q : Nat → Prop} {S NP : List Nat}
    (h : FillInv edges Q S NP edges.length) : S.Perm (List.range edges.length) := by
  apply perm_range_of_nodup _ _ h.lenS
  · rw [List.nodup_iff_injective_get]
    intro a b hab
    have ha : (a : Nat) < edges.length := by rw [← h.lenS]; exact a.isLt
    have hb : (b : Nat) < edges.length := by rw [← h.lenS]; exact b.isLt
    have ea : S.getD a 0 = S.get a := getD_of_lt S 0 a a.isLt
    have eb : S.getD b 0 = S.get b := getD_of_lt S 0 b b.isLt
    have h1 := (h.pos a ha).2.2.1
    have h2 := (h.pos b hb).2.2.1
    rw [ea, hab, ← eb, h2] at h1
    exact Fin.ext h1.symm
  · intro x hx
    obtain ⟨p, hp, rfl⟩ := List.getElem_of_mem hx
    have := (h.pos p (by rw [← h.lenS]; exact hp)).1
    rwa [getD_of_lt S 0 p hp] at this

theorem FillInv.perm_inverse {edges : adjacency_list_t} {S NP : List Nat}
    (h : FillInv edges (fun _ => True) S NP edges.length) : NP.Perm (List.range edges.length) := by
  apply perm_range_of_nodup _ _ h.lenNP
  · rw [List.nodup_iff_injective_get]
    intro a b hab
    have ha : (a : Nat) < edges.length := by rw [← h.lenNP]; exact a.isLt
    have hb : (b : Nat) < edges.length := by rw [← h.lenNP]; exact b.isLt
    have ea : NP.getD a 0 = NP.get a := getD_of_lt NP 0 a a.isLt
    have eb : NP.getD b 0 = NP.get b := getD_of_lt NP 0 b b.isLt
    have h1 := (h.vtx a ha trivial).2
    have h2 := (h.vtx b hb trivial).2
    rw [ea, hab, ← eb, h2] at h1
    exact Fin.ext h1.symm
  · intro x hx
    obtain ⟨p, hp, rfl⟩ := List.getElem_of_mem hx
    have := (h.vtx p (by rw [← h.lenNP]; exact hp) trivial).1
    rwa [getD_of_lt NP 0 p hp] at this

/-- C28: for an adjacency on n ≥ 1 vertices with every degree below n,
`BinSortByDegree` returns `sortedIndices` that is a permutation of 0..n-1 with
non-decreasing degree, `nodePosition` that is its inverse, and `binBoundaries`
of length maxDegree + 1 where `binBoundaries[d]` is the number of vertices of
degree below `d`, which is the leftmost position of a vertex of degree `d`
when one exists. -/
theorem C28_BinSortByDegree_spec (edges : adjacency_list_t) (_hn : 1 ≤ edges.length)
    (hdeg : ∀ v, v < edges.length → GetDegree edges v < edges.length) :
    (BinSortByDegree edges).1.Perm (List.range edges.length) ∧
    (∀ p q, p ≤ q → q < edges.length →
      GetDegree edges ((BinSortByDegree edges).1.getD p 0)
        ≤ GetDegree edges ((BinSortByDegree edges).1.getD q 0)) ∧
    (BinSortByDegree edges).2.1.Perm (List.range edges.length) ∧
    (∀ v, v < edges.length →
      (BinSortByDegree edges).1.getD ((BinSortByDegree edges).2.1.getD v 0) 0 = v) ∧
    (∀ p, p < edges.length →
      (BinSortByDegree edges).2.1.getD ((BinSortByDegree edges).1.getD p 0) 0 = p) ∧
    (BinSortByDegree edges).2.2.length = maxDegreeOf edges + 1 ∧
    (∀ d, d ≤ maxDegreeOf edges →
      (BinSortByDegree edges).2.2.getD d 0 = countBelow edges d) ∧
    (∀ d v, v < edges.length → GetDegree edges v = d →
      GetDegree edges ((BinSortByDegree edges).1.getD ((BinSortByDegree edges).2.2.getD d 0) 0) = d ∧
      ∀ p, p < (BinSortByDegree edges).2.2.getD d 0 →
        GetDegree edges ((BinSortByDegree edges).1.getD p 0) < d) := by
  obtain ⟨hinv, hlen, hBB⟩ := BinSortByDegree_fill edges hdeg
  refine ⟨hinv.perm, hinv.sorted, hinv.perm_inverse, fun v hv => (hinv.vtx v hv trivial).2,
    fun p hp => (hinv.pos p hp).2.2.1, hlen, hBB, ?_⟩
  intro d v hv hd
  have hdm : d ≤ maxDegreeOf edges := by rw [← hd]; exact GetDegree_le_maxDegreeOf edges v
  rw [hBB d hdm]
  refine ⟨?_, fun p hp => hinv.degree_lt_of_lt p d hp⟩
  obtain ⟨h1, h2⟩ := hinv.vtx v hv trivial
  obtain ⟨_, _, _, h3, h4⟩ := hinv.pos _ h1
  rw [h2, hd] at h3 h4
  have hlt : countBelow edges d < edges.length := lt_of_lt_of_le (by omega) (countBelow_le edges (d + 1))
  have hge := hinv.degree_ge_of_ge (countBelow edges d) d hlt (le_refl _)
  have hlt2 := hinv.degree_lt_of_lt (countBelow edges d) (d + 1) (by omega)
  omega

/-- C28 (witness): the triangle with a pendant vertex; the degrees are 2, 2, 3, 1. -/
theorem C28_witness :
    1 ≤ examplePendant.length ∧
    (∀ v, v < examplePendant.length → GetDegree examplePendant v < examplePendant.length) ∧
    BinSortByDegree examplePendant = ([3, 0, 1, 2], [1, 2, 3, 0], [0, 0, 1, 3]) ∧
    (BinSortByDegree examplePendant).2.2.length = maxDegreeOf examplePendant + 1 :=
  ⟨by decide, by decide, by decide,
    (C28_BinSortByDegree_spec examplePendant (by decide) (by decide)).2.2.2.2.2.1⟩


/-- C26 (code bug): for `k` above the largest degree `ShrinkToMaxKCoreVertices`
takes the branch that clears every flag and reports `edges.size()` removed
vertices, whatever the flags were. On the single edge with `k = 2` the second
call changes no flag and still reports 2 removed vertices. -/
theorem C26_second_call_reports_removals :
    SymmetricAdj exampleEdge ∧ LoopFree exampleEdge ∧
    (ShrinkToMaxKCoreVertices 2 none exampleEdge (sortedState exampleEdge)).1.active_vertices
      = [0, 0] ∧
    (ShrinkToMaxKCoreVertices 2 none exampleEdge
      (ShrinkToMaxKCoreVertices 2 none exampleEdge (sortedState exampleEdge)).1).1.active_vertices
      = [0, 0] ∧
    flagsCleared
      (ShrinkToMaxKCoreVertices 2 none exampleEdge (sortedState exampleEdge)).1.active_vertices
      (ShrinkToMaxKCoreVertices 2 none exampleEdge
        (ShrinkToMaxKCoreVertices 2 none exampleEdge
          (sortedState exampleEdge)).1).1.active_vertices = 0 ∧
    (ShrinkToMaxKCoreVertices 2 none exampleEdge
      (ShrinkToMaxKCoreVertices 2 none exampleEdge (sortedState exampleEdge)).1).2.1 = 2 := by
  decide

/-- C27 (code bug): in the same branch the reported number of removed edges is
0. On the triangle with a pendant vertex and `k = 4` the call clears all four
flags, which removes the four edges of the graph, and reports (4, 0). -/
theorem C27_removed_edges_not_counted :
    SymmetricAdj examplePendant ∧ LoopFree examplePendant ∧
    (ShrinkToMaxKCoreVertices 4 none examplePendant (sortedState examplePendant)).1.active_vertices
      = [0, 0, 0, 0] ∧
    flagsCleared (sortedState examplePendant).active_vertices
      (ShrinkToMaxKCoreVertices 4 none examplePendant
        (sortedState examplePendant)).1.active_vertices = 4 ∧
    edgesCleared examplePendant (sortedState examplePendant).active_vertices
      (ShrinkToMaxKCoreVertices 4 none examplePendant
        (sortedState examplePendant)).1.active_vertices = 4 ∧
    (ShrinkToMaxKCoreVertices 4 none examplePendant (sortedState examplePendant)).2 = (4, 0) := by
  decide


theorem upper_bound_spec (BB : List Nat) (value : Nat)
    (hs : ∀ i j, i ≤ j → j < BB.length → BB.getD i 0 ≤ BB.getD j 0) :
    upper_bound BB value ≤ BB.length ∧
    (∀ i, i < upper_bound BB value → BB.getD i 0 ≤ value) ∧
    (∀ i, upper_bound BB value ≤ i → i < BB.length → value < BB.getD i 0) := by
  induction BB with
  | nil => simp [upper_bound]
  | cons b bs ih =>
    have hs2 : ∀ i j, i ≤ j → j < bs.length → bs.getD i 0 ≤ bs.getD j 0 := by
      intro i j hij hj
      have := hs (i + 1) (j + 1) (by omega) (by simp only [List.length_cons]; omega)
      rwa [List.getD_cons_succ, List.getD_cons_succ] at this
    obtain ⟨h1, h2, h3⟩ := ih hs2
    by_cases hv : value < b
    · simp only [upper_bound, if_pos hv]
      refine ⟨by omega, fun i hi => by omega, fun i _ hi => ?_⟩
      have := hs 0 i (by omega) hi
      rw [List.getD_cons_zero] at this
      omega
    · simp only [upper_bound, if_neg hv]
      refine ⟨by simp only [List.length_cons]; omega, ?_, ?_⟩
      · intro i hi
        cases i with
        | zero => rw [List.getD_cons_zero]; omega
        | succ i => rw [List.getD_cons_succ]; exact h2 i (by omega)
      · intro i hi hlen
        cases i with
        | zero => omega
        | succ i =>
          rw [List.getD_cons_succ]
          exact h3 i (by omega) (by simpa using hlen)

theorem trackedDegree_spec {n : Nat} {st : BinSort} (h : BinInv n st) (v : Nat) :
    trackedDegree st v < st.binBoundaries.length ∧
    st.binBoundaries.getD (trackedDegree st v) 0 ≤ st.nodePosition.getD v 0 ∧
    ∀ i, trackedDegree st v < i → i < st.binBoundaries.length →
      st.nodePosition.getD v 0 < st.binBoundaries.getD i 0 := by
  obtain ⟨h1, h2, h3⟩ := upper_bound_spec st.binBoundaries (st.nodePosition.getD v 0) h.bbSorted
  have hpos : 1 ≤ upper_bound st.binBoundaries (st.nodePosition.getD v 0) := by
    by_contra hlt
    have := h3 0 (by omega) h.bbPos
    rw [h.bbZero] at this
    omega
  unfold trackedDegree
  exact ⟨by omega, h2 _ (by omega), fun i hi hlen => h3 i (by omega) hlen⟩

theorem trackedDegree_eq {n : Nat} {st : BinSort} (h : BinInv n st) (v t : Nat)
    (ht : t < st.binBoundaries.length)
    (h1 : st.binBoundaries.getD t 0 ≤ st.nodePosition.getD v 0)
    (h2 : ∀ i, t < i → i < st.binBoundaries.length →
      st.nodePosition.getD v 0 < st.binBoundaries.getD i 0) :
    trackedDegree st v = t := by
  obtain ⟨a, b, c⟩ := trackedDegree_spec h v
  by_contra hne
  rcases Nat.lt_or_gt_of_ne hne with hlt | hgt
  · have := c t hlt ht
    omega
  · have := h2 _ hgt a
    omega

theorem getD_set_nat (l : List Nat) (i v x : Nat) (h : i < l.length) :
    (l.set i v).getD x 0 = if x = i then v else l.getD x 0 := by
  by_cases hx : x = i
  · subst hx
    rw [if_pos rfl, getD_set_self l x v h]
  · rw [if_neg hx, getD_set_ne l i v x (Ne.symm hx)]

/-- Moving `e` to the front of its bin and advancing the boundary of that bin
lowers the recorded degree of `e` by one and keeps every other recorded degree. -/
theorem bin_move (n : Nat) (st st2 : BinSort) (e t b f ePos : Nat) (h : BinInv n st) (he : e < n)
    (ht : t = trackedDegree st e) (ht1 : 1 ≤ t)
    (hePos : ePos = st.nodePosition.getD e 0)
    (hb : b = st.binBoundaries.getD t 0)
    (hf : f = st.sortedIndices.getD b 0)
    (hS : ∀ p, st2.sortedIndices.getD p 0
      = if p = b then e else if p = ePos then f else st.sortedIndices.getD p 0)
    (hNP : ∀ w, st2.nodePosition.getD w 0
      = if w = e then b else if w = f then ePos else st.nodePosition.getD w 0)
    (hBB : st2.binBoundaries = st.binBoundaries.set t (b + 1))
    (hlS : st2.sortedIndices.length = n) (hlNP : st2.nodePosition.length = n)
    (hA : st2.active_vertices = st.active_vertices) :
    BinInv n st2 ∧ trackedDegree st2 e = t - 1 ∧
    ∀ w, w < n → w ≠ e → trackedDegree st2 w = trackedDegree st w := by
  obtain ⟨t1, t2, t3⟩ := trackedDegree_spec h e
  rw [← ht] at t1 t2 t3
  rw [← hb, ← hePos] at t2
  rw [← hePos] at t3
  obtain ⟨e1, e2⟩ := h.vtx e he
  rw [← hePos] at e1 e2
  have hbn : b < n := by omega
  obtain ⟨f1, f2⟩ := h.pos b hbn
  rw [← hf] at f1 f2
  have hlen : st2.binBoundaries.length = st.binBoundaries.length := by
    rw [hBB, List.length_set]
  have hBBget : ∀ i, st2.binBoundaries.getD i 0
      = if i = t then b + 1 else st.binBoundaries.getD i 0 := by
    intro i
    rw [hBB, getD_set_nat _ _ _ _ t1]
  have hfe : f = e → ePos = b := by
    intro hfe
    rw [hfe, ← hePos] at f2
    exact f2
  have hbe : ePos = b → f = e := by
    intro hbe
    rw [hbe, ← hf] at e2
    exact e2
  have hinv : BinInv n st2 := by
    refine ⟨hlS, hlNP, by rw [hA]; exact h.lenA, ?_, ?_, by rw [hlen]; exact h.bbPos, ?_, ?_, ?_⟩
    · intro w hw
      rw [hNP w]
      by_cases hwe : w = e
      · rw [if_pos hwe, hS b, if_pos rfl]
        exact ⟨hbn, hwe.symm⟩
      · rw [if_neg hwe]
        by_cases hwf : w = f
        · rw [if_pos hwf, hS ePos]
          have hne : ePos ≠ b := fun hh => hwe (hwf.trans (hbe hh))
          rw [if_neg hne, if_pos rfl]
          exact ⟨e1, hwf.symm⟩
        · rw [if_neg hwf]
          obtain ⟨w1, w2⟩ := h.vtx w hw
          rw [hS]
          have hn1 : st.nodePosition.getD w 0 ≠ b := by
            intro hh
            rw [hh, ← hf] at w2
            exact hwf w2.symm
          have hn2 : st.nodePosition.getD w 0 ≠ ePos := by
            intro hh
            rw [hh, e2] at w2
            exact hwe w2.symm
          rw [if_neg hn1, if_neg hn2]
          exact ⟨w1, w2⟩
    · intro p hp
      rw [hS p]
      by_cases hpb : p = b
      · rw [if_pos hpb, hNP e, if_pos rfl]
        exact ⟨he, hpb.symm⟩
      · rw [if_neg hpb]
        by_cases hpe : p = ePos
        · rw [if_pos hpe, hNP f]
          have hne : f ≠ e := fun hh => hpb (hpe.trans (hfe hh))
          rw [if_neg hne, if_pos rfl]
          exact ⟨f1, hpe.symm⟩
        · rw [if_neg hpe]
          obtain ⟨p1, p2⟩ := h.pos p hp
          rw [hNP]
          have hn1 : st.sortedIndices.getD p 0 ≠ e := by
            intro hh
            rw [hh, ← hePos] at p2
            exact hpe p2.symm
          have hn2 : st.sortedIndices.getD p 0 ≠ f := by
            intro hh
            rw [hh, f2] at p2
            exact hpb p2.symm
          rw [if_neg hn1, if_neg hn2]
          exact ⟨p1, p2⟩
    · rw [hBBget 0, if_neg (by omega)]
      exact h.bbZero
    · intro i j hij hj
      rw [hlen] at hj
      rw [hBBget i, hBBget j]
      by_cases hit : i = t
      · rw [if_pos hit]
        by_cases hjt : j = t
        · rw [if_pos hjt]
        · rw [if_neg hjt]
          have := t3 j (by omega) hj
          omega
      · rw [if_neg hit]
        by_cases hjt : j = t
        · rw [if_pos hjt]
          have := h.bbSorted i t (by omega) t1
          omega
        · rw [if_neg hjt]
          exact h.bbSorted i j hij hj
    · intro i hi
      rw [hlen] at hi
      rw [hBBget i]
      by_cases hit : i = t
      · rw [if_pos hit]; omega
      · rw [if_neg hit]; exact h.bbLe i hi
  refine ⟨hinv, ?_, ?_⟩
  · apply trackedDegree_eq hinv e (t - 1) (by rw [hlen]; omega)
    · rw [hBBget, if_neg (by omega), hNP e, if_pos rfl]
      have := h.bbSorted (t - 1) t (by omega) t1
      omega
    · intro i hi hil
      rw [hlen] at hil
      rw [hNP e, if_pos rfl, hBBget i]
      by_cases hit : i = t
      · rw [if_pos hit]; omega
      · rw [if_neg hit]
        have := t3 i (by omega) hil
        omega
  · intro w hw hwe
    obtain ⟨w1, w2⟩ := h.vtx w hw
    obtain ⟨s1, s2, s3⟩ := trackedDegree_spec h w
    by_cases hwf : w = f
    · have hne : ePos ≠ b := fun hh => hwe (hwf.trans (hbe hh))
      have htw : trackedDegree st w = t := by
        apply trackedDegree_eq h w t t1
        · rw [hwf, f2, ← hb]
        · intro i hi hil
          rw [hwf, f2]
          have := t3 i hi hil
          omega
      rw [htw]
      apply trackedDegree_eq hinv w t (by rw [hlen]; exact t1)
      · rw [hBBget, if_pos rfl, hNP w, if_neg hwe, if_pos hwf]
        omega
      · intro i hi hil
        rw [hlen] at hil
        rw [hNP w, if_neg hwe, if_pos hwf, hBBget i, if_neg (by omega)]
        exact t3 i hi hil
    · have hn1 : st.nodePosition.getD w 0 ≠ b := by
        intro hh
        rw [hh, ← hf] at w2
        exact hwf w2.symm
      apply trackedDegree_eq hinv w _ (by rw [hlen]; exact s1)
      · rw [hNP w, if_neg hwe, if_neg hwf, hBBget]
        by_cases hit : trackedDegree st w = t
        · rw [if_pos hit]
          rw [hit, ← hb] at s2
          omega
        · rw [if_neg hit]
          exact s2
      · intro i hi hil
        rw [hlen] at hil
        rw [hNP w, if_neg hwe, if_neg hwf, hBBget i]
        by_cases hit : i = t
        · rw [if_pos hit]
          have := s3 t (by omega) t1
          rw [← hb] at this
          omega
        · rw [if_neg hit]
          exact s3 i hi hil

/-- One iteration of `RemoveNode` on an active neighbour of recorded degree at
least 1: the arrays stay consistent, the recorded degree of the neighbour
drops by one, every other recorded degree is kept, and the neighbour is queued
exactly when its new recorded degree is below `k`. -/
theorem RemoveNodeStep_spec (n k : Nat) (st : BinSort) (remove : List Nat) (count e : Nat)
    (h : BinInv n st) (he : e < n) (ha : st.active_vertices.getD e 0 ≠ 0)
    (ht : 1 ≤ trackedDegree st e) :
    BinInv n (RemoveNodeStep k st remove count e).1 ∧
    (RemoveNodeStep k st remove count e).1.active_vertices = st.active_vertices ∧
    trackedDegree (RemoveNodeStep k st remove count e).1 e = trackedDegree st e - 1 ∧
    (∀ w, w < n → w ≠ e →
      trackedDegree (RemoveNodeStep k st remove count e).1 w = trackedDegree st w) ∧
    (RemoveNodeStep k st remove count e).2.1
      = (if trackedDegree st e - 1 < k then remove ++ [e] else remove) ∧
    (RemoveNodeStep k st remove count e).2.2 = count + 1 := by
  obtain ⟨t1, t2, t3⟩ := trackedDegree_spec h e
  obtain ⟨e1, e2⟩ := h.vtx e he
  have hbn : st.binBoundaries.getD (trackedDegree st e) 0 < n := by omega
  obtain ⟨f1, f2⟩ := h.pos _ hbn
  have hq : ((trackedDegree st e : Nat) : Int) - 1 < (k : Int) ↔ trackedDegree st e - 1 < k := by
    omega
  by_cases hef : e = st.sortedIndices.getD (st.binBoundaries.getD (trackedDegree st e) 0) 0
  · have hpos : st.nodePosition.getD e 0 = st.binBoundaries.getD (trackedDegree st e) 0 := by
      have := f2
      rw [← hef] at this
      exact this
    have hmove := bin_move n st
      (BinSort.mk st.sortedIndices st.nodePosition
        (st.binBoundaries.set (trackedDegree st e)
          (st.binBoundaries.getD (trackedDegree st e) 0 + 1)) st.active_vertices)
      e _ _ _ _ h he rfl ht rfl rfl rfl
      (fun p => by
        simp only
        by_cases hp : p = st.binBoundaries.getD (trackedDegree st e) 0
        · rw [if_pos hp, hp]; exact hef.symm
        · rw [if_neg hp]
          by_cases hp2 : p = st.nodePosition.getD e 0
          · exact absurd (hp2.trans hpos) hp
          · rw [if_neg hp2])
      (fun w => by
        simp only
        by_cases hw : w = e
        · rw [if_pos hw, hw]; exact hpos
        · rw [if_neg hw]
          by_cases hw2 : w = st.sortedIndices.getD (st.binBoundaries.getD (trackedDegree st e) 0) 0
          · exact absurd (hw2.trans hef.symm) hw
          · rw [if_neg hw2])
      rfl h.lenS h.lenNP rfl
    have hr : RemoveNodeStep k st remove count e
        = (BinSort.mk st.sortedIndices st.nodePosition
            (st.binBoundaries.set (trackedDegree st e)
              (st.binBoundaries.getD (trackedDegree st e) 0 + 1)) st.active_vertices,
            (if trackedDegree st e - 1 < k then remove ++ [e] else remove), count + 1) := by
      unfold RemoveNodeStep
      rw [if_pos ha]
      simp only
      have hef2 : ¬ (e ≠ st.sortedIndices.getD
          (st.binBoundaries.getD (upper_bound st.binBoundaries (st.nodePosition.getD e 0) - 1) 0)
          0) := by
        intro hh
        exact hh hef
      rw [if_neg hef2]
      change (_, (if ((trackedDegree st e : Nat) : Int) - 1 < (k : Int) then _ else _), _) = _
      by_cases hk : trackedDegree st e - 1 < k
      · rw [if_pos hk, if_pos (hq.mpr hk)]
        rfl
      · rw [if_neg hk, if_neg (fun hh => hk (hq.mp hh))]
        rfl
    rw [hr]
    exact ⟨hmove.1, rfl, hmove.2.1, hmove.2.2, rfl, rfl⟩
  · have hne : st.nodePosition.getD e 0 ≠ st.binBoundaries.getD (trackedDegree st e) 0 := by
      intro hh
      rw [hh] at e2
      exact hef e2.symm
    have hmove := bin_move n st
      (BinSort.mk
        ((st.sortedIndices.set (st.nodePosition.getD e 0)
          (st.sortedIndices.getD (st.binBoundaries.getD (trackedDegree st e) 0) 0)).set
          (st.binBoundaries.getD (trackedDegree st e) 0) e)
        ((st.nodePosition.set e (st.binBoundaries.getD (trackedDegree st e) 0)).set
          (st.sortedIndices.getD (st.binBoundaries.getD (trackedDegree st e) 0) 0)
          (st.nodePosition.getD e 0))
        (st.binBoundaries.set (trackedDegree st e)
          (st.binBoundaries.getD (trackedDegree st e) 0 + 1)) st.active_vertices)
      e _ _ _ _ h he rfl ht rfl rfl rfl
      (fun p => by
        simp only
        rw [getD_set_nat _ _ _ _ (by rw [List.length_set, h.lenS]; exact hbn),
          getD_set_nat _ _ _ _ (by rw [h.lenS]; exact e1)])
      (fun w => by
        simp only
        rw [getD_set_nat _ _ _ _ (by rw [List.length_set, h.lenNP]; exact f1),
          getD_set_nat _ _ _ _ (by rw [h.lenNP]; exact he)]
        by_cases hw : w = e
        · rw [if_pos hw, if_neg (by rw [hw]; exact hef), if_pos hw]
        · rw [if_neg hw, if_neg hw])
      rfl (by simp only [List.length_set]; exact h.lenS)
      (by simp only [List.length_set]; exact h.lenNP) rfl
    have hr : RemoveNodeStep k st remove count e
        = (BinSort.mk
            ((st.sortedIndices.set (st.nodePosition.getD e 0)
              (st.sortedIndices.getD (st.binBoundaries.getD (trackedDegree st e) 0) 0)).set
              (st.binBoundaries.getD (trackedDegree st e) 0) e)
            ((st.nodePosition.set e (st.binBoundaries.getD (trackedDegree st e) 0)).set
              (st.sortedIndices.getD (st.binBoundaries.getD (trackedDegree st e) 0) 0)
              (st.nodePosition.getD e 0))
            (st.binBoundaries.set (trackedDegree st e)
              (st.binBoundaries.getD (trackedDegree st e) 0 + 1)) st.active_vertices,
            (if trackedDegree st e - 1 < k then remove ++ [e] else remove), count + 1) := by
      unfold RemoveNodeStep
      rw [if_pos ha]
      simp only
      have hef2 : e ≠ st.sortedIndices.getD
          (st.binBoundaries.getD (upper_bound st.binBoundaries (st.nodePosition.getD e 0) - 1) 0)
          0 := hef
      rw [if_pos hef2]
      change (_, (if ((trackedDegree st e : Nat) : Int) - 1 < (k : Int) then _ else _), _) = _
      by_cases hk : trackedDegree st e - 1 < k
      · rw [if_pos hk, if_pos (hq.mpr hk)]
        rfl
      · rw [if_neg hk, if_neg (fun hh => hk (hq.mp hh))]
        rfl
    rw [hr]
    exact ⟨hmove.1, rfl, hmove.2.1, hmove.2.2, rfl, rfl⟩

theorem RemoveNodeStep_inactive (k : Nat) (st : BinSort) (remove : List Nat) (count e : Nat)
    (ha : ¬ st.active_vertices.getD e 0 ≠ 0) :
    RemoveNodeStep k st remove count e = (st, remove, count) := by
  unfold RemoveNodeStep
  rw [if_neg ha]


theorem getD_ne_zero_lt (l : List Nat) (v : Nat) (h : l.getD v 0 ≠ 0) : v < l.length := by
  by_contra hlt
  rw [List.getD_eq_default _ _ (by omega)] at h
  exact h rfl

theorem activeNeighbours_set_zero (edges : adjacency_list_t) (active : List Nat) (u v : Nat)
    (hu : active.getD u 0 ≠ 0) :
    activeNeighbours edges (active.set u 0) v + (adj edges v).count u
      = activeNeighbours edges active v := by
  have hlt := getD_ne_zero_lt active u hu
  unfold activeNeighbours
  generalize adj edges v = l
  induction l with
  | nil => simp
  | cons x l ih =>
    rw [List.countP_cons, List.countP_cons, List.count_cons, ← ih]
    by_cases hx : x = u
    · subst hx
      rw [getD_set_self active x 0 hlt]
      have e1 : decide ((0 : Nat) ≠ 0) = false := by decide
      have e2 : decide (active.getD x 0 ≠ 0) = true := decide_eq_true hu
      simp only [e1, e2, beq_self_eq_true, if_true, Bool.false_eq_true, if_false]
      omega
    · rw [getD_set_ne active u 0 x (Ne.symm hx)]
      have e3 : (x == u) = false := by simp [hx]
      simp only [e3, Bool.false_eq_true, if_false]
      omega

theorem neighboursInside_le (edges : adjacency_list_t) (active : List Nat) (T : List Nat) (v : Nat)
    (hnd : T.Nodup) (hT : ∀ w ∈ T, active.getD w 0 ≠ 0) :
    (neighboursInside edges T v).length ≤ activeNeighbours edges active v := by
  unfold neighboursInside activeNeighbours
  rw [List.countP_eq_length_filter]
  apply List.Subperm.length_le
  apply (hnd.filter _).subperm
  intro w hw
  simp only [List.mem_filter, Bool.and_eq_true, decide_eq_true_eq] at hw ⊢
  exact ⟨hw.2.2, hT w hw.1⟩

theorem BinInv.set_active {n : Nat} {st : BinSort} (h : BinInv n st) (v : Nat) :
    BinInv n (BinSort.mk st.sortedIndices st.nodePosition st.binBoundaries
      (st.active_vertices.set v 0)) :=
  ⟨h.lenS, h.lenNP, by simp only [List.length_set]; exact h.lenA, h.vtx, h.pos, h.bbPos,
    h.bbZero, h.bbSorted, h.bbLe⟩

/-- Deactivating the queued vertex `v` hands its neighbour list to `RemoveNode`. -/
theorem PeelInv.deactivate {edges : adjacency_list_t} {k : Nat} {st : BinSort} {q : List Nat}
    {v : Nat} (hsym : ∀ a b, (adj edges a).count b = (adj edges b).count a)
    (h : PeelInv edges k st (v :: q) []) (hv : st.active_vertices.getD v 0 ≠ 0) :
    PeelInv edges k (BinSort.mk st.sortedIndices st.nodePosition st.binBoundaries
      (st.active_vertices.set v 0)) q (adj edges v).reverse := by
  have hlt := getD_ne_zero_lt _ v hv
  have hact : ∀ w, (st.active_vertices.set v 0).getD w 0 ≠ 0 →
      w ≠ v ∧ st.active_vertices.getD w 0 ≠ 0 := by
    intro w hw
    by_cases hwv : w = v
    · subst hwv
      rw [getD_set_self _ _ _ hlt] at hw
      exact absurd rfl hw
    · rw [getD_set_ne _ _ _ _ (Ne.symm hwv)] at hw
      exact ⟨hwv, hw⟩
  have hvk : trackedDegree st v < k := (h.low v (List.mem_cons_self _ _)).2 hv
  have hvn : v < edges.length := (h.low v (List.mem_cons_self _ _)).1
  refine ⟨h.bin.set_active v, ?_, ?_, ?_, ?_⟩
  · intro w hw hwa
    obtain ⟨hwv, hwa2⟩ := hact w hwa
    have h1 := h.deg w hw hwa2
    have h2 := activeNeighbours_set_zero edges st.active_vertices v w hv
    simp only [List.count_nil, Nat.add_zero] at h1
    rw [List.count_reverse, hsym v w]
    show trackedDegree st w = _
    simp only
    omega
  · intro w hw hwa hwk
    obtain ⟨hwv, hwa2⟩ := hact w hwa
    have := h.queued w hw hwa2 hwk
    rcases List.mem_cons.mp this with e | e
    · exact absurd e hwv
    · exact e
  · intro w hw
    refine ⟨(h.low w (List.mem_cons_of_mem _ hw)).1, fun hwa => ?_⟩
    exact (h.low w (List.mem_cons_of_mem _ hw)).2 (hact w hwa).2
  · intro T hnd hT hmin w hw
    have hall := h.core T hnd hT hmin
    have hvT : v ∉ T := by
      intro hvT
      have h1 := hmin v hvT
      have h2 := neighboursInside_le edges st.active_vertices T v hnd hall
      have h3 := h.deg v hvn hv
      simp only [List.count_nil, Nat.add_zero] at h3
      omega
    have hwv : w ≠ v := fun e => hvT (e ▸ hw)
    show (st.active_vertices.set v 0).getD w 0 ≠ 0
    rw [getD_set_ne _ _ _ _ (Ne.symm hwv)]
    exact hall w hw

/-- Dropping a queued vertex that is no longer active keeps the invariant. -/
theorem PeelInv.skip {edges : adjacency_list_t} {k : Nat} {st : BinSort} {q : List Nat}
    {v : Nat} (h : PeelInv edges k st (v :: q) []) (hv : ¬ st.active_vertices.getD v 0 ≠ 0) :
    PeelInv edges k st q [] := by
  refine ⟨h.bin, h.deg, ?_, fun w hw => h.low w (List.mem_cons_of_mem _ hw), h.core⟩
  intro w hw hwa hwk
  rcases List.mem_cons.mp (h.queued w hw hwa hwk) with e | e
  · rw [e] at hwa
    exact absurd hwa hv
  · exact e

/-- One iteration of `RemoveNode` keeps the invariant and consumes the head of
the list of neighbours that are still to be processed. -/
theorem PeelInv.process {edges : adjacency_list_t} {k : Nat} {st : BinSort} {q L : List Nat}
    {e : Nat} (count : Nat) (h : PeelInv edges k st q (e :: L)) :
    PeelInv edges k (RemoveNodeStep k st q count e).1 (RemoveNodeStep k st q count e).2.1 L := by
  by_cases ha : st.active_vertices.getD e 0 ≠ 0
  · have he : e < edges.length := by
      have := getD_ne_zero_lt _ e ha
      rw [h.bin.lenA] at this
      exact this
    have hde := h.deg e he ha
    rw [List.count_cons_self] at hde
    obtain ⟨s1, s2, s3, s4, s5, _⟩ :=
      RemoveNodeStep_spec edges.length k st q count e h.bin he ha (by omega)
    refine ⟨s1, ?_, ?_, ?_, ?_⟩
    · intro w hw hwa
      rw [s2] at hwa ⊢
      by_cases hwe : w = e
      · subst hwe
        rw [s3]
        omega
      · rw [s4 w hw hwe, h.deg w hw hwa, List.count_cons_of_ne hwe]
    · intro w hw hwa hwk
      rw [s2] at hwa
      rw [s5]
      by_cases hwe : w = e
      · subst hwe
        rw [s3] at hwk
        rw [if_pos hwk]
        simp
      · rw [s4 w hw hwe] at hwk
        have := h.queued w hw hwa hwk
        split
        · exact List.mem_append_left _ this
        · exact this
    · intro w hw
      rw [s5] at hw
      rw [s2]
      have hold : w ∈ q → w < edges.length ∧
          (st.active_vertices.getD w 0 ≠ 0 →
            trackedDegree (RemoveNodeStep k st q count e).1 w < k) := by
        intro hwq
        obtain ⟨w1, w2⟩ := h.low w hwq
        refine ⟨w1, fun hwa => ?_⟩
        have := w2 hwa
        by_cases hwe : w = e
        · subst hwe
          rw [s3]
          omega
        · rw [s4 w w1 hwe]
          exact this
      split at hw
      · rename_i hk
        rcases List.mem_append.mp hw with hwq | hwe
        · exact hold hwq
        · simp only [List.mem_singleton] at hwe
          subst hwe
          exact ⟨he, fun _ => by rw [s3]; exact hk⟩
      · exact hold hw
    · intro T hnd hT hmin w hw
      rw [s2]
      exact h.core T hnd hT hmin w hw
  · rw [RemoveNodeStep_inactive k st q count e ha]
    refine ⟨h.bin, ?_, h.queued, h.low, h.core⟩
    intro w hw hwa
    have hwe : w ≠ e := by
      intro e2
      rw [e2] at hwa
      exact ha hwa
    rw [h.deg w hw hwa, List.count_cons_of_ne hwe]

theorem RemoveNode_foldl_peel (edges : adjacency_list_t) (k : Nat) (L : List Nat) :
    ∀ (acc : BinSort × List Nat × Nat), PeelInv edges k acc.1 acc.2.1 L →
      PeelInv edges k
        (L.foldl (fun (acc : BinSort × List Nat × Nat) e =>
          RemoveNodeStep k acc.1 acc.2.1 acc.2.2 e) acc).1
        (L.foldl (fun (acc : BinSort × List Nat × Nat) e =>
          RemoveNodeStep k acc.1 acc.2.1 acc.2.2 e) acc).2.1 [] := by
  induction L with
  | nil => intro acc h; exact h
  | cons e L ih =>
    intro acc h
    simp only [List.foldl_cons]
    exact ih _ (h.process acc.2.2)

/-- The function `RemoveNode` restores the invariant after the deactivation of `u`. -/
theorem RemoveNode_peel (edges : adjacency_list_t) (k u : Nat) (st : BinSort) (q : List Nat)
    (h : PeelInv edges k st q (adj edges u).reverse) :
    PeelInv edges k (RemoveNode k u edges st q).1 (RemoveNode k u edges st q).2.1 [] := by
  unfold RemoveNode
  exact RemoveNode_foldl_peel edges k _ (st, q, 0) h

/-- The draining loop of `ShrinkToMaxKCoreVertices` ends with an empty queue
and the invariant. -/
theorem ShrinkLoop_peel (edges : adjacency_list_t) (k : Nat)
    (hsym : ∀ a b, (adj edges a).count b = (adj edges b).count a) :
    ∀ (fuel : Nat) (st : BinSort) (q : List Nat) (a b : Nat), PeelInv edges k st q [] →
      q.length + activeDegree edges st.active_vertices ≤ fuel →
      PeelInv edges k (ShrinkLoop k edges fuel st q a b).1 [] [] := by
  intro fuel
  induction fuel with
  | zero =>
    intro st q a b h hf
    have hq : q = [] := List.length_eq_zero.mp (by omega)
    subst hq
    simp only [ShrinkLoop]
    exact h
  | succ n ih =>
    intro st q a b h hf
    cases q with
    | nil =>
      simp only [ShrinkLoop]
      exact h
    | cons v q =>
      simp only [ShrinkLoop]
      simp only [List.length_cons] at hf
      split
      · next hact =>
        have hr := RemoveNode_active k v edges
          (BinSort.mk st.sortedIndices st.nodePosition st.binBoundaries
            (st.active_vertices.set v 0)) q
        have hd := activeDegree_set_zero edges st.active_vertices v hact
        apply ih
        · exact RemoveNode_peel edges k v _ q (h.deactivate hsym hact)
        · have e1 := hr.1
          have e2 := hr.2
          simp only at e1
          rw [e1]
          omega
      · next hact =>
        exact ih _ _ _ _ (h.skip hact) (by omega)

/-- A queue of inactive vertices is drained without any change. -/
theorem ShrinkLoop_inactive (edges : adjacency_list_t) (k : Nat) :
    ∀ (fuel : Nat) (st : BinSort) (q : List Nat) (a b : Nat),
      (∀ v ∈ q, st.active_vertices.getD v 0 = 0) →
      ShrinkLoop k edges fuel st q a b = (st, a, b) := by
  intro fuel
  induction fuel with
  | zero => intro st q a b _; simp only [ShrinkLoop]
  | succ n ih =>
    intro st q a b h
    cases q with
    | nil => simp only [ShrinkLoop]
    | cons v q =>
      simp only [ShrinkLoop]
      have hv : ¬ st.active_vertices.getD v 0 ≠ 0 := fun hh => hh (h v (List.mem_cons_self _ _))
      rw [if_neg hv]
      exact ih st q a b (fun w hw => h w (List.mem_cons_of_mem _ hw))


theorem getD_replicate_one (n v : Nat) (hv : v < n) : (List.replicate n 1).getD v 0 = 1 := by
  simp [List.getD_eq_getElem?_getD, List.getElem?_replicate, hv]

theorem sortedState_binInv (edges : adjacency_list_t)
    (hdeg : ∀ v, v < edges.length → GetDegree edges v < edges.length) :
    BinInv edges.length (sortedState edges) := by
  obtain ⟨hinv, hlen, hBB⟩ := BinSortByDegree_fill edges hdeg
  refine ⟨hinv.lenS, hinv.lenNP, by simp [sortedState], fun v hv => hinv.vtx v hv trivial,
    fun p hp => ⟨(hinv.pos p hp).1, (hinv.pos p hp).2.2.1⟩, ?_, ?_, ?_, ?_⟩
  · show 0 < (BinSortByDegree edges).2.2.length
    omega
  · show (BinSortByDegree edges).2.2.getD 0 0 = 0
    rw [hBB 0 (by omega), countBelow_zero]
  · intro i j hij hj
    show (BinSortByDegree edges).2.2.getD i 0 ≤ (BinSortByDegree edges).2.2.getD j 0
    have hj2 : j < (BinSortByDegree edges).2.2.length := hj
    rw [hBB i (by omega), hBB j (by omega)]
    exact countBelow_mono edges hij
  · intro i hi
    show (BinSortByDegree edges).2.2.getD i 0 ≤ edges.length
    have hi2 : i < (BinSortByDegree edges).2.2.length := hi
    rw [hBB i (by omega)]
    exact countBelow_le edges i

theorem sortedState_tracked (edges : adjacency_list_t)
    (hdeg : ∀ v, v < edges.length → GetDegree edges v < edges.length) (v : Nat)
    (hv : v < edges.length) : trackedDegree (sortedState edges) v = GetDegree edges v := by
  obtain ⟨hinv, hlen, hBB⟩ := BinSortByDegree_fill edges hdeg
  have hd := GetDegree_le_maxDegreeOf edges v
  obtain ⟨v1, v2⟩ := hinv.vtx v hv trivial
  obtain ⟨_, _, _, p1, p2⟩ := hinv.pos _ v1
  rw [v2] at p1 p2
  apply trackedDegree_eq (sortedState_binInv edges hdeg) v
  · show GetDegree edges v < (BinSortByDegree edges).2.2.length
    omega
  · show (BinSortByDegree edges).2.2.getD _ 0 ≤ (BinSortByDegree edges).2.1.getD v 0
    rw [hBB _ hd]
    exact p1
  · intro i hi hil
    have hil2 : i < (BinSortByDegree edges).2.2.length := hil
    show (BinSortByDegree edges).2.1.getD v 0 < (BinSortByDegree edges).2.2.getD i 0
    rw [hBB i (by omega)]
    have := countBelow_mono edges (by omega : GetDegree edges v + 1 ≤ i)
    omega

theorem mem_adj_lt_of_count_symm (edges : adjacency_list_t)
    (hsym : ∀ a b, (adj edges a).count b = (adj edges b).count a) (v w : Nat)
    (hw : w ∈ adj edges v) : w < edges.length := by
  have h1 : 0 < (adj edges v).count w := List.count_pos_iff.mpr hw
  rw [hsym v w] at h1
  by_contra hlt
  rw [adj_of_length_le edges w (by omega)] at h1
  simp at h1

theorem activeNeighbours_le (edges : adjacency_list_t) (active : List Nat) (v : Nat) :
    activeNeighbours edges active v ≤ GetDegree edges v := by
  unfold activeNeighbours GetDegree
  exact List.countP_le_length _

theorem activeNeighbours_all (edges : adjacency_list_t) (v : Nat)
    (hb : ∀ w ∈ adj edges v, w < edges.length) :
    activeNeighbours edges (List.replicate edges.length 1) v = GetDegree edges v := by
  unfold activeNeighbours GetDegree
  rw [List.countP_eq_length]
  intro w hw
  rw [getD_replicate_one _ _ (hb w hw)]
  decide

/-- The state in which the drivers first call `ShrinkToMaxKCoreVertices`
satisfies the invariant of the draining loop, with the queue that the call
builds from the bins below `k`. -/
theorem sortedState_peel (edges : adjacency_list_t) (k : Nat)
    (hsym : ∀ a b, (adj edges a).count b = (adj edges b).count a)
    (hdeg : ∀ v, v < edges.length → GetDegree edges v < edges.length)
    (hk : k ≤ maxDegreeOf edges) :
    PeelInv edges k (sortedState edges)
      ((List.range ((sortedState edges).binBoundaries.getD k 0)).map
        fun i => (sortedState edges).sortedIndices.getD i 0) [] := by
  obtain ⟨hinv, hlen, hBB⟩ := BinSortByDegree_fill edges hdeg
  have hact : ∀ v, v < edges.length → (sortedState edges).active_vertices.getD v 0 ≠ 0 := by
    intro v hv
    show (List.replicate edges.length 1).getD v 0 ≠ 0
    rw [getD_replicate_one _ _ hv]
    decide
  have hbk : (sortedState edges).binBoundaries.getD k 0 = countBelow edges k := hBB k hk
  refine ⟨sortedState_binInv edges hdeg, ?_, ?_, ?_, ?_⟩
  · intro v hv _
    rw [sortedState_tracked edges hdeg v hv]
    show _ = activeNeighbours edges (List.replicate edges.length 1) v + _
    rw [activeNeighbours_all edges v (fun w hw => mem_adj_lt_of_count_symm edges hsym v w hw)]
    simp
  · intro v hv _ hvk
    rw [sortedState_tracked edges hdeg v hv] at hvk
    rw [hbk]
    obtain ⟨v1, v2⟩ := hinv.vtx v hv trivial
    obtain ⟨_, _, _, _, p2⟩ := hinv.pos _ v1
    rw [v2] at p2
    have := countBelow_mono edges (by omega : GetDegree edges v + 1 ≤ k)
    simp only [List.mem_map, List.mem_range]
    exact ⟨(BinSortByDegree edges).2.1.getD v 0, by omega, v2⟩
  · intro v hv
    rw [hbk] at hv
    simp only [List.mem_map, List.mem_range] at hv
    obtain ⟨p, hp, rfl⟩ := hv
    have hpn : p < edges.length := lt_of_lt_of_le hp (countBelow_le edges k)
    have h1 := (hinv.pos p hpn).1
    refine ⟨h1, fun _ => ?_⟩
    show trackedDegree (sortedState edges) ((BinSortByDegree edges).1.getD p 0) < k
    rw [sortedState_tracked edges hdeg _ h1]
    exact hinv.degree_lt_of_lt p k hp
  · intro T _ hT _ v hv
    exact hact v (hT v hv)

theorem sortedState_bb_length (edges : adjacency_list_t)
    (hdeg : ∀ v, v < edges.length → GetDegree edges v < edges.length) :
    (sortedState edges).binBoundaries.length = maxDegreeOf edges + 1 :=
  (BinSortByDegree_fill edges hdeg).2.1

/-- In the branch that drains the queue, `ShrinkToMaxKCoreVertices` on the
initial state ends with the invariant and an empty queue. -/
theorem ShrinkToMaxKCoreVertices_peel (edges : adjacency_list_t) (k : Nat)
    (hsym : ∀ a b, (adj edges a).count b = (adj edges b).count a)
    (hdeg : ∀ v, v < edges.length → GetDegree edges v < edges.length)
    (hk : k ≤ maxDegreeOf edges) :
    PeelInv edges k (ShrinkToMaxKCoreVertices k none edges (sortedState edges)).1 [] [] := by
  have hlen := sortedState_bb_length edges hdeg
  unfold ShrinkToMaxKCoreVertices
  simp only
  rw [if_pos (by omega)]
  apply ShrinkLoop_peel edges k hsym _ _ _ _ _ (sortedState_peel edges k hsym hdeg hk)
  have := activeDegree_le_total edges (sortedState edges).active_vertices
  omega

theorem ShrinkToMaxKCoreVertices_large (edges : adjacency_list_t) (k : Nat)
    (hdeg : ∀ v, v < edges.length → GetDegree edges v < edges.length)
    (hk : maxDegreeOf edges < k) :
    ShrinkToMaxKCoreVertices k none edges (sortedState edges)
      = (BinSort.mk (sortedState edges).sortedIndices (sortedState edges).nodePosition
          (sortedState edges).binBoundaries
          ((sortedState edges).active_vertices.map fun _ => 0), edges.length, 0) := by
  have hlen := sortedState_bb_length edges hdeg
  unfold ShrinkToMaxKCoreVertices
  simp only
  rw [if_neg (by omega)]

theorem getD_map_zero (l : List Nat) (v : Nat) : (l.map fun _ => 0).getD v 0 = 0 := by
  by_cases h : v < l.length
  · simp [List.getD_eq_getElem?_getD, List.getElem?_map, List.getElem?_eq_getElem h]
  · rw [List.getD_eq_default _ _ (by simp; omega)]

/-- The result of `ShrinkToMaxKCoreVertices` on the initial state: every
vertex that is still active has at least `k` active entries in its neighbour
list, and no vertex of a set of minimum induced degree `k` was deactivated. -/
theorem ShrinkToMaxKCoreVertices_core (edges : adjacency_list_t) (k : Nat)
    (hsym : ∀ a b, (adj edges a).count b = (adj edges b).count a)
    (hdeg : ∀ v, v < edges.length → GetDegree edges v < edges.length) :
    (ShrinkToMaxKCoreVertices k none edges (sortedState edges)).1.active_vertices.length
      = edges.length ∧
    (∀ v, (ShrinkToMaxKCoreVertices k none edges
        (sortedState edges)).1.active_vertices.getD v 0 ≠ 0 →
      k ≤ activeNeighbours edges
        (ShrinkToMaxKCoreVertices k none edges (sortedState edges)).1.active_vertices v) ∧
    (∀ T : List Nat, T.Nodup → (∀ v ∈ T, v < edges.length) → MinDegreeInside edges T k →
      ∀ v ∈ T, (ShrinkToMaxKCoreVertices k none edges
        (sortedState edges)).1.active_vertices.getD v 0 ≠ 0) := by
  by_cases hk : k ≤ maxDegreeOf edges
  · have h := ShrinkToMaxKCoreVertices_peel edges k hsym hdeg hk
    refine ⟨h.bin.lenA, ?_, h.core⟩
    intro v hv
    have hvn : v < edges.length := by
      have := getD_ne_zero_lt _ v hv
      rw [h.bin.lenA] at this
      exact this
    have h1 := h.deg v hvn hv
    simp only [List.count_nil, Nat.add_zero] at h1
    by_contra hlt
    have := h.queued v hvn hv (by omega)
    simp at this
  · rw [ShrinkToMaxKCoreVertices_large edges k hdeg (by omega)]
    simp only
    refine ⟨by simp [sortedState], ?_, ?_⟩
    · intro v hv
      exact absurd (getD_map_zero _ v) hv
    · intro T hnd hT hmin v hv
      exfalso
      have h1 := hmin v hv
      have h2 := neighboursInside_le edges (List.replicate edges.length 1) T v hnd
        (fun w hw => by rw [getD_replicate_one _ _ (hT w hw)]; decide)
      have h3 := activeNeighbours_le edges (List.replicate edges.length 1) v
      have h4 := GetDegree_le_maxDegreeOf edges v
      omega

theorem count_symm_of_nodup (edges : adjacency_list_t) (hs : SymmetricAdj edges)
    (hnd : ∀ l ∈ edges, l.Nodup) (a b : Nat) :
    (adj edges a).count b = (adj edges b).count a := by
  have hn : ∀ v, (adj edges v).Nodup := by
    intro v
    by_cases hv : v < edges.length
    · exact hnd _ (adj_mem_edges edges v hv)
    · rw [adj_of_length_le edges v (by omega)]
      exact List.nodup_nil
  rw [List.count_eq_of_nodup (hn a), List.count_eq_of_nodup (hn b)]
  by_cases h : b ∈ adj edges a
  · rw [if_pos h, if_pos (hs.symm a b h)]
  · rw [if_neg h, if_neg (fun h2 => h (hs.symm b a h2))]

theorem degree_lt_of_nodup (edges : adjacency_list_t) (hs : SymmetricAdj edges)
    (hl : LoopFree edges) (hnd : ∀ l ∈ edges, l.Nodup) (v : Nat) (hv : v < edges.length) :
    GetDegree edges v < edges.length := by
  have h1 : (v :: adj edges v).Nodup :=
    List.nodup_cons.mpr ⟨hl v hv, hnd _ (adj_mem_edges edges v hv)⟩
  have h2 : (v :: adj edges v).Subperm (List.range edges.length) := by
    apply h1.subperm
    intro x hx
    rcases List.mem_cons.mp hx with e | e
    · rw [e]; exact List.mem_range.mpr hv
    · exact List.mem_range.mpr (hs.bounded v x e)
  have h3 := h2.length_le
  simp only [List.length_cons, List.length_range] at h3
  unfold GetDegree
  omega

theorem mem_activeList (active : List Nat) (v : Nat) :
    v ∈ activeList active ↔ active.getD v 0 ≠ 0 := by
  unfold activeList
  simp only [List.mem_filter, List.mem_range, decide_eq_true_eq]
  exact ⟨fun h => h.2, fun h => ⟨getD_ne_zero_lt active v h, h⟩⟩

theorem activeNeighbours_le_inside (edges : adjacency_list_t) (hl : LoopFree edges)
    (hnd : ∀ l ∈ edges, l.Nodup) (active : List Nat) (v : Nat) (hv : v < edges.length) :
    activeNeighbours edges active v ≤ (neighboursInside edges (activeList active) v).length := by
  unfold activeNeighbours neighboursInside
  rw [List.countP_eq_length_filter]
  apply List.Subperm.length_le
  apply ((hnd _ (adj_mem_edges edges v hv)).filter _).subperm
  intro w hw
  simp only [List.mem_filter, Bool.and_eq_true, decide_eq_true_eq] at hw ⊢
  refine ⟨(mem_activeList active w).mpr hw.2, ?_, hw.1⟩
  intro e
  rw [e] at hw
  exact hl v hv hw.1

/-- C25 (amended): for a symmetric loop-free adjacency on at least one vertex
whose neighbour lists repeat no id, and every `k`, `ShrinkToMaxKCoreVertices`
on the state of `BinSortByDegree` with all vertices active leaves active exactly
the maximum k-core: every active vertex has at least `k` active neighbours, and
every vertex set of minimum induced degree at least `k` consists of active
vertices only. -/
theorem C25_ShrinkToMaxKCoreVertices_max_core (edges : adjacency_list_t) (k : Nat)
    (_hn : 1 ≤ edges.length) (hs : SymmetricAdj edges) (hl : LoopFree edges)
    (hnd : ∀ l ∈ edges, l.Nodup) :
    MinDegreeInside edges
      (activeList (ShrinkToMaxKCoreVertices k none edges (sortedState edges)).1.active_vertices)
      k ∧
    ∀ T : List Nat, T.Nodup → (∀ v ∈ T, v < edges.length) → MinDegreeInside edges T k →
      ∀ v ∈ T, (ShrinkToMaxKCoreVertices k none edges
        (sortedState edges)).1.active_vertices.getD v 0 ≠ 0 := by
  obtain ⟨h1, h2, h3⟩ := ShrinkToMaxKCoreVertices_core edges k (count_symm_of_nodup edges hs hnd)
    (degree_lt_of_nodup edges hs hl hnd)
  refine ⟨?_, h3⟩
  intro v hv
  have hva := (mem_activeList _ v).mp hv
  have hvn : v < edges.length := by
    have := getD_ne_zero_lt _ v hva
    rw [h1] at this
    exact this
  exact le_trans (h2 v hva) (activeNeighbours_le_inside edges hl hnd _ v hvn)

/-- C25 (witness): the 2-core of the triangle with a pendant vertex is the triangle. -/
theorem C25_witness :
    1 ≤ examplePendant.length ∧ SymmetricAdj examplePendant ∧ LoopFree examplePendant ∧
    (∀ l ∈ examplePendant, l.Nodup) ∧
    (ShrinkToMaxKCoreVertices 2 none examplePendant (sortedState examplePendant)).1.active_vertices
      = [1, 1, 1, 0] ∧
    MinDegreeInside examplePendant
      (activeList
        (ShrinkToMaxKCoreVertices 2 none examplePendant
          (sortedState examplePendant)).1.active_vertices) 2 :=
  ⟨by decide, by decide, by decide, by decide, by decide,
    (C25_ShrinkToMaxKCoreVertices_max_core examplePendant 2 (by decide) (by decide) (by decide)
      (by decide)).1⟩

/-- C25 (counterexample): when both neighbour lists record the edge 0 - 1
twice, the recorded degrees are 2 and the call with `k = 2` keeps the vertices
0 and 1 active, each with a single active neighbour. -/
theorem C25_counterexample :
    SymmetricAdj exampleDoubleEdge ∧ LoopFree exampleDoubleEdge ∧
    (∀ v, v < exampleDoubleEdge.length →
      GetDegree exampleDoubleEdge v < exampleDoubleEdge.length) ∧
    (ShrinkToMaxKCoreVertices 2 none exampleDoubleEdge
      (sortedState exampleDoubleEdge)).1.active_vertices = [1, 1, 0] ∧
    neighboursInside exampleDoubleEdge [0, 1] 0 = [1] ∧
    ¬ MinDegreeInside exampleDoubleEdge
      (activeList
        (ShrinkToMaxKCoreVertices 2 none exampleDoubleEdge
          (sortedState exampleDoubleEdge)).1.active_vertices) 2 := by
  decide


theorem RemoveNodeStep_bb_length (k : Nat) (st : BinSort) (remove : List Nat) (count e : Nat) :
    (RemoveNodeStep k st remove count e).1.binBoundaries.length = st.binBoundaries.length := by
  unfold RemoveNodeStep
  split
  · simp only [List.length_set]
    split <;> rfl
  · rfl

theorem RemoveNode_bb_length (k u : Nat) (edges : adjacency_list_t) (st : BinSort)
    (remove : List Nat) :
    (RemoveNode k u edges st remove).1.binBoundaries.length = st.binBoundaries.length := by
  unfold RemoveNode
  have key : ∀ (l : List Nat) (acc : BinSort × List Nat × Nat),
      (l.foldl (fun (acc : BinSort × List Nat × Nat) e =>
          RemoveNodeStep k acc.1 acc.2.1 acc.2.2 e) acc).1.binBoundaries.length
        = acc.1.binBoundaries.length := by
    intro l
    induction l with
    | nil => intro acc; rfl
    | cons e l ih =>
      intro acc
      simp only [List.foldl_cons]
      rw [ih, RemoveNodeStep_bb_length]
  exact key _ _

theorem ShrinkLoop_bb_length (edges : adjacency_list_t) (k : Nat) :
    ∀ (fuel : Nat) (st : BinSort) (q : List Nat) (a b : Nat),
      (ShrinkLoop k edges fuel st q a b).1.binBoundaries.length = st.binBoundaries.length := by
  intro fuel
  induction fuel with
  | zero => intro st q a b; simp only [ShrinkLoop]
  | succ n ih =>
    intro st q a b
    cases q with
    | nil => simp only [ShrinkLoop]
    | cons v q =>
      simp only [ShrinkLoop]
      split
      · rw [ih, RemoveNode_bb_length]
      · rw [ih]

/-- Peeling idempotence for `k` up to the largest degree: the second call of
`ShrinkToMaxKCoreVertices` finds only inactive vertices in the bins below `k`,
changes nothing and reports no removal. -/
theorem ShrinkToMaxKCoreVertices_idempotent (edges : adjacency_list_t) (k : Nat)
    (hsym : ∀ a b, (adj edges a).count b = (adj edges b).count a)
    (hdeg : ∀ v, v < edges.length → GetDegree edges v < edges.length)
    (hk : k ≤ maxDegreeOf edges) :
    ShrinkToMaxKCoreVertices k none edges
        (ShrinkToMaxKCoreVertices k none edges (sortedState edges)).1
      = ((ShrinkToMaxKCoreVertices k none edges (sortedState edges)).1, 0, 0) := by
  have h := ShrinkToMaxKCoreVertices_peel edges k hsym hdeg hk
  have hlen : (ShrinkToMaxKCoreVertices k none edges (sortedState edges)).1.binBoundaries.length
      = maxDegreeOf edges + 1 := by
    rw [← sortedState_bb_length edges hdeg]
    unfold ShrinkToMaxKCoreVertices
    simp only
    rw [if_pos (by rw [sortedState_bb_length edges hdeg]; omega)]
    exact ShrinkLoop_bb_length edges k _ _ _ _ _
  generalize ShrinkToMaxKCoreVertices k none edges (sortedState edges) = r at h hlen
  unfold ShrinkToMaxKCoreVertices
  simp only
  rw [if_pos (by omega)]
  apply ShrinkLoop_inactive
  intro v hv
  simp only [List.mem_map, List.mem_range] at hv
  obtain ⟨p, hp, rfl⟩ := hv
  by_contra hact
  have hpn : p < edges.length := lt_of_lt_of_le hp (h.bin.bbLe k (by omega))
  obtain ⟨p1, p2⟩ := h.bin.pos p hpn
  obtain ⟨t1, t2, t3⟩ := trackedDegree_spec h.bin (r.1.sortedIndices.getD p 0)
  rw [p2] at t2
  have hlt : trackedDegree r.1 (r.1.sortedIndices.getD p 0) < k := by
    by_contra hge
    have := h.bin.bbSorted k _ (by omega) t1
    omega
  have := h.queued _ p1 hact hlt
  simp at this


theorem reachWithin_succ_of (u : Nat) (edges : adjacency_list_t) (active : List Nat) (m v : Nat)
    (h : reachWithin u edges active m v) : reachWithin u edges active (m + 1) v :=
  Or.inl h

theorem reachWithin_mono (u : Nat) (edges : adjacency_list_t) (active : List Nat) (m m2 v : Nat)
    (hm : m ≤ m2) (h : reachWithin u edges active m v) : reachWithin u edges active m2 v := by
  induction m2 with
  | zero =>
    have : m = 0 := by omega
    subst this
    exact h
  | succ j ih =>
    by_cases hj : m = j + 1
    · subst hj; exact h
    · exact Or.inl (ih (by omega))

theorem reachWithin_step (u : Nat) (edges : adjacency_list_t) (active : List Nat) (m x v : Nat)
    (hx : reachWithin u edges active m x) (hv : v ∈ adj edges x) (ha : active.getD v 0 ≠ 0)
    (huv : u < v) : reachWithin u edges active (m + 1) v :=
  Or.inr ⟨x, hx, hv, ha, huv⟩

theorem reachWithin_bounds (u : Nat) (edges : adjacency_list_t) (active : List Nat)
    (hb : BoundedAdj edges) (hu : u < edges.length) (m v : Nat)
    (h : reachWithin u edges active m v) : u ≤ v ∧ v < edges.length := by
  induction m generalizing v with
  | zero =>
    have e : v = u := h
    subst e
    exact ⟨le_refl _, hu⟩
  | succ j ih =>
    rcases h with h | ⟨x, _, hv, _, huv⟩
    · exact ih v h
    · exact ⟨by omega, hb.adj_lt x v hv⟩

theorem reachWithin_of_path (u : Nat) (edges : adjacency_list_t) (active : List Nat)
    (p : List Nat) :
    ∀ (v h : Nat), KHopPath u edges active p → p.getLast? = some v → p.length ≤ h + 1 →
      reachWithin u edges active h v := by
  induction p using List.reverseRecOn with
  | nil => intro v h _ hl; simp at hl
  | append_singleton p y ih =>
    intro v h hp hl hlen
    rw [List.getLast?_concat] at hl
    simp only [Option.some.injEq] at hl
    subst hl
    obtain ⟨h1, h2, h3⟩ := hp
    cases hp2 : p.getLast? with
    | none =>
      have hnil : p = [] := List.getLast?_eq_none_iff.mp hp2
      subst hnil
      simp only [List.nil_append, List.head?_cons, Option.some.injEq] at h1
      subst h1
      exact reachWithin_mono y edges active 0 h y (by omega) rfl
    | some x =>
      have hne : p ≠ [] := by
        intro e
        rw [e] at hp2
        simp at hp2
      obtain ⟨a, t, rfl⟩ := List.exists_cons_of_ne_nil hne
      simp only [List.length_append, List.length_cons, List.length_singleton] at hlen
      obtain ⟨j, rfl⟩ : ∃ j, h = j + 1 := ⟨h - 1, by omega⟩
      rw [List.chain'_append] at h2
      obtain ⟨c1, _, c3⟩ := h2
      have hx : reachWithin u edges active j x := by
        apply ih x j ⟨?_, c1, ?_⟩ hp2 (by simp only [List.length_cons]; omega)
        · simpa using h1
        · intro z hz
          apply h3 z
          simp only [List.cons_append, List.tail_cons, List.mem_append] at hz ⊢
          exact Or.inl hz
      have hy := h3 y (by simp)
      exact reachWithin_step u edges active j x y hx
        (c3 x (by rw [hp2]; rfl) y (by simp)) hy.1 hy.2

theorem path_of_reachWithin (u : Nat) (edges : adjacency_list_t) (active : List Nat) (h : Nat) :
    ∀ v, reachWithin u edges active h v →
      ∃ p, KHopPath u edges active p ∧ p.getLast? = some v ∧ p.length ≤ h + 1 := by
  induction h with
  | zero =>
    intro v hv
    have e : v = u := hv
    subst e
    exact ⟨[v], ⟨rfl, List.chain'_singleton _, fun y hy => by simp at hy⟩, rfl, by simp⟩
  | succ j ih =>
    intro v hv
    rcases hv with hv | ⟨x, hx, hvx, ha, huv⟩
    · obtain ⟨p, hp, hl, hlen⟩ := ih v hv
      exact ⟨p, hp, hl, by omega⟩
    · obtain ⟨p, ⟨h1, h2, h3⟩, hl, hlen⟩ := ih x hx
      have hne : p ≠ [] := by
        intro e
        rw [e] at hl
        simp at hl
      obtain ⟨a, t, rfl⟩ := List.exists_cons_of_ne_nil hne
      refine ⟨(a :: t) ++ [v], ⟨by simpa using h1, ?_, ?_⟩, List.getLast?_concat _, ?_⟩
      · rw [List.chain'_append]
        refine ⟨h2, List.chain'_singleton _, ?_⟩
        intro z hz y hy
        rw [hl] at hz
        simp only [Option.mem_def, Option.some.injEq, List.head?_cons] at hz hy
        subst hz
        subst hy
        exact hvx
      · intro y hy
        simp only [List.cons_append, List.tail_cons, List.mem_append, List.mem_singleton] at hy
        rcases hy with hy | hy
        · exact h3 y (by simpa using hy)
        · subst hy
          exact ⟨ha, huv⟩
      · simp only [List.length_append, List.length_singleton]
        omega

/-- The recursive reachability agrees with the paths of the specification. -/
theorem reachWithin_iff_path (u : Nat) (edges : adjacency_list_t) (active : List Nat) (h v : Nat) :
    reachWithin u edges active h v ↔
      ∃ p, KHopPath u edges active p ∧ p.getLast? = some v ∧ p.length ≤ h + 1 :=
  ⟨path_of_reachWithin u edges active h v,
    fun ⟨p, hp, hl, hlen⟩ => reachWithin_of_path u edges active p v h hp hl hlen⟩


theorem khop_push_eq (u : Nat) (active : List Nat) (visited : List Bool) (hops : Nat)
    (l : List Nat) (q : List (Nat × Nat)) :
    l.foldl (fun q neighbour =>
        if active.getD neighbour 0 ≠ 0 then
          if u < neighbour ∧ (!visited.getD (neighbour - u) false) = true then
            q ++ [(neighbour, hops + 1)]
          else q
        else q) q
      = q ++ (l.filter fun y => decide (active.getD y 0 ≠ 0) && decide (u < y) &&
          !visited.getD (y - u) false).map fun y => (y, hops + 1) := by
  induction l generalizing q with
  | nil => simp
  | cons x l ih =>
    simp only [List.foldl_cons]
    rw [ih]
    by_cases h1 : active.getD x 0 ≠ 0
    · by_cases h2 : u < x ∧ (!visited.getD (x - u) false) = true
      · rw [if_pos h1, if_pos h2, List.filter_cons_of_pos (by
          rw [Bool.and_eq_true, Bool.and_eq_true]
          exact ⟨⟨decide_eq_true h1, decide_eq_true h2.1⟩, h2.2⟩)]
        simp
      · rw [if_pos h1, if_neg h2, List.filter_cons_of_neg]
        intro hh
        simp only [Bool.and_eq_true, decide_eq_true_eq] at hh
        exact h2 ⟨hh.1.2, hh.2⟩
    · rw [if_neg h1, List.filter_cons_of_neg]
      intro hh
      simp only [Bool.and_eq_true, decide_eq_true_eq] at hh
      exact h1 hh.1.1

theorem getD_set_bool (l : List Bool) (i j : Nat) (hi : i < l.length) :
    (l.set i true).getD j false = if j = i then true else l.getD j false := by
  by_cases h : j = i
  · subst h
    rw [if_pos rfl]
    simp [List.getD_eq_getElem?_getD, List.getElem?_set, hi]
  · rw [if_neg h]
    simp [List.getD_eq_getElem?_getD, List.getElem?_set, Ne.symm h]

theorem count_set_true (l : List Bool) (i : Nat) (hi : i < l.length)
    (h : l.getD i false = false) : (l.set i true).count true = l.count true + 1 := by
  induction l generalizing i with
  | nil => simp at hi
  | cons b l ih =>
    cases i with
    | zero =>
      simp only [List.getD_cons_zero] at h
      subst h
      simp
    | succ i =>
      simp only [List.getD_cons_succ] at h
      simp only [List.length_cons] at hi
      simp only [List.set_cons_succ, List.count_cons]
      rw [ih i (by omega) h]
      omega

theorem getD_of_count_true (l : List Bool) (h : l.length ≤ l.count true) (i : Nat)
    (hi : i < l.length) : l.getD i false = true := by
  have hle := List.count_le_length true l
  have he : l.count true = l.length := by omega
  rw [List.count_eq_length] at he
  rw [getD_of_lt l false i hi]
  exact (he _ (List.getElem_mem hi)).symm

theorem KHopInv.advance {u : Nat} {edges : adjacency_list_t} {active : List Nat} {k c : Nat}
    {q : List (Nat × Nat)} {visited : List Bool} {nv : Nat}
    (hb : BoundedAdj edges) (hu : u < edges.length)
    (h : KHopInv u edges active k c q visited nv) (e0 : Nat × Nat) (he0 : e0 ∈ q)
    (hnone : ∀ e ∈ q, e.2 ≠ c) : KHopInv u edges active k (c + 1) q visited nv := by
  have hlev : ∀ x, reachWithin u edges active c x → visited.getD (x - u) false = true := by
    intro x hx
    rcases h.level x hx with hv | hq
    · exact hv
    · exact absurd rfl (hnone _ hq)
  have hck : c + 1 ≤ k := by
    have h1 := (h.sound_q e0 he0).2
    have h2 := (h.range e0 he0)
    have h3 := hnone e0 he0
    omega
  refine ⟨h.len, h.cnt, h.sound_q, h.sound_v, h.start, h.sorted, ?_, ?_, ?_, h.closed⟩
  · intro e he
    have h2 := h.range e he
    have h3 := hnone e he
    omega
  · intro j x hj hx
    exact hlev x (reachWithin_mono u edges active j c x (by omega) hx)
  · intro x hx
    rcases hx with hx | ⟨y, hy, hxy, ha, hux⟩
    · exact Or.inl (hlev x hx)
    · have hyb := reachWithin_bounds u edges active hb hu c y hy
      rcases h.closed y x hyb.1 (hlev y hy) (by omega)
        (reachWithin_mono u edges active c (k - 1) y (by omega) hy) hxy ha hux with hv | ⟨j, hj⟩
      · exact Or.inl hv
      · right
        have h2 := h.range _ hj
        have h3 := hnone _ hj
        have hj2 : j = c + 1 := by simp only at h2 h3; omega
        rw [← hj2]
        exact hj

theorem KHopInv.normalise {u : Nat} {edges : adjacency_list_t} {active : List Nat} {k c : Nat}
    {rest : List (Nat × Nat)} {visited : List Bool} {nv v c2 : Nat}
    (hb : BoundedAdj edges) (hu : u < edges.length)
    (h : KHopInv u edges active k c ((v, c2) :: rest) visited nv) :
    KHopInv u edges active k c2 ((v, c2) :: rest) visited nv := by
  have h1 := h.range (v, c2) (List.mem_cons_self _ _)
  simp only at h1
  by_cases hc : c2 = c
  · subst hc
    exact h
  · have hc2 : c2 = c + 1 := by omega
    subst hc2
    apply h.advance hb hu (v, c + 1) (List.mem_cons_self _ _)
    intro e he
    rcases List.mem_cons.mp he with e1 | e1
    · rw [e1]
      simp
    · have := (List.pairwise_cons.mp h.sorted).1 e e1
      simp only at this
      omega

theorem KHopInv.pop_visited {u : Nat} {edges : adjacency_list_t} {active : List Nat} {k c : Nat}
    {rest : List (Nat × Nat)} {visited : List Bool} {nv v : Nat}
    (h : KHopInv u edges active k c ((v, c) :: rest) visited nv)
    (hv : visited.getD (v - u) false = true) :
    KHopInv u edges active k c rest visited nv := by
  refine ⟨h.len, h.cnt, fun e he => h.sound_q e (List.mem_cons_of_mem _ he), h.sound_v, ?_,
    (List.pairwise_cons.mp h.sorted).2, fun e he => h.range e (List.mem_cons_of_mem _ he),
    h.below, ?_, ?_⟩
  · rcases h.start with hs | ⟨j, hj⟩
    · exact Or.inl hs
    · rcases List.mem_cons.mp hj with e1 | e1
      · left
        have : u = v := (Prod.mk.inj e1).1
        rw [← this] at hv
        simpa using hv
      · exact Or.inr ⟨j, e1⟩
  · intro x hx
    rcases h.level x hx with hs | hq
    · exact Or.inl hs
    · rcases List.mem_cons.mp hq with e1 | e1
      · left
        have : x = v := (Prod.mk.inj e1).1
        rw [this]
        exact hv
      · exact Or.inr e1
  · intro x y hux hx hk hr hy ha huy
    rcases h.closed x y hux hx hk hr hy ha huy with hs | ⟨j, hj⟩
    · exact Or.inl hs
    · rcases List.mem_cons.mp hj with e1 | e1
      · left
        have : y = v := (Prod.mk.inj e1).1
        rw [this]
        exact hv
      · exact Or.inr ⟨j, e1⟩

theorem KHopInv.visit {u : Nat} {edges : adjacency_list_t} {active : List Nat} {k c : Nat}
    {rest : List (Nat × Nat)} {visited : List Bool} {nv v : Nat}
    (hb : BoundedAdj edges) (hu : u < edges.length)
    (h : KHopInv u edges active k c ((v, c) :: rest) visited nv)
    (hv : visited.getD (v - u) false = false) (P : List (Nat × Nat))
    (hP1 : ∀ e ∈ P, e.2 = c + 1 ∧ c < k ∧ e.1 ∈ adj edges v ∧ active.getD e.1 0 ≠ 0 ∧ u < e.1)
    (hP2 : c < k → ∀ y ∈ adj edges v, active.getD y 0 ≠ 0 → u < y →
      (visited.set (v - u) true).getD (y - u) false = true ∨ (y, c + 1) ∈ P) :
    KHopInv u edges active k c (rest ++ P) (visited.set (v - u) true) (nv + 1) := by
  obtain ⟨hrv, hck⟩ := h.sound_q (v, c) (List.mem_cons_self _ _)
  simp only at hrv hck
  obtain ⟨huv, hvn⟩ := reachWithin_bounds u edges active hb hu c v hrv
  have hi : v - u < visited.length := by rw [h.len]; omega
  have hself : (visited.set (v - u) true).getD (v - u) false = true := by
    rw [getD_set_bool _ _ _ hi, if_pos rfl]
  have hmono : ∀ i, visited.getD i false = true →
      (visited.set (v - u) true).getD i false = true := by
    intro i hvi
    rw [getD_set_bool _ _ _ hi]
    split
    · rfl
    · exact hvi
  have hset : ∀ x, u ≤ x → (visited.set (v - u) true).getD (x - u) false = true →
      visited.getD (x - u) false = true ∨ x = v := by
    intro x hux hx
    rw [getD_set_bool _ _ _ hi] at hx
    by_cases e : x - u = v - u
    · exact Or.inr (by omega)
    · rw [if_neg e] at hx
      exact Or.inl hx
  refine ⟨by rw [List.length_set]; exact h.len, ?_, ?_, ?_, ?_, ?_, ?_, ?_, ?_, ?_⟩
  · rw [count_set_true visited _ hi hv, h.cnt]
  · intro e he
    rcases List.mem_append.mp he with he | he
    · exact h.sound_q e (List.mem_cons_of_mem _ he)
    · obtain ⟨p1, p2, p3, p4, p5⟩ := hP1 e he
      rw [p1]
      exact ⟨reachWithin_step u edges active c v e.1 hrv p3 p4 p5, by omega⟩
  · intro x hux hx
    rcases hset x hux hx with hx | hx
    · exact h.sound_v x hux hx
    · rw [hx]
      exact reachWithin_mono u edges active c k v hck hrv
  · rcases h.start with hs | ⟨j, hj⟩
    · exact Or.inl (hmono 0 hs)
    · rcases List.mem_cons.mp hj with e1 | e1
      · left
        have e2 : u = v := (Prod.mk.inj e1).1
        have e0 : v - u = 0 := by omega
        have hs2 := hself
        rw [e0] at hs2 ⊢
        exact hs2
      · exact Or.inr ⟨j, List.mem_append_left _ e1⟩
  · rw [List.pairwise_append]
    refine ⟨(List.pairwise_cons.mp h.sorted).2, ?_, ?_⟩
    · rw [List.pairwise_iff_forall_sublist]
      intro a b hab
      have ha := (hP1 a (hab.subset (List.mem_cons_self _ _))).1
      have hb2 := (hP1 b (hab.subset (List.mem_cons_of_mem _ (List.mem_cons_self _ _)))).1
      omega
    · intro a ha b hb2
      have h1 := (h.range a (List.mem_cons_of_mem _ ha)).2
      have h2 := (hP1 b hb2).1
      omega
  · intro e he
    rcases List.mem_append.mp he with he | he
    · exact h.range e (List.mem_cons_of_mem _ he)
    · have := (hP1 e he).1
      omega
  · intro j x hj hx
    exact hmono _ (h.below j x hj hx)
  · intro x hx
    rcases h.level x hx with hs | hq
    · exact Or.inl (hmono _ hs)
    · rcases List.mem_cons.mp hq with e1 | e1
      · left
        have : x = v := (Prod.mk.inj e1).1
        rw [this]
        exact hself
      · exact Or.inr (List.mem_append_left _ e1)
  · intro x y hux hx hk hr hy ha huy
    rcases hset x hux hx with hx | hx
    · rcases h.closed x y hux hx hk hr hy ha huy with hs | ⟨j, hj⟩
      · exact Or.inl (hmono _ hs)
      · rcases List.mem_cons.mp hj with e1 | e1
        · left
          have : y = v := (Prod.mk.inj e1).1
          rw [this]
          exact hself
        · exact Or.inr ⟨j, List.mem_append_left _ e1⟩
    · subst hx
      by_cases hc : c < k
      · rcases hP2 hc y hy ha huy with hs | hq
        · exact Or.inl hs
        · exact Or.inr ⟨c + 1, List.mem_append_right _ hq⟩
      · exfalso
        have := h.below (k - 1) x (by omega) hr
        rw [hv] at this
        exact Bool.false_ne_true this

theorem KHopInv.init (u : Nat) (edges : adjacency_list_t) (active : List Nat) (k : Nat) :
    KHopInv u edges active k 0 [(u, 0)] (List.replicate (edges.length - u) false) 0 := by
  have hfalse : ∀ i, (List.replicate (edges.length - u) false).getD i false = false := by
    intro i
    by_cases hi : i < edges.length - u
    · simp [List.getD_eq_getElem?_getD, List.getElem?_replicate, hi]
    · rw [List.getD_eq_default _ _ (by simp; omega)]
  refine ⟨by simp, ?_, ?_, ?_, Or.inr ⟨0, List.mem_singleton.mpr rfl⟩, List.pairwise_singleton _ _,
    ?_, ?_, ?_, ?_⟩
  · rw [List.count_replicate]
    simp
  · intro e he
    rw [List.mem_singleton] at he
    subst he
    exact ⟨rfl, Nat.zero_le _⟩
  · intro x _ hx
    rw [hfalse] at hx
    exact absurd hx Bool.false_ne_true
  · intro e he
    rw [List.mem_singleton] at he
    subst he
    exact ⟨le_refl _, by omega⟩
  · intro j x hj
    omega
  · intro x hx
    have e : x = u := hx
    subst e
    exact Or.inr (List.mem_singleton.mpr rfl)
  · intro x y _ hx
    rw [hfalse] at hx
    exact absurd hx Bool.false_ne_true

theorem KHopInv.done {u : Nat} {edges : adjacency_list_t} {active : List Nat} {k c : Nat}
    {visited : List Bool} {nv : Nat} (hb : BoundedAdj edges) (hu : u < edges.length)
    (h : KHopInv u edges active k c [] visited nv) (x : Nat) (hux : u ≤ x) :
    visited.getD (x - u) false = true ↔ reachWithin u edges active k x := by
  refine ⟨h.sound_v x hux, ?_⟩
  have hstart : visited.getD 0 false = true := by
    rcases h.start with hs | ⟨j, hj⟩
    · exact hs
    · simp at hj
  have key : ∀ m, m ≤ k → ∀ y, reachWithin u edges active m y →
      visited.getD (y - u) false = true := by
    intro m
    induction m with
    | zero =>
      intro _ y hy
      have e : y = u := hy
      subst e
      simpa using hstart
    | succ j ih =>
      intro hj y hy
      rcases hy with hy | ⟨z, hz, hyz, ha, huy⟩
      · exact ih (by omega) y hy
      · have hzb := reachWithin_bounds u edges active hb hu j z hz
        rcases h.closed z y hzb.1 (ih (by omega) z hz) (by omega)
          (reachWithin_mono u edges active j (k - 1) z (by omega) hz) hyz ha huy with hs | ⟨i, hi⟩
        · exact hs
        · simp at hi
  exact key k (le_refl _) x

theorem KHopInv.full {u : Nat} {edges : adjacency_list_t} {active : List Nat} {k c : Nat}
    {q : List (Nat × Nat)} {visited : List Bool} {nv : Nat}
    (hb : BoundedAdj edges) (hu : u < edges.length)
    (h : KHopInv u edges active k c q visited nv) (hnv : ¬ nv < edges.length - u)
    (x : Nat) (hux : u ≤ x) :
    visited.getD (x - u) false = true ↔ reachWithin u edges active k x := by
  refine ⟨h.sound_v x hux, fun hx => ?_⟩
  have hxb := reachWithin_bounds u edges active hb hu k x hx
  apply getD_of_count_true visited
  · rw [← h.cnt, h.len]; omega
  · rw [h.len]; omega


/-- The traversal of `GetKHopNeighbourhood` marks exactly the vertices that a
valid path of at most `k` edges reaches. -/
theorem KHopLoop_spec (u : Nat) (edges : adjacency_list_t) (active : List Nat) (k : Nat)
    (hb : BoundedAdj edges) (hu : u < edges.length) :
    ∀ (fuel : Nat) (q : List (Nat × Nat)) (visited : List Bool) (nv c : Nat),
      KHopInv u edges active k c q visited nv →
      q.length + unvisitedDegree edges u visited ≤ fuel →
      ∀ x, u ≤ x →
        ((KHopLoop u edges active k (edges.length - u) fuel q visited nv).getD (x - u) false = true
          ↔ reachWithin u edges active k x) := by
  intro fuel
  induction fuel with
  | zero =>
    intro q visited nv c h hf x hux
    have hq : q = [] := List.length_eq_zero.mp (by omega)
    subst hq
    simp only [KHopLoop]
    exact h.done hb hu x hux
  | succ n ih =>
    intro q visited nv c h hf x hux
    cases q with
    | nil =>
      simp only [KHopLoop]
      exact h.done hb hu x hux
    | cons e rest =>
      obtain ⟨v, c2⟩ := e
      have h2 := h.normalise hb hu
      obtain ⟨hrv, hck⟩ := h2.sound_q (v, c2) (List.mem_cons_self _ _)
      simp only at hrv hck
      obtain ⟨huv, hvn⟩ := reachWithin_bounds u edges active hb hu c2 v hrv
      simp only [List.length_cons] at hf
      simp only [KHopLoop]
      split
      · split
        · next hvis =>
          have hvis2 : visited.getD (v - u) false = false := by simpa using hvis
          have hin : v - u < visited.length := by rw [h.len]; omega
          have hd := unvisitedDegree_set edges u visited (v - u) hin hvis2
          have huv2 : u + (v - u) = v := by omega
          rw [huv2] at hd
          by_cases hc : c2 < k
          · rw [if_pos hc, khop_push_eq]
            apply ih _ _ _ c2 _ _ x hux
            · apply h2.visit hb hu hvis2
              · intro e he
                simp only [List.mem_map, List.mem_filter, Bool.and_eq_true,
                  decide_eq_true_eq] at he
                obtain ⟨y, ⟨hy, ⟨ha, huy⟩, _⟩, rfl⟩ := he
                exact ⟨rfl, hc, hy, ha, huy⟩
              · intro _ y hy ha huy
                by_cases hvy : (visited.set (v - u) true).getD (y - u) false = true
                · exact Or.inl hvy
                · right
                  simp only [List.mem_map, List.mem_filter, Bool.and_eq_true,
                    decide_eq_true_eq]
                  refine ⟨y, ⟨hy, ⟨ha, huy⟩, ?_⟩, rfl⟩
                  simpa using hvy
            · have hl := List.length_filter_le (fun y => decide (active.getD y 0 ≠ 0) &&
                decide (u < y) && !(visited.set (v - u) true).getD (y - u) false) (adj edges v)
              simp only [List.length_append, List.length_map]
              omega
          · rw [if_neg hc]
            apply ih _ _ _ c2 _ _ x hux
            · have := h2.visit hb hu hvis2 [] (fun e he => by simp at he)
                (fun hh => absurd hh hc)
              rwa [List.append_nil] at this
            · omega
        · next hvis =>
          have hvis2 : visited.getD (v - u) false = true := by simpa using hvis
          exact ih _ _ _ c2 (h2.pop_visited hvis2) (by omega) x hux
      · next hnv =>
        exact h2.full hb hu hnv x hux

theorem GetKHopNeighbourhood_mem_iff (u : Nat) (edges : adjacency_list_t) (active : List Nat)
    (h : Nat) (hb : BoundedAdj edges) (hu : u < edges.length) (v : Nat) :
    v ∈ GetKHopNeighbourhood u edges active (some h) ↔ reachWithin u edges active h v := by
  have hspec := KHopLoop_spec u edges active h hb hu (totalDegree edges + 1) [(u, 0)]
    (List.replicate (edges.length - u) false) 0 0 (KHopInv.init u edges active h)
    (by
      have := unvisitedDegree_le_total edges u (List.replicate (edges.length - u) false)
      simp only [List.length_singleton]
      omega)
  unfold GetKHopNeighbourhood
  simp only [Option.getD_some, List.mem_filter, List.mem_map, List.mem_range]
  constructor
  · rintro ⟨⟨i, hi, rfl⟩, hv⟩
    exact (hspec (u + i) (by omega)).mp hv
  · intro hv
    obtain ⟨h1, h2⟩ := reachWithin_bounds u edges active hb hu h v hv
    exact ⟨⟨v - u, by omega, by omega⟩, (hspec v h1).mpr hv⟩

/-- C30: for a vertex `u` of a symmetric adjacency, any active flags and any
hop cap `h`, `GetKHopNeighbourhood` returns a strictly ascending list that
contains `u`, whose elements are all at least `u`, and that contains a vertex
`v` other than `u` exactly when there is a path `u = x0, ..., xm = v` with
`m ≤ h` in which every vertex after `u` is active and has an id above `u`. -/
theorem C30_GetKHopNeighbourhood_spec (u : Nat) (edges : adjacency_list_t) (active : List Nat)
    (h : Nat) (hu : u < edges.length) (hs : SymmetricAdj edges) :
    (GetKHopNeighbourhood u edges active (some h)).Pairwise (· < ·) ∧
    u ∈ GetKHopNeighbourhood u edges active (some h) ∧
    (∀ x ∈ GetKHopNeighbourhood u edges active (some h), u ≤ x) ∧
    ∀ v, v ≠ u → (v ∈ GetKHopNeighbourhood u edges active (some h) ↔
      ∃ p, KHopPath u edges active p ∧ p.getLast? = some v ∧ p.length ≤ h + 1) := by
  refine ⟨GetKHopNeighbourhood_sorted u edges active (some h), ?_,
    fun x hx => (GetKHopNeighbourhood_ge u edges active (some h) x hx).1, ?_⟩
  · rw [GetKHopNeighbourhood_mem_iff u edges active h hs.boundedAdj hu]
    exact reachWithin_mono u edges active 0 h u (Nat.zero_le _) rfl
  · intro v _
    rw [GetKHopNeighbourhood_mem_iff u edges active h hs.boundedAdj hu,
      reachWithin_iff_path]

/-- C30 (witness): on the path `1 - 0 - 2 - 3` one hop from vertex 0 reaches
the vertices 1 and 2, and vertex 3 is reached by no path of one edge. -/
theorem C30_witness :
    0 < examplePath.length ∧ SymmetricAdj examplePath ∧
    GetKHopNeighbourhood 0 examplePath [1, 1, 1, 1] (some 1) = [0, 1, 2] ∧
    GetKHopNeighbourhood 0 examplePath [1, 1, 1, 1] (some 2) = [0, 1, 2, 3] ∧
    (3 ∈ GetKHopNeighbourhood 0 examplePath [1, 1, 1, 1] (some 1) ↔
      ∃ p, KHopPath 0 examplePath [1, 1, 1, 1] p ∧ p.getLast? = some 3 ∧ p.length ≤ 1 + 1) :=
  ⟨by decide, by decide, by decide, by decide,
    (C30_GetKHopNeighbourhood_spec 0 examplePath [1, 1, 1, 1] 1 (by decide) (by decide)).2.2.2 3
      (by decide)⟩


/-- C36: for a point `p` and a pivot of equal dimension `D ≤ 32`, bit `d` of
`DeterminePartition(p, pivot)` is set iff `p[d] > pivot[d]` (for `d < D`), and
all bits at positions `≥ D` are zero. -/
theorem C36_DeterminePartition_bits (point pivot : List Int)
    (_hlen : point.length = pivot.length) (hdim : point.length ≤ 32) :
    (∀ d, d < point.length →
      ((DeterminePartition point pivot).testBit d = true ↔ pivot.getD d 0 < point.getD d 0)) ∧
    ∀ d, point.length ≤ d → (DeterminePartition point pivot).testBit d = false := by
  constructor
  · intro d hd
    rw [DeterminePartition_testBit, decide_eq_true_eq]
    exact ⟨fun h => h.2.2, fun h => ⟨hd, by omega, h⟩⟩
  · intro d hd
    rw [DeterminePartition_testBit, decide_eq_false_iff_not]
    intro h
    omega

/-- C36 (witness): the point (3, 1, 2) against the pivot (2, 1, 0) has the mask 0b101. -/
theorem C36_witness :
    ([3, 1, 2] : List Int).length = ([2, 1, 0] : List Int).length ∧
    ([3, 1, 2] : List Int).length ≤ 32 ∧
    DeterminePartition [3, 1, 2] [2, 1, 0] = 5 ∧
    (DeterminePartition [3, 1, 2] [2, 1, 0]).testBit 3 = false :=
  ⟨by decide, by decide, by decide,
    (C36_DeterminePartition_bits [3, 1, 2] [2, 1, 0] (by decide) (by decide)).2 3 (by decide)⟩

theorem IsDominatedByCandidates_iff (index : Nat) (candidates : group_list_t)
    (bIsSkyline : List Bool) (coordinates : label_list_t) :
    IsDominatedByCandidates index candidates bIsSkyline coordinates = true ↔
      ∃ j, j < index ∧ bIsSkyline.getD j false = true ∧
        GroupDominanceTest (candidates.getD j []) (candidates.getD index []) coordinates = true := by
  unfold IsDominatedByCandidates
  simp only [List.any_eq_true, List.mem_range, Bool.and_eq_true]

/-- C37: `IsDominatedByCandidates(i, candidates, flags, labels)` is true iff
there is `j < i` with `flags[j]` true and `GroupDominanceTest(candidates[j],
candidates[i])` true; the result does not depend on the candidates and flags at
indices above `i`. -/
theorem C37_IsDominatedByCandidates_spec (index : Nat) (candidates : group_list_t)
    (bIsSkyline : List Bool) (coordinates : label_list_t) :
    (IsDominatedByCandidates index candidates bIsSkyline coordinates = true ↔
      ∃ j, j < index ∧ bIsSkyline.getD j false = true ∧
        GroupDominanceTest (candidates.getD j []) (candidates.getD index []) coordinates = true) ∧
    ∀ (candidates2 : group_list_t) (bIsSkyline2 : List Bool),
      (∀ j, j ≤ index → candidates2.getD j [] = candidates.getD j []) →
      (∀ j, j ≤ index → bIsSkyline2.getD j false = bIsSkyline.getD j false) →
      IsDominatedByCandidates index candidates2 bIsSkyline2 coordinates
        = IsDominatedByCandidates index candidates bIsSkyline coordinates := by
  refine ⟨IsDominatedByCandidates_iff index candidates bIsSkyline coordinates, ?_⟩
  intro c2 f2 hc hf
  rw [Bool.eq_iff_iff, IsDominatedByCandidates_iff, IsDominatedByCandidates_iff]
  constructor
  · rintro ⟨j, hj, h1, h2⟩
    rw [hc j (by omega), hc index (le_refl _)] at h2
    rw [hf j (by omega)] at h1
    exact ⟨j, hj, h1, h2⟩
  · rintro ⟨j, hj, h1, h2⟩
    rw [← hc j (by omega), ← hc index (le_refl _)] at h2
    rw [← hf j (by omega)] at h1
    exact ⟨j, hj, h1, h2⟩

/-- What `IsKCore` computes on a strictly ascending subset of a strictly
descending adjacency. -/
theorem IsKCore_iff (edges : adjacency_list_t) (hd : DescendingAdj edges) (S : List Nat)
    (hS : S.Pairwise (· < ·)) (k : Nat) :
    IsKCore S edges k = true ↔
      ∀ v ∈ S, k ≤ (S.filter fun w => decide (w ∈ adj edges v)).length := by
  unfold IsKCore
  simp only [List.all_eq_true, Bool.not_eq_true', decide_eq_false_iff_not, not_lt]
  constructor
  · intro h v hv
    have := h v hv
    rwa [GetIntersection_adj edges hd v S hS] at this
  · intro h v hv
    rw [GetIntersection_adj edges hd v S hS]
    exact h v hv

/-- C31: for a strictly ascending vertex list `S` and a strictly descending
adjacency, `IsKCore(S, edges, k)` returns true iff every vertex of `S` has at
least `k` neighbours that are members of `S`. -/
theorem C31_IsKCore_spec (edges : adjacency_list_t) (S : List Nat) (k : Nat)
    (hS : S.Pairwise (· < ·)) (hd : DescendingAdj edges) :
    IsKCore S edges k = true ↔
      ∀ v ∈ S, k ≤ (S.filter fun w => decide (w ∈ adj edges v)).length :=
  IsKCore_iff edges hd S hS k

/-- C31 (witness): in the complete graph on four vertices the set {0, 1, 2} is
a 2-core and not a 3-core. -/
theorem C31_witness :
    ([0, 1, 2] : List Nat).Pairwise (· < ·) ∧ DescendingAdj exampleK4desc ∧
    IsKCore [0, 1, 2] exampleK4desc 2 = true ∧ IsKCore [0, 1, 2] exampleK4desc 3 = false ∧
    ∀ v ∈ ([0, 1, 2] : List Nat),
      2 ≤ (([0, 1, 2] : List Nat).filter fun w => decide (w ∈ adj exampleK4desc v)).length :=
  ⟨by decide, by decide, by decide, by decide,
    (C31_IsKCore_spec exampleK4desc [0, 1, 2] 2 (by decide) (by decide)).mp (by decide)⟩


/-- C35 (failing input): on the path `1 - 0 - 2 - 3` with pairwise incomparable
labels, `k = 1`, `g = 2`, the iteration of the sequential driver for the active
vertex 0 does not stop the loop and leaves vertex 0 flagged active and
`num_remaining_vertices` at 4, while three active vertices have an id above 0. -/
theorem C35_vertex_not_peeled :
    (InitialiseToMaxKCore (UpdateGraph exampleAntichainLabels examplePath) 1).st.active_vertices
      = [1, 1, 1, 1] ∧
    (sequential.loopBody (UpdateGraph exampleAntichainLabels examplePath) 1 2
      (InitialiseToMaxKCore (UpdateGraph exampleAntichainLabels examplePath) 1) 0).1 = false ∧
    (sequential.loopBody (UpdateGraph exampleAntichainLabels examplePath) 1 2
      (InitialiseToMaxKCore (UpdateGraph exampleAntichainLabels examplePath) 1)
        0).2.st.active_vertices = [1, 1, 1, 1] ∧
    (sequential.loopBody (UpdateGraph exampleAntichainLabels examplePath) 1 2
      (InitialiseToMaxKCore (UpdateGraph exampleAntichainLabels examplePath) 1)
        0).2.num_remaining_vertices = 4 ∧
    ((activeList (sequential.loopBody (UpdateGraph exampleAntichainLabels examplePath) 1 2
      (InitialiseToMaxKCore (UpdateGraph exampleAntichainLabels examplePath) 1)
        0).2.st.active_vertices).filter fun w => decide (0 < w)).length = 3 := by
  decide

/-- C32 (failing inputs): `IsConnected` reads the neighbours of position `node`
from `edges[node]` instead of `edges[vertex_subset[node]]`. For the subset
{2, 3} it returns false when 2 and 3 are joined by an edge and the vertices 0
and 1 are isolated, and true when 2 has no neighbour at all and 0 is joined
to 3. -/
theorem C32_IsConnected_reads_positions :
    SymmetricAdj exampleLateEdge ∧ 3 ∈ adj exampleLateEdge 2 ∧ 2 ∈ adj exampleLateEdge 3 ∧
    structural.IsConnected [2, 3] exampleLateEdge = some false ∧
    SymmetricAdj exampleOuterEdge ∧ adj exampleOuterEdge 2 = [] ∧
    structural.IsConnected [2, 3] exampleOuterEdge = some true := by
  decide

/-- Strict dominance lowers the coordinate sum. -/
theorem sum_lt_of_dominates (p q : List Int) (hlen : p.length = q.length)
    (h : PointDominanceTest p q = DominanceTestResult.dominates) : p.sum < q.sum := by
  obtain ⟨h1, h2⟩ := (PointDominanceTest_dominates_iff p q hlen).mp h
  exact sum_lt_of_forall₂_le p q h1 h2

/-- Group dominance in the words of the specification is asymmetric. -/
theorem GroupDominatesSpec_asymm (labels : label_list_t) (A B : List Nat) (dim : Nat)
    (hA : ∀ v ∈ A, (labelOf labels v).length = dim)
    (hB : ∀ v ∈ B, (labelOf labels v).length = dim)
    (h1 : GroupDominatesSpec A B labels) (h2 : GroupDominatesSpec B A labels) : False := by
  rw [GroupDominatesSpec_iff_count] at h1 h2
  obtain ⟨⟨L0, hL0⟩, hAB⟩ := h1
  obtain ⟨_, hBA⟩ := h2
  have hdimA : ∀ L, 0 < List.count L (A.map (labelOf labels)) → L.length = dim := by
    intro L hL
    obtain ⟨v, hv, rfl⟩ := List.mem_map.mp (List.count_pos_iff.mp hL)
    exact hA v hv
  have hdimB : ∀ L, 0 < List.count L (B.map (labelOf labels)) → L.length = dim := by
    intro L hL
    obtain ⟨v, hv, rfl⟩ := List.mem_map.mp (List.count_pos_iff.mp hL)
    exact hB v hv
  have hne : ((B.map (labelOf labels)).toFinset.filter fun L =>
      List.count L (A.map (labelOf labels)) < List.count L (B.map (labelOf labels))).Nonempty :=
    ⟨L0, by
      rw [Finset.mem_filter, List.mem_toFinset]
      exact ⟨List.count_pos_iff.mp (by omega), hL0⟩⟩
  obtain ⟨L, hL, hmin⟩ := Finset.exists_min_image _ (fun L : List Int => L.sum) hne
  rw [Finset.mem_filter, List.mem_toFinset] at hL
  obtain ⟨L2, hL2, hdom2⟩ := hAB L hL.2
  obtain ⟨L3, hL3, hdom3⟩ := hBA L2 hL2
  have e1 := hdimB L (by omega)
  have e2 := hdimA L2 (by omega)
  have e3 := hdimB L3 (by omega)
  have s1 := sum_lt_of_dominates L2 L (by omega) hdom2
  have s2 := sum_lt_of_dominates L3 L2 (by omega) hdom3
  have := hmin L3 (by
    rw [Finset.mem_filter, List.mem_toFinset]
    exact ⟨List.count_pos_iff.mp (by omega), hL3⟩)
  omega

/-- C38 (amended): for equal-size groups `A` and `B` over labels of one
dimension, each ordered so that no member is strictly dominated by a later
member (the documented precondition of `GroupDominanceTest`), the calls
`GroupDominanceTest(A, B, labels)` and `GroupDominanceTest(B, A, labels)` do not
both return true. -/
theorem C38_GroupDominanceTest_asymmetric (labels : label_list_t) (A B : List Nat) (dim : Nat)
    (hA : ∀ v ∈ A, (labelOf labels v).length = dim)
    (hB : ∀ v ∈ B, (labelOf labels v).length = dim)
    (hlen : A.length = B.length) (hsA : SortedForDominance labels A)
    (hsB : SortedForDominance labels B) :
    ¬ (GroupDominanceTest A B labels = true ∧ GroupDominanceTest B A labels = true) := by
  rintro ⟨h1, h2⟩
  rw [GroupDominanceTest_iff_spec labels A B dim hA hB hlen hsB] at h1
  rw [GroupDominanceTest_iff_spec labels B A dim hB hA hlen.symm hsA] at h2
  exact GroupDominatesSpec_asymm labels A B dim hA hB h1 h2

/-- C38 (witness): on three points of a line the group {0, 1} dominates {1, 2}
and not the other way round. -/
theorem C38_witness :
    (∀ v ∈ ([0, 1] : List Nat), (labelOf exampleLineLabels v).length = 1) ∧
    (∀ v ∈ ([1, 2] : List Nat), (labelOf exampleLineLabels v).length = 1) ∧
    SortedForDominance exampleLineLabels [0, 1] ∧ SortedForDominance exampleLineLabels [1, 2] ∧
    GroupDominanceTest [0, 1] [1, 2] exampleLineLabels = true ∧
    ¬ (GroupDominanceTest [0, 1] [1, 2] exampleLineLabels = true ∧
      GroupDominanceTest [1, 2] [0, 1] exampleLineLabels = true) :=
  ⟨by decide, by decide, by decide, by decide, by decide,
    C38_GroupDominanceTest_asymmetric exampleLineLabels [0, 1] [1, 2] 1 (by decide) (by decide)
      (by decide) (by decide) (by decide)⟩

/-- C38 (counterexample): on three points of a line the groups `[0, 2]` and
`[1, 0]` (the second lists the dominated point first) dominate each other
according to `GroupDominanceTest`. -/
theorem C38_counterexample :
    ([0, 2] : List Nat).length = ([1, 0] : List Nat).length ∧
    GroupDominanceTest [0, 2] [1, 0] exampleLineLabels = true ∧
    GroupDominanceTest [1, 0] [0, 2] exampleLineLabels = true ∧
    ¬ SortedForDominance exampleLineLabels [1, 0] := by
  decide


theorem sameLabelRun_cons (labels : label_list_t) (curr next : List Nat) (rest : group_list_t) :
    sameLabelRun labels curr (next :: rest)
      = if labelOf labels (next.getD 0 0) = labelOf labels (curr.getD 0 0) then
          next :: sameLabelRun labels curr rest
        else [] := by
  unfold sameLabelRun
  rw [List.takeWhile_cons]
  by_cases hl : labelOf labels (next.getD 0 0) = labelOf labels (curr.getD 0 0)
  · rw [if_pos hl, decide_eq_true hl]
    rfl
  · rw [if_neg hl, decide_eq_false hl]
    rfl

theorem postprocessIsSkyline_eq_run (labels : label_list_t) (dim : Nat) (curr : List Nat)
    (hc : (labelOf labels (curr.getD 0 0)).length = dim) (rest : group_list_t)
    (hr : ∀ g ∈ rest, (labelOf labels (g.getD 0 0)).length = dim) :
    postprocessIsSkyline labels curr rest
      = !(sameLabelRun labels curr rest).any fun next => GroupDominanceTest next curr labels := by
  induction rest with
  | nil => rfl
  | cons next rest ih =>
    have hn := hr next (List.mem_cons_self _ _)
    have ih2 := ih (fun g hg => hr g (List.mem_cons_of_mem _ hg))
    have heq := PointDominanceTest_equal_iff (labelOf labels (next.getD 0 0))
      (labelOf labels (curr.getD 0 0)) (by omega)
    rw [postprocessIsSkyline, sameLabelRun_cons]
    by_cases hl : labelOf labels (next.getD 0 0) = labelOf labels (curr.getD 0 0)
    · have h1 : ¬ (PointDominanceTest (labelOf labels (next.getD 0 0))
          (labelOf labels (curr.getD 0 0)) ≠ DominanceTestResult.equal) := by
        intro hh
        exact hh (heq.mpr hl)
      rw [if_neg h1, if_pos hl, List.any_cons]
      by_cases hg : GroupDominanceTest next curr labels = true
      · rw [if_pos hg, hg]
        rfl
      · rw [if_neg hg, ih2]
        simp only [Bool.not_eq_true] at hg
        rw [hg, Bool.false_or]
    · have h1 : PointDominanceTest (labelOf labels (next.getD 0 0))
          (labelOf labels (curr.getD 0 0)) ≠ DominanceTestResult.equal := by
        intro hh
        exact hl (heq.mp hh)
      rw [if_pos h1, if_neg hl]
      rfl

/-- The functional form of `postprocess` agrees with the specification. -/
theorem postprocess_eq_spec (labels : label_list_t) (dim : Nat) (groups : group_list_t)
    (hdim : ∀ g ∈ groups, (labelOf labels (g.getD 0 0)).length = dim) :
    postprocess labels groups = postprocessSpec labels groups := by
  induction groups with
  | nil => rfl
  | cons curr rest ih =>
    have ih2 := ih (fun g hg => hdim g (List.mem_cons_of_mem _ hg))
    simp only [postprocess, postprocessSpec]
    rw [postprocessIsSkyline_eq_run labels dim curr (hdim curr (List.mem_cons_self _ _)) rest
      (fun g hg => hdim g (List.mem_cons_of_mem _ hg)), ih2]
    by_cases h : ((sameLabelRun labels curr rest).any fun next =>
        GroupDominanceTest next curr labels) = true
    · rw [if_pos h, h]
      simp
    · rw [if_neg h]
      simp only [Bool.not_eq_true] at h
      rw [h]
      simp

/-- The invariant of the outer loop of `postprocess` before the iteration of
position `c`: the groups from `c` on are the original ones, and the confirmed
prefix followed by what the remaining groups contribute is the result. -/
theorem postprocessInPlace_inv (labels : label_list_t) (groups : group_list_t) (c : Nat)
    (hc : c ≤ groups.length) :
    ((List.range c).foldl (postprocessStep labels) (groups, 0)).1.length = groups.length ∧
    ((List.range c).foldl (postprocessStep labels) (groups, 0)).2 ≤ c ∧
    ((List.range c).foldl (postprocessStep labels) (groups, 0)).1.drop c = groups.drop c ∧
    ((List.range c).foldl (postprocessStep labels) (groups, 0)).1.take
        ((List.range c).foldl (postprocessStep labels) (groups, 0)).2
      ++ postprocess labels (groups.drop c) = postprocess labels groups := by
  induction c with
  | zero => simp
  | succ c ih =>
    obtain ⟨h1, h2, h3, h4⟩ := ih (by omega)
    rw [List.range_succ, List.foldl_append]
    simp only [List.foldl_cons, List.foldl_nil]
    generalize (List.range c).foldl (postprocessStep labels) (groups, 0) = s at h1 h2 h3 h4
    obtain ⟨a, first⟩ := s
    simp only at h1 h2 h3 h4
    have hca : c < a.length := by omega
    have hcg : c < groups.length := by omega
    have hgc : groups.drop c = groups[c] :: groups.drop (c + 1) := List.drop_eq_getElem_cons hcg
    have hac : a.drop c = a[c] :: a.drop (c + 1) := List.drop_eq_getElem_cons hca
    rw [hgc, hac] at h3
    obtain ⟨e1, e2⟩ := List.cons.inj h3
    have hget : a.getD c [] = groups[c] := by rw [getD_of_lt a [] c hca, e1]
    rw [hgc, postprocess] at h4
    unfold postprocessStep
    simp only
    rw [hget, e2]
    by_cases hsky : postprocessIsSkyline labels groups[c] (groups.drop (c + 1)) = true
    · rw [if_pos hsky] at h4 ⊢
      simp only
      by_cases hfc : first = c
      · subst hfc
        rw [if_neg (by simp)]
        refine ⟨h1, le_refl _, e2, ?_⟩
        rw [← h4, List.take_succ, List.getElem?_eq_getElem hca, e1]
        simp
      · rw [if_pos hfc]
        have hfl : first < a.length := by omega
        refine ⟨by rw [List.length_set]; exact h1, by omega, ?_, ?_⟩
        · rw [List.drop_set_of_lt _ _ (by omega), e2]
        · rw [← h4, List.take_succ, List.getElem?_set_self (by exact hfl), List.set_take,
            List.set_eq_of_length_le (by simp)]
          simp
    · rw [if_neg hsky] at h4 ⊢
      exact ⟨h1, by omega, e2, h4⟩

theorem postprocessSpec_sublist (labels : label_list_t) (groups : group_list_t) :
    (postprocessSpec labels groups).Sublist groups := by
  induction groups with
  | nil => exact List.Sublist.slnil
  | cons curr rest ih =>
    simp only [postprocessSpec]
    split
    · exact ih.cons _
    · exact ih.cons₂ _

/-- C34: for a non-empty list of non-empty groups whose first members carry
labels of one dimension, `postprocess` leaves in the prefix before the returned
position, in their original order, exactly the groups that are not
`GroupDominanceTest`-dominated by a group of the maximal run right after them
whose first member carries the same label as theirs; before the iteration of
position `c` the write position is at most `c` and the groups from `c` on are
still the original ones, so no group is overwritten before it was examined or
used as a comparison partner. -/
theorem C34_postprocess_in_place (labels : label_list_t) (dim : Nat) (groups : group_list_t)
    (_hne : groups ≠ []) (_hg : ∀ g ∈ groups, g ≠ [])
    (hdim : ∀ g ∈ groups, (labelOf labels (g.getD 0 0)).length = dim) :
    (postprocessInPlace labels groups).1.take (postprocessInPlace labels groups).2
      = postprocessSpec labels groups ∧
    (postprocessSpec labels groups).Sublist groups ∧
    (postprocessInPlace labels groups).1.length = groups.length ∧
    (∀ c, c ≤ groups.length →
      ((List.range c).foldl (postprocessStep labels) (groups, 0)).2 ≤ c ∧
      ((List.range c).foldl (postprocessStep labels) (groups, 0)).1.drop c = groups.drop c) ∧
    postprocess labels groups = postprocessSpec labels groups := by
  obtain ⟨h1, _, _, h4⟩ := postprocessInPlace_inv labels groups groups.length (le_refl _)
  refine ⟨?_, postprocessSpec_sublist labels groups, h1, ?_,
    postprocess_eq_spec labels dim groups hdim⟩
  · rw [List.drop_length, postprocess, List.append_nil] at h4
    rw [← postprocess_eq_spec labels dim groups hdim]
    exact h4
  · intro c hc
    obtain ⟨_, a2, a3, _⟩ := postprocessInPlace_inv labels groups c hc
    exact ⟨a2, a3⟩

/-- C34 (witness): the groups `[0, 3]` and `[1, 2]` start with coincident
points and the second dominates the first, which is overwritten. -/
theorem C34_witness :
    ([[0, 3], [1, 2]] : group_list_t) ≠ [] ∧
    (∀ g ∈ ([[0, 3], [1, 2]] : group_list_t), g ≠ []) ∧
    (∀ g ∈ ([[0, 3], [1, 2]] : group_list_t),
      (labelOf exampleCoincidentLabels (g.getD 0 0)).length = 2) ∧
    postprocessInPlace exampleCoincidentLabels [[0, 3], [1, 2]] = ([[1, 2], [1, 2]], 1) ∧
    postprocessSpec exampleCoincidentLabels [[0, 3], [1, 2]] = [[1, 2]] ∧
    (postprocessInPlace exampleCoincidentLabels [[0, 3], [1, 2]]).1.take
        (postprocessInPlace exampleCoincidentLabels [[0, 3], [1, 2]]).2
      = postprocessSpec exampleCoincidentLabels [[0, 3], [1, 2]] :=
  ⟨by decide, by decide, by decide, by decide, by decide,
    (C34_postprocess_in_place exampleCoincidentLabels 2 [[0, 3], [1, 2]] (by decide) (by decide)
      (by decide)).1⟩


theorem GetNewGroupInfoLoop_tail_sorted (edges : adjacency_list_t) (hd : DescendingAdj edges)
    (M : Int) (g n : Nat) (gs : List Nat) :
    ∀ (ms : List Int) (nb tail : List Nat), tail.Pairwise (· < ·) →
      (GetNewGroupInfoLoop edges M g n gs ms nb tail).2.1.Pairwise (· < ·) := by
  induction gs with
  | nil => intro ms nb tail ht; simpa [GetNewGroupInfoLoop] using ht
  | cons member gs ih =>
    intro ms nb tail ht
    simp only [GetNewGroupInfoLoop]
    split
    · exact ih _ _ _ ht
    · split
      · split
        · exact List.Pairwise.nil
        · exact ih _ _ _ ((hd.reverse_sorted member).sublist (GetIntersection_sublist_left _ _))
      · exact ih _ _ _ ht

theorem GetNewGroupInfo_shape (group : List Nat) (missed : List Int) (rest nb : List Nat)
    (edges : adjacency_list_t) (hd : DescendingAdj edges) (t : Nat) (M : Int) (g : Nat)
    (hrest : rest.Pairwise (· < ·)) :
    (GetNewGroupInfo group missed rest nb edges t M g).tailset.Pairwise (· < ·) ∧
    ((GetNewGroupInfo group missed rest nb edges t M g).tailset = [] ∨
      (GetNewGroupInfo group missed rest nb edges t M g).group = group ++ [t]) := by
  unfold GetNewGroupInfo
  simp only
  split
  · exact ⟨List.Pairwise.nil, Or.inl rfl⟩
  · refine ⟨?_, Or.inr rfl⟩
    simp only
    split
    · exact (hd.reverse_sorted t).sublist (GetIntersection_sublist_left _ _)
    · exact GetNewGroupInfoLoop_tail_sorted edges hd M g _ group missed nb rest hrest

/-- Every group that `ListKCoresRecursive` emits extends the group of the call
by a vertex of its tailset and possibly further vertices. -/
theorem ListKCoresRecursive_shape (edges : adjacency_list_t) (hd : DescendingAdj edges)
    (g k : Nat) (fuel : Nat) :
    ∀ (gi : GroupInfo), gi.tailset.Pairwise (· < ·) →
      ∀ G ∈ ListKCoresRecursive edges g k fuel gi,
        ∃ x ext, x ∈ gi.tailset ∧ G = gi.group ++ x :: ext := by
  induction fuel with
  | zero => intro gi _ G hG; simp [ListKCoresRecursive] at hG
  | succ n ih =>
    intro gi ht G hG
    simp only [ListKCoresRecursive] at hG
    rw [forEachWithRest_mem] at hG
    obtain ⟨pre, x, rest, htail, hG⟩ := hG
    have hx : x ∈ gi.tailset := by rw [htail]; simp
    have hrest : rest.Pairwise (· < ·) := by
      rw [htail] at ht
      exact (List.pairwise_cons.mp (List.pairwise_append.mp ht).2.1).2
    split at hG
    · split at hG
      · rw [List.mem_singleton] at hG
        exact ⟨x, [], hx, hG⟩
      · obtain ⟨hs, hshape⟩ := GetNewGroupInfo_shape gi.group gi.missedConnectionsCount rest
          (GetIntersection (adj edges x).reverse gi.group) edges hd x
          ((g : Int) - (k : Int) - 1) g hrest
        rcases hshape with hnil | hgrp
        · rw [ListKCoresRecursive_nil_tail edges g k n _ hnil] at hG
          simp at hG
        · obtain ⟨y, ext, _, hGe⟩ := ih _ hs G hG
          rw [hgrp] at hGe
          exact ⟨x, y :: ext, hx, by rw [hGe]; simp⟩
    · simp at hG

theorem forEachWithRest_pairwise {β : Type} (R : β → β → Prop) (P : Nat → β → Prop)
    (body : Nat → List Nat → List β) (l : List Nat) (hl : l.Pairwise (· < ·))
    (h1 : ∀ pre x rest, l = pre ++ x :: rest → (body x rest).Pairwise R)
    (h2 : ∀ pre x rest, l = pre ++ x :: rest → ∀ G ∈ body x rest, P x G)
    (h3 : ∀ x y G H, x < y → P x G → P y H → R G H) :
    (forEachWithRest body l).Pairwise R := by
  induction l with
  | nil => simp [forEachWithRest]
  | cons y ys ih =>
    simp only [forEachWithRest]
    rw [List.pairwise_append]
    obtain ⟨hy, hys⟩ := List.pairwise_cons.mp hl
    refine ⟨h1 [] y ys rfl, ?_, ?_⟩
    · apply ih hys
      · intro pre x rest e
        exact h1 (y :: pre) x rest (by rw [e]; rfl)
      · intro pre x rest e
        exact h2 (y :: pre) x rest (by rw [e]; rfl)
    · intro G hG H hH
      rw [forEachWithRest_mem] at hH
      obtain ⟨pre, x, rest, e, hH⟩ := hH
      apply h3 y x G H (hy x (by rw [e]; simp)) (h2 [] y ys rfl G hG)
      exact h2 (y :: pre) x rest (by rw [e]; rfl) H hH

theorem lex_append_of_lt (p : List Nat) (x y : Nat) (e1 e2 : List Nat) (h : x < y) :
    List.Lex (· < ·) (p ++ x :: e1) (p ++ y :: e2) := by
  induction p with
  | nil => exact List.Lex.rel h
  | cons a p ih => exact List.Lex.cons ih

theorem lex_irrefl (l : List Nat) : ¬ List.Lex (· < ·) l l := by
  induction l with
  | nil => intro h; cases h
  | cons a l ih =>
    intro h
    cases h with
    | cons h2 => exact ih h2
    | rel h2 => exact lt_irrefl _ h2

/-- The groups that `ListKCoresRecursive` emits come in strictly increasing
lexicographic order. -/
theorem ListKCoresRecursive_lex (edges : adjacency_list_t) (hd : DescendingAdj edges)
    (g k : Nat) (fuel : Nat) :
    ∀ (gi : GroupInfo), gi.tailset.Pairwise (· < ·) →
      (ListKCoresRecursive edges g k fuel gi).Pairwise (List.Lex (· < ·)) := by
  induction fuel with
  | zero => intro gi _; simp [ListKCoresRecursive]
  | succ n ih =>
    intro gi ht
    simp only [ListKCoresRecursive]
    have hrest : ∀ pre x rest, gi.tailset = pre ++ x :: rest → rest.Pairwise (· < ·) := by
      intro pre x rest htail
      rw [htail] at ht
      exact (List.pairwise_cons.mp (List.pairwise_append.mp ht).2.1).2
    apply forEachWithRest_pairwise _ (fun x G => ∃ ext, G = gi.group ++ x :: ext) _ _ ht
    · intro pre x rest htail
      split
      · split
        · exact List.pairwise_singleton _ _
        · exact ih _ (GetNewGroupInfo_shape gi.group gi.missedConnectionsCount rest
            (GetIntersection (adj edges x).reverse gi.group) edges hd x
            ((g : Int) - (k : Int) - 1) g (hrest pre x rest htail)).1
      · exact List.Pairwise.nil
    · intro pre x rest htail G hG
      split at hG
      · split at hG
        · rw [List.mem_singleton] at hG
          exact ⟨[], hG⟩
        · obtain ⟨hs, hshape⟩ := GetNewGroupInfo_shape gi.group gi.missedConnectionsCount rest
            (GetIntersection (adj edges x).reverse gi.group) edges hd x
            ((g : Int) - (k : Int) - 1) g (hrest pre x rest htail)
          rcases hshape with hnil | hgrp
          · rw [ListKCoresRecursive_nil_tail edges g k n _ hnil] at hG
            simp at hG
          · obtain ⟨y, ext, _, hGe⟩ := ListKCoresRecursive_shape edges hd g k n _ hs G hG
            rw [hgrp] at hGe
            exact ⟨y :: ext, by rw [hGe]; simp⟩
      · simp at hG
    · rintro x y G H hxy ⟨e1, rfl⟩ ⟨e2, rfl⟩
      exact lex_append_of_lt _ x y e1 e2 hxy

theorem ListKCoresWithPrefix_lex (nodes : List Nat) (edges : adjacency_list_t) (g k : Nat)
    (hnodes : nodes.Pairwise (· < ·)) (hd : DescendingAdj edges) :
    (ListKCoresWithPrefix nodes edges g k).Pairwise (List.Lex (· < ·)) := by
  unfold ListKCoresWithPrefix
  split
  · apply ListKCoresRecursive_lex edges hd
    simp only
    split
    · exact hd.reverse_sorted _
    · exact hnodes.sublist (List.drop_sublist _ _)
  · exact List.Pairwise.nil

/-- C39: for a strictly ascending list `nodes` and a strictly descending
adjacency, the list returned by `ListKCoresWithPrefix` is in strictly
increasing lexicographic order of its groups, so it contains no group twice. -/
theorem C39_ListKCoresWithPrefix_lex_order (nodes : List Nat) (edges : adjacency_list_t)
    (g k : Nat) (hnodes : nodes.Pairwise (· < ·)) (hd : DescendingAdj edges) :
    (ListKCoresWithPrefix nodes edges g k).Pairwise (List.Lex (· < ·)) ∧
    (ListKCoresWithPrefix nodes edges g k).Nodup := by
  have h := ListKCoresWithPrefix_lex nodes edges g k hnodes hd
  refine ⟨h, ?_⟩
  unfold List.Nodup
  apply h.imp
  intro a b hab e
  rw [e] at hab
  exact lex_irrefl _ hab

/-- C39 (witness): the 2-cores of size 3 of the complete graph on four vertices
that start with vertex 0. -/
theorem C39_witness :
    ([0, 1, 2, 3] : List Nat).Pairwise (· < ·) ∧ DescendingAdj exampleK4desc ∧
    ListKCoresWithPrefix [0, 1, 2, 3] exampleK4desc 3 2 = [[0, 1, 2], [0, 1, 3], [0, 2, 3]] ∧
    (ListKCoresWithPrefix [0, 1, 2, 3] exampleK4desc 3 2).Pairwise (List.Lex (· < ·)) :=
  ⟨by decide, by decide, by decide,
    (C39_ListKCoresWithPrefix_lex_order [0, 1, 2, 3] exampleK4desc 3 2 (by decide)
      (by decide)).1⟩


theorem set_intersection_sublist_right (fuel : Nat) (a b : List Nat) :
    (set_intersection fuel a b).Sublist b := by
  induction fuel generalizing a b with
  | zero => simp [set_intersection]
  | succ n ih =>
    cases a with
    | nil => simp [set_intersection]
    | cons x as =>
      cases b with
      | nil => simp [set_intersection]
      | cons y bs =>
        simp only [set_intersection]
        split
        · exact ih as (y :: bs)
        · split
          · exact (ih (x :: as) bs).trans (List.sublist_cons_self y bs)
          · next h1 h2 =>
            have e : x = y := by omega
            rw [e]
            exact (ih as bs).cons₂ y

/-- A subset without repetitions that `IsKCore` accepts has minimum induced
degree `k`, whatever the order of the lists. -/
theorem degree_of_IsKCore (edges : adjacency_list_t) (S : List Nat) (k : Nat) (hnd : S.Nodup)
    (h : IsKCore S edges k = true) (v : Nat) (hv : v ∈ S) :
    k ≤ (S.filter fun w => decide (w ∈ adj edges v)).length := by
  unfold IsKCore at h
  simp only [List.all_eq_true, Bool.not_eq_true', decide_eq_false_iff_not, not_lt] at h
  refine le_trans (h v hv) ?_
  apply List.Subperm.length_le
  apply (hnd.sublist (set_intersection_sublist_right _ _ _)).subperm
  intro w hw
  simp only [List.mem_filter, decide_eq_true_eq]
  refine ⟨GetIntersection_mem_right _ _ w hw, ?_⟩
  have := (GetIntersection_sublist_left (adj edges v).reverse S).subset hw
  simpa using this

/-- In a set of at most 2k+1 vertices with minimum induced degree `k`, two
distinct vertices are adjacent or have a common neighbour in the set. -/
theorem common_neighbour_of_degree (edges : adjacency_list_t) (hs : SymmetricAdj edges)
    (hl : LoopFree edges) (S : List Nat) (k : Nat) (hnd : S.Nodup)
    (hlen : S.length ≤ 2 * k + 1)
    (hdeg : ∀ v ∈ S, k ≤ (S.filter fun w => decide (w ∈ adj edges v)).length)
    (u v : Nat) (hu : u ∈ S) (hv : v ∈ S) (huv : u ≠ v) :
    v ∈ adj edges u ∨ ∃ w ∈ S, w ∈ adj edges u ∧ v ∈ adj edges w := by
  by_contra hcon
  rw [not_or] at hcon
  obtain ⟨hna, hnc⟩ := hcon
  have hnc2 : ∀ w ∈ S, w ∈ adj edges u → w ∉ adj edges v := by
    intro w hw hwu hwv
    exact hnc ⟨w, hw, hwu, hs.symm v w hwv⟩
  have hnodup : (u :: v :: ((S.filter fun w => decide (w ∈ adj edges u)) ++
      (S.filter fun w => decide (w ∈ adj edges v)))).Nodup := by
    rw [List.nodup_cons, List.nodup_cons]
    refine ⟨?_, ?_, ?_⟩
    · simp only [List.mem_cons, List.mem_append, List.mem_filter, decide_eq_true_eq, not_or]
      refine ⟨huv, fun h => hl.not_mem u h.2, fun h => hna (hs.symm v u h.2)⟩
    · simp only [List.mem_append, List.mem_filter, decide_eq_true_eq, not_or]
      exact ⟨fun h => hna h.2, fun h => hl.not_mem v h.2⟩
    · rw [List.nodup_append]
      refine ⟨hnd.filter _, hnd.filter _, ?_⟩
      intro w hw1 hw2
      simp only [List.mem_filter, decide_eq_true_eq] at hw1 hw2
      exact hnc2 w hw1.1 hw1.2 hw2.2
  have hsub : (u :: v :: ((S.filter fun w => decide (w ∈ adj edges u)) ++
      (S.filter fun w => decide (w ∈ adj edges v)))).Subperm S := by
    apply hnodup.subperm
    intro w hw
    simp only [List.mem_cons, List.mem_append, List.mem_filter] at hw
    rcases hw with e | e | h | h
    · rw [e]; exact hu
    · rw [e]; exact hv
    · exact h.1
    · exact h.1
  have h1 := hsub.length_le
  have h2 := hdeg u hu
  have h3 := hdeg v hv
  simp only [List.length_cons, List.length_append] at h1
  omega

/-- C33: for a symmetric loop-free adjacency, `k ≥ 1` and a vertex set `S` of
at most 2k+1 vertices that `IsKCore` accepts, any two distinct vertices of `S`
are adjacent or have a common neighbour in `S`; hence any two vertices of `S`
are joined by a path inside `S`, and `S` lies within the 2-hop neighbourhood
that `GetKHopNeighbourhood` computes for its smallest member when the members
of `S` are active. -/
theorem C33_small_kcore_within_two_hops (edges : adjacency_list_t) (S : List Nat) (k : Nat)
    (hs : SymmetricAdj edges) (hl : LoopFree edges) (hk : 1 ≤ k) (hnd : S.Nodup)
    (hlen : S.length ≤ 2 * k + 1) (hcore : IsKCore S edges k = true) :
    (∀ u ∈ S, ∀ v ∈ S, u ≠ v →
      v ∈ adj edges u ∨ ∃ w ∈ S, w ∈ adj edges u ∧ v ∈ adj edges w) ∧
    (∀ u ∈ S, ∀ v ∈ S, ∃ p : List Nat, p.head? = some u ∧ p.getLast? = some v ∧
      (∀ x ∈ p, x ∈ S) ∧ List.Chain' (fun x y => y ∈ adj edges x) p ∧ p.length ≤ 3) ∧
    ∀ (active : List Nat) (u : Nat), u ∈ S → (∀ x ∈ S, u ≤ x) →
      (∀ x ∈ S, active.getD x 0 ≠ 0) →
      ∀ v ∈ S, v ∈ GetKHopNeighbourhood u edges active (some 2) := by
  have hdeg := degree_of_IsKCore edges S k hnd hcore
  have hcn := common_neighbour_of_degree edges hs hl S k hnd hlen hdeg
  refine ⟨fun u hu v hv huv => hcn u v hu hv huv, ?_, ?_⟩
  · intro u hu v hv
    by_cases huv : u = v
    · subst huv
      exact ⟨[u], rfl, rfl, fun x hx => by rw [List.mem_singleton.mp hx]; exact hu,
        List.chain'_singleton _, by simp⟩
    · rcases hcn u v hu hv huv with h | ⟨w, hw, hwu, hvw⟩
      · refine ⟨[u, v], rfl, rfl, ?_, ?_, by simp⟩
        · intro x hx
          simp only [List.mem_cons, List.mem_singleton, List.not_mem_nil, or_false] at hx
          rcases hx with e | e
          · rw [e]; exact hu
          · rw [e]; exact hv
        · simp [h]
      · refine ⟨[u, w, v], rfl, rfl, ?_, ?_, by simp⟩
        · intro x hx
          simp only [List.mem_cons, List.mem_singleton, List.not_mem_nil, or_false] at hx
          rcases hx with e | e | e
          · rw [e]; exact hu
          · rw [e]; exact hw
          · rw [e]; exact hv
        · simp [hwu, hvw]
  · intro active u hu hmin hact v hv
    have hun : u < edges.length := by
      have h1 := hdeg u hu
      have hpos : 0 < (S.filter fun w => decide (w ∈ adj edges u)).length := by omega
      obtain ⟨w, hw⟩ := List.exists_mem_of_length_pos hpos
      simp only [List.mem_filter, decide_eq_true_eq] at hw
      by_contra hge
      rw [adj_of_length_le edges u (by omega)] at hw
      simp at hw
    rw [GetKHopNeighbourhood_mem_iff u edges active 2 hs.boundedAdj hun]
    have hgt : ∀ x ∈ S, x ≠ u → u < x := fun x hx hne =>
      lt_of_le_of_ne (hmin x hx) (Ne.symm hne)
    by_cases huv : u = v
    · subst huv
      exact reachWithin_mono u edges active 0 2 u (by omega) rfl
    · rcases hcn u v hu hv huv with h | ⟨w, hw, hwu, hvw⟩
      · exact reachWithin_succ_of u edges active 1 v
          (reachWithin_step u edges active 0 u v rfl h (hact v hv) (hgt v hv (Ne.symm huv)))
      · have hwne : w ≠ u := fun e => hl.not_mem u (e ▸ hwu)
        exact reachWithin_step u edges active 1 w v
          (reachWithin_step u edges active 0 u w rfl hwu (hact w hw) (hgt w hw hwne))
          hvw (hact v hv) (hgt v hv (Ne.symm huv))

/-- C33 (witness): the triangle {0, 1, 2} of the complete graph on four
vertices is a 2-core of three vertices. -/
theorem C33_witness :
    SymmetricAdj exampleK4desc ∧ LoopFree exampleK4desc ∧ ([0, 1, 2] : List Nat).Nodup ∧
    ([0, 1, 2] : List Nat).length ≤ 2 * 2 + 1 ∧ IsKCore [0, 1, 2] exampleK4desc 2 = true ∧
    GetKHopNeighbourhood 0 exampleK4desc [1, 1, 1, 1] (some 2) = [0, 1, 2, 3] ∧
    ∀ v ∈ ([0, 1, 2] : List Nat), v ∈ GetKHopNeighbourhood 0 exampleK4desc [1, 1, 1, 1] (some 2) :=
  ⟨by decide, by decide, by decide, by decide, by decide, by decide,
    (C33_small_kcore_within_two_hops exampleK4desc [0, 1, 2] 2 (by decide) (by decide)
      (by decide) (by decide) (by decide) (by decide)).2.2 [1, 1, 1, 1] 0 (by decide)
      (by decide) (by decide)⟩


theorem DegInv.clear_flag {edges : adjacency_list_t} {st : BinSort} {v : Nat}
    (hsym : ∀ a b, (adj edges a).count b = (adj edges b).count a)
    (h : DegInv edges st []) (hv : st.active_vertices.getD v 0 ≠ 0) :
    DegInv edges (BinSort.mk st.sortedIndices st.nodePosition st.binBoundaries
      (st.active_vertices.set v 0)) (adj edges v).reverse := by
  have hlt := getD_ne_zero_lt _ v hv
  refine ⟨h.bin.set_active v, ?_⟩
  intro w hw hwa
  have hwv : w ≠ v := by
    intro e
    rw [e] at hwa
    simp only at hwa
    rw [getD_set_self _ _ _ hlt] at hwa
    exact hwa rfl
  have hwa2 : st.active_vertices.getD w 0 ≠ 0 := by
    simp only at hwa
    rwa [getD_set_ne _ _ _ _ (Ne.symm hwv)] at hwa
  have h1 := h.deg w hw hwa2
  have h2 := activeNeighbours_set_zero edges st.active_vertices v w hv
  simp only [List.count_nil, Nat.add_zero] at h1
  rw [List.count_reverse, hsym v w]
  show trackedDegree st w = _
  simp only
  omega

theorem DegInv.remove_step {edges : adjacency_list_t} {st : BinSort} {L : List Nat} {e : Nat}
    (k : Nat) (q : List Nat) (count : Nat) (h : DegInv edges st (e :: L)) :
    DegInv edges (RemoveNodeStep k st q count e).1 L := by
  by_cases ha : st.active_vertices.getD e 0 ≠ 0
  · have he : e < edges.length := by
      have := getD_ne_zero_lt _ e ha
      rw [h.bin.lenA] at this
      exact this
    have hde := h.deg e he ha
    rw [List.count_cons_self] at hde
    obtain ⟨s1, s2, s3, s4, _, _⟩ :=
      RemoveNodeStep_spec edges.length k st q count e h.bin he ha (by omega)
    refine ⟨s1, ?_⟩
    intro w hw hwa
    rw [s2] at hwa ⊢
    by_cases hwe : w = e
    · subst hwe
      rw [s3]
      omega
    · rw [s4 w hw hwe, h.deg w hw hwa, List.count_cons_of_ne hwe]
  · rw [RemoveNodeStep_inactive k st q count e ha]
    refine ⟨h.bin, ?_⟩
    intro w hw hwa
    have hwe : w ≠ e := by
      intro e2
      rw [e2] at hwa
      exact ha hwa
    rw [h.deg w hw hwa, List.count_cons_of_ne hwe]

theorem RemoveNode_deg (edges : adjacency_list_t) (k u : Nat) (st : BinSort) (q : List Nat)
    (h : DegInv edges st (adj edges u).reverse) :
    DegInv edges (RemoveNode k u edges st q).1 [] := by
  unfold RemoveNode
  have key : ∀ (L : List Nat) (acc : BinSort × List Nat × Nat), DegInv edges acc.1 L →
      DegInv edges
        (L.foldl (fun (acc : BinSort × List Nat × Nat) e =>
          RemoveNodeStep k acc.1 acc.2.1 acc.2.2 e) acc).1 [] := by
    intro L
    induction L with
    | nil => intro acc h; exact h
    | cons e L ih =>
      intro acc h
      simp only [List.foldl_cons]
      exact ih _ (h.remove_step k acc.2.1 acc.2.2)
  exact key _ (st, q, 0) h

theorem ShrinkLoop_deg (edges : adjacency_list_t) (k : Nat)
    (hsym : ∀ a b, (adj edges a).count b = (adj edges b).count a) :
    ∀ (fuel : Nat) (st : BinSort) (q : List Nat) (a b : Nat), DegInv edges st [] →
      DegInv edges (ShrinkLoop k edges fuel st q a b).1 [] := by
  intro fuel
  induction fuel with
  | zero => intro st q a b h; simp only [ShrinkLoop]; exact h
  | succ n ih =>
    intro st q a b h
    cases q with
    | nil => simp only [ShrinkLoop]; exact h
    | cons v q =>
      simp only [ShrinkLoop]
      split
      · next hact =>
        exact ih _ _ _ _ (RemoveNode_deg edges k v _ q (h.clear_flag hsym hact))
      · exact ih _ _ _ _ h

theorem ShrinkToMaxKCoreVertices_deg (edges : adjacency_list_t) (k : Nat) (initial : Option Nat)
    (hsym : ∀ a b, (adj edges a).count b = (adj edges b).count a) (st : BinSort)
    (h : DegInv edges st []) :
    DegInv edges (ShrinkToMaxKCoreVertices k initial edges st).1 [] := by
  unfold ShrinkToMaxKCoreVertices
  cases initial with
  | some v => exact ShrinkLoop_deg edges k hsym _ _ _ _ _ h
  | none =>
    simp only
    split
    · exact ShrinkLoop_deg edges k hsym _ _ _ _ _ h
    · refine ⟨⟨h.bin.lenS, h.bin.lenNP, by simp only [List.length_map]; exact h.bin.lenA,
        h.bin.vtx, h.bin.pos, h.bin.bbPos, h.bin.bbZero, h.bin.bbSorted, h.bin.bbLe⟩, ?_⟩
      intro v _ hv
      exact absurd (getD_map_zero _ v) hv

theorem sortedState_deg (edges : adjacency_list_t)
    (hsym : ∀ a b, (adj edges a).count b = (adj edges b).count a)
    (hdeg : ∀ v, v < edges.length → GetDegree edges v < edges.length) :
    DegInv edges (sortedState edges) [] := by
  have h := sortedState_peel edges 0 hsym hdeg (Nat.zero_le _)
  exact ⟨h.bin, h.deg⟩

/-- After any sequence of calls of `ShrinkToMaxKCoreVertices` the arrays of
the bin sort are consistent and record for every active vertex the number of
active entries of its neighbour list. -/
theorem shrinkCalls_deg (edges : adjacency_list_t)
    (hsym : ∀ a b, (adj edges a).count b = (adj edges b).count a)
    (hdeg : ∀ v, v < edges.length → GetDegree edges v < edges.length)
    (calls : List (Nat × Option Nat)) : DegInv edges (shrinkCalls edges calls) [] := by
  unfold shrinkCalls
  have key : ∀ (cs : List (Nat × Option Nat)) (st : BinSort), DegInv edges st [] →
      DegInv edges
        (cs.foldl (fun st c => (ShrinkToMaxKCoreVertices c.1 c.2 edges st).1) st) [] := by
    intro cs
    induction cs with
    | nil => intro st h; exact h
    | cons c cs ih =>
      intro st h
      simp only [List.foldl_cons]
      exact ih _ (ShrinkToMaxKCoreVertices_deg edges c.1 c.2 hsym st h)
  exact key calls _ (sortedState_deg edges hsym hdeg)

theorem BinInv.perms {n : Nat} {st : BinSort} (h : BinInv n st) :
    st.sortedIndices.Perm (List.range n) ∧ st.nodePosition.Perm (List.range n) := by
  constructor
  · apply perm_range_of_nodup _ _ h.lenS
    · rw [List.nodup_iff_injective_get]
      intro a b hab
      have ha : (a : Nat) < n := by rw [← h.lenS]; exact a.isLt
      have hb : (b : Nat) < n := by rw [← h.lenS]; exact b.isLt
      have ea : st.sortedIndices.getD a 0 = st.sortedIndices.get a := getD_of_lt _ 0 a a.isLt
      have eb : st.sortedIndices.getD b 0 = st.sortedIndices.get b := getD_of_lt _ 0 b b.isLt
      have h1 := (h.pos a ha).2
      have h2 := (h.pos b hb).2
      rw [ea, hab, ← eb, h2] at h1
      exact Fin.ext h1.symm
    · intro x hx
      obtain ⟨p, hp, rfl⟩ := List.getElem_of_mem hx
      have := (h.pos p (by rw [← h.lenS]; exact hp)).1
      rwa [getD_of_lt _ 0 p hp] at this
  · apply perm_range_of_nodup _ _ h.lenNP
    · rw [List.nodup_iff_injective_get]
      intro a b hab
      have ha : (a : Nat) < n := by rw [← h.lenNP]; exact a.isLt
      have hb : (b : Nat) < n := by rw [← h.lenNP]; exact b.isLt
      have ea : st.nodePosition.getD a 0 = st.nodePosition.get a := getD_of_lt _ 0 a a.isLt
      have eb : st.nodePosition.getD b 0 = st.nodePosition.get b := getD_of_lt _ 0 b b.isLt
      have h1 := (h.vtx a ha).2
      have h2 := (h.vtx b hb).2
      rw [ea, hab, ← eb, h2] at h1
      exact Fin.ext h1.symm
    · intro x hx
      obtain ⟨p, hp, rfl⟩ := List.getElem_of_mem hx
      have := (h.vtx p (by rw [← h.lenNP]; exact hp)).1
      rwa [getD_of_lt _ 0 p hp] at this

theorem activeNeighbours_eq_inside (edges : adjacency_list_t) (hl : LoopFree edges)
    (hnd : ∀ l ∈ edges, l.Nodup) (active : List Nat) (v : Nat) (hv : v < edges.length) :
    activeNeighbours edges active v = (neighboursInside edges (activeList active) v).length := by
  apply le_antisymm (activeNeighbours_le_inside edges hl hnd active v hv)
  apply neighboursInside_le edges active (activeList active) v
  · exact (List.nodup_range _).filter _
  · intro w hw
    exact (mem_activeList active w).mp hw

/-- C40 (amended): on a symmetric loop-free adjacency with at least one vertex
whose neighbour lists repeat no id, after any sequence of calls of
`ShrinkToMaxKCoreVertices` from the state of `BinSortByDegree` with all
vertices active, `sortedIndices` and `nodePosition` are mutually inverse
permutations, `binBoundaries` is non-decreasing, and for every active vertex
`v` the bin that contains position `nodePosition[v]` has the number of active
neighbours of `v` as its index. -/
theorem C40_bin_sort_invariant (edges : adjacency_list_t) (calls : List (Nat × Option Nat))
    (_hn : 1 ≤ edges.length) (hs : SymmetricAdj edges) (hl : LoopFree edges)
    (hnd : ∀ l ∈ edges, l.Nodup) :
    (shrinkCalls edges calls).sortedIndices.Perm (List.range edges.length) ∧
    (shrinkCalls edges calls).nodePosition.Perm (List.range edges.length) ∧
    (∀ v, v < edges.length →
      (shrinkCalls edges calls).sortedIndices.getD
        ((shrinkCalls edges calls).nodePosition.getD v 0) 0 = v) ∧
    (∀ p, p < edges.length →
      (shrinkCalls edges calls).nodePosition.getD
        ((shrinkCalls edges calls).sortedIndices.getD p 0) 0 = p) ∧
    (∀ i j, i ≤ j → j < (shrinkCalls edges calls).binBoundaries.length →
      (shrinkCalls edges calls).binBoundaries.getD i 0
        ≤ (shrinkCalls edges calls).binBoundaries.getD j 0) ∧
    ∀ v, v < edges.length → (shrinkCalls edges calls).active_vertices.getD v 0 ≠ 0 →
      trackedDegree (shrinkCalls edges calls) v
        = (neighboursInside edges
            (activeList (shrinkCalls edges calls).active_vertices) v).length ∧
      (neighboursInside edges (activeList (shrinkCalls edges calls).active_vertices) v).length
        < (shrinkCalls edges calls).binBoundaries.length ∧
      (shrinkCalls edges calls).binBoundaries.getD
          (neighboursInside edges
            (activeList (shrinkCalls edges calls).active_vertices) v).length 0
        ≤ (shrinkCalls edges calls).nodePosition.getD v 0 ∧
      ∀ i, (neighboursInside edges
            (activeList (shrinkCalls edges calls).active_vertices) v).length < i →
        i < (shrinkCalls edges calls).binBoundaries.length →
        (shrinkCalls edges calls).nodePosition.getD v 0
          < (shrinkCalls edges calls).binBoundaries.getD i 0 := by
  have h := shrinkCalls_deg edges (count_symm_of_nodup edges hs hnd)
    (degree_lt_of_nodup edges hs hl hnd) calls
  refine ⟨h.bin.perms.1, h.bin.perms.2, fun v hv => (h.bin.vtx v hv).2,
    fun p hp => (h.bin.pos p hp).2, h.bin.bbSorted, ?_⟩
  intro v hv hact
  have h1 := h.deg v hv hact
  simp only [List.count_nil, Nat.add_zero] at h1
  rw [activeNeighbours_eq_inside edges hl hnd _ v hv] at h1
  obtain ⟨t1, t2, t3⟩ := trackedDegree_spec h.bin v
  rw [h1] at t1 t2 t3
  exact ⟨h1, t1, t2, t3⟩

/-- C40 (witness): on the triangle with a pendant vertex, after peeling to the
2-core and then removing vertex 0, the vertices 1 and 2 are active with
recorded degree 1. -/
theorem C40_witness :
    1 ≤ examplePendant.length ∧ SymmetricAdj examplePendant ∧ LoopFree examplePendant ∧
    (∀ l ∈ examplePendant, l.Nodup) ∧
    (shrinkCalls examplePendant [(2, none), (1, some 0)]).active_vertices = [0, 1, 1, 0] ∧
    trackedDegree (shrinkCalls examplePendant [(2, none), (1, some 0)]) 1 = 1 ∧
    (shrinkCalls examplePendant [(2, none), (1, some 0)]).sortedIndices.Perm
      (List.range examplePendant.length) :=
  ⟨by decide, by decide, by decide, by decide, by decide, by decide,
    (C40_bin_sort_invariant examplePendant [(2, none), (1, some 0)] (by decide) (by decide)
      (by decide) (by decide)).1⟩

/-- C40 (counterexample): when both neighbour lists record the edge 0 - 1
twice, after the call with `k = 2` vertex 0 is active in bin 2 and has one
active neighbour. -/
theorem C40_counterexample :
    SymmetricAdj exampleDoubleEdge ∧ LoopFree exampleDoubleEdge ∧
    (shrinkCalls exampleDoubleEdge [(2, none)]).active_vertices = [1, 1, 0] ∧
    (shrinkCalls exampleDoubleEdge [(2, none)]).binBoundaries = [0, 1, 1] ∧
    (shrinkCalls exampleDoubleEdge [(2, none)]).nodePosition.getD 0 0 = 1 ∧
    trackedDegree (shrinkCalls exampleDoubleEdge [(2, none)]) 0 = 2 ∧
    (neighboursInside exampleDoubleEdge
      (activeList (shrinkCalls exampleDoubleEdge [(2, none)]).active_vertices) 0).length = 1 := by
  decide


/-- The index list of `OrderByPartition` is a permutation of `0 .. n-1`, for
every input. -/
theorem OrderByPartition_indices_perm (points : label_list_t) :
    (OrderByPartition points).1.Perm (List.range points.length) :=
  GetIndicesSortedByPartition_perm points (PartitionData points)

theorem OrderByPartition_index_lt (points : label_list_t) (i : Nat) (hi : i < points.length) :
    (OrderByPartition points).1.getD i 0 < points.length := by
  have hperm := OrderByPartition_indices_perm points
  have hlen : (OrderByPartition points).1.length = points.length := by
    simpa using hperm.length_eq
  have hmem : (OrderByPartition points).1.getD i 0 ∈ (OrderByPartition points).1 := by
    rw [List.getD_eq_getElem _ _ (by omega)]
    exact List.getElem_mem _
  exact List.mem_range.mp (hperm.subset hmem)

